import Mathlib

/-! # Tailor: drift detection and change planning

A shallow embedding of the resource canonicaliser and differ of Tailor
(`openshift/item.go`, `pkg/openshift/item.go`, `pkg/openshift/change.go`).

* Go's `interface{}` trees become the inductive type `Value`.
* A Go `map[string]interface{}` becomes an association list; iterating a map
  visits the entries in list order.
* Go strings stay `String`; helper functions work on the character list.
* A call that can return an error or abort on a failed type assertion returns
  an `Outcome`.
-/

set_option autoImplicit false

/-- A generic tree: what `interface{}` holds after YAML/JSON decoding.
`null` is also Go's `nil`. -/
inductive Value where
  | null
  | bool (b : Bool)
  | num (n : Int)
  | str (s : String)
  | seq (xs : List Value)
  | map (kvs : List (String × Value))

/-- Result of a Go call: a value, a returned `error`, or a run-time panic. -/
inductive Outcome (α : Type) where
  | ok (a : α)
  | error
  | panic

namespace Value

/-- True on sequences and mappings (the composite cases of a type switch). -/
def isComposite : Value → Bool
  | .seq _ => true
  | .map _ => true
  | _ => false

/-- Go's `==` on two interface values when the left one is a scalar or nil:
equal dynamic type and equal value. -/
def scalarEq : Value → Value → Bool
  | .null, .null => true
  | .bool a, .bool b => a == b
  | .num a, .num b => a == b
  | .str a, .str b => a == b
  | _, _ => false

/-- The string held by a value, if it is one (`v.(string)`). -/
def asString : Value → Option String
  | .str s => some s
  | _ => none

/-- The entries of a value, if it is a mapping (`v.(map[string]interface{})`). -/
def asMap : Value → Option (List (String × Value))
  | .map kvs => some kvs
  | _ => none

end Value

/-! ## Association lists standing for Go maps -/

namespace GoMap

variable {β : Type}

/-- Lookup `m[k]`. -/
def get (k : String) : List (String × β) → Option β
  | [] => none
  | (k', v) :: rest => if k' = k then some v else get k rest

/-- Assignment `m[k] = v`: overwrite in place, or add a new entry. -/
def set (k : String) (v : β) : List (String × β) → List (String × β)
  | [] => [(k, v)]
  | (k', v') :: rest => if k' = k then (k, v) :: rest else (k', v') :: set k v rest

/-- Deletion `delete(m, k)`. -/
def del (k : String) : List (String × β) → List (String × β)
  | [] => []
  | (k', v') :: rest => if k' = k then del k rest else (k', v') :: del k rest

/-- Membership test `_, ok := m[k]`. -/
def has (k : String) (m : List (String × β)) : Bool := (get k m).isSome

end GoMap

/-! ## String helpers (Go `strings` and `strconv`) -/

namespace strings

/-- Split a character list at every occurrence of `c`. -/
def splitChars (c : Char) : List Char → List (List Char)
  | [] => [[]]
  | x :: xs =>
    if x = c then [] :: splitChars c xs
    else match splitChars c xs with
      | [] => [[x]]
      | h :: t => (x :: h) :: t

/-- The call `strings.Split(s, sep)` for a one-character separator. -/
def Split (s : String) (c : Char) : List String :=
  (splitChars c s.data).map String.mk

/-- The call `strings.Join(xs, sep)`. -/
def Join : List String → String → String
  | [], _ => ""
  | [x], _ => x
  | x :: y :: rest, sep => x ++ sep ++ Join (y :: rest) sep

/-- The call `strings.HasPrefix(s, p)`. -/
def HasPrefix (s p : String) : Bool := p.data.isPrefixOf s.data

/-- The call `strings.HasSuffix(s, p)`. -/
def HasSuffix (s p : String) : Bool := p.data.reverse.isPrefixOf s.data.reverse

end strings

namespace strconv

/-- Value of a decimal digit character. -/
def digitVal (c : Char) : Option Nat :=
  if c = '0' then some 0 else if c = '1' then some 1 else if c = '2' then some 2
  else if c = '3' then some 3 else if c = '4' then some 4 else if c = '5' then some 5
  else if c = '6' then some 6 else if c = '7' then some 7 else if c = '8' then some 8
  else if c = '9' then some 9 else none

/-- Read a run of decimal digits, most significant first, onto `acc`. -/
def readDigits : List Char → Nat → Option Nat
  | [], acc => some acc
  | c :: cs, acc =>
    match digitVal c with
    | none => none
    | some d => readDigits cs (10 * acc + d)

/-- The function `strconv.Atoi`: an optional sign followed by at least one decimal digit.
(The 64-bit range check is left out: an index that large is out of bounds for
every slice.) -/
def Atoi (s : String) : Option Int :=
  match s.data with
  | [] => none
  | '+' :: [] => none
  | '-' :: [] => none
  | '+' :: cs => (readDigits cs 0).map Int.ofNat
  | '-' :: cs => (readDigits cs 0).map (fun n => - Int.ofNat n)
  | cs => (readDigits cs 0).map Int.ofNat

/-- The function `strconv.Itoa` on a slice index. -/
def Itoa (n : Nat) : String := String.mk (Nat.toDigits 10 n)

end strconv

/-! ## JSON pointers (library `gojsonpointer`) -/

namespace gojsonpointer

/-- First unescaping pass: every `~1` becomes `/`. -/
def unescapeSlash : List Char → List Char
  | [] => []
  | '~' :: '1' :: rest => '/' :: unescapeSlash rest
  | c :: rest => c :: unescapeSlash rest

/-- Second unescaping pass: every `~0` becomes `~`. -/
def unescapeTilde : List Char → List Char
  | [] => []
  | '~' :: '0' :: rest => '~' :: unescapeTilde rest
  | c :: rest => c :: unescapeTilde rest

/-- The key a reference token stands for: `~1` is replaced first, then `~0`. -/
def decodeReferenceToken (token : String) : String :=
  String.mk (unescapeTilde (unescapeSlash token.data))

/-- Parse a pointer string into its reference tokens. The empty string is the
root pointer; any other pointer must start with `/`. -/
def NewJsonPointer (s : String) : Option (List String) :=
  match s.data with
  | [] => some []
  | '/' :: rest => some ((strings.splitChars '/' rest).map String.mk)
  | _ => none

/-- The index a token denotes in a slice of length `len`, if it is a decimal
number within bounds. -/
def arrayIndex (token : String) (len : Nat) : Option Nat :=
  match strconv.Atoi token with
  | some (Int.ofNat n) => if n < len then some n else none
  | _ => none

/-- One step down from `node` along `token`. It fails on a missing key, a bad
or out-of-range index, and on a node that is not a container. -/
def child (token : String) : Value → Option Value
  | .map kvs => GoMap.get (decodeReferenceToken token) kvs
  | .seq xs =>
    match arrayIndex token xs.length with
    | some n => xs.get? n
    | none => none
  | _ => none

/-- Resolve the tokens from `node` downwards. -/
def getTokens : List String → Value → Option Value
  | [], node => some node
  | t :: ts, node =>
    match child t node with
    | some c => getTokens ts c
    | none => none

/-- The call `pointer.Get(document)`: the value at the pointer, or an error. -/
def Get (tokens : List String) (document : Value) : Option Value :=
  getTokens tokens document

/-- Put `c` below `node` at `token`; the caller has checked that a slice index
is valid. A mapping gets the key assigned, whether or not it was there. -/
def putChild (token : String) (c : Value) : Value → Option Value
  | .map kvs => some (.map (GoMap.set (decodeReferenceToken token) c kvs))
  | .seq xs =>
    match arrayIndex token xs.length with
    | some n => some (.seq (xs.set n c))
    | none => none
  | _ => none

/-- Walk down to the parent of the last token and assign there. Every token
before the last one must resolve. -/
def setTokens (v : Value) : String → List String → Value → Option Value
  | t, [], node => putChild t v node
  | t, t' :: ts, node =>
    match child t node with
    | none => none
    | some c =>
      match setTokens v t' ts c with
      | none => none
      | some c' => putChild t c' node

/-- The call `pointer.Set(document, value)`: the updated document, or an error (the
document is then unchanged). The root pointer leaves the document as it is. -/
def Set (tokens : List String) (document : Value) (v : Value) : Option Value :=
  match tokens with
  | [] => some document
  | t :: ts => setTokens v t ts document

/-- Remove the entry `token` from `node`. The entry must exist. A slice element
is overwritten by the last element and the slice shortened by one. -/
def removeChild (token : String) : Value → Option Value
  | .map kvs =>
    if GoMap.has (decodeReferenceToken token) kvs
    then some (.map (GoMap.del (decodeReferenceToken token) kvs))
    else none
  | .seq xs =>
    match arrayIndex token xs.length with
    | some n =>
      match xs.getLast? with
      | some l => some (.seq (xs.set n l).dropLast)
      | none => none
    | none => none
  | _ => none

/-- Walk down to the parent of the last token and remove the entry there. -/
def deleteTokens : String → List String → Value → Option Value
  | t, [], node => removeChild t node
  | t, t' :: ts, node =>
    match child t node with
    | none => none
    | some c =>
      match deleteTokens t' ts c with
      | none => none
      | some c' => putChild t c' node

/-- The call `pointer.Delete(document)`: the document without the entry, or an error
(the document is then unchanged). -/
def Delete (tokens : List String) (document : Value) : Option Value :=
  match tokens with
  | [] => some document
  | t :: ts => deleteTokens t ts document

end gojsonpointer

/-! ## Package `utils` -/

namespace utils

/-- Escape one character of a key for use in a pointer. -/
def escapeChar (c : Char) : List Char :=
  if c = '~' then ['~', '0'] else if c = '/' then ['~', '1'] else [c]

/-- Modelled from the spec: `utils.JSONPointerPath` is not among the sources;
keys are escaped per RFC 6901, `~` as `~0` and `/` as `~1`. -/
def JSONPointerPath (s : String) : String :=
  String.mk (s.data.flatMap escapeChar)

/-- Modelled from the spec: `utils.Includes` is not among the sources; it tells
whether the string is an element of the slice. -/
def Includes (haystack : List String) (needle : String) : Bool :=
  haystack.any (fun h => h == needle)

/-- A pointer `p` is a prefix of `q` iff `q` begins with `p` followed by `/`. -/
def isPointerPrefix (p q : String) : Bool :=
  (p.data ++ ['/']).isPrefixOf q.data

/-- Modelled from the spec: `utils.IncludesPrefix` is not among the sources; it
tells whether some element of the slice is a prefix of the pointer. -/
def IncludesPrefix (haystack : List String) (needle : String) : Bool :=
  haystack.any (fun h => isPointerPrefix h needle)

/-- Modelled from the spec: `utils.Remove` is not among the sources; it removes
the pointer from the slice. -/
def Remove (s : List String) (val : String) : List String :=
  s.filter (fun x => x != val)

end utils

/-! ## Package `pkg/openshift`: `change.go` -/

namespace pkg.openshift

/-- One RFC 6902 operation. -/
structure jsonPatch where
  Op : String
  Path : String
  Value : Value

/-- One planned mutation on one resource. -/
structure Change where
  Action : String
  Kind : String
  Name : String
  Patches : List jsonPatch
  CurrentState : String
  DesiredState : String

/-- The order of `sort.Slice` in `addPatch`: `a` may stand before `b`. -/
def pathLe (a b : jsonPatch) : Prop := a.Path.data ≤ b.Path.data

instance : DecidableRel pathLe := fun a b => by unfold pathLe; infer_instance

/-- The body of `addPatch` on the patch list: append, then sort by path. -/
def addPatchTo (patches : List jsonPatch) (patch : jsonPatch) : List jsonPatch :=
  List.insertionSort pathLe (patches ++ [patch])

/-- Method `addPatch` of `Change`. -/
def Change.addPatch (c : Change) (patch : jsonPatch) : Change :=
  { c with Patches := addPatchTo c.Patches patch }


/-- Canonicalised view of one resource (`pkg/openshift/item.go`). -/
structure ResourceItem where
  Source : String
  Kind : String
  Name : String
  Labels : List (String × Value)
  Annotations : List (String × Value)
  Paths : List String
  Config : Value
  TailorManagedAnnotations : List String
  TailorAppliedConfigFields : List (String × String)
  AnnotationsPresent : Bool

/-- Method `YamlConfig`: the rendering of the item's `Config`. The YAML encoder
is a library function and is passed in. -/
def ResourceItem.YamlConfig (marshal : Value → String) (i : ResourceItem) : String :=
  marshal i.Config

/-- One round of the loop of `NewChange`: a patch that is not a noop gets its
path and is added. -/
def NewChange.step (c : Change) (entry : String × jsonPatch) : Change :=
  if entry.2.Op != "noop" then c.addPatch { entry.2 with Path := entry.1 } else c

/-- Build the change of a matched pair from the comparison map. -/
def NewChange (marshal : Value → String) (templateItem platformItem : ResourceItem)
    (comparison : List (String × jsonPatch)) : Change :=
  let c : Change :=
    { Action := ""
      Kind := templateItem.Kind
      Name := templateItem.Name
      Patches := []
      CurrentState := platformItem.YamlConfig marshal
      DesiredState := templateItem.YamlConfig marshal }
  let c := comparison.foldl NewChange.step c
  if c.Patches.length > 0 then { c with Action := "Update" } else { c with Action := "Noop" }

end pkg.openshift

instance : IsTotal pkg.openshift.jsonPatch pkg.openshift.pathLe :=
  ⟨fun a b => le_total a.Path.data b.Path.data⟩

instance : IsTrans pkg.openshift.jsonPatch pkg.openshift.pathLe :=
  ⟨fun _ _ _ h1 h2 => le_trans (α := List Char) h1 h2⟩

/-! ## Package `openshift`: `item.go` (the differ `ChangesFrom`) -/

namespace openshift

open pkg.openshift (jsonPatch Change addPatchTo)

/-- The annotation listing the annotations Tailor manages. -/
def tailorManagedAnnotation : String := "managed-annotations.tailor.opendevstack.org"

/-- Prefix of the annotations that keep original values. -/
def tailorOriginalValuesAnnotationPrefix : String := "original-values.tailor.io"

/-- Fields the platform owns; deleted from every item. -/
def platformManagedFields : List String :=
  [ "/metadata/generation",
    "/metadata/creationTimestamp",
    "/spec/tags",
    "/status",
    "/spec/volumeName",
    "/spec/template/metadata/creationTimestamp" ]

/-- Mappings that are created empty when absent. -/
def emptyMapFields : List String :=
  [ "/metadata/annotations",
    "/spec/template/metadata/annotations" ]

/-- Fields that cannot be patched in place, by kind. -/
def immutableFields : List (String × List String) :=
  [ ("Route", ["/spec/host"]),
    ("PersistentVolumeClaim",
      [ "/spec/accessModes",
        "/spec/storageClassName",
        "/spec/resources/requests/storage" ]) ]

/-- Canonicalised view of one resource (`openshift/item.go`). -/
structure ResourceItem where
  Source : String
  Kind : String
  Name : String
  Labels : List (String × Value)
  Annotations : List (String × Value)
  Paths : List String
  Config : Value
  TailorManagedAnnotations : List String

/-- Method `FullName`. -/
def ResourceItem.FullName (i : ResourceItem) : String := i.Kind ++ "/" ++ i.Name

/-- Method `YamlConfig`: the rendering of the item's `Config`. The YAML encoder
is a library function and is passed in. -/
def ResourceItem.YamlConfig (marshal : Value → String) (i : ResourceItem) : String :=
  marshal i.Config

/-- Method `isImmutableField`: is the pointer listed for the item's kind? -/
def ResourceItem.isImmutableField (i : ResourceItem) (field : String) : Bool :=
  ((GoMap.get i.Kind immutableFields).getD []).any (fun key => key == field)

/-- The pointer built from a string with the error dropped
(`p, _ := gojsonpointer.NewJsonPointer(s)`): a string that is not a pointer
leaves the zero pointer, which is the root pointer. -/
def pointerOf (s : String) : List String :=
  (gojsonpointer.NewJsonPointer s).getD []

/-- A value read with the error dropped (`v, _, _ := p.Get(doc)`): nil when the
pointer does not resolve. -/
def valueAt (s : String) (doc : Value) : Value :=
  (gojsonpointer.Get (pointerOf s) doc).getD Value.null

/-- The pair of changes that replaces a resource. -/
def recreateChanges (marshal : Value → String) (templateItem platformItem : ResourceItem) :
    List Change :=
  let deleteChange : Change :=
    { Action := "Delete"
      Kind := templateItem.Kind
      Name := templateItem.Name
      Patches := []
      CurrentState := platformItem.YamlConfig marshal
      DesiredState := "" }
  let createChange : Change :=
    { Action := "Create"
      Kind := templateItem.Kind
      Name := templateItem.Name
      Patches := []
      CurrentState := ""
      DesiredState := templateItem.YamlConfig marshal }
  [deleteChange, createChange]

end openshift

namespace Outcome

/-- Sequencing: continue with the value, pass an error or panic on. -/
def bind {α β : Type} (x : Outcome α) (f : α → Outcome β) : Outcome β :=
  match x with
  | .ok a => f a
  | .error => .error
  | .panic => .panic

end Outcome

namespace openshift

open pkg.openshift (jsonPatch Change addPatchTo)

/-- One round of the loop of `prepareForComparisonWithPlatformItem`: the value
of the platform item (nil if there is none) is written into the template item.
When that fails, the debug message asserts the value to be a string. -/
def prepareForComparisonWithPlatformItem.step (platformItem : ResourceItem)
    (templateItem : ResourceItem) (path : String) : Outcome ResourceItem :=
  let platformItemVal := valueAt path platformItem.Config
  match gojsonpointer.Set (pointerOf path) templateItem.Config platformItemVal with
  | some config => .ok { templateItem with Config := config }
  | none =>
    match platformItemVal.asString with
    | some _ => .ok templateItem
    | none => .panic

/-- Copy the values at the externally modified paths from the platform item
into the template item. It never returns an error. -/
def prepareForComparisonWithPlatformItem (templateItem platformItem : ResourceItem) :
    List String → Outcome ResourceItem
  | [] => .ok templateItem
  | path :: rest =>
    (prepareForComparisonWithPlatformItem.step platformItem templateItem path).bind
      (fun t => prepareForComparisonWithPlatformItem t platformItem rest)

/-- The annotations of the platform item that nobody manages. -/
def unmanagedAnnotations (platformItem templateItem : ResourceItem) : List String :=
  (platformItem.Annotations.map Prod.fst).filter (fun a =>
    !(a == tailorManagedAnnotation)
    && !(strings.HasPrefix a tailorOriginalValuesAnnotationPrefix)
    && !(utils.Includes templateItem.TailorManagedAnnotations a)
    && !(utils.Includes platformItem.TailorManagedAnnotations a))

/-- Delete the unmanaged annotations from the platform item's `Config` and
`Paths`; an annotation that cannot be deleted is an error. -/
def deleteUnmanaged (platformItem : ResourceItem) : List String → Outcome ResourceItem
  | [] => .ok platformItem
  | a :: rest =>
    let path := "/metadata/annotations/" ++ utils.JSONPointerPath a
    match gojsonpointer.Delete (pointerOf path) platformItem.Config with
    | none => .error
    | some config =>
      deleteUnmanaged
        { platformItem with Config := config, Paths := utils.Remove platformItem.Paths path }
        rest

/-- The `apiVersion` part of `prepareForComparisonWithTemplateItem`: both
values are asserted to be strings for the debug messages before the lookup
errors are looked at; a platform `v1` is raised to a template `<group>/v1`. -/
def massageAPIVersion (platformItem templateItem : ResourceItem) : Outcome ResourceItem :=
  match (valueAt "/apiVersion" templateItem.Config).asString with
  | none => .panic
  | some templateAPIVersionVal =>
    match (valueAt "/apiVersion" platformItem.Config).asString with
    | none => .panic
    | some platformAPIVersionVal =>
      if strings.HasSuffix templateAPIVersionVal "/v1" && platformAPIVersionVal == "v1" then
        match gojsonpointer.Set (pointerOf "/apiVersion") platformItem.Config
            (Value.str templateAPIVersionVal) with
        | some config => .ok { platformItem with Config := config }
        | none => .ok platformItem
      else .ok platformItem

/-- Remove all annotations which are not managed, then massage `apiVersion`. -/
def prepareForComparisonWithTemplateItem (platformItem templateItem : ResourceItem) :
    Outcome ResourceItem :=
  (deleteUnmanaged platformItem (unmanagedAnnotations platformItem templateItem)).bind
    (fun p => massageAPIVersion p templateItem)

/-- State of the comparison: the comparison map and the added paths. -/
abbrev Comparison := List (String × jsonPatch) × List String

/-- First loop of `ChangesFrom`, over the template item's paths. `none` is the
early return with the recreate pair. -/
def compareTemplatePaths (templateItem platformItem : ResourceItem) :
    List String → Comparison → Option Comparison
  | [], st => some st
  | path :: rest, (comparison, addedPaths) =>
    if utils.IncludesPrefix addedPaths path then
      compareTemplatePaths templateItem platformItem rest (comparison, addedPaths)
    else
      let templateItemVal := valueAt path templateItem.Config
      match gojsonpointer.Get (pointerOf path) platformItem.Config with
      | none =>
        if templateItem.isImmutableField path then none
        else compareTemplatePaths templateItem platformItem rest
          (GoMap.set path ⟨"add", "", templateItemVal⟩ comparison, addedPaths ++ [path])
      | some platformItemVal =>
        if templateItemVal.isComposite then
          compareTemplatePaths templateItem platformItem rest
            (GoMap.set path ⟨"noop", "", Value.null⟩ comparison, addedPaths)
        else if templateItemVal.scalarEq platformItemVal then
          compareTemplatePaths templateItem platformItem rest
            (GoMap.set path ⟨"noop", "", Value.null⟩ comparison, addedPaths)
        else if templateItem.isImmutableField path then none
        else compareTemplatePaths templateItem platformItem rest
          (GoMap.set path ⟨"replace", "", templateItemVal⟩ comparison, addedPaths)

/-- Second loop of `ChangesFrom`, over the platform item's paths; the second
component holds the deleted paths. -/
def removePlatformPaths : List String → Comparison → Comparison
  | [], st => st
  | path :: rest, (comparison, deletedPaths) =>
    if GoMap.has path comparison then removePlatformPaths rest (comparison, deletedPaths)
    else if utils.IncludesPrefix deletedPaths path then
      removePlatformPaths rest (comparison, deletedPaths)
    else
      removePlatformPaths rest
        (GoMap.set path ⟨"remove", "", Value.null⟩ comparison, deletedPaths ++ [path])

/-- Modelled from the spec: method `AddPatch` of `Change` (`openshift/change.go`)
is not among the sources; the patches of a change are sorted ascending by
path, which is what `addPatch` of `pkg/openshift/change.go` does after
appending the patch. -/
def AddPatch (patches : List jsonPatch) (patch : jsonPatch) : List jsonPatch :=
  addPatchTo patches patch

/-- The last loop of `ChangesFrom`: the patches of the comparison map that are
not noops, each with its path, added one by one. -/
def collectPatches (comparison : List (String × jsonPatch)) : List jsonPatch :=
  comparison.foldl
    (fun patches entry =>
      if entry.2.Op != "noop" then AddPatch patches { entry.2 with Path := entry.1 }
      else patches)
    []

/-- The differ: the changes that turn the platform item into the template
item. -/
def ResourceItem.ChangesFrom (marshal : Value → String) (templateItem platformItem : ResourceItem)
    (externallyModifiedPaths : List String) : Outcome (List Change) :=
  (prepareForComparisonWithPlatformItem templateItem platformItem externallyModifiedPaths).bind
    fun templateItem =>
  (prepareForComparisonWithTemplateItem platformItem templateItem).bind
    fun platformItem =>
  match compareTemplatePaths templateItem platformItem templateItem.Paths ([], []) with
  | none => .ok (recreateChanges marshal templateItem platformItem)
  | some (comparison, _) =>
    let comparison := (removePlatformPaths platformItem.Paths (comparison, [])).1
    let patches := collectPatches comparison
    .ok [{ Action := if patches.length > 0 then "Update" else "Noop"
           Kind := templateItem.Kind
           Name := templateItem.Name
           Patches := patches
           CurrentState := platformItem.YamlConfig marshal
           DesiredState := templateItem.YamlConfig marshal }]

end openshift

/-! ## Library functions used by `parseConfig` -/

namespace sort

/-- The function `sort.Strings`: ascending order. -/
def Strings (xs : List String) : List String :=
  List.insertionSort (fun a b : String => a.data ≤ b.data) xs

end sort

namespace strings

/-- The call `strings.TrimLeft(s, "/")`: drop the leading slashes. -/
def TrimLeftSlash (s : String) : String := String.mk (s.data.dropWhile (fun c => c == '/'))

/-- The call `strings.Replace(s, "/", ".", -1)`. -/
def ReplaceSlashByDot (s : String) : String :=
  String.mk (s.data.map (fun c => if c = '/' then '.' else c))

end strings

namespace regexp

/-- One of `0` to `9`. -/
def isDigit (c : Char) : Bool := (strconv.digitVal c).isSome

/-- The call `regexp.MatchString("/spec/template/spec/containers/[0-9]+/image$", s)`:
some part of `s` that reaches its end is the fixed text, one or more digits and
`/image`. The test reads `s` from its end. -/
def matchContainerImage (s : String) : Bool :=
  let suffix := "/image".data.reverse
  let r := s.data.reverse
  suffix.isPrefixOf r &&
    (let afterImage := r.drop suffix.length
     let afterDigits := afterImage.dropWhile isDigit
     decide (afterDigits.length < afterImage.length) &&
       "/spec/template/spec/containers/".data.reverse.isPrefixOf afterDigits)

end regexp

namespace openshift

mutual
/-- Method `walkMap`: the pointers below a mapping, entry by entry. -/
def walkMap : List (String × Value) → String → List String
  | [], _ => []
  | (k, v) :: rest, pointer => handleKeyValue k v pointer ++ walkMap rest pointer
/-- Method `walkArray`: the pointers below a slice, from index `k` on. -/
def walkArray : List Value → Nat → String → List String
  | [], _, _ => []
  | v :: rest, k, pointer =>
    handleKeyValue (strconv.Itoa k) v pointer ++ walkArray rest (k + 1) pointer
/-- Method `handleKeyValue`: the pointer of the entry, then the pointers
below it. -/
def handleKeyValue : String → Value → String → List String
  | strK, v, pointer =>
    let absolutePointer := pointer ++ "/" ++ utils.JSONPointerPath strK
    absolutePointer ::
      (match v with
       | .seq vv => walkArray vv 0 absolutePointer
       | .map vv => walkMap vv absolutePointer
       | _ => [])
end


/-- The pointer of the managed-annotations annotation. -/
def tailorManagedAnnotationPath : String := "/metadata/annotations/" ++ tailorManagedAnnotation

/-- The "add empty maps" loop of `parseConfig`: a listed mapping that does not
resolve is set to an empty mapping; a failing `Set` is ignored. -/
def addEmptyMaps (m : Value) : List String → Value
  | [] => m
  | p :: rest =>
    match gojsonpointer.Get (pointerOf p) m with
    | some _ => addEmptyMaps m rest
    | none => addEmptyMaps ((gojsonpointer.Set (pointerOf p) m (Value.map [])).getD m) rest

/-- The "remove platform-managed fields" loop: errors are ignored. -/
def deleteFields (m : Value) : List String → Value
  | [] => m
  | p :: rest => deleteFields ((gojsonpointer.Delete (pointerOf p) m).getD m) rest

/-- The annotation that keeps the original value of the field at `path`. -/
def originalValueAnnotationPath (path : String) : String :=
  "/metadata/annotations/" ++ tailorOriginalValuesAnnotationPrefix ++ "~1"
    ++ strings.ReplaceSlashByDot (strings.TrimLeftSlash path)

/-- The "platform-modified fields" loop of `parseConfig` over the walked
paths, carrying `Config` and the new paths: if the annotation of a matching
path exists its value is copied into the spec, otherwise the spec value is
copied into the annotation. -/
def handlePlatformModifiedFields : List String → Value → List String →
    Outcome (Value × List String)
  | [], config, newPaths => .ok (config, newPaths)
  | path :: rest, config, newPaths =>
    if regexp.matchContainerImage path then
      let annotationPath := originalValueAnnotationPath path
      let specValue := valueAt path config
      match gojsonpointer.Get (pointerOf annotationPath) config with
      | some annotationValue =>
        match annotationValue.asString with
        | none => .panic
        | some _ =>
          match gojsonpointer.Set (pointerOf path) config annotationValue with
          | none => .error
          | some config => handlePlatformModifiedFields rest config newPaths
      | none =>
        let withMap : Value × List String :=
          match gojsonpointer.Get (pointerOf "/metadata/annotations") config with
          | some _ => (config, newPaths)
          | none =>
            ((gojsonpointer.Set (pointerOf "/metadata/annotations") config (Value.map [])).getD
              config, newPaths ++ ["/metadata/annotations"])
        match specValue.asString with
        | none => .panic
        | some _ =>
          match gojsonpointer.Set (pointerOf annotationPath) withMap.1 specValue with
          | none => .error
          | some config =>
            handlePlatformModifiedFields rest config (withMap.2 ++ [annotationPath])
    else handlePlatformModifiedFields rest config newPaths

/-- The managed annotations of an item and the tree after the template side
has written them down. -/
def managedAnnotations (source : String) (annotations : List (String × Value)) (m : Value) :
    Outcome (List String × Value) :=
  if source == "platform" then
    match gojsonpointer.Get (pointerOf tailorManagedAnnotationPath) m with
    | none => .ok ([], m)
    | some managed =>
      match managed.asString with
      | none => .panic
      | some s => .ok (strings.Split s ',', m)
  else
    let keys := annotations.map Prod.fst
    if keys.length > 0 then
      let sorted := sort.Strings keys
      .ok (sorted,
        (gojsonpointer.Set (pointerOf tailorManagedAnnotationPath) m
          (Value.str (strings.Join sorted ","))).getD m)
    else .ok ([], m)

/-- Method `parseConfig`: initialise an item from the tree `m`. -/
def parseConfig (source : String) (m : List (String × Value)) : Outcome ResourceItem :=
  let m : Value := Value.map m
  match gojsonpointer.Get (pointerOf "/kind") m with
  | none => .error
  | some kind =>
  match kind.asString with
  | none => .panic
  | some kind =>
  match gojsonpointer.Get (pointerOf "/metadata/name") m with
  | none => .error
  | some name =>
  match name.asString with
  | none => .panic
  | some name =>
  let labels : Option (List (String × Value)) :=
    match gojsonpointer.Get (pointerOf "/metadata/labels") m with
    | none => some []
    | some labels => labels.asMap
  match labels with
  | none => .panic
  | some labels =>
  let m := addEmptyMaps m emptyMapFields
  let annotations : Option (List (String × Value)) :=
    match gojsonpointer.Get (pointerOf "/metadata/annotations") m with
    | none => some []
    | some annotations => annotations.asMap
  match annotations with
  | none => .panic
  | some annotations =>
  (managedAnnotations source annotations m).bind fun (managed, m) =>
  let m := deleteFields m platformManagedFields
  let paths := walkMap (m.asMap.getD []) ""
  (handlePlatformModifiedFields paths m []).bind fun (config, newPaths) =>
  .ok { Source := source
        Kind := kind
        Name := name
        Labels := labels
        Annotations := annotations
        Paths := paths ++ newPaths
        Config := config
        TailorManagedAnnotations := managed }

/-- Build an item from a tree. -/
def NewResourceItem (m : List (String × Value)) (source : String) : Outcome ResourceItem :=
  parseConfig source m

end openshift

/-! ## Package `pkg/openshift`: `item.go` -/

namespace regexp

/-- The call `regexp.MatchString("^/spec/triggers/[0-9]*/imageChangeParams/lastTriggeredImage", s)`:
`s` begins with the fixed text, any number of digits and the rest of the
pattern. -/
def matchLastTriggeredImage (s : String) : Bool :=
  let head := "/spec/triggers/".data
  head.isPrefixOf s.data &&
    "/imageChangeParams/lastTriggeredImage".data.isPrefixOf
      ((s.data.drop head.length).dropWhile isDigit)

end regexp

namespace pkg.openshift

/-- The pointer of the annotations mapping. -/
def annotationsPath : String := "/metadata/annotations"

/-- Prefix of Tailor's own annotations. -/
def tailorAnnotationPrefix : String := "tailor.opendevstack.org"

/-- The annotation holding the applied configuration. -/
def tailorAppliedConfigAnnotation : String := tailorAnnotationPrefix ++ "/applied-config"

/-- Its key as a reference token (`/` replaced by `~1`). -/
def escapedTailorAppliedConfigAnnotation : String :=
  utils.JSONPointerPath tailorAppliedConfigAnnotation

/-- Its pointer. -/
def tailorAppliedConfigAnnotationPath : String :=
  annotationsPath ++ "/" ++ escapedTailorAppliedConfigAnnotation

/-- The annotation listing the annotations Tailor manages. -/
def tailorManagedAnnotation : String := tailorAnnotationPrefix ++ "/managed-annotations"

/-- Its key as a reference token. -/
def escapedTailorManagedAnnotation : String := utils.JSONPointerPath tailorManagedAnnotation

/-- Its pointer. -/
def tailorManagedAnnotationPath : String :=
  annotationsPath ++ "/" ++ escapedTailorManagedAnnotation

/-- Simple fields the platform owns; deleted from every item. -/
def platformManagedSimpleFields : List String :=
  [ "/metadata/generation",
    "/metadata/creationTimestamp",
    "/spec/tags",
    "/status",
    "/spec/volumeName",
    "/spec/template/metadata/creationTimestamp" ]

/-- Fields that cannot be patched in place, by kind. -/
def immutableFields : List (String × List String) :=
  [ ("PersistentVolumeClaim",
      [ "/spec/accessModes",
        "/spec/storageClassName",
        "/spec/resources/requests/storage" ]),
    ("Route", ["/spec/host"]),
    ("Secret", ["/type"]) ]

/-- Method `isImmutableField`: is the pointer listed for the item's kind? -/
def ResourceItem.isImmutableField (i : ResourceItem) (field : String) : Bool :=
  ((GoMap.get i.Kind immutableFields).getD []).any (fun key => key == field)

/-- Method `FullName`. -/
def ResourceItem.FullName (i : ResourceItem) : String := i.Kind ++ "/" ++ i.Name

/-- The pair of changes that replaces a resource. -/
def recreateChanges (marshal : Value → String) (templateItem platformItem : ResourceItem) :
    List Change :=
  let deleteChange : Change :=
    { Action := "Delete"
      Kind := templateItem.Kind
      Name := templateItem.Name
      Patches := []
      CurrentState := platformItem.YamlConfig marshal
      DesiredState := "" }
  let createChange : Change :=
    { Action := "Create"
      Kind := templateItem.Kind
      Name := templateItem.Name
      Patches := []
      CurrentState := ""
      DesiredState := templateItem.YamlConfig marshal }
  [deleteChange, createChange]

/-- The managed-annotations step of `parseConfig`: the managed annotations,
the tree and the annotations copy afterwards. -/
def managedAnnotations (source : String) (annotations : List (String × Value)) (m : Value) :
    Outcome (List String × Value × List (String × Value)) :=
  if source == "platform" then
    match gojsonpointer.NewJsonPointer tailorManagedAnnotationPath with
    | none => .error
    | some p =>
      match gojsonpointer.Get p m with
      | none => .ok ([], m, annotations)
      | some managed =>
        match managed.asString with
        | none => .panic
        | some s =>
          match gojsonpointer.Delete p m with
          | none => .error
          | some m => .ok (strings.Split s ',', m, GoMap.del tailorManagedAnnotation annotations)
  else .ok (sort.Strings (annotations.map Prod.fst), m, annotations)

/-- The loop that replays the applied configuration: each pointer is set to
its recorded string. -/
def replayAppliedConfig : List (String × String) → Value → Outcome Value
  | [], m => .ok m
  | (k, v) :: rest, m =>
    match gojsonpointer.NewJsonPointer k with
    | none => .error
    | some specPointer =>
      match gojsonpointer.Set specPointer m (Value.str v) with
      | none => .error
      | some m => replayAppliedConfig rest m

/-- The applied-configuration step of `parseConfig` for a platform item: the
recorded fields and the tree afterwards. The JSON decoder
(`json.Unmarshal` into a `map[string]string`) is a library function and is
passed in. -/
def appliedConfig (unmarshal : String → Option (List (String × String))) (m : Value) :
    Outcome (List (String × String) × Value) :=
  match gojsonpointer.NewJsonPointer tailorAppliedConfigAnnotationPath with
  | none => .error
  | some annotationPointer =>
    match gojsonpointer.Get annotationPointer m with
    | none => .ok ([], m)
    | some val =>
      match val.asString with
      | none => .panic
      | some s =>
        match unmarshal s with
        | none => .error
        | some fields =>
          (replayAppliedConfig fields m).bind fun m =>
            match gojsonpointer.Delete annotationPointer m with
            | none => .error
            | some m => .ok (fields, m)


/-- The loop of `parseConfig` over the walked paths, carrying `Config`, the
indices of the deleted paths and the applied-config fields: a path that
matches the platform-managed pattern is deleted from `Config` (errors are
ignored) and its index recorded; on the template side the value of a
platform-modified field is recorded. -/
def massagePaths (source : String) : List String → Nat → Value → List Nat →
    List (String × String) → Outcome (Value × List Nat × List (String × String))
  | [], _, config, deleted, fields => .ok (config, deleted, fields)
  | path :: rest, pathIndex, config, deleted, fields =>
    let afterDelete : Value × List Nat :=
      if regexp.matchLastTriggeredImage path then
        ((gojsonpointer.Delete (openshift.pointerOf path) config).getD config,
          deleted ++ [pathIndex])
      else (config, deleted)
    if source == "template" && regexp.matchContainerImage path then
      match gojsonpointer.NewJsonPointer path with
      | none => .error
      | some specPointer =>
        match gojsonpointer.Get specPointer afterDelete.1 with
        | none => .error
        | some specValue =>
          match specValue.asString with
          | none => .panic
          | some s =>
            massagePaths source rest (pathIndex + 1) afterDelete.1 afterDelete.2
              (GoMap.set path s fields)
    else massagePaths source rest (pathIndex + 1) afterDelete.1 afterDelete.2 fields

/-- The loop that removes the recorded indices from `Paths`, shifting each
index left by the number of removals done before it. -/
def removeIndices : List Nat → Nat → List String → List String
  | [], _, paths => paths
  | pathIndex :: rest, removed, paths =>
    removeIndices rest (removed + 1) (paths.eraseIdx (pathIndex - removed))

/-- Method `parseConfig`: initialise an item from the tree `m`. -/
def parseConfig (unmarshal : String → Option (List (String × String))) (source : String)
    (m : List (String × Value)) : Outcome ResourceItem :=
  let m : Value := Value.map m
  match gojsonpointer.Get (openshift.pointerOf "/kind") m with
  | none => .error
  | some kind =>
  match kind.asString with
  | none => .panic
  | some kind =>
  match gojsonpointer.Get (openshift.pointerOf "/metadata/name") m with
  | none => .error
  | some name =>
  match name.asString with
  | none => .panic
  | some name =>
  let labels : Option (List (String × Value)) :=
    match gojsonpointer.Get (openshift.pointerOf "/metadata/labels") m with
    | none => some []
    | some labels => labels.asMap
  match labels with
  | none => .panic
  | some labels =>
  let annotations : Option (Bool × List (String × Value)) :=
    match gojsonpointer.Get (openshift.pointerOf "/metadata/annotations") m with
    | none => some (false, [])
    | some annotations => annotations.asMap.map (fun a => (true, a))
  match annotations with
  | none => .panic
  | some (annotationsPresent, annotations) =>
  (managedAnnotations source annotations m).bind fun (managed, m, annotations) =>
  let applied : Outcome (List (String × String) × Value × List (String × Value)) :=
    if source == "platform" then
      (appliedConfig unmarshal m).bind fun (fields, m) =>
        .ok (fields, m, GoMap.del tailorAppliedConfigAnnotation annotations)
    else .ok ([], m, annotations)
  applied.bind fun (fields, m, annotations) =>
  let m := openshift.deleteFields m platformManagedSimpleFields
  let paths := openshift.walkMap (m.asMap.getD []) ""
  (massagePaths source paths 0 m [] fields).bind fun (config, deleted, fields) =>
  .ok { Source := source
        Kind := kind
        Name := name
        Labels := labels
        Annotations := annotations
        Paths := removeIndices deleted 0 paths
        Config := config
        TailorManagedAnnotations := managed
        TailorAppliedConfigFields := fields
        AnnotationsPresent := annotationsPresent }

/-- Build an item from a tree. -/
def NewResourceItem (unmarshal : String → Option (List (String × String)))
    (m : List (String × Value)) (source : String) : Outcome ResourceItem :=
  parseConfig unmarshal source m

end pkg.openshift

/-! ## Example resources -/

namespace Outcome

/-- The value of a successful call, `d` otherwise. -/
def getD {α : Type} (x : Outcome α) (d : α) : α :=
  match x with
  | .ok a => a
  | _ => d

end Outcome

namespace openshift.examples

/-- An item with nothing in it. -/
def noItem : ResourceItem :=
  { Source := "", Kind := "", Name := "", Labels := [], Annotations := [], Paths := [],
    Config := Value.null, TailorManagedAnnotations := [] }

/-- The template item of a tree. -/
def templateItem (m : List (String × Value)) : ResourceItem :=
  (NewResourceItem m "template").getD noItem

/-- The platform item of a tree. -/
def platformItem (m : List (String × Value)) : ResourceItem :=
  (NewResourceItem m "platform").getD noItem

/-- A stand-in for the YAML encoder that shows the requested storage only. -/
def showStorage (config : Value) : String :=
  (valueAt "/spec/resources/requests/storage" config).asString.getD ""

/-- A persistent volume claim `foo` with the given storage request, access
modes and further `spec` entries. -/
def pvc (storage : String) (accessModes : List Value) (more : List (String × Value)) :
    List (String × Value) :=
  [ ("apiVersion", Value.str "v1"),
    ("kind", Value.str "PersistentVolumeClaim"),
    ("metadata", Value.map [("name", Value.str "foo")]),
    ("spec", Value.map
      ([ ("accessModes", Value.seq accessModes),
         ("resources", Value.map [("requests", Value.map [("storage", Value.str storage)])]) ]
        ++ more)) ]

end openshift.examples

/-! ## Applying JSON patches (RFC 6902)

The platform applies the patches of an `Update`; the application of one
operation is taken from RFC 6902 and RFC 6901. -/

namespace jsonpatch

open pkg.openshift (jsonPatch)

/-- An array index of RFC 6901: `0`, or digits without a leading zero. -/
def arrayIndex (token : String) : Option Nat :=
  match token.data with
  | [] => none
  | ['0'] => some 0
  | '0' :: _ => none
  | cs => strconv.readDigits cs 0

/-- One step down from `node` along `token`. -/
def child (token : String) : Value → Option Value
  | .map kvs => GoMap.get (gojsonpointer.decodeReferenceToken token) kvs
  | .seq xs =>
    match arrayIndex token with
    | some n => xs.get? n
    | none => none
  | _ => none

/-- Put the changed child back below `node`. -/
def putChild (token : String) (c : Value) : Value → Option Value
  | .map kvs => some (.map (GoMap.set (gojsonpointer.decodeReferenceToken token) c kvs))
  | .seq xs =>
    match arrayIndex token with
    | some n => if n < xs.length then some (.seq (xs.set n c)) else none
    | none => none
  | _ => none

/-- Operation `add` at the last token: a member is added or replaced; an
element is inserted before the index, or appended for `-`. -/
def addAt (token : String) (v : Value) : Value → Option Value
  | .map kvs => some (.map (GoMap.set (gojsonpointer.decodeReferenceToken token) v kvs))
  | .seq xs =>
    if token = "-" then some (.seq (xs ++ [v]))
    else match arrayIndex token with
      | some n => if n ≤ xs.length then some (.seq (xs.take n ++ v :: xs.drop n)) else none
      | none => none
  | _ => none

/-- Operation `replace` at the last token: the target must exist. -/
def replaceAt (token : String) (v : Value) (node : Value) : Option Value :=
  match child token node with
  | some _ => putChild token v node
  | none => none

/-- Operation `remove` at the last token: the target must exist. -/
def removeAt (token : String) : Value → Option Value
  | .map kvs =>
    if GoMap.has (gojsonpointer.decodeReferenceToken token) kvs
    then some (.map (GoMap.del (gojsonpointer.decodeReferenceToken token) kvs))
    else none
  | .seq xs =>
    match arrayIndex token with
    | some n => if n < xs.length then some (.seq (xs.eraseIdx n)) else none
    | none => none
  | _ => none

/-- Walk down to the parent of the last token and apply `atLast` there. -/
def applyBelow (atLast : String → Value → Option Value) : String → List String → Value →
    Option Value
  | t, [], node => atLast t node
  | t, t' :: ts, node =>
    match child t node with
    | none => none
    | some c =>
      match applyBelow atLast t' ts c with
      | none => none
      | some c' => putChild t c' node

/-- Apply one patch to a document; `none` when the operation fails. -/
def apply (patch : jsonPatch) (document : Value) : Option Value :=
  match gojsonpointer.NewJsonPointer patch.Path with
  | none => none
  | some [] =>
    if patch.Op = "add" || patch.Op = "replace" then some patch.Value else none
  | some (t :: ts) =>
    if patch.Op = "add" then applyBelow (fun t node => addAt t patch.Value node) t ts document
    else if patch.Op = "replace" then
      applyBelow (fun t node => replaceAt t patch.Value node) t ts document
    else if patch.Op = "remove" then applyBelow removeAt t ts document
    else none

/-- Apply the patches in order; `none` as soon as one fails. -/
def applyAll : List jsonPatch → Value → Option Value
  | [], document => some document
  | patch :: rest, document =>
    match apply patch document with
    | none => none
    | some document => applyAll rest document

end jsonpatch

namespace openshift.examples

/-- A stand-in for the YAML encoder that shows nothing. -/
def showNothing (_ : Value) : String := ""

/-- A config map `foo` with the given `data`. -/
def configMap (data : Value) : List (String × Value) :=
  [ ("apiVersion", Value.str "v1"),
    ("kind", Value.str "ConfigMap"),
    ("metadata", Value.map [("name", Value.str "foo")]),
    ("data", data) ]

end openshift.examples

namespace pkg.openshift


/-- The pointer is absent from the tree or holds a mapping. -/
def absentOrMapping (pointer : String) (m : List (String × Value)) : Prop :=
  gojsonpointer.Get (openshift.pointerOf pointer) (Value.map m) = none
    ∨ ∃ kvs, gojsonpointer.Get (openshift.pointerOf pointer) (Value.map m) = some (Value.map kvs)


/-- The tree `parseConfig` walks when no Tailor annotation changes it first:
the tree without the platform-managed simple fields. -/
def strippedTree (m : List (String × Value)) : Value :=
  openshift.deleteFields (Value.map m) platformManagedSimpleFields

/-- The paths `parseConfig` walks in that case. -/
def walkedPaths (m : List (String × Value)) : List String :=
  openshift.walkMap ((strippedTree m).asMap.getD []) ""

/-- The string at a pointer, if the pointer is valid, resolves and holds one. -/
def stringAt (path : String) (config : Value) : Option String :=
  match gojsonpointer.NewJsonPointer path with
  | none => none
  | some p =>
    match gojsonpointer.Get p config with
    | none => none
    | some v => v.asString

end pkg.openshift

namespace pkg.openshift.examples

/-- A stand-in for the JSON decoder: it knows the texts used below and rejects
every other text. -/
def decodeJSON (s : String) : Option (List (String × String)) :=
  if s = "\x7b\"/spec/template/spec/containers/0/image\":\"bar/foo:latest\"\x7d" then
    some [("/spec/template/spec/containers/0/image", "bar/foo:latest")]
  else if s = "\x7b\"/status\":\"x\"\x7d" then some [("/status", "x")]
  else if s = "\x7b\"/spec/x/y\":\"v\"\x7d" then some [("/spec/x/y", "v")]
  else none

/-- An image stream `foo` with the given kind value and annotations. -/
def imageStream (kind : Value) (annotations : List (String × Value)) : List (String × Value) :=
  [ ("apiVersion", Value.str "v1"),
    ("kind", kind),
    ("metadata", Value.map [("name", Value.str "foo"), ("annotations", Value.map annotations)]) ]

/-- A deployment config `foo` with one container of the given image, the given
annotations and further top-level entries. -/
def deploymentConfig (image : Value) (annotations : List (String × Value))
    (more : List (String × Value)) : List (String × Value) :=
  [ ("apiVersion", Value.str "v1"),
    ("kind", Value.str "DeploymentConfig"),
    ("metadata", Value.map [("name", Value.str "foo"), ("annotations", Value.map annotations)]),
    ("spec", Value.map [("template", Value.map [("spec", Value.map
      [("containers", Value.seq [Value.map [("image", image)]])])])]) ] ++ more

end pkg.openshift.examples

/-! ## Pointers that do not touch each other -/

namespace gojsonpointer

/-- Two token lists part ways: after a common run of equal tokens they name
different keys, at least one of which is not a number (so that the node where
they part is a mapping whenever both resolve). Neither is then above the
other. -/
def apartTokens : List String → List String → Bool
  | p :: ps, d :: ds =>
    if p = d then apartTokens ps ds
    else decide (decodeReferenceToken p ≠ decodeReferenceToken d)
      && ((strconv.Atoi p).isNone || (strconv.Atoi d).isNone)
  | _, _ => false

/-- Two pointer strings part ways. -/
def apart (p q : String) : Bool :=
  match NewJsonPointer p, NewJsonPointer q with
  | some ps, some qs => apartTokens ps qs
  | _, _ => false

end gojsonpointer

namespace pkg.openshift

end pkg.openshift

/-! ## Well-formed trees -/

mutual
/-- No mapping of the tree has two entries with the same key, as in every Go
map. -/
def Value.uniqueKeys : Value → Bool
  | .seq xs => uniqueKeysList xs
  | .map kvs => uniqueKeysEntries kvs
  | _ => true
/-- All elements have unique keys. -/
def uniqueKeysList : List Value → Bool
  | [] => true
  | v :: rest => v.uniqueKeys && uniqueKeysList rest
/-- The keys of the entries differ and all values have unique keys. -/
def uniqueKeysEntries : List (String × Value) → Bool
  | [] => true
  | (k, v) :: rest => !(GoMap.has k rest) && v.uniqueKeys && uniqueKeysEntries rest
end

namespace openshift

open pkg.openshift (jsonPatch)

/-- The comparison map after a run of noops. -/
def noopsOver (paths : List String) (comparison : List (String × jsonPatch)) :
    List (String × jsonPatch) :=
  paths.foldl (fun c p => GoMap.set p ⟨"noop", "", Value.null⟩ c) comparison


/-- The tree `parseConfig` walks when the template side writes no annotation:
the tree with the empty mappings added and the platform-managed fields
deleted. -/
def canonicalTree (m : List (String × Value)) : Value :=
  deleteFields (addEmptyMaps (Value.map m) emptyMapFields) platformManagedFields

/-- The paths `parseConfig` walks in that case. -/
def canonicalPaths (m : List (String × Value)) : List String :=
  walkMap ((canonicalTree m).asMap.getD []) ""


/-- What the loop over the walked paths keeps true of `Config`: the walked
and the new paths resolve, no container image holds a sequence or mapping,
`apiVersion` is a string and the annotations mapping exists. -/
structure PathsResolve (walked newPaths : List String) (config : Value) : Prop where
  walkedOk : ∀ p ∈ walked, (gojsonpointer.Get (pointerOf p) config).isSome = true
  added : ∀ p ∈ newPaths, (gojsonpointer.Get (pointerOf p) config).isSome = true
  images : ∀ p ∈ walked, regexp.matchContainerImage p = true →
    ∃ v, gojsonpointer.Get (pointerOf p) config = some v ∧ v.isComposite = false
  apiVersion : ∃ s, gojsonpointer.Get (pointerOf "/apiVersion") config = some (Value.str s)
  annotations : (gojsonpointer.Get (pointerOf "/metadata/annotations") config).isSome = true


/-- A mapping whose keys are unique throughout. -/
def WellFormedMap (v : Value) : Prop :=
  ∃ kvs, v = Value.map kvs ∧ uniqueKeysEntries kvs = true

end openshift

/-! ## Package `pkg/openshift`: the preparation steps of the differ -/

namespace pkg.openshift

/-- One round of the loop of `prepareForComparisonWithPlatformItem`: when the
platform item has a value at the path and it can be written into the template
item, the path and the pointers below the copied value join the template
item's `Paths`; otherwise nothing changes. -/
def prepareForComparisonWithPlatformItem.step (platformItem : ResourceItem)
    (templateItem : ResourceItem) (path : String) : ResourceItem :=
  let pathPointer := openshift.pointerOf path
  match gojsonpointer.Get pathPointer platformItem.Config with
  | none => templateItem
  | some platformItemVal =>
    match gojsonpointer.Set pathPointer templateItem.Config platformItemVal with
    | none => templateItem
    | some config =>
      { templateItem with
        Config := config
        Paths := templateItem.Paths ++ [path] ++
          (match platformItemVal with
           | .seq vv => openshift.walkArray vv 0 path
           | .map vv => openshift.walkMap vv path
           | _ => []) }

/-- Method `prepareForComparisonWithPlatformItem`: copy the values at the
externally modified paths from the platform item into the template item. The
error it returns is always nil, so the result is the template item
afterwards. -/
def prepareForComparisonWithPlatformItem (templateItem platformItem : ResourceItem)
    (externallyModifiedPaths : List String) : ResourceItem :=
  externallyModifiedPaths.foldl (prepareForComparisonWithPlatformItem.step platformItem)
    templateItem

/-- The annotations of the platform item that neither item manages. -/
def unmanagedAnnotations (platformItem templateItem : ResourceItem) : List String :=
  (platformItem.Annotations.map Prod.fst).filter (fun a =>
    !(utils.Includes templateItem.TailorManagedAnnotations a)
    && !(utils.Includes platformItem.TailorManagedAnnotations a))

/-- The second loop of `prepareForComparisonWithTemplateItem`: delete the
annotations from the platform item's `Config` and `Paths`; an annotation that
cannot be deleted is an error. -/
def deleteUnmanaged (platformItem : ResourceItem) : List String → Outcome ResourceItem
  | [] => .ok platformItem
  | a :: rest =>
    let path := "/metadata/annotations/" ++ utils.JSONPointerPath a
    match gojsonpointer.Delete (openshift.pointerOf path) platformItem.Config with
    | none => .error
    | some config =>
      deleteUnmanaged
        { platformItem with Config := config, Paths := utils.Remove platformItem.Paths path }
        rest

/-- Method `prepareForComparisonWithTemplateItem`: remove all annotations of
the platform item which are not managed. -/
def prepareForComparisonWithTemplateItem (platformItem templateItem : ResourceItem) :
    Outcome ResourceItem :=
  deleteUnmanaged platformItem (unmanagedAnnotations platformItem templateItem)

/-! ## Package `pkg/openshift`: the changeset -/

/-- Modelled from the spec: type `Changeset` (`pkg/openshift/changeset.go`) is
not among the sources, only its tests are; it holds three ordered sequences of
changes. -/
structure Changeset where
  Create : List Change
  Update : List Change
  Delete : List Change

/-- Modelled from the spec: the order of kinds inside a bucket is not among the
sources. The kind `first` sorts before the kind `last`; all other kinds
compare equal to each other, at the position `other`, which the spec leaves
open. -/
def kindOrder (other : Nat) (first last kind : String) : Nat :=
  if kind = first then 0 else if kind = last then 2 else other

/-- Modelled from the spec: a bucket is sorted by the order of kinds, changes
that compare equal keeping their insertion order. -/
def sortBucket (other : Nat) (first last : String) (bucket : List Change) : List Change :=
  bucket.insertionSort
    (fun a b => kindOrder other first last a.Kind ≤ kindOrder other first last b.Kind)

/-- Modelled from the spec: method `Add` of `Changeset` is not among the
sources, only its tests are. Each change is appended to the bucket of its
action; in `Create` and `Update` claims of persistent volumes sort before
deployment configs, in `Delete` the other way round. -/
def Changeset.Add (other : Nat) (c : Changeset) (changes : List Change) : Changeset :=
  { Create := sortBucket other "PersistentVolumeClaim" "DeploymentConfig"
      (c.Create ++ changes.filter (fun x => x.Action == "Create"))
    Update := sortBucket other "PersistentVolumeClaim" "DeploymentConfig"
      (c.Update ++ changes.filter (fun x => x.Action == "Update"))
    Delete := sortBucket other "DeploymentConfig" "PersistentVolumeClaim"
      (c.Delete ++ changes.filter (fun x => x.Action == "Delete")) }

/-- The changeset after a sequence of calls of `Add` on an empty changeset. -/
def Changeset.addAll (other : Nat) (calls : List (List Change)) : Changeset :=
  calls.foldl (Changeset.Add other) { Create := [], Update := [], Delete := [] }

end pkg.openshift

namespace pkg.openshift.examples

/-- An item with nothing in it. -/
def noItem : ResourceItem :=
  { Source := "", Kind := "", Name := "", Labels := [], Annotations := [], Paths := [],
    Config := Value.null, TailorManagedAnnotations := [], TailorAppliedConfigFields := [],
    AnnotationsPresent := false }

/-- A stand-in for the JSON decoder that knows one text, with the entries it
decodes to, and rejects every other text. -/
def decoderFor (text : String) (entries : List (String × String)) (s : String) :
    Option (List (String × String)) :=
  if s = text then some entries else none

end pkg.openshift.examples

/-! ## The order of `sort.Strings` -/

instance : IsTotal String (fun a b : String => a.data ≤ b.data) :=
  ⟨fun a b => le_total a.data b.data⟩

instance : IsTrans String (fun a b : String => a.data ≤ b.data) :=
  ⟨fun _ _ _ h1 h2 => le_trans (α := List Char) h1 h2⟩

namespace pkg.openshift

/-- A change of a kind other than the two the order of a bucket knows. -/
def Change.otherKind (c : Change) : Bool :=
  c.Kind != "PersistentVolumeClaim" && c.Kind != "DeploymentConfig"

/-- All changes handed to `Add`, in the order they were handed over. -/
def addedChanges (calls : List (List Change)) : List Change :=
  calls.foldr (fun changes acc => changes ++ acc) []

end pkg.openshift

namespace pkg.openshift.examples

/-- A platform item with the annotations `a` and `u`, of which it manages `a`. -/
def annotatedPlatformItem : ResourceItem :=
  { noItem with
    Source := "platform"
    Annotations := [("a", Value.str "1"), ("u", Value.str "2")]
    Paths := ["/metadata/annotations/a", "/metadata/annotations/u"]
    Config := Value.map [("metadata", Value.map [("annotations",
      Value.map [("a", Value.str "1"), ("u", Value.str "2")])])]
    TailorManagedAnnotations := ["a"] }

end pkg.openshift.examples

namespace pkg.openshift

/-- Every pointer in `Paths` resolves in `Config`. -/
def ResourceItem.pathsResolve (i : ResourceItem) : Bool :=
  i.Paths.all (fun p => (gojsonpointer.Get (openshift.pointerOf p) i.Config).isSome)

end pkg.openshift

namespace pkg.openshift.examples

/-- A config map `foo` with the given data. -/
def configMap (data : Value) : List (String × Value) :=
  [ ("apiVersion", Value.str "v1"),
    ("kind", Value.str "ConfigMap"),
    ("metadata", Value.map [("name", Value.str "foo")]),
    ("data", data) ]

/-- The item built from a tree with the stand-in decoder, `noItem` if that
fails. -/
def itemOf (m : List (String × Value)) (source : String) : ResourceItem :=
  (NewResourceItem decodeJSON m source).getD noItem

end pkg.openshift.examples

namespace pkg.openshift

/-- The indices that the loop of `parseConfig` records for removal: the
positions, counted from `pathIndex`, of the paths that match the
platform-managed pattern. -/
def deletedPathIndices : List String → Nat → List Nat
  | [], _ => []
  | path :: rest, pathIndex =>
    (if regexp.matchLastTriggeredImage path then [pathIndex] else [])
      ++ deletedPathIndices rest (pathIndex + 1)

end pkg.openshift

/-! ## Pointers as the walk writes them -/

namespace gojsonpointer

/-- The tokens resolve from `node` downwards and are written the way the walk
writes them: a key of a mapping escaped, an index of a slice in decimal. -/
def canonGet : List String → Value → Bool
  | [], _ => true
  | t :: ts, .map kvs =>
    match GoMap.get (decodeReferenceToken t) kvs with
    | some c => t == utils.JSONPointerPath (decodeReferenceToken t) && canonGet ts c
    | none => false
  | t :: ts, .seq xs =>
    match arrayIndex t xs.length with
    | some n =>
      t == strconv.Itoa n &&
        (match xs.get? n with
         | some c => canonGet ts c
         | none => false)
    | none => false
  | _ :: _, _ => false

/-- Two tokens are alike if they are equal or both consist of digits only. -/
def alikeTokens (p t : String) : Bool :=
  p == t || (p.data.all regexp.isDigit && t.data.all regexp.isDigit)

/-- The pointer `q` starts with tokens that are alike the tokens `pre`, one by
one. -/
def alikePrefix : List String → List String → Bool
  | [], _ => true
  | _ :: _, [] => false
  | t :: pre, p :: q => alikeTokens p t && alikePrefix pre q

/-- The tokens of a pointer that matches the pattern of the platform-managed
field `lastTriggeredImage`. -/
def tokensMatch : List String → Bool
  | t1 :: t2 :: n :: t4 :: l :: _ =>
    t1 == "spec" && t2 == "triggers" && n.data.all regexp.isDigit
      && t4 == "imageChangeParams" && "lastTriggeredImage".data.isPrefixOf l.data
  | _ => false

end gojsonpointer

namespace pkg.openshift.examples

/-- A deployment config `foo` with one image-change trigger whose last
triggered image is recorded. -/
def triggeredConfig : List (String × Value) :=
  [ ("apiVersion", Value.str "v1"),
    ("kind", Value.str "DeploymentConfig"),
    ("metadata", Value.map [("name", Value.str "foo")]),
    ("spec", Value.map [("triggers", Value.seq [Value.map
      [("type", Value.str "ImageChange"),
       ("imageChangeParams", Value.map
         [("automatic", Value.bool true),
          ("lastTriggeredImage", Value.str "bar/foo@sha256:abc")])]])]) ]

end pkg.openshift.examples

namespace openshift.examples

/-- A config map `foo` without data and with the given annotations. -/
def annotatedConfigMap (annotations : List (String × Value)) : List (String × Value) :=
  [ ("apiVersion", Value.str "v1"),
    ("kind", Value.str "ConfigMap"),
    ("metadata", Value.map [("name", Value.str "foo"), ("annotations", Value.map annotations)]) ]

/-- A config map `foo` without data and without an annotations mapping. -/
def plainConfigMap : List (String × Value) :=
  [ ("apiVersion", Value.str "v1"),
    ("kind", Value.str "ConfigMap"),
    ("metadata", Value.map [("name", Value.str "foo")]) ]

end openshift.examples

namespace openshift.examples

open pkg.openshift (jsonPatch Change)

end openshift.examples

namespace openshift.examples

open pkg.openshift (jsonPatch Change)

/-- The change that replaces the annotation `a` of the config map `foo`. -/
def replaceA : Change :=
  { Action := "Update", Kind := "ConfigMap", Name := "foo",
    Patches := [ ⟨"replace", "/metadata/annotations/a", Value.str "1"⟩ ],
    CurrentState := "", DesiredState := "" }

end openshift.examples

/-! ## Trees without the platform-managed pointers -/

namespace gojsonpointer

/-- Method `String` of a pointer: a `/` before every token, nothing for the
root pointer. -/
def pointerString : List String → String
  | [] => ""
  | t :: ts => "/" ++ t ++ pointerString ts

/-- One of the pointers from `above ++ [t]` down to `above ++ t :: ts` is
dropped. -/
def droppedAlong (drop : List String → Bool) : List String → List String → Bool
  | _, [] => false
  | above, t :: ts => drop (above ++ [t]) || droppedAlong drop (above ++ [t]) ts

end gojsonpointer

namespace pkg.openshift

mutual
/-- The tree `v`, which stands at the pointer `above`, without the entries of
mappings whose pointer (keys escaped, indices in decimal) is dropped. Nothing
else changes: the other entries keep their order, and slices keep all their
elements. -/
def pruneValue (drop : List String → Bool) : List String → Value → Value
  | above, .map kvs => .map (pruneEntries drop above kvs)
  | above, .seq xs => .seq (pruneList drop above 0 xs)
  | _, v => v
/-- The entries of a mapping at `above` without the dropped ones. -/
def pruneEntries (drop : List String → Bool) :
    List String → List (String × Value) → List (String × Value)
  | _, [] => []
  | above, (k, v) :: rest =>
    if drop (above ++ [utils.JSONPointerPath k]) then pruneEntries drop above rest
    else (k, pruneValue drop (above ++ [utils.JSONPointerPath k]) v)
      :: pruneEntries drop above rest
/-- The elements of a slice at `above`, from index `i` on, each without its
dropped entries. -/
def pruneList (drop : List String → Bool) : List String → Nat → List Value → List Value
  | _, _, [] => []
  | above, i, v :: rest =>
    pruneValue drop (above ++ [strconv.Itoa i]) v :: pruneList drop above (i + 1) rest
end

/-- The tokens are those of one of the pointers `fields`. -/
def fieldTokens (fields : List String) (ts : List String) : Bool :=
  fields.any (fun q => decide (openshift.pointerOf q = ts))

/-- The tokens are those of one of the platform-managed simple fields. -/
def simpleFieldTokens (ts : List String) : Bool :=
  fieldTokens platformManagedSimpleFields ts

/-- The tokens are those of a `lastTriggeredImage` field: five tokens that
match the pattern of the platform-managed regex field. -/
def lastTriggeredImageTokens (ts : List String) : Bool :=
  ts.length == 5 && gojsonpointer.tokensMatch ts

/-- The tokens are those of a platform-managed field. -/
def platformManagedTokens (ts : List String) : Bool :=
  simpleFieldTokens ts || lastTriggeredImageTokens ts

end pkg.openshift

namespace regexp

/-- The pattern `^/spec/triggers/[0-9]+/imageChangeParams/lastTriggeredImage`
as the specification words it, with at least one digit. -/
def matchLastTriggeredImagePlus (s : String) : Bool :=
  let head := "/spec/triggers/".data
  let afterHead := s.data.drop head.length
  let afterDigits := afterHead.dropWhile isDigit
  head.isPrefixOf s.data && decide (afterDigits.length < afterHead.length) &&
    "/imageChangeParams/lastTriggeredImage".data.isPrefixOf afterDigits

end regexp

namespace pkg.openshift.examples

/-- A deployment config `foo` whose triggers are a mapping with the empty key,
below which a last triggered image is recorded. -/
def emptyKeyTrigger : List (String × Value) :=
  [ ("apiVersion", Value.str "v1"),
    ("kind", Value.str "DeploymentConfig"),
    ("metadata", Value.map [("name", Value.str "foo")]),
    ("spec", Value.map [("triggers", Value.map [("", Value.map
      [("imageChangeParams", Value.map
         [("lastTriggeredImage", Value.str "bar/foo@sha256:abc")])])])]) ]

end pkg.openshift.examples

namespace pkg.openshift

/-- The tokens are those of a `lastTriggeredImage` field whose pointer is among
the paths `done`, which the loop of `parseConfig` has gone through. -/
def droppedSoFar (done : List String) (ts : List String) : Bool :=
  lastTriggeredImageTokens ts && done.any (fun d => decide (openshift.pointerOf d = ts))

end pkg.openshift

/-! ## Package `pkg/openshift`: labels -/

namespace pkg.openshift

/-- Method `HasLabel`: the label is split at `=`; the item has the label when
`Labels` holds the first part as a key and its value, asserted to be a string,
is the second part. The index `labelParts[1]` and the type assertion abort
when they fail. -/
def ResourceItem.HasLabel (i : ResourceItem) (label : String) : Outcome Bool :=
  let labelParts := strings.Split label '='
  match labelParts.get? 0 with
  | none => .panic
  | some key =>
    match GoMap.get key i.Labels with
    | none => .ok false
    | some v =>
      match v.asString with
      | none => .panic
      | some s =>
        match labelParts.get? 1 with
        | none => .panic
        | some value => if s != value then .ok false else .ok true

end pkg.openshift

namespace pkg.openshift.examples

/-- A config map `foo` with the given labels. -/
def labelled (labels : List (String × Value)) : List (String × Value) :=
  [ ("apiVersion", Value.str "v1"),
    ("kind", Value.str "ConfigMap"),
    ("metadata", Value.map [("name", Value.str "foo"), ("labels", Value.map labels)]) ]

end pkg.openshift.examples

namespace openshift.examples

/-- A config map `foo` with the given data and without `apiVersion`. -/
def unversionedConfigMap (data : Value) : List (String × Value) :=
  [ ("kind", Value.str "ConfigMap"),
    ("metadata", Value.map [("name", Value.str "foo")]),
    ("data", data) ]

end openshift.examples

/-! # Theorems -/

/-! ## Association lists -/

namespace GoMap

variable {β : Type}

theorem get_set_same (k : String) (v : β) (m : List (String × β)) :
    get k (set k v m) = some v := by
  induction m with
  | nil => simp [set, get]
  | cons e rest ih =>
    obtain ⟨k', v'⟩ := e
    by_cases h : k' = k
    · simp [set, get, h]
    · simp [set, get, h, ih]

theorem get_set_other (k k' : String) (v : β) (m : List (String × β)) (h : k' ≠ k) :
    get k' (set k v m) = get k' m := by
  induction m with
  | nil => simp [set, get, Ne.symm h]
  | cons e rest ih =>
    obtain ⟨k'', v''⟩ := e
    by_cases h1 : k'' = k
    · subst h1
      simp [set, get, Ne.symm h]
    · by_cases h2 : k'' = k'
      · subst h2
        simp [set, get, h]
      · simp [set, get, h1, h2, ih]

theorem get_del_same (k : String) (m : List (String × β)) : get k (del k m) = none := by
  induction m with
  | nil => simp [del, get]
  | cons e rest ih =>
    obtain ⟨k', v'⟩ := e
    by_cases h : k' = k
    · simp [del, h, ih]
    · simp [del, get, h, ih]

theorem get_del_other (k k' : String) (m : List (String × β)) (h : k' ≠ k) :
    get k' (del k m) = get k' m := by
  induction m with
  | nil => simp [del, get]
  | cons e rest ih =>
    obtain ⟨k'', v''⟩ := e
    by_cases h1 : k'' = k
    · subst h1
      simp [del, get, Ne.symm h, ih]
    · by_cases h2 : k'' = k'
      · subst h2
        simp [del, get, h]
      · simp [del, get, h1, h2, ih]

end GoMap

/-! ## Reading after writing and deleting -/

namespace gojsonpointer

theorem arrayIndex_lt (token : String) (len n : Nat) (h : arrayIndex token len = some n) :
    n < len := by
  unfold arrayIndex at h
  split at h
  · split at h
    · cases h; assumption
    · cases h
  · cases h

theorem arrayIndex_none_of_atoi (token : String) (len : Nat) (h : strconv.Atoi token = none) :
    arrayIndex token len = none := by
  unfold arrayIndex
  rw [h]

theorem atoi_isSome_of_arrayIndex (token : String) (len n : Nat)
    (h : arrayIndex token len = some n) : (strconv.Atoi token).isNone = false := by
  cases ha : strconv.Atoi token with
  | none => rw [arrayIndex_none_of_atoi token len ha] at h; cases h
  | some i => rfl

theorem child_putChild_same (t : String) (c node node' : Value)
    (h : putChild t c node = some node') : child t node' = some c := by
  cases node with
  | map kvs =>
    simp only [putChild, Option.some.injEq] at h
    subst h
    simp only [child, GoMap.get_set_same]
  | seq xs =>
    simp only [putChild] at h
    cases hi : arrayIndex t xs.length with
    | none => rw [hi] at h; cases h
    | some n =>
      rw [hi] at h
      simp only [Option.some.injEq] at h
      subst h
      have hlt := arrayIndex_lt _ _ _ hi
      simp only [child, List.length_set, hi]
      simp [List.getElem?_set, hlt]
  | null => cases h
  | bool b => cases h
  | num n => cases h
  | str s => cases h

theorem child_putChild_other (p d : String) (c node node' : Value)
    (h : putChild d c node = some node')
    (hne : decodeReferenceToken p ≠ decodeReferenceToken d)
    (hnum : (strconv.Atoi p).isNone || (strconv.Atoi d).isNone) :
    child p node' = child p node := by
  cases node with
  | map kvs =>
    simp only [putChild, Option.some.injEq] at h
    subst h
    simp only [child, GoMap.get_set_other _ _ _ _ hne]
  | seq xs =>
    simp only [putChild] at h
    cases hi : arrayIndex d xs.length with
    | none => rw [hi] at h; cases h
    | some n =>
      rw [hi] at h
      simp only [Option.some.injEq] at h
      subst h
      have hd := atoi_isSome_of_arrayIndex _ _ _ hi
      rw [hd, Bool.or_false] at hnum
      have hp : strconv.Atoi p = none := by
        cases ha : strconv.Atoi p with
        | none => rfl
        | some i => rw [ha] at hnum; cases hnum
      simp only [child, arrayIndex_none_of_atoi _ _ hp]
  | null => cases h
  | bool b => cases h
  | num n => cases h
  | str s => cases h

theorem child_removeChild_other (p d : String) (node node' : Value)
    (h : removeChild d node = some node')
    (hne : decodeReferenceToken p ≠ decodeReferenceToken d)
    (hnum : (strconv.Atoi p).isNone || (strconv.Atoi d).isNone) :
    child p node' = child p node := by
  cases node with
  | map kvs =>
    simp only [removeChild] at h
    split at h
    · simp only [Option.some.injEq] at h
      subst h
      simp only [child, GoMap.get_del_other _ _ _ hne]
    · cases h
  | seq xs =>
    simp only [removeChild] at h
    cases hi : arrayIndex d xs.length with
    | none => rw [hi] at h; cases h
    | some n =>
      rw [hi] at h
      simp only at h
      split at h
      · simp only [Option.some.injEq] at h
        subst h
        have hd := atoi_isSome_of_arrayIndex _ _ _ hi
        rw [hd, Bool.or_false] at hnum
        have hp : strconv.Atoi p = none := by
          cases ha : strconv.Atoi p with
          | none => rfl
          | some i => rw [ha] at hnum; cases hnum
        simp only [child, arrayIndex_none_of_atoi _ _ hp]
      · cases h
  | null => cases h
  | bool b => cases h
  | num n => cases h
  | str s => cases h

end gojsonpointer

namespace gojsonpointer

theorem apartTokens_cons (p d : String) (ps ds : List String)
    (h : apartTokens (p :: ps) (d :: ds) = true) :
    (p = d ∧ apartTokens ps ds = true)
      ∨ (decodeReferenceToken p ≠ decodeReferenceToken d
          ∧ ((strconv.Atoi p).isNone || (strconv.Atoi d).isNone) = true) := by
  unfold apartTokens at h
  split at h
  · rename_i heq
    exact Or.inl ⟨heq, h⟩
  · simp only [Bool.and_eq_true, decide_eq_true_eq] at h
    exact Or.inr h

theorem apartTokens_nil_right (ps : List String) : apartTokens ps [] = false := by
  cases ps <;> rfl

theorem getTokens_setTokens_same (v : Value) (ts : List String) (t : String)
    (node node' : Value) (h : setTokens v t ts node = some node') :
    getTokens (t :: ts) node' = some v := by
  induction ts generalizing t node node' with
  | nil =>
    simp only [setTokens] at h
    simp only [getTokens, child_putChild_same _ _ _ _ h]
  | cons t' ts ih =>
    simp only [setTokens] at h
    cases hc : child t node with
    | none => rw [hc] at h; cases h
    | some c =>
      rw [hc] at h
      simp only at h
      cases hs : setTokens v t' ts c with
      | none => rw [hs] at h; cases h
      | some c' =>
        rw [hs] at h
        simp only at h
        have := ih t' c c' hs
        rw [getTokens, child_putChild_same _ _ _ _ h]
        exact this

theorem getTokens_setTokens_apart (v : Value) (ts : List String) (t : String)
    (ps : List String) (node node' : Value)
    (hapart : apartTokens ps (t :: ts) = true)
    (h : setTokens v t ts node = some node') :
    getTokens ps node' = getTokens ps node := by
  induction ts generalizing t ps node node' with
  | nil =>
    cases ps with
    | nil => cases hapart
    | cons p ps =>
      simp only [setTokens] at h
      rcases apartTokens_cons _ _ _ _ hapart with ⟨_, h2⟩ | ⟨hne, hnum⟩
      · rw [apartTokens_nil_right] at h2; cases h2
      · simp only [getTokens, child_putChild_other p t v node node' h hne hnum]
  | cons t' ts ih =>
    cases ps with
    | nil => cases hapart
    | cons p ps =>
      simp only [setTokens] at h
      cases hc : child t node with
      | none => rw [hc] at h; cases h
      | some c =>
        rw [hc] at h
        simp only at h
        cases hs : setTokens v t' ts c with
        | none => rw [hs] at h; cases h
        | some c' =>
          rw [hs] at h
          simp only at h
          rcases apartTokens_cons _ _ _ _ hapart with ⟨heq, h2⟩ | ⟨hne, hnum⟩
          · subst heq
            simp only [getTokens, child_putChild_same _ _ _ _ h, hc]
            exact ih t' ps c c' h2 hs
          · simp only [getTokens, child_putChild_other p t c' node node' h hne hnum]

theorem getTokens_deleteTokens_apart (ts : List String) (t : String)
    (ps : List String) (node node' : Value)
    (hapart : apartTokens ps (t :: ts) = true)
    (h : deleteTokens t ts node = some node') :
    getTokens ps node' = getTokens ps node := by
  induction ts generalizing t ps node node' with
  | nil =>
    cases ps with
    | nil => cases hapart
    | cons p ps =>
      simp only [deleteTokens] at h
      rcases apartTokens_cons _ _ _ _ hapart with ⟨_, h2⟩ | ⟨hne, hnum⟩
      · rw [apartTokens_nil_right] at h2; cases h2
      · simp only [getTokens, child_removeChild_other p t node node' h hne hnum]
  | cons t' ts ih =>
    cases ps with
    | nil => cases hapart
    | cons p ps =>
      simp only [deleteTokens] at h
      cases hc : child t node with
      | none => rw [hc] at h; cases h
      | some c =>
        rw [hc] at h
        simp only at h
        cases hs : deleteTokens t' ts c with
        | none => rw [hs] at h; cases h
        | some c' =>
          rw [hs] at h
          simp only at h
          rcases apartTokens_cons _ _ _ _ hapart with ⟨heq, h2⟩ | ⟨hne, hnum⟩
          · subst heq
            simp only [getTokens, child_putChild_same _ _ _ _ h, hc]
            exact ih t' ps c c' h2 hs
          · simp only [getTokens, child_putChild_other p t c' node node' h hne hnum]

/-- Reading back what `Set` wrote at a pointer that is not the root. -/
theorem Get_Set_same (ps : List String) (doc doc' v : Value) (hne : ps ≠ [])
    (h : Set ps doc v = some doc') : Get ps doc' = some v := by
  cases ps with
  | nil => exact absurd rfl hne
  | cons t ts => exact getTokens_setTokens_same v ts t doc doc' h

/-- The function `Set` leaves the value at a pointer apart from its own untouched. -/
theorem Get_Set_apart (ps ds : List String) (doc doc' v : Value)
    (hapart : apartTokens ps ds = true) (h : Set ds doc v = some doc') :
    Get ps doc' = Get ps doc := by
  cases ds with
  | nil => rw [apartTokens_nil_right] at hapart; cases hapart
  | cons t ts => exact getTokens_setTokens_apart v ts t ps doc doc' hapart h

/-- The function `Delete` leaves the value at a pointer apart from its own untouched. -/
theorem Get_Delete_apart (ps ds : List String) (doc doc' : Value)
    (hapart : apartTokens ps ds = true) (h : Delete ds doc = some doc') :
    Get ps doc' = Get ps doc := by
  cases ds with
  | nil => rw [apartTokens_nil_right] at hapart; cases hapart
  | cons t ts => exact getTokens_deleteTokens_apart ts t ps doc doc' hapart h

/-- A `Delete` whose error is ignored leaves the value at a pointer apart from
its own untouched. -/
theorem Get_Delete_getD_apart (ps ds : List String) (doc : Value)
    (hapart : apartTokens ps ds = true) :
    Get ps ((Delete ds doc).getD doc) = Get ps doc := by
  cases h : Delete ds doc with
  | none => rfl
  | some doc' => exact Get_Delete_apart ps ds doc doc' hapart h

end gojsonpointer

/-! ## Patch order -/

namespace pkg.openshift

theorem string_le_iff_data_le (a b : String) : a ≤ b ↔ a.data ≤ b.data := by
  rw [← not_lt, ← not_lt, String.lt_iff_toList_lt]
  rfl

theorem sorted_pathLe_iff (ps : List jsonPatch) :
    List.Sorted pathLe ps ↔ List.Sorted (fun a b => a.Path ≤ b.Path) ps := by
  unfold List.Sorted
  constructor
  · intro h
    exact h.imp (fun {a b} hab => (string_le_iff_data_le a.Path b.Path).2 hab)
  · intro h
    exact h.imp (fun {a b} hab => (string_le_iff_data_le a.Path b.Path).1 hab)

theorem addPatchTo_sorted (ps : List jsonPatch) (patch : jsonPatch) :
    List.Sorted pathLe (addPatchTo ps patch) :=
  List.sorted_insertionSort _ _

theorem addPatchTo_perm (ps : List jsonPatch) (patch : jsonPatch) :
    (addPatchTo ps patch).Perm (ps ++ [patch]) :=
  List.perm_insertionSort _ _

theorem step_sorted (c : Change) (entry : String × jsonPatch)
    (h : List.Sorted pathLe c.Patches) : List.Sorted pathLe (NewChange.step c entry).Patches := by
  unfold NewChange.step
  split
  · exact addPatchTo_sorted _ _
  · exact h

theorem foldl_step_sorted (comparison : List (String × jsonPatch)) (c : Change)
    (h : List.Sorted pathLe c.Patches) :
    List.Sorted pathLe (comparison.foldl NewChange.step c).Patches := by
  induction comparison generalizing c with
  | nil => exact h
  | cons e rest ih => exact ih _ (step_sorted c e h)

/-- C4. For every comparison map the patches of the change built by
`NewChange` are sorted ascending by path, and `addPatch` leaves the patch list
sorted ascending by path (it holds the old patches and the new one), whether
or not the list was sorted before. -/
theorem patches_sorted_by_path (marshal : Value → String) (templateItem platformItem : ResourceItem)
    (comparison : List (String × jsonPatch)) (c : Change) (patch : jsonPatch) :
    List.Sorted (fun a b => a.Path ≤ b.Path)
        (NewChange marshal templateItem platformItem comparison).Patches
      ∧ List.Sorted (fun a b => a.Path ≤ b.Path) (c.addPatch patch).Patches
      ∧ (c.addPatch patch).Patches.Perm (c.Patches ++ [patch]) := by
  refine ⟨?_, ?_, ?_⟩
  · rw [← sorted_pathLe_iff]
    have h := foldl_step_sorted comparison
      { Action := "", Kind := templateItem.Kind, Name := templateItem.Name, Patches := [],
        CurrentState := platformItem.YamlConfig marshal,
        DesiredState := templateItem.YamlConfig marshal } List.sorted_nil
    unfold NewChange
    simp only
    split <;> exact h
  · rw [← sorted_pathLe_iff]
    exact addPatchTo_sorted _ _
  · exact addPatchTo_perm _ _

end pkg.openshift

/-! ## The recreate pair -/

namespace openshift

open pkg.openshift (jsonPatch Change addPatchTo)

end openshift

/-! ## The differ on concrete drift -/

namespace openshift

open pkg.openshift (jsonPatch Change addPatchTo)

/-- C2. Desired `data: s` against current `data: {x: "1"}` (config map `foo`):
`ChangesFrom` returns one `Update` with the patches `replace /data`,
`remove /data/x`; applied in this order to the current `Config` the second one
fails, because `/data` is no longer a mapping. -/
theorem update_patches_fail_to_apply :
    (examples.templateItem (examples.configMap (Value.str "s"))).ChangesFrom
        examples.showNothing
        (examples.platformItem (examples.configMap (Value.map [("x", Value.str "1")]))) []
      = .ok [ { Action := "Update", Kind := "ConfigMap", Name := "foo",
                Patches := [ ⟨"replace", "/data", Value.str "s"⟩,
                             ⟨"remove", "/data/x", Value.null⟩ ],
                CurrentState := "", DesiredState := "" } ]
      ∧ jsonpatch.applyAll
          [ ⟨"replace", "/data", Value.str "s"⟩, ⟨"remove", "/data/x", Value.null⟩ ]
          (examples.platformItem (examples.configMap (Value.map [("x", Value.str "1")]))).Config
        = none :=
  ⟨rfl, rfl⟩

/-- C3. Desired `data: s` against current `data: {x: "1"}`: the emitted patches
are `replace /data` and `remove /data/x`, and `/data` is a prefix of
`/data/x`. -/
theorem replace_is_prefix_of_remove :
    ((examples.templateItem (examples.configMap (Value.str "s"))).ChangesFrom
        examples.showNothing
        (examples.platformItem (examples.configMap (Value.map [("x", Value.str "1")]))) []
      = .ok [ { Action := "Update", Kind := "ConfigMap", Name := "foo",
                Patches := [ ⟨"replace", "/data", Value.str "s"⟩,
                             ⟨"remove", "/data/x", Value.null⟩ ],
                CurrentState := "", DesiredState := "" } ])
      ∧ utils.isPointerPrefix "/data" "/data/x" = true :=
  ⟨rfl, rfl⟩

/-- C5. A persistent volume claim whose `storageClassName` is present on the
platform only: `/spec/storageClassName` is an immutable field of the kind, and
`ChangesFrom` returns one `Update` with a `remove` patch at that pointer. -/
theorem remove_at_immutable_field_updates :
    (examples.templateItem (examples.pvc "5Gi" [Value.str "ReadWriteOnce"] [])).isImmutableField
        "/spec/storageClassName" = true
      ∧ (examples.templateItem (examples.pvc "5Gi" [Value.str "ReadWriteOnce"] [])).ChangesFrom
          examples.showStorage
          (examples.platformItem (examples.pvc "5Gi" [Value.str "ReadWriteOnce"]
            [("storageClassName", Value.str "gp2")])) []
        = .ok [ { Action := "Update", Kind := "PersistentVolumeClaim", Name := "foo",
                  Patches := [⟨"remove", "/spec/storageClassName", Value.null⟩],
                  CurrentState := "5Gi", DesiredState := "5Gi" } ] :=
  ⟨rfl, rfl⟩

/-- C6. Two persistent volume claims that differ in the element of
`/spec/accessModes` only: the pointer is an immutable field of the kind and
present in both items, and `ChangesFrom` returns one `Update` that replaces
`/spec/accessModes/0`. -/
theorem changed_access_modes_update :
    (examples.templateItem (examples.pvc "5Gi" [Value.str "ReadWriteOnce"] [])).isImmutableField
        "/spec/accessModes" = true
      ∧ (examples.templateItem (examples.pvc "5Gi" [Value.str "ReadWriteOnce"] [])).ChangesFrom
          examples.showStorage
          (examples.platformItem (examples.pvc "5Gi" [Value.str "ReadWriteMany"] [])) []
        = .ok [ { Action := "Update", Kind := "PersistentVolumeClaim", Name := "foo",
                  Patches := [⟨"replace", "/spec/accessModes/0", Value.str "ReadWriteOnce"⟩],
                  CurrentState := "5Gi", DesiredState := "5Gi" } ] :=
  ⟨rfl, rfl⟩

end openshift

/-! ## Identity extraction -/

namespace pkg.openshift

theorem massagePaths_ok_of_no_image (source : String) (paths : List String) (pathIndex : Nat)
    (config : Value) (deleted : List Nat) (fields : List (String × String))
    (hsrc : source ≠ "template") :
    ∃ r, massagePaths source paths pathIndex config deleted fields = .ok r := by
  induction paths generalizing pathIndex config deleted with
  | nil => exact ⟨_, rfl⟩
  | cons path rest ih =>
    have h2 : (source == "template" && regexp.matchContainerImage path) = false := by
      simp [hsrc]
    simp only [massagePaths, h2]
    simp only [Bool.false_eq_true, if_false]
    exact ih (pathIndex + 1) _ _

theorem massagePaths_ok_template (paths : List String) (pathIndex : Nat)
    (config : Value) (deleted : List Nat) (fields : List (String × String))
    (hTrig : ∀ path ∈ paths, regexp.matchLastTriggeredImage path = false)
    (hStr : ∀ path ∈ paths, regexp.matchContainerImage path = true →
      (stringAt path config).isSome = true) :
    ∃ r, massagePaths "template" paths pathIndex config deleted fields = .ok r := by
  induction paths generalizing pathIndex fields with
  | nil => exact ⟨_, rfl⟩
  | cons path rest ih =>
    have h1 : regexp.matchLastTriggeredImage path = false := hTrig path (List.mem_cons_self _ _)
    have ih' := fun i f => ih i f (fun p hp => hTrig p (List.mem_cons_of_mem _ hp))
      (fun p hp => hStr p (List.mem_cons_of_mem _ hp))
    simp only [massagePaths, h1, beq_self_eq_true, Bool.true_and, Bool.false_eq_true, if_false]
    by_cases hm : regexp.matchContainerImage path = true
    · have hs := hStr path (List.mem_cons_self _ _) hm
      simp only [hm, if_true]
      unfold stringAt at hs
      cases hp : gojsonpointer.NewJsonPointer path with
      | none => rw [hp] at hs; cases hs
      | some p =>
        rw [hp] at hs
        simp only at hs ⊢
        cases hg : gojsonpointer.Get p config with
        | none => rw [hg] at hs; cases hs
        | some v =>
          rw [hg] at hs
          simp only at hs ⊢
          cases hv : v.asString with
          | none => rw [hv] at hs; cases hs
          | some str => exact ih' _ _
    · simp only [hm, Bool.false_eq_true, if_false]
      exact ih' _ _

theorem parseConfig_ok_identity (unmarshal : String → Option (List (String × String)))
    (source : String) (m : List (String × Value)) (item : ResourceItem)
    (h : parseConfig unmarshal source m = .ok item) :
    gojsonpointer.Get (openshift.pointerOf "/kind") (Value.map m) = some (Value.str item.Kind)
      ∧ gojsonpointer.Get (openshift.pointerOf "/metadata/name") (Value.map m)
          = some (Value.str item.Name) := by
  unfold parseConfig at h
  simp only at h
  split at h
  · cases h
  · rename_i kind hkind
    split at h
    · cases h
    · rename_i kindS hkindS
      split at h
      · cases h
      · rename_i name hname
        split at h
        · cases h
        · rename_i nameS hnameS
          have hk : kind = Value.str kindS := by
            cases kind <;> simp [Value.asString] at hkindS
            subst hkindS; rfl
          have hn : name = Value.str nameS := by
            cases name <;> simp [Value.asString] at hnameS
            subst hnameS; rfl
          split at h
          · cases h
          · split at h
            · cases h
            · simp only [Outcome.bind] at h
              split at h
              · split at h
                · split at h
                  · cases h
                    exact ⟨by rw [hkind, hk], by rw [hname, hn]⟩
                  · cases h
                  · cases h
                · cases h
                · cases h
              · cases h
              · cases h

theorem parseConfig_ok_of_wellformed (unmarshal : String → Option (List (String × String)))
    (source : String) (m : List (String × Value)) (k n : String)
    (hk : gojsonpointer.Get (openshift.pointerOf "/kind") (Value.map m) = some (Value.str k))
    (hn : gojsonpointer.Get (openshift.pointerOf "/metadata/name") (Value.map m)
      = some (Value.str n))
    (hl : absentOrMapping "/metadata/labels" m)
    (ha : absentOrMapping "/metadata/annotations" m)
    (hplat : source = "platform" →
      gojsonpointer.Get (openshift.pointerOf tailorManagedAnnotationPath) (Value.map m) = none
        ∧ gojsonpointer.Get (openshift.pointerOf tailorAppliedConfigAnnotationPath) (Value.map m)
            = none)
    (htmpl : source = "template" → ∀ path ∈ walkedPaths m,
      regexp.matchLastTriggeredImage path = false
        ∧ (regexp.matchContainerImage path = true →
            (stringAt path (strippedTree m)).isSome = true)) :
    ∃ item, parseConfig unmarshal source m = .ok item ∧ item.Kind = k ∧ item.Name = n := by
  have hp1 : gojsonpointer.NewJsonPointer tailorManagedAnnotationPath
      = some (openshift.pointerOf tailorManagedAnnotationPath) := rfl
  have hp2 : gojsonpointer.NewJsonPointer tailorAppliedConfigAnnotationPath
      = some (openshift.pointerOf tailorAppliedConfigAnnotationPath) := rfl
  obtain ⟨labels, hlabels⟩ : ∃ labels, (match gojsonpointer.Get
      (openshift.pointerOf "/metadata/labels") (Value.map m) with
      | none => some []
      | some labels => labels.asMap) = some labels := by
    rcases hl with h | ⟨kvs, h⟩
    · exact ⟨[], by rw [h]⟩
    · exact ⟨kvs, by rw [h]; rfl⟩
  obtain ⟨ann, hann⟩ : ∃ ann : Bool × List (String × Value), (match gojsonpointer.Get
      (openshift.pointerOf "/metadata/annotations") (Value.map m) with
      | none => some (false, [])
      | some annotations => annotations.asMap.map (fun a => (true, a))) = some ann := by
    rcases ha with h | ⟨kvs, h⟩
    · exact ⟨(false, []), by rw [h]⟩
    · exact ⟨(true, kvs), by rw [h]; rfl⟩
  unfold parseConfig
  simp only [hk, hn, Value.asString, hlabels, hann]
  by_cases hs : source = "platform"
  · obtain ⟨h1, h2⟩ := hplat hs
    have hne : source ≠ "template" := by rw [hs]; decide
    obtain ⟨r, hr⟩ := massagePaths_ok_of_no_image source (walkedPaths m) 0
      (strippedTree m) [] [] hne
    simp only [managedAnnotations, appliedConfig, hs, hp1, hp2, h1, h2, Outcome.bind,
      beq_self_eq_true, if_true]
    rw [hs] at hr
    unfold walkedPaths strippedTree at hr
    simp only [hr]
    exact ⟨_, rfl, rfl, rfl⟩
  · have hb : (source == "platform") = false := by simp [hs]
    obtain ⟨r, hr⟩ : ∃ r, massagePaths source (walkedPaths m) 0 (strippedTree m) [] [] = .ok r := by
      by_cases ht : source = "template"
      · rw [ht]
        exact massagePaths_ok_template _ _ _ _ _ (fun p hp => (htmpl ht p hp).1)
          (fun p hp => (htmpl ht p hp).2)
      · exact massagePaths_ok_of_no_image _ _ _ _ _ _ ht
    simp only [managedAnnotations, hb, Outcome.bind, Bool.false_eq_true, if_false]
    unfold walkedPaths strippedTree at hr
    simp only [hr]
    exact ⟨_, rfl, rfl, rfl⟩

end pkg.openshift

/-! ## Pointers of the stripped fields -/

namespace strings

theorem splitChars_append_sep (c : Char) (w r : List Char) (hw : c ∉ w) :
    splitChars c (w ++ c :: r) = w :: splitChars c r := by
  induction w with
  | nil => simp [splitChars]
  | cons x w ih =>
    have hx : x ≠ c := fun h => hw (by simp [h])
    have hw' : c ∉ w := fun h => hw (List.mem_cons_of_mem _ h)
    have ih' := ih hw'
    rw [List.cons_append, splitChars, if_neg hx, ih']

end strings

namespace gojsonpointer

theorem apartTokens_append_right (ps ds rest : List String) (h : apartTokens ps ds = true) :
    apartTokens ps (ds ++ rest) = true := by
  induction ds generalizing ps with
  | nil => rw [apartTokens_nil_right] at h; cases h
  | cons d ds ih =>
    cases ps with
    | nil => cases h
    | cons p ps =>
      rcases apartTokens_cons _ _ _ _ h with ⟨heq, h2⟩ | ⟨hne, hnum⟩
      · subst heq
        simp only [List.cons_append, apartTokens, if_true]
        exact ih ps h2
      · have hpd : p ≠ d := fun e => hne (by rw [e])
        simp only [List.cons_append, apartTokens, hpd, if_false, Bool.and_eq_true,
          decide_eq_true_eq]
        exact ⟨hne, hnum⟩

theorem apart_iff (p q : String) (h : apart p q = true) :
    ∃ ps qs, NewJsonPointer p = some ps ∧ NewJsonPointer q = some qs
      ∧ apartTokens ps qs = true := by
  unfold apart at h
  split at h
  · rename_i ps qs hp hq
    exact ⟨ps, qs, hp, hq, h⟩
  · cases h

theorem pointerOf_of_NewJsonPointer (q : String) (qs : List String)
    (h : NewJsonPointer q = some qs) : openshift.pointerOf q = qs := by
  unfold openshift.pointerOf
  rw [h]
  rfl

theorem pointerOf_lastTriggeredImage (path : String)
    (h : regexp.matchLastTriggeredImage path = true) :
    ∃ rest, openshift.pointerOf path = "spec" :: "triggers" :: rest := by
  unfold regexp.matchLastTriggeredImage at h
  simp only [Bool.and_eq_true] at h
  obtain ⟨h1, _⟩ := h
  rw [List.isPrefixOf_iff_prefix] at h1
  obtain ⟨r, hr⟩ := h1
  have hdata : path.data = '/' :: (['s', 'p', 'e', 'c'] ++ '/' ::
      (['t', 'r', 'i', 'g', 'g', 'e', 'r', 's'] ++ '/' :: r)) := by
    rw [← hr]; rfl
  refine ⟨(strings.splitChars '/' r).map String.mk, ?_⟩
  unfold openshift.pointerOf NewJsonPointer
  rw [hdata]
  simp only
  rw [strings.splitChars_append_sep _ _ _ (by decide),
    strings.splitChars_append_sep _ _ _ (by decide)]
  rfl

end gojsonpointer

namespace pkg.openshift

open gojsonpointer

theorem replayAppliedConfig_apart (P : String) (ps : List String)
    (hP : NewJsonPointer P = some ps) (fields : List (String × String)) (m m' : Value)
    (hfields : ∀ e ∈ fields, apart P e.1 = true)
    (h : replayAppliedConfig fields m = .ok m') : Get ps m' = Get ps m := by
  induction fields generalizing m with
  | nil =>
    simp only [replayAppliedConfig, Outcome.ok.injEq] at h
    rw [h]
  | cons e rest ih =>
    obtain ⟨k, v⟩ := e
    obtain ⟨ps', qs, h1, h2, h3⟩ := apart_iff _ _ (hfields (k, v) (List.mem_cons_self _ _))
    rw [hP] at h1
    cases h1
    simp only [replayAppliedConfig, h2] at h
    cases hs : Set qs m (Value.str v) with
    | none => rw [hs] at h; cases h
    | some m1 =>
      rw [hs] at h
      simp only at h
      rw [ih m1 (fun e he => hfields e (List.mem_cons_of_mem _ he)) h]
      exact Get_Set_apart _ _ _ _ _ h3 hs

theorem deleteFields_apart (P : String) (ps : List String)
    (hP : NewJsonPointer P = some ps) (fields : List String) (m : Value)
    (hfields : ∀ q ∈ fields, apart P q = true) :
    Get ps (openshift.deleteFields m fields) = Get ps m := by
  induction fields generalizing m with
  | nil => rfl
  | cons q rest ih =>
    obtain ⟨ps', qs, h1, h2, h3⟩ := apart_iff _ _ (hfields q (List.mem_cons_self _ _))
    rw [hP] at h1
    cases h1
    simp only [openshift.deleteFields]
    rw [ih _ (fun e he => hfields e (List.mem_cons_of_mem _ he)),
      pointerOf_of_NewJsonPointer q qs h2]
    exact Get_Delete_getD_apart _ _ _ h3

theorem massagePaths_platform_apart (ps : List String)
    (hps : apartTokens ps ["spec", "triggers"] = true)
    (paths : List String) (pathIndex : Nat) (config : Value) (deleted : List Nat)
    (fields : List (String × String)) (r : Value × List Nat × List (String × String))
    (h : massagePaths "platform" paths pathIndex config deleted fields = .ok r) :
    Get ps r.1 = Get ps config := by
  induction paths generalizing pathIndex config deleted with
  | nil =>
    simp only [massagePaths, Outcome.ok.injEq] at h
    rw [← h]
  | cons path rest ih =>
    have hsrc : (("platform" : String) == "template") = false := by decide
    simp only [massagePaths, hsrc, Bool.false_and, Bool.false_eq_true, if_false] at h
    rw [ih _ _ _ h]
    by_cases hm : regexp.matchLastTriggeredImage path = true
    · simp only [hm, if_true]
      obtain ⟨tail, htail⟩ := pointerOf_lastTriggeredImage path hm
      rw [htail]
      exact Get_Delete_getD_apart _ _ _
        (apartTokens_append_right ps ["spec", "triggers"] tail hps)
    · have hm' : regexp.matchLastTriggeredImage path = false := by
        cases hb : regexp.matchLastTriggeredImage path with
        | false => rfl
        | true => exact absurd hb hm
      simp only [hm', Bool.false_eq_true, if_false]

theorem managedAnnotations_platform_apart (ps : List String)
    (hps : apartTokens ps (openshift.pointerOf tailorManagedAnnotationPath) = true)
    (ann : List (String × Value)) (m : Value) (managed : List String) (m1 : Value)
    (ann1 : List (String × Value))
    (h : managedAnnotations "platform" ann m = .ok (managed, m1, ann1)) :
    Get ps m1 = Get ps m := by
  have hp1 : NewJsonPointer tailorManagedAnnotationPath
      = some (openshift.pointerOf tailorManagedAnnotationPath) := rfl
  unfold managedAnnotations at h
  simp only [beq_self_eq_true, if_true, hp1] at h
  split at h
  · simp only [Outcome.ok.injEq, Prod.mk.injEq] at h
    rw [← h.2.1]
  · split at h
    · cases h
    · split at h
      · cases h
      · rename_i m' hdel
        simp only [Outcome.ok.injEq, Prod.mk.injEq] at h
        rw [← h.2.1]
        exact Get_Delete_apart _ _ _ _ hps hdel

end pkg.openshift

/-! ## Errors of the applied-config replay -/

namespace pkg.openshift

open gojsonpointer

end pkg.openshift

/-! ## The differ on two items with the same content -/

namespace GoMap

variable {β : Type}

theorem has_set_same (k : String) (v : β) (m : List (String × β)) :
    has k (set k v m) = true := by
  simp [has, get_set_same]

theorem has_set_of_has (k k' : String) (v : β) (m : List (String × β))
    (h : has k' m = true) : has k' (set k v m) = true := by
  by_cases hk : k' = k
  · subst hk; exact has_set_same _ _ _
  · unfold has at h ⊢
    rw [get_set_other _ _ _ _ hk]
    exact h

theorem mem_set (k : String) (v : β) (m : List (String × β)) (e : String × β)
    (h : e ∈ set k v m) : e ∈ m ∨ e = (k, v) := by
  induction m with
  | nil =>
    simp only [set, List.mem_singleton] at h
    exact Or.inr h
  | cons x rest ih =>
    obtain ⟨k', v'⟩ := x
    simp only [set] at h
    split at h
    · rcases List.mem_cons.1 h with h1 | h1
      · exact Or.inr h1
      · exact Or.inl (List.mem_cons_of_mem _ h1)
    · rcases List.mem_cons.1 h with h1 | h1
      · exact Or.inl (by rw [h1]; exact List.mem_cons_self _ _)
      · rcases ih h1 with h2 | h2
        · exact Or.inl (List.mem_cons_of_mem _ h2)
        · exact Or.inr h2

end GoMap

namespace Value

theorem scalarEq_self (v : Value) (h : v.isComposite = false) : v.scalarEq v = true := by
  cases v <;> simp [scalarEq, isComposite] at h ⊢

end Value

namespace openshift

open pkg.openshift (jsonPatch Change addPatchTo)

theorem compareTemplatePaths_same (T P : ResourceItem) (hcfg : T.Config = P.Config)
    (paths : List String) (comparison : List (String × jsonPatch))
    (hres : ∀ p ∈ paths, (gojsonpointer.Get (pointerOf p) P.Config).isSome = true) :
    compareTemplatePaths T P paths (comparison, [])
      = some (noopsOver paths comparison, []) := by
  induction paths generalizing comparison with
  | nil => rfl
  | cons path rest ih =>
    have hr := hres path (List.mem_cons_self _ _)
    have ih' := fun c => ih c (fun p hp => hres p (List.mem_cons_of_mem _ hp))
    cases hg : gojsonpointer.Get (pointerOf path) P.Config with
    | none => rw [hg] at hr; cases hr
    | some v =>
      have hv : valueAt path T.Config = v := by
        unfold valueAt
        rw [hcfg, hg]
        rfl
      simp only [compareTemplatePaths, utils.IncludesPrefix, List.any_nil, Bool.false_eq_true,
        if_false, hg, hv]
      by_cases hc : v.isComposite = true
      · simp only [hc, if_true]
        exact ih' _
      · have hc' : v.isComposite = false := by
          cases hb : v.isComposite with
          | false => rfl
          | true => exact absurd hb hc
        simp only [hc', Bool.false_eq_true, if_false, Value.scalarEq_self v hc', if_true]
        exact ih' _

theorem has_noopsOver (paths : List String) (comparison : List (String × jsonPatch))
    (p : String) (h : p ∈ paths ∨ GoMap.has p comparison = true) :
    GoMap.has p (noopsOver paths comparison) = true := by
  induction paths generalizing comparison with
  | nil =>
    rcases h with h | h
    · cases h
    · exact h
  | cons q rest ih =>
    simp only [noopsOver, List.foldl_cons]
    apply ih
    rcases h with h | h
    · rcases List.mem_cons.1 h with h1 | h1
      · exact Or.inr (by rw [h1]; exact GoMap.has_set_same _ _ _)
      · exact Or.inl h1
    · exact Or.inr (GoMap.has_set_of_has _ _ _ _ h)

theorem noopsOver_all_noop (paths : List String) (comparison : List (String × jsonPatch))
    (h : ∀ e ∈ comparison, e.2.Op = "noop") :
    ∀ e ∈ noopsOver paths comparison, e.2.Op = "noop" := by
  induction paths generalizing comparison with
  | nil => exact h
  | cons q rest ih =>
    simp only [noopsOver, List.foldl_cons]
    apply ih
    intro e he
    rcases GoMap.mem_set _ _ _ _ he with h1 | h1
    · exact h e h1
    · rw [h1]

theorem removePlatformPaths_of_has (paths : List String) (comparison : List (String × jsonPatch))
    (deleted : List String) (h : ∀ p ∈ paths, GoMap.has p comparison = true) :
    removePlatformPaths paths (comparison, deleted) = (comparison, deleted) := by
  induction paths with
  | nil => rfl
  | cons p rest ih =>
    simp only [removePlatformPaths, h p (List.mem_cons_self _ _), if_true]
    exact ih (fun q hq => h q (List.mem_cons_of_mem _ hq))

theorem collectPatches_all_noop (comparison : List (String × jsonPatch))
    (h : ∀ e ∈ comparison, e.2.Op = "noop") : collectPatches comparison = [] := by
  unfold collectPatches
  suffices hs : ∀ (acc : List jsonPatch), comparison.foldl
      (fun patches entry =>
        if entry.2.Op != "noop" then AddPatch patches { entry.2 with Path := entry.1 }
        else patches) acc = acc from hs []
  induction comparison with
  | nil => intro acc; rfl
  | cons e rest ih =>
    intro acc
    have he : (e.2.Op != "noop") = false := by
      simp [h e (List.mem_cons_self _ _)]
    simp only [List.foldl_cons, he, Bool.false_eq_true, if_false]
    exact ih (fun x hx => h x (List.mem_cons_of_mem _ hx)) acc

theorem massageAPIVersion_same (P T : ResourceItem) (s : String)
    (hT : valueAt "/apiVersion" T.Config = Value.str s)
    (hP : valueAt "/apiVersion" P.Config = Value.str s) :
    massageAPIVersion P T = .ok P := by
  unfold massageAPIVersion
  simp only [hT, hP, Value.asString]
  by_cases hs : s = "v1"
  · subst hs
    have : strings.HasSuffix "v1" "/v1" = false := by decide
    simp [this]
  · simp [hs]

/-- The differ finds nothing to do on two items with the same `Config` and
`Paths`, when every path resolves, `apiVersion` is a string and no annotation
of the platform item is unmanaged. -/
theorem ChangesFrom_same (marshal : Value → String) (T P : ResourceItem) (s : String)
    (hcfg : T.Config = P.Config) (hpaths : T.Paths = P.Paths)
    (hres : ∀ p ∈ P.Paths, (gojsonpointer.Get (pointerOf p) P.Config).isSome = true)
    (hapi : valueAt "/apiVersion" P.Config = Value.str s)
    (hann : unmanagedAnnotations P T = []) :
    T.ChangesFrom marshal P []
      = .ok [ { Action := "Noop", Kind := T.Kind, Name := T.Name, Patches := [],
                CurrentState := marshal P.Config, DesiredState := marshal T.Config } ] := by
  have hapiT : valueAt "/apiVersion" T.Config = Value.str s := by rw [hcfg]; exact hapi
  unfold ResourceItem.ChangesFrom
  simp only [prepareForComparisonWithPlatformItem, Outcome.bind,
    prepareForComparisonWithTemplateItem, hann, deleteUnmanaged,
    massageAPIVersion_same P T s hapiT hapi]
  rw [hpaths, compareTemplatePaths_same T P hcfg P.Paths [] hres]
  simp only
  rw [removePlatformPaths_of_has _ _ _ (fun p hp => has_noopsOver _ _ p (Or.inl hp))]
  simp only
  rw [collectPatches_all_noop _ (noopsOver_all_noop _ [] (fun e he => nomatch he))]
  rfl

end openshift

/-! ## Tokens written by the walk -/

namespace gojsonpointer

theorem unescapeSlash_cons_ne (c : Char) (rest : List Char) (h : c ≠ '~') :
    unescapeSlash (c :: rest) = c :: unescapeSlash rest := by
  rw [unescapeSlash]
  intro r heq _
  exact h heq

theorem unescapeTilde_cons_ne (c : Char) (rest : List Char) (h : c ≠ '~') :
    unescapeTilde (c :: rest) = c :: unescapeTilde rest := by
  rw [unescapeTilde]
  intro r heq _
  exact h heq

theorem unescapeSlash_tilde_zero (rest : List Char) :
    unescapeSlash ('~' :: '0' :: rest) = '~' :: '0' :: unescapeSlash rest := by
  rw [unescapeSlash]
  · rw [unescapeSlash_cons_ne '0' rest (by decide)]
  · intro r _ heq
    simp at heq

theorem decode_escape_chars (cs : List Char) :
    unescapeTilde (unescapeSlash (cs.flatMap utils.escapeChar)) = cs := by
  induction cs with
  | nil => rfl
  | cons c rest ih =>
    rw [List.flatMap_cons]
    by_cases h1 : c = '~'
    · subst h1
      have : utils.escapeChar '~' = ['~', '0'] := rfl
      rw [this]
      show unescapeTilde (unescapeSlash ('~' :: '0' :: rest.flatMap utils.escapeChar)) = _
      rw [unescapeSlash_tilde_zero, unescapeTilde, ih]
    · by_cases h2 : c = '/'
      · subst h2
        have : utils.escapeChar '/' = ['~', '1'] := rfl
        rw [this]
        show unescapeTilde (unescapeSlash ('~' :: '1' :: rest.flatMap utils.escapeChar)) = _
        rw [unescapeSlash, unescapeTilde_cons_ne _ _ (by decide), ih]
      · have : utils.escapeChar c = [c] := by simp [utils.escapeChar, h1, h2]
        rw [this]
        show unescapeTilde (unescapeSlash (c :: rest.flatMap utils.escapeChar)) = _
        rw [unescapeSlash_cons_ne _ _ h1, unescapeTilde_cons_ne _ _ h1, ih]

/-- Decoding undoes the escaping of a key. -/
theorem decode_escape (k : String) : decodeReferenceToken (utils.JSONPointerPath k) = k := by
  unfold decodeReferenceToken utils.JSONPointerPath
  simp only [decode_escape_chars]

theorem escape_no_slash (k : String) : '/' ∉ (utils.JSONPointerPath k).data := by
  unfold utils.JSONPointerPath
  simp only [List.mem_flatMap, not_exists, not_and]
  intro c _ hc
  unfold utils.escapeChar at hc
  split at hc
  · simp at hc
  · split at hc
    · simp at hc
    · rename_i h2
      simp only [List.mem_singleton] at hc
      exact h2 hc.symm

end gojsonpointer

/-! ## Slice indices as tokens -/

namespace strconv

theorem digitVal_digitChar (k : Nat) (h : k < 10) : digitVal (Nat.digitChar k) = some k := by
  interval_cases k <;> rfl

theorem readDigits_append (xs ys : List Char) (a : Nat) :
    readDigits (xs ++ ys) a
      = match readDigits xs a with
        | some b => readDigits ys b
        | none => none := by
  induction xs generalizing a with
  | nil => rfl
  | cons c xs ih =>
    simp only [List.cons_append, readDigits]
    cases digitVal c with
    | none => rfl
    | some d => exact ih _

theorem toDigitsCore_spec (fuel n : Nat) (acc : List Char) (h : n < fuel) :
    ∃ ds, Nat.toDigitsCore 10 fuel n acc = ds ++ acc
      ∧ ds ≠ []
      ∧ (∀ c ∈ ds, (digitVal c).isSome = true)
      ∧ ∀ a, readDigits ds a = some (a * 10 ^ ds.length + n) := by
  induction fuel generalizing n acc with
  | zero => omega
  | succ fuel ih =>
    have hmod : n % 10 < 10 := Nat.mod_lt _ (by decide)
    simp only [Nat.toDigitsCore]
    by_cases h0 : n / 10 = 0
    · simp only [h0, if_true]
      refine ⟨[Nat.digitChar (n % 10)], rfl, by simp, ?_, ?_⟩
      · intro c hc
        simp only [List.mem_singleton] at hc
        rw [hc, digitVal_digitChar _ hmod]
        rfl
      · intro a
        simp only [readDigits, digitVal_digitChar _ hmod, List.length_singleton, pow_one]
        congr 1
        omega
    · simp only [h0, if_false]
      have hlt : n / 10 < fuel := by omega
      obtain ⟨ds, h1, h2, h3, h4⟩ := ih (n / 10) (Nat.digitChar (n % 10) :: acc) hlt
      refine ⟨ds ++ [Nat.digitChar (n % 10)], ?_, by simp, ?_, ?_⟩
      · rw [h1]; simp
      · intro c hc
        rcases List.mem_append.1 hc with hc | hc
        · exact h3 c hc
        · simp only [List.mem_singleton] at hc
          rw [hc, digitVal_digitChar _ hmod]
          rfl
      · intro a
        rw [readDigits_append, h4 a]
        simp only [readDigits, digitVal_digitChar _ hmod, List.length_append,
          List.length_singleton, pow_succ]
        congr 1
        have := Nat.div_add_mod n 10
        nlinarith [this]

theorem digitVal_ne_sign (c : Char) (h : (digitVal c).isSome = true) :
    c ≠ '+' ∧ c ≠ '-' ∧ c ≠ '~' ∧ c ≠ '/' := by
  refine ⟨?_, ?_, ?_, ?_⟩ <;> (intro e; subst e; revert h; decide)

/-- The function `Atoi` reads back what `Itoa` wrote. -/
theorem Atoi_Itoa (n : Nat) : Atoi (Itoa n) = some (Int.ofNat n) := by
  obtain ⟨ds, h1, h2, h3, h4⟩ := toDigitsCore_spec (n + 1) n [] (Nat.lt_succ_self n)
  have hd : (Itoa n).data = ds := by
    unfold Itoa Nat.toDigits
    rw [h1]; simp
  have hr := h4 0
  simp only [Nat.zero_mul, Nat.zero_add] at hr
  unfold Atoi
  rw [hd]
  cases ds with
  | nil => exact absurd rfl h2
  | cons c cs =>
    have hc := digitVal_ne_sign c (h3 c (List.mem_cons_self _ _))
    split
    · rename_i heq; cases heq
    · rename_i heq; cases heq; exact absurd rfl hc.1
    · rename_i heq; cases heq; exact absurd rfl hc.2.1
    · rename_i heq; cases heq; exact absurd rfl hc.1
    · rename_i heq; cases heq; exact absurd rfl hc.2.1
    · rw [hr]; rfl

/-- The digits of an index need no escaping. -/
theorem escape_Itoa (n : Nat) : utils.JSONPointerPath (Itoa n) = Itoa n := by
  obtain ⟨ds, h1, _, h3, _⟩ := toDigitsCore_spec (n + 1) n [] (Nat.lt_succ_self n)
  have hd : (Itoa n).data = ds := by
    unfold Itoa Nat.toDigits
    rw [h1]; simp
  have hflat : ∀ cs : List Char, (∀ c ∈ cs, (digitVal c).isSome = true) →
      cs.flatMap utils.escapeChar = cs := by
    intro cs
    induction cs with
    | nil => intro _; rfl
    | cons c cs ih =>
      intro hcs
      have hc := digitVal_ne_sign c (hcs c (List.mem_cons_self _ _))
      have : utils.escapeChar c = [c] := by simp [utils.escapeChar, hc.2.2.1, hc.2.2.2]
      rw [List.flatMap_cons, this, ih (fun x hx => hcs x (List.mem_cons_of_mem _ hx))]
      rfl
  unfold utils.JSONPointerPath
  rw [hd, hflat ds h3, ← hd]

end strconv

namespace gojsonpointer

theorem arrayIndex_Itoa (n len : Nat) (h : n < len) :
    arrayIndex (strconv.Itoa n) len = some n := by
  unfold arrayIndex
  rw [strconv.Atoi_Itoa]
  simp [h]

end gojsonpointer

/-! ## The walked paths resolve -/

namespace strings

theorem splitChars_ne_nil (c : Char) (w : List Char) : splitChars c w ≠ [] := by
  cases w with
  | nil => simp [splitChars]
  | cons x w =>
    simp only [splitChars]
    split
    · simp
    · split <;> simp

theorem splitChars_no_sep (c : Char) (w : List Char) (hw : c ∉ w) : splitChars c w = [w] := by
  induction w with
  | nil => rfl
  | cons x w ih =>
    have hx : x ≠ c := fun h => hw (by simp [h])
    have hw' : c ∉ w := fun h => hw (List.mem_cons_of_mem _ h)
    rw [splitChars, if_neg hx, ih hw']

theorem splitChars_append (c : Char) (a b : List Char) :
    splitChars c (a ++ c :: b) = splitChars c a ++ splitChars c b := by
  induction a with
  | nil => simp [splitChars]
  | cons x a ih =>
    by_cases hx : x = c
    · rw [List.cons_append, splitChars, if_pos hx, ih, splitChars, if_pos hx]
      rfl
    · rw [List.cons_append, splitChars, if_neg hx, ih, splitChars, if_neg hx]
      cases hs : splitChars c a with
      | nil => exact absurd hs (splitChars_ne_nil c a)
      | cons h t => rfl

end strings

namespace gojsonpointer

theorem NewJsonPointer_append (ptr e : String) (ts : List String)
    (h : NewJsonPointer ptr = some ts) (he : '/' ∉ e.data) :
    NewJsonPointer (ptr ++ "/" ++ e) = some (ts ++ [e]) := by
  have hdata : (ptr ++ "/" ++ e).data = ptr.data ++ '/' :: e.data := by
    simp [String.data_append]
  unfold NewJsonPointer at h ⊢
  rw [hdata]
  cases hp : ptr.data with
  | nil =>
    rw [hp] at h
    simp only [Option.some.injEq] at h
    subst h
    simp only [List.nil_append, strings.splitChars_no_sep _ _ he, List.map_cons, List.map_nil]
  | cons c r =>
    rw [hp] at h
    by_cases hc : c = '/'
    · subst hc
      simp only [Option.some.injEq] at h
      subst h
      simp only [List.cons_append, strings.splitChars_append,
        strings.splitChars_no_sep _ _ he, List.map_append, List.map_cons, List.map_nil]
    · exfalso
      split at h
      · rename_i heq; cases heq
      · rename_i heq; cases heq; exact hc rfl
      · cases h

theorem getTokens_append (ts rs : List String) (node : Value) :
    getTokens (ts ++ rs) node
      = match getTokens ts node with
        | some c => getTokens rs c
        | none => none := by
  induction ts generalizing node with
  | nil => rfl
  | cons t ts ih =>
    simp only [List.cons_append, getTokens]
    cases child t node with
    | none => rfl
    | some c => exact ih c

end gojsonpointer

theorem GoMap.get_of_mem_unique (kvs : List (String × Value)) (k : String) (v : Value)
    (hu : uniqueKeysEntries kvs = true) (hmem : (k, v) ∈ kvs) : GoMap.get k kvs = some v := by
  induction kvs with
  | nil => cases hmem
  | cons e rest ih =>
    obtain ⟨k', v'⟩ := e
    simp only [uniqueKeysEntries, Bool.and_eq_true, Bool.not_eq_true'] at hu
    rcases List.mem_cons.1 hmem with h | h
    · cases h
      simp [GoMap.get]
    · have hne : k' ≠ k := by
        intro e
        subst e
        have := ih hu.2 h
        simp [GoMap.has, this] at hu
      simp only [GoMap.get, hne, if_false]
      exact ih hu.2 h

theorem uniqueKeysEntries_value (kvs : List (String × Value))
    (hu : uniqueKeysEntries kvs = true) : ∀ e ∈ kvs, e.2.uniqueKeys = true := by
  induction kvs with
  | nil => intro e he; cases he
  | cons x rest ih =>
    obtain ⟨k', v'⟩ := x
    simp only [uniqueKeysEntries, Bool.and_eq_true, Bool.not_eq_true'] at hu
    intro e he
    rcases List.mem_cons.1 he with h | h
    · rw [h]; exact hu.1.2
    · exact ih hu.2 e h

theorem uniqueKeysList_value (xs : List Value)
    (hu : uniqueKeysList xs = true) : ∀ v ∈ xs, v.uniqueKeys = true := by
  induction xs with
  | nil => intro e he; cases he
  | cons x rest ih =>
    simp only [uniqueKeysList, Bool.and_eq_true] at hu
    intro e he
    rcases List.mem_cons.1 he with h | h
    · rw [h]; exact hu.1
    · exact ih hu.2 e h

namespace openshift

open gojsonpointer

mutual
theorem walkMap_resolves (kvs : List (String × Value)) (ptr : String) (ts : List String)
    (node : Value) (hptr : NewJsonPointer ptr = some ts)
    (hch : ∀ e ∈ kvs, child (utils.JSONPointerPath e.1) node = some e.2)
    (hwf : ∀ e ∈ kvs, e.2.uniqueKeys = true) :
    ∀ p ∈ walkMap kvs ptr, ∃ rs, NewJsonPointer p = some (ts ++ rs)
      ∧ (getTokens rs node).isSome = true :=
  match kvs with
  | [] => fun p hp => by simp [walkMap] at hp
  | (k, v) :: rest => fun p hp => by
    simp only [walkMap, List.mem_append] at hp
    rcases hp with hp | hp
    · exact handleKeyValue_resolves k v ptr ts node hptr
        (hch (k, v) (List.mem_cons_self _ _)) (hwf (k, v) (List.mem_cons_self _ _)) p hp
    · exact walkMap_resolves rest ptr ts node hptr
        (fun e he => hch e (List.mem_cons_of_mem _ he))
        (fun e he => hwf e (List.mem_cons_of_mem _ he)) p hp
theorem walkArray_resolves (xs : List Value) (i : Nat) (ptr : String) (ts : List String)
    (node : Value) (hptr : NewJsonPointer ptr = some ts)
    (hch : ∀ j v, xs.get? j = some v →
      child (utils.JSONPointerPath (strconv.Itoa (i + j))) node = some v)
    (hwf : ∀ v ∈ xs, v.uniqueKeys = true) :
    ∀ p ∈ walkArray xs i ptr, ∃ rs, NewJsonPointer p = some (ts ++ rs)
      ∧ (getTokens rs node).isSome = true :=
  match xs with
  | [] => fun p hp => by simp [walkArray] at hp
  | v :: rest => fun p hp => by
    simp only [walkArray, List.mem_append] at hp
    rcases hp with hp | hp
    · exact handleKeyValue_resolves (strconv.Itoa i) v ptr ts node hptr
        (by simpa using hch 0 v rfl) (hwf v (List.mem_cons_self _ _)) p hp
    · exact walkArray_resolves rest (i + 1) ptr ts node hptr
        (fun j w hj => by
          have := hch (j + 1) w (by simpa using hj)
          rw [show i + 1 + j = i + (j + 1) by omega]
          exact this)
        (fun e he => hwf e (List.mem_cons_of_mem _ he)) p hp
theorem handleKeyValue_resolves (strK : String) (v : Value) (ptr : String) (ts : List String)
    (node : Value) (hptr : NewJsonPointer ptr = some ts)
    (hch : child (utils.JSONPointerPath strK) node = some v)
    (hwf : v.uniqueKeys = true) :
    ∀ p ∈ handleKeyValue strK v ptr, ∃ rs, NewJsonPointer p = some (ts ++ rs)
      ∧ (getTokens rs node).isSome = true :=
  have habs : NewJsonPointer (ptr ++ "/" ++ utils.JSONPointerPath strK)
      = some (ts ++ [utils.JSONPointerPath strK]) :=
    NewJsonPointer_append ptr _ ts hptr (escape_no_slash strK)
  match v with
  | .seq vv => fun p hp => by
    simp only [handleKeyValue, List.mem_cons] at hp
    rcases hp with hp | hp
    · exact ⟨[utils.JSONPointerPath strK], by rw [hp]; exact habs, by simp [getTokens, hch]⟩
    · have hw : ∀ w ∈ vv, w.uniqueKeys = true :=
        uniqueKeysList_value vv (by simpa [Value.uniqueKeys] using hwf)
      obtain ⟨rs, h1, h2⟩ := walkArray_resolves vv 0 _ _ (Value.seq vv) habs
        (fun j w hj => by
          have hlt : j < vv.length := by
            rcases Nat.lt_or_ge j vv.length with h | h
            · exact h
            · rw [List.get?_eq_none.2 h] at hj; cases hj
          simp only [Nat.zero_add, strconv.escape_Itoa, child, arrayIndex_Itoa j _ hlt]
          exact hj)
        hw p hp
      exact ⟨utils.JSONPointerPath strK :: rs, by rw [h1]; simp, by simp [getTokens, hch, h2]⟩
  | .map vv => fun p hp => by
    simp only [handleKeyValue, List.mem_cons] at hp
    rcases hp with hp | hp
    · exact ⟨[utils.JSONPointerPath strK], by rw [hp]; exact habs, by simp [getTokens, hch]⟩
    · have hu : uniqueKeysEntries vv = true := by simpa [Value.uniqueKeys] using hwf
      obtain ⟨rs, h1, h2⟩ := walkMap_resolves vv _ _ (Value.map vv) habs
        (fun e he => by
          simp only [child, decode_escape]
          exact GoMap.get_of_mem_unique vv e.1 e.2 hu he)
        (uniqueKeysEntries_value vv hu) p hp
      exact ⟨utils.JSONPointerPath strK :: rs, by rw [h1]; simp, by simp [getTokens, hch, h2]⟩
  | .null => fun p hp => by
    simp only [handleKeyValue, List.mem_cons, List.not_mem_nil, or_false] at hp
    exact ⟨[utils.JSONPointerPath strK], by rw [hp]; exact habs, by simp [getTokens, hch]⟩
  | .bool _ => fun p hp => by
    simp only [handleKeyValue, List.mem_cons, List.not_mem_nil, or_false] at hp
    exact ⟨[utils.JSONPointerPath strK], by rw [hp]; exact habs, by simp [getTokens, hch]⟩
  | .num _ => fun p hp => by
    simp only [handleKeyValue, List.mem_cons, List.not_mem_nil, or_false] at hp
    exact ⟨[utils.JSONPointerPath strK], by rw [hp]; exact habs, by simp [getTokens, hch]⟩
  | .str _ => fun p hp => by
    simp only [handleKeyValue, List.mem_cons, List.not_mem_nil, or_false] at hp
    exact ⟨[utils.JSONPointerPath strK], by rw [hp]; exact habs, by simp [getTokens, hch]⟩
end

/-- Every pointer the walk of a well-formed mapping yields resolves in it. -/
theorem walkMap_root_resolves (m : List (String × Value))
    (hu : uniqueKeysEntries m = true) :
    ∀ p ∈ walkMap m "", (Get (pointerOf p) (Value.map m)).isSome = true := by
  intro p hp
  obtain ⟨rs, h1, h2⟩ := walkMap_resolves m "" [] (Value.map m) rfl
    (fun e he => by
      simp only [child, decode_escape]
      exact GoMap.get_of_mem_unique m e.1 e.2 hu he)
    (uniqueKeysEntries_value m hu) p hp
  rw [pointerOf_of_NewJsonPointer p _ h1]
  exact h2

end openshift

/-! ## What a `Set` over a scalar or at a new place keeps -/

namespace gojsonpointer

theorem child_putChild_cases (t : String) (c node node' : Value)
    (h : putChild t c node = some node') (p : String) :
    (child p node' = some c ∧ child p node = child t node) ∨ child p node' = child p node := by
  cases node with
  | map kvs =>
    simp only [putChild, Option.some.injEq] at h
    subst h
    by_cases hk : decodeReferenceToken p = decodeReferenceToken t
    · left
      simp only [child, hk, GoMap.get_set_same, and_self]
    · right
      simp only [child, GoMap.get_set_other _ _ _ _ hk]
  | seq xs =>
    simp only [putChild] at h
    cases hi : arrayIndex t xs.length with
    | none => rw [hi] at h; cases h
    | some n =>
      rw [hi] at h
      simp only [Option.some.injEq] at h
      subst h
      have hlt := arrayIndex_lt _ _ _ hi
      cases hp : arrayIndex p xs.length with
      | none =>
        right
        simp only [child, List.length_set, hp]
      | some i =>
        by_cases hin : i = n
        · left
          subst hin
          simp only [child, List.length_set, hp, hi, and_true]
          simp [List.getElem?_set, hlt]
        · right
          simp only [child, List.length_set, hp]
          simp [List.getElem?_set, Ne.symm hin]
  | null => cases h
  | bool b => cases h
  | num n => cases h
  | str s => cases h

theorem getTokens_cons_scalar (t : String) (ts : List String) (v : Value)
    (h : v.isComposite = false) : getTokens (t :: ts) v = none := by
  cases v <;> simp [Value.isComposite] at h <;> simp [getTokens, child]

theorem putChild_composite (t : String) (c node node' : Value)
    (h : putChild t c node = some node') : node.isComposite = true := by
  cases node <;> simp [putChild] at h <;> rfl

theorem child_composite (t : String) (c node : Value)
    (h : child t node = some c) : node.isComposite = true := by
  cases node <;> simp [child] at h <;> rfl

/-- A `Set` whose target did not resolve or held a scalar: every pointer that
resolved still resolves, and a pointer that held a scalar holds the same
scalar or, if it names the target, the value written. -/
theorem setTokens_keeps (w : Value) (ts : List String) (t : String) (node node' : Value)
    (hset : setTokens w t ts node = some node')
    (hold : ∀ old, getTokens (t :: ts) node = some old → old.isComposite = false) :
    (∀ q, (getTokens q node).isSome = true → (getTokens q node').isSome = true)
      ∧ (∀ q v, getTokens q node = some v → v.isComposite = false →
          getTokens q node' = some v
            ∨ (getTokens q node' = some w ∧ (getTokens (t :: ts) node).isSome = true)) := by
  induction ts generalizing t node node' with
  | nil =>
    simp only [setTokens] at hset
    have hcomp := putChild_composite _ _ _ _ hset
    refine ⟨?_, ?_⟩
    · intro q hq
      cases q with
      | nil => rfl
      | cons p q =>
        rcases child_putChild_cases t w node node' hset p with ⟨h1, h2⟩ | h1
        · simp only [getTokens, h1]
          cases hc : child t node with
          | none => simp [getTokens, h2, hc] at hq
          | some old =>
            have ho := hold old (by simp [getTokens, hc])
            cases q with
            | nil => rfl
            | cons x q =>
              have hx := getTokens_cons_scalar x q old ho
              have hst : getTokens (p :: x :: q) node = getTokens (x :: q) old := by
                simp only [getTokens, h2, hc]
              rw [hst, hx] at hq
              cases hq
        · simp only [getTokens, h1] at hq ⊢
          exact hq
    · intro q v hq hv
      cases q with
      | nil =>
        simp only [getTokens, Option.some.injEq] at hq
        subst hq
        rw [hcomp] at hv; cases hv
      | cons p q =>
        rcases child_putChild_cases t w node node' hset p with ⟨h1, h2⟩ | h1
        · right
          cases hc : child t node with
          | none => simp [getTokens, h2, hc] at hq
          | some old =>
            have ho := hold old (by simp [getTokens, hc])
            cases q with
            | nil => simp [getTokens, h1, hc]
            | cons x q =>
              have hx := getTokens_cons_scalar x q old ho
              have hst : getTokens (p :: x :: q) node = getTokens (x :: q) old := by
                simp only [getTokens, h2, hc]
              rw [hst, hx] at hq
              cases hq
        · left
          simp only [getTokens, h1] at hq ⊢
          exact hq
  | cons t' ts ih =>
    simp only [setTokens] at hset
    cases hc : child t node with
    | none => rw [hc] at hset; cases hset
    | some c =>
      rw [hc] at hset
      simp only at hset
      cases hs : setTokens w t' ts c with
      | none => rw [hs] at hset; cases hset
      | some c' =>
        rw [hs] at hset
        simp only at hset
        have hcomp := child_composite _ _ _ hc
        obtain ⟨ihA, ihB⟩ := ih t' c c' hs
          (fun old ho => hold old (by simp only [getTokens, hc]; exact ho))
        refine ⟨?_, ?_⟩
        · intro q hq
          cases q with
          | nil => rfl
          | cons p q =>
            rcases child_putChild_cases t c' node node' hset p with ⟨h1, h2⟩ | h1
            · simp only [getTokens, h1]
              simp only [getTokens, h2, hc] at hq
              exact ihA q hq
            · simp only [getTokens, h1] at hq ⊢
              exact hq
        · intro q v hq hv
          cases q with
          | nil =>
            simp only [getTokens, Option.some.injEq] at hq
            subst hq
            rw [hcomp] at hv; cases hv
          | cons p q =>
            rcases child_putChild_cases t c' node node' hset p with ⟨h1, h2⟩ | h1
            · simp only [getTokens, h2, hc] at hq
              rcases ihB q v hq hv with h | ⟨h, h'⟩
              · left
                simp only [getTokens, h1]
                exact h
              · right
                refine ⟨by simp only [getTokens, h1]; exact h, ?_⟩
                simp only [getTokens, hc]
                exact h'
            · left
              simp only [getTokens, h1] at hq ⊢
              exact hq

/-- The statement of `setTokens_keeps` for `Set`. -/
theorem Set_keeps (ds : List String) (doc doc' w : Value)
    (hset : Set ds doc w = some doc')
    (hold : ∀ old, Get ds doc = some old → old.isComposite = false ∨ ds = []) :
    (∀ q, (Get q doc).isSome = true → (Get q doc').isSome = true)
      ∧ (∀ q v, Get q doc = some v → v.isComposite = false →
          Get q doc' = some v ∨ (Get q doc' = some w ∧ (Get ds doc).isSome = true)) := by
  cases ds with
  | nil =>
    simp only [Set, Option.some.injEq] at hset
    subst hset
    exact ⟨fun q hq => hq, fun q v hq _ => Or.inl hq⟩
  | cons t ts =>
    exact setTokens_keeps w ts t doc doc' hset
      (fun old ho => (hold old ho).resolve_right (by simp))

end gojsonpointer

/-! ## Writing and deleting keep a tree well formed -/

theorem uniqueKeysList_iff (xs : List Value) :
    uniqueKeysList xs = true ↔ ∀ v ∈ xs, v.uniqueKeys = true := by
  constructor
  · exact uniqueKeysList_value xs
  · intro h
    induction xs with
    | nil => rfl
    | cons x rest ih =>
      simp only [uniqueKeysList, Bool.and_eq_true]
      exact ⟨h x (List.mem_cons_self _ _), ih (fun v hv => h v (List.mem_cons_of_mem _ hv))⟩

namespace GoMap

theorem mem_of_get {β : Type} (k : String) (v : β) (m : List (String × β))
    (h : get k m = some v) : (k, v) ∈ m := by
  induction m with
  | nil => cases h
  | cons e rest ih =>
    obtain ⟨k', v'⟩ := e
    simp only [get] at h
    split at h
    · rename_i hk
      simp only [Option.some.injEq] at h
      subst hk; subst h
      exact List.mem_cons_self _ _
    · exact List.mem_cons_of_mem _ (ih h)

theorem uniqueKeys_set (k : String) (v : Value) (kvs : List (String × Value))
    (hu : uniqueKeysEntries kvs = true) (hv : v.uniqueKeys = true) :
    uniqueKeysEntries (set k v kvs) = true := by
  induction kvs with
  | nil => simp [set, uniqueKeysEntries, has, get, hv]
  | cons e rest ih =>
    obtain ⟨k', v'⟩ := e
    simp only [uniqueKeysEntries, Bool.and_eq_true, Bool.not_eq_true'] at hu
    by_cases hk : k' = k
    · subst hk
      simp only [set, if_true, uniqueKeysEntries, Bool.and_eq_true, Bool.not_eq_true']
      exact ⟨⟨hu.1.1, hv⟩, hu.2⟩
    · simp only [set, hk, if_false, uniqueKeysEntries, Bool.and_eq_true, Bool.not_eq_true']
      refine ⟨⟨?_, hu.1.2⟩, ih hu.2⟩
      unfold has
      rw [get_set_other _ _ _ _ hk]
      exact hu.1.1

theorem uniqueKeys_del (k : String) (kvs : List (String × Value))
    (hu : uniqueKeysEntries kvs = true) : uniqueKeysEntries (del k kvs) = true := by
  induction kvs with
  | nil => rfl
  | cons e rest ih =>
    obtain ⟨k', v'⟩ := e
    simp only [uniqueKeysEntries, Bool.and_eq_true, Bool.not_eq_true'] at hu
    by_cases hk : k' = k
    · simp only [del, hk, if_true]
      exact ih hu.2
    · simp only [del, hk, if_false, uniqueKeysEntries, Bool.and_eq_true, Bool.not_eq_true']
      refine ⟨⟨?_, hu.1.2⟩, ih hu.2⟩
      unfold has
      rw [get_del_other _ _ _ hk]
      exact hu.1.1

end GoMap

namespace gojsonpointer

theorem uniqueKeys_child (t : String) (c node : Value) (hu : node.uniqueKeys = true)
    (h : child t node = some c) : c.uniqueKeys = true := by
  cases node with
  | map kvs =>
    simp only [child] at h
    exact uniqueKeysEntries_value kvs (by simpa [Value.uniqueKeys] using hu) _
      (GoMap.mem_of_get _ _ _ h)
  | seq xs =>
    simp only [child] at h
    split at h
    · exact uniqueKeysList_value xs (by simpa [Value.uniqueKeys] using hu) _
        (List.get?_mem h)
    · cases h
  | null => cases h
  | bool b => cases h
  | num n => cases h
  | str s => cases h

theorem uniqueKeys_putChild (t : String) (c node node' : Value) (hu : node.uniqueKeys = true)
    (hc : c.uniqueKeys = true) (h : putChild t c node = some node') :
    node'.uniqueKeys = true := by
  cases node with
  | map kvs =>
    simp only [putChild, Option.some.injEq] at h
    subst h
    simp only [Value.uniqueKeys]
    exact GoMap.uniqueKeys_set _ _ _ (by simpa [Value.uniqueKeys] using hu) hc
  | seq xs =>
    simp only [putChild] at h
    split at h
    · simp only [Option.some.injEq] at h
      subst h
      simp only [Value.uniqueKeys]
      rw [uniqueKeysList_iff]
      intro v hv
      rcases List.mem_or_eq_of_mem_set hv with h1 | h1
      · exact uniqueKeysList_value xs (by simpa [Value.uniqueKeys] using hu) v h1
      · rw [h1]; exact hc
    · cases h
  | null => cases h
  | bool b => cases h
  | num n => cases h
  | str s => cases h

theorem uniqueKeys_removeChild (t : String) (node node' : Value) (hu : node.uniqueKeys = true)
    (h : removeChild t node = some node') : node'.uniqueKeys = true := by
  cases node with
  | map kvs =>
    simp only [removeChild] at h
    split at h
    · simp only [Option.some.injEq] at h
      subst h
      simp only [Value.uniqueKeys]
      exact GoMap.uniqueKeys_del _ _ (by simpa [Value.uniqueKeys] using hu)
    · cases h
  | seq xs =>
    have hxs := uniqueKeysList_value xs (by simpa [Value.uniqueKeys] using hu)
    simp only [removeChild] at h
    split at h
    · split at h
      · rename_i l hl
        simp only [Option.some.injEq] at h
        subst h
        simp only [Value.uniqueKeys]
        rw [uniqueKeysList_iff]
        intro v hv
        rcases List.mem_or_eq_of_mem_set (List.mem_of_mem_dropLast hv) with h1 | h1
        · exact hxs v h1
        · rw [h1]
          exact hxs l (List.mem_of_mem_getLast? hl)
      · cases h
    · cases h
  | null => cases h
  | bool b => cases h
  | num n => cases h
  | str s => cases h

theorem uniqueKeys_setTokens (v : Value) (ts : List String) (t : String) (node node' : Value)
    (hu : node.uniqueKeys = true) (hv : v.uniqueKeys = true)
    (h : setTokens v t ts node = some node') : node'.uniqueKeys = true := by
  induction ts generalizing t node node' with
  | nil => exact uniqueKeys_putChild _ _ _ _ hu hv h
  | cons t' ts ih =>
    simp only [setTokens] at h
    cases hc : child t node with
    | none => rw [hc] at h; cases h
    | some c =>
      rw [hc] at h
      simp only at h
      cases hs : setTokens v t' ts c with
      | none => rw [hs] at h; cases h
      | some c' =>
        rw [hs] at h
        exact uniqueKeys_putChild _ _ _ _ hu (ih t' c c' (uniqueKeys_child _ _ _ hu hc) hs) h

theorem uniqueKeys_deleteTokens (ts : List String) (t : String) (node node' : Value)
    (hu : node.uniqueKeys = true)
    (h : deleteTokens t ts node = some node') : node'.uniqueKeys = true := by
  induction ts generalizing t node node' with
  | nil => exact uniqueKeys_removeChild _ _ _ hu h
  | cons t' ts ih =>
    simp only [deleteTokens] at h
    cases hc : child t node with
    | none => rw [hc] at h; cases h
    | some c =>
      rw [hc] at h
      simp only at h
      cases hs : deleteTokens t' ts c with
      | none => rw [hs] at h; cases h
      | some c' =>
        rw [hs] at h
        exact uniqueKeys_putChild _ _ _ _ hu (ih t' c c' (uniqueKeys_child _ _ _ hu hc) hs) h

/-- The function `Set` keeps the keys of every mapping unique. -/
theorem uniqueKeys_Set (ds : List String) (doc doc' v : Value) (hu : doc.uniqueKeys = true)
    (hv : v.uniqueKeys = true) (h : Set ds doc v = some doc') : doc'.uniqueKeys = true := by
  cases ds with
  | nil => simp only [Set, Option.some.injEq] at h; rw [← h]; exact hu
  | cons t ts => exact uniqueKeys_setTokens v ts t doc doc' hu hv h

/-- The function `Delete` keeps the keys of every mapping unique. -/
theorem uniqueKeys_Delete (ds : List String) (doc doc' : Value) (hu : doc.uniqueKeys = true)
    (h : Delete ds doc = some doc') : doc'.uniqueKeys = true := by
  cases ds with
  | nil => simp only [Delete, Option.some.injEq] at h; rw [← h]; exact hu
  | cons t ts => exact uniqueKeys_deleteTokens ts t doc doc' hu h

theorem isMap_putChild (t : String) (c : Value) (kvs : List (String × Value)) (node' : Value)
    (h : putChild t c (Value.map kvs) = some node') : ∃ kvs', node' = Value.map kvs' := by
  simp only [putChild, Option.some.injEq] at h
  exact ⟨_, h.symm⟩

/-- The function `Set` on a mapping yields a mapping. -/
theorem isMap_Set (ds : List String) (kvs : List (String × Value)) (doc' v : Value)
    (h : Set ds (Value.map kvs) v = some doc') : ∃ kvs', doc' = Value.map kvs' := by
  cases ds with
  | nil => simp only [Set, Option.some.injEq] at h; exact ⟨kvs, h.symm⟩
  | cons t ts =>
    cases ts with
    | nil => exact isMap_putChild _ _ _ _ h
    | cons t' ts =>
      simp only [Set, setTokens] at h
      split at h
      · cases h
      · split at h
        · cases h
        · exact isMap_putChild _ _ _ _ h

/-- The function `Delete` on a mapping yields a mapping. -/
theorem isMap_Delete (ds : List String) (kvs : List (String × Value)) (doc' : Value)
    (h : Delete ds (Value.map kvs) = some doc') : ∃ kvs', doc' = Value.map kvs' := by
  cases ds with
  | nil => simp only [Delete, Option.some.injEq] at h; exact ⟨kvs, h.symm⟩
  | cons t ts =>
    cases ts with
    | nil =>
      simp only [Delete, deleteTokens, removeChild] at h
      split at h
      · simp only [Option.some.injEq] at h; exact ⟨_, h.symm⟩
      · cases h
    | cons t' ts =>
      simp only [Delete, deleteTokens] at h
      split at h
      · cases h
      · split at h
        · cases h
        · exact isMap_putChild _ _ _ _ h

end gojsonpointer

/-! ## The platform-modified fields keep the paths resolving -/

namespace openshift

open gojsonpointer

theorem pointerOf_originalValueAnnotationPath_ne_nil (path : String) :
    pointerOf (originalValueAnnotationPath path) ≠ [] := by
  have hdata : ∃ r, (originalValueAnnotationPath path).data = '/' :: r := by
    unfold originalValueAnnotationPath
    simp only [String.data_append]
    exact ⟨_, rfl⟩
  obtain ⟨r, hr⟩ := hdata
  unfold pointerOf NewJsonPointer
  rw [hr]
  simp only [Option.getD_some, ne_eq, List.map_eq_nil_iff]
  exact strings.splitChars_ne_nil _ _

theorem asString_str (v : Value) (s : String) (h : v.asString = some s) : v = Value.str s := by
  cases v <;> simp [Value.asString] at h
  rw [h]

theorem PathsResolve.set (walked newPaths : List String) (config config' : Value)
    (ds : List String) (s : String)
    (inv : PathsResolve walked newPaths config)
    (hset : Set ds config (Value.str s) = some config')
    (hold : ∀ old, Get ds config = some old → old.isComposite = false ∨ ds = []) :
    PathsResolve walked newPaths config' := by
  obtain ⟨hA, hB⟩ := Set_keeps ds config config' (Value.str s) hset hold
  refine ⟨fun p hp => hA _ (inv.walkedOk p hp), fun p hp => hA _ (inv.added p hp), ?_, ?_,
    hA _ inv.annotations⟩
  · intro p hp hm
    obtain ⟨v, hv, hc⟩ := inv.images p hp hm
    rcases hB _ v hv hc with h | ⟨h, _⟩
    · exact ⟨v, h, hc⟩
    · exact ⟨_, h, rfl⟩
  · obtain ⟨a, ha⟩ := inv.apiVersion
    rcases hB _ _ ha rfl with h | ⟨h, _⟩
    · exact ⟨a, h⟩
    · exact ⟨s, h⟩

theorem handlePlatformModifiedFields_resolve (walked : List String) (paths : List String)
    (hsub : ∀ p ∈ paths, p ∈ walked) (config : Value) (newPaths : List String)
    (inv : PathsResolve walked newPaths config) (config' : Value) (newPaths' : List String)
    (h : handlePlatformModifiedFields paths config newPaths = .ok (config', newPaths')) :
    PathsResolve walked newPaths' config' := by
  induction paths generalizing config newPaths with
  | nil =>
    simp only [handlePlatformModifiedFields, Outcome.ok.injEq, Prod.mk.injEq] at h
    rw [← h.1, ← h.2]
    exact inv
  | cons path rest ih =>
    have hrest : ∀ p ∈ rest, p ∈ walked := fun p hp => hsub p (List.mem_cons_of_mem _ hp)
    have hpath : path ∈ walked := hsub path (List.mem_cons_self _ _)
    simp only [handlePlatformModifiedFields] at h
    by_cases hm : regexp.matchContainerImage path = true
    · simp only [hm, if_true] at h
      cases hg : Get (pointerOf (originalValueAnnotationPath path)) config with
      | some annotationValue =>
        rw [hg] at h
        simp only at h
        cases hs : annotationValue.asString with
        | none => rw [hs] at h; cases h
        | some a =>
          rw [hs] at h
          simp only at h
          have ha := asString_str _ _ hs
          subst ha
          cases hset : Set (pointerOf path) config (Value.str a) with
          | none => rw [hset] at h; cases h
          | some c1 =>
            rw [hset] at h
            simp only at h
            obtain ⟨v, hv, hc⟩ := inv.images path hpath hm
            have inv1 := PathsResolve.set walked newPaths config c1 _ a inv hset
              (fun old ho => by
                rw [hv] at ho
                cases ho
                exact Or.inl hc)
            exact ih hrest c1 newPaths inv1 h
      | none =>
        rw [hg] at h
        simp only at h
        have hann : ∃ x, Get (pointerOf "/metadata/annotations") config = some x := by
          have := inv.annotations
          cases hx : Get (pointerOf "/metadata/annotations") config with
          | none => rw [hx] at this; cases this
          | some x => exact ⟨x, rfl⟩
        obtain ⟨x, hx⟩ := hann
        simp only [hx] at h
        cases hs : (valueAt path config).asString with
        | none => rw [hs] at h; cases h
        | some a =>
          rw [hs] at h
          simp only at h
          have ha := asString_str _ _ hs
          rw [ha] at h
          cases hset : Set (pointerOf (originalValueAnnotationPath path)) config
              (Value.str a) with
          | none => rw [hset] at h; cases h
          | some c1 =>
            rw [hset] at h
            simp only at h
            have inv0 := PathsResolve.set walked newPaths config c1 _ a inv hset
              (fun old ho => by rw [hg] at ho; cases ho)
            have hnew : (Get (pointerOf (originalValueAnnotationPath path)) c1).isSome
                = true := by
              rw [Get_Set_same _ _ _ _ (pointerOf_originalValueAnnotationPath_ne_nil path) hset]
              rfl
            have inv1 : PathsResolve walked (newPaths ++ [originalValueAnnotationPath path])
                c1 :=
              ⟨inv0.walkedOk, fun p hp => by
                  rcases List.mem_append.1 hp with hp | hp
                  · exact inv0.added p hp
                  · simp only [List.mem_singleton] at hp
                    rw [hp]; exact hnew,
                inv0.images, inv0.apiVersion, inv0.annotations⟩
            exact ih hrest c1 _ inv1 h
    · have hm' : regexp.matchContainerImage path = false := by
        cases hb : regexp.matchContainerImage path with
        | false => rfl
        | true => exact absurd hb hm
      simp only [hm', Bool.false_eq_true, if_false] at h
      exact ih hrest config newPaths inv h

end openshift

/-! ## The canonical tree -/

namespace openshift

open gojsonpointer

theorem WellFormedMap.uniqueKeys (v : Value) (h : WellFormedMap v) : v.uniqueKeys = true := by
  obtain ⟨kvs, rfl, hu⟩ := h
  simpa [Value.uniqueKeys] using hu

theorem WellFormedMap.of_Set (ds : List String) (doc doc' v : Value) (h : WellFormedMap doc)
    (hv : v.uniqueKeys = true) (hset : Set ds doc v = some doc') : WellFormedMap doc' := by
  have hu := uniqueKeys_Set ds doc doc' v h.uniqueKeys hv hset
  obtain ⟨kvs, rfl, _⟩ := h
  obtain ⟨kvs', rfl⟩ := isMap_Set ds kvs doc' v hset
  exact ⟨kvs', rfl, by simpa [Value.uniqueKeys] using hu⟩

theorem WellFormedMap.of_Delete (ds : List String) (doc doc' : Value) (h : WellFormedMap doc)
    (hdel : Delete ds doc = some doc') : WellFormedMap doc' := by
  have hu := uniqueKeys_Delete ds doc doc' h.uniqueKeys hdel
  obtain ⟨kvs, rfl, _⟩ := h
  obtain ⟨kvs', rfl⟩ := isMap_Delete ds kvs doc' hdel
  exact ⟨kvs', rfl, by simpa [Value.uniqueKeys] using hu⟩

theorem WellFormedMap.addEmptyMaps (fields : List String) (m : Value) (h : WellFormedMap m) :
    WellFormedMap (addEmptyMaps m fields) := by
  induction fields generalizing m with
  | nil => exact h
  | cons p rest ih =>
    simp only [openshift.addEmptyMaps]
    split
    · exact ih m h
    · apply ih
      cases hs : Set (pointerOf p) m (Value.map []) with
      | none => exact h
      | some m' =>
        exact WellFormedMap.of_Set _ _ _ (Value.map []) h (by rfl) hs

theorem WellFormedMap.deleteFields (fields : List String) (m : Value) (h : WellFormedMap m) :
    WellFormedMap (deleteFields m fields) := by
  induction fields generalizing m with
  | nil => exact h
  | cons p rest ih =>
    simp only [openshift.deleteFields]
    apply ih
    cases hs : Delete (pointerOf p) m with
    | none => exact h
    | some m' => exact WellFormedMap.of_Delete _ _ _ h hs

theorem addEmptyMaps_apart (ps : List String) (fields : List String) (m : Value)
    (hfields : ∀ q ∈ fields, apartTokens ps (pointerOf q) = true) :
    Get ps (addEmptyMaps m fields) = Get ps m := by
  induction fields generalizing m with
  | nil => rfl
  | cons q rest ih =>
    have hq := hfields q (List.mem_cons_self _ _)
    have ih' := fun m' => ih m' (fun x hx => hfields x (List.mem_cons_of_mem _ hx))
    simp only [openshift.addEmptyMaps]
    split
    · exact ih' m
    · rw [ih']
      cases hs : Set (pointerOf q) m (Value.map []) with
      | none => rfl
      | some m' => exact Get_Set_apart _ _ _ _ _ hq hs

theorem metadata_is_mapping (m : List (String × Value)) (n : Value)
    (hn : Get (pointerOf "/metadata/name") (Value.map m) = some n) :
    ∃ md, GoMap.get "metadata" m = some (Value.map md) := by
  have hp : pointerOf "/metadata/name" = ["metadata", "name"] := rfl
  have hd : decodeReferenceToken "metadata" = "metadata" := rfl
  rw [hp] at hn
  simp only [Get, getTokens, child, hd] at hn
  cases hg : GoMap.get "metadata" m with
  | none => rw [hg] at hn; cases hn
  | some md =>
    rw [hg] at hn
    simp only at hn
    cases md with
    | map kvs => exact ⟨kvs, rfl⟩
    | seq xs =>
      have : arrayIndex "name" xs.length = none := arrayIndex_none_of_atoi _ _ rfl
      simp only [child, this] at hn
      cases hn
    | null => simp [child] at hn
    | bool b => simp [child] at hn
    | num k => simp [child] at hn
    | str s => simp [child] at hn

theorem annotations_after_addEmptyMaps (m : List (String × Value)) (n : Value)
    (hn : Get (pointerOf "/metadata/name") (Value.map m) = some n)
    (hann : Get (pointerOf "/metadata/annotations") (Value.map m) = none
      ∨ Get (pointerOf "/metadata/annotations") (Value.map m) = some (Value.map [])) :
    Get (pointerOf "/metadata/annotations") (addEmptyMaps (Value.map m) emptyMapFields)
      = some (Value.map []) := by
  have hp : pointerOf "/metadata/annotations" = ["metadata", "annotations"] := rfl
  have hd : decodeReferenceToken "metadata" = "metadata" := rfl
  have hapart : apartTokens ["metadata", "annotations"]
      (pointerOf "/spec/template/metadata/annotations") = true := rfl
  have hstep2 : ∀ m1 : Value, Get ["metadata", "annotations"]
      (addEmptyMaps m1 ["/spec/template/metadata/annotations"]) = Get ["metadata", "annotations"] m1 :=
    fun m1 => addEmptyMaps_apart _ _ m1 (fun q hq => by
      simp only [List.mem_singleton] at hq
      rw [hq]; exact hapart)
  unfold emptyMapFields
  rw [hp] at hann ⊢
  rcases hann with h | h
  · obtain ⟨md, hmd⟩ := metadata_is_mapping m n hn
    have hset : ∃ m', Set ["metadata", "annotations"] (Value.map m) (Value.map []) = some m' := by
      simp only [gojsonpointer.Set, setTokens, child, hd, hmd, putChild]
      exact ⟨_, rfl⟩
    obtain ⟨m', hm'⟩ := hset
    rw [openshift.addEmptyMaps, hp, h]
    simp only [hm', Option.getD_some]
    rw [hstep2]
    exact Get_Set_same _ _ _ _ (by simp) hm'
  · rw [openshift.addEmptyMaps, hp, h]
    simp only
    rw [hstep2]
    exact h

end openshift

namespace openshift

open gojsonpointer

theorem managedAnnotations_none (source : String) (m1 : Value)
    (hann : Get (pointerOf "/metadata/annotations") m1 = some (Value.map [])) :
    managedAnnotations source [] m1 = .ok ([], m1) := by
  unfold managedAnnotations
  by_cases hs : source = "platform"
  · have hp : pointerOf tailorManagedAnnotationPath
        = pointerOf "/metadata/annotations" ++ ["managed-annotations.tailor.opendevstack.org"] :=
      rfl
    have hg : Get (pointerOf tailorManagedAnnotationPath) m1 = none := by
      rw [hp]
      unfold Get at hann ⊢
      rw [getTokens_append, hann]
      rfl
    simp only [hs, beq_self_eq_true, if_true, hg]
  · have hb : (source == "platform") = false := by simp [hs]
    simp [hb]

theorem parseConfig_no_annotations (source : String) (m : List (String × Value))
    (item : ResourceItem)
    (hann : Get (pointerOf "/metadata/annotations") (Value.map m) = none
      ∨ Get (pointerOf "/metadata/annotations") (Value.map m) = some (Value.map []))
    (h : parseConfig source m = .ok item) :
    ∃ config np, handlePlatformModifiedFields (canonicalPaths m) (canonicalTree m) []
        = .ok (config, np)
      ∧ item.Config = config ∧ item.Paths = canonicalPaths m ++ np
      ∧ item.Annotations = [] ∧ item.TailorManagedAnnotations = [] := by
  unfold parseConfig at h
  simp only at h
  split at h
  · cases h
  · split at h
    · cases h
    · split at h
      · cases h
      · rename_i name hname
        have hann1 := annotations_after_addEmptyMaps m name hname hann
        split at h
        · cases h
        · split at h
          · cases h
          · simp only [hann1, Value.asMap, managedAnnotations_none source _ hann1,
              Outcome.bind] at h
            cases hh : handlePlatformModifiedFields (canonicalPaths m) (canonicalTree m) [] with
            | error =>
              unfold canonicalPaths canonicalTree at hh
              simp only [Value.asMap] at hh
              rw [hh] at h
              cases h
            | panic =>
              unfold canonicalPaths canonicalTree at hh
              simp only [Value.asMap] at hh
              rw [hh] at h
              cases h
            | ok r =>
              obtain ⟨config, np⟩ := r
              have hh' := hh
              unfold canonicalPaths canonicalTree at hh
              simp only [Value.asMap] at hh
              rw [hh] at h
              simp only [Outcome.ok.injEq] at h
              refine ⟨config, np, rfl, ?_, ?_, ?_, ?_⟩
              · rw [← h]
              · rw [← h]
                unfold canonicalPaths canonicalTree
                simp only [Value.asMap]
              · rw [← h]
              · rw [← h]

end openshift

namespace openshift

open gojsonpointer

theorem parseConfig_ok_name (source : String) (m : List (String × Value)) (item : ResourceItem)
    (h : parseConfig source m = .ok item) :
    ∃ n, Get (pointerOf "/metadata/name") (Value.map m) = some n := by
  unfold parseConfig at h
  simp only at h
  split at h
  · cases h
  · split at h
    · cases h
    · split at h
      · cases h
      · rename_i name hname
        exact ⟨name, hname⟩

theorem canonicalTree_wellFormed (m : List (String × Value))
    (hwf : uniqueKeysEntries m = true) : WellFormedMap (canonicalTree m) :=
  WellFormedMap.deleteFields _ _ (WellFormedMap.addEmptyMaps _ _ ⟨m, rfl, hwf⟩)

theorem canonicalTree_apart (P : String) (ps : List String) (hP : NewJsonPointer P = some ps)
    (m : List (String × Value))
    (h1 : ∀ q ∈ emptyMapFields, apartTokens ps (pointerOf q) = true)
    (h2 : ∀ q ∈ platformManagedFields, apart P q = true) :
    Get ps (canonicalTree m) = Get ps (Value.map m) := by
  unfold canonicalTree
  rw [pkg.openshift.deleteFields_apart P ps hP _ _ h2, addEmptyMaps_apart ps _ _ h1]

theorem canonicalTree_resolves (m : List (String × Value)) (s : String) (n : Value)
    (hwf : uniqueKeysEntries m = true)
    (hapi : Get (pointerOf "/apiVersion") (Value.map m) = some (Value.str s))
    (hn : Get (pointerOf "/metadata/name") (Value.map m) = some n)
    (hann : Get (pointerOf "/metadata/annotations") (Value.map m) = none
      ∨ Get (pointerOf "/metadata/annotations") (Value.map m) = some (Value.map []))
    (himg : ∀ p ∈ canonicalPaths m, regexp.matchContainerImage p = true →
      (valueAt p (canonicalTree m)).isComposite = false) :
    PathsResolve (canonicalPaths m) [] (canonicalTree m) := by
  obtain ⟨kvs, hk, hu⟩ := canonicalTree_wellFormed m hwf
  have hwalk : ∀ p ∈ canonicalPaths m, (Get (pointerOf p) (canonicalTree m)).isSome = true := by
    intro p hp
    unfold canonicalPaths at hp
    rw [hk] at hp ⊢
    exact walkMap_root_resolves kvs hu p hp
  refine ⟨hwalk, fun p hp => (nomatch hp), ?_, ⟨s, ?_⟩, ?_⟩
  · intro p hp hm
    have h1 := hwalk p hp
    have h2 := himg p hp hm
    cases hg : Get (pointerOf p) (canonicalTree m) with
    | none => rw [hg] at h1; cases h1
    | some v =>
      refine ⟨v, rfl, ?_⟩
      unfold valueAt at h2
      rw [hg] at h2
      exact h2
  · rw [show pointerOf "/apiVersion" = ["apiVersion"] from rfl] at hapi ⊢
    rw [canonicalTree_apart "/apiVersion" ["apiVersion"] rfl m (by decide) (by decide)]
    exact hapi
  · have h := annotations_after_addEmptyMaps m n hn hann
    unfold canonicalTree
    rw [show pointerOf "/metadata/annotations" = ["metadata", "annotations"] from rfl] at h ⊢
    have hd := pkg.openshift.deleteFields_apart "/metadata/annotations"
      ["metadata", "annotations"] rfl platformManagedFields
      (addEmptyMaps (Value.map m) emptyMapFields) (by decide)
    rw [hd, h]
    rfl

/-- C1 (counterexample). The image stream `foo` with the annotation
`bar: baz` canonicalises as template and as platform item, and `ChangesFrom`
on the two items returns an `Update` that adds the managed-annotations
annotation, not a `Noop`. -/
theorem same_tree_with_annotation_updates :
    ∃ T P,
      NewResourceItem (pkg.openshift.examples.imageStream (Value.str "ImageStream")
          [("bar", Value.str "baz")]) "template" = .ok T
        ∧ NewResourceItem (pkg.openshift.examples.imageStream (Value.str "ImageStream")
          [("bar", Value.str "baz")]) "platform" = .ok P
        ∧ T.ChangesFrom examples.showNothing P []
          = .ok [ { Action := "Update", Kind := "ImageStream", Name := "foo",
                    Patches := [ ⟨"add",
                      "/metadata/annotations/managed-annotations.tailor.opendevstack.org",
                      Value.str "bar"⟩ ],
                    CurrentState := "", DesiredState := "" } ] :=
  ⟨_, _, rfl, rfl, rfl⟩

/-- C1 (amended). For every tree `x` with unique keys, a string `apiVersion`,
no annotations (the annotations mapping is absent or empty) and no sequence or
mapping at a container image, that canonicalises as template item and as
platform item: `ChangesFrom` on the two items with no externally modified
paths returns exactly one change, a `Noop` without patches. -/
theorem changes_from_same_tree_noop (marshal : Value → String) (x : List (String × Value))
    (T P : ResourceItem) (s : String)
    (hwf : uniqueKeysEntries x = true)
    (hapi : Get (pointerOf "/apiVersion") (Value.map x) = some (Value.str s))
    (hann : Get (pointerOf "/metadata/annotations") (Value.map x) = none
      ∨ Get (pointerOf "/metadata/annotations") (Value.map x) = some (Value.map []))
    (himg : ∀ p ∈ canonicalPaths x, regexp.matchContainerImage p = true →
      (valueAt p (canonicalTree x)).isComposite = false)
    (hT : NewResourceItem x "template" = .ok T)
    (hP : NewResourceItem x "platform" = .ok P) :
    T.ChangesFrom marshal P []
      = .ok [ { Action := "Noop", Kind := T.Kind, Name := T.Name, Patches := [],
                CurrentState := marshal P.Config, DesiredState := marshal T.Config } ] := by
  obtain ⟨n, hn⟩ := parseConfig_ok_name _ _ _ hT
  obtain ⟨cT, npT, hhT, hcT, hpT, _, _⟩ := parseConfig_no_annotations _ _ _ hann hT
  obtain ⟨cP, npP, hhP, hcP, hpP, haP, _⟩ := parseConfig_no_annotations _ _ _ hann hP
  rw [hhT] at hhP
  simp only [Outcome.ok.injEq, Prod.mk.injEq] at hhP
  obtain ⟨hc, hnp⟩ := hhP
  subst hc hnp
  have inv := handlePlatformModifiedFields_resolve (canonicalPaths x) (canonicalPaths x)
    (fun p hp => hp) (canonicalTree x) [] (canonicalTree_resolves x s n hwf hapi hn hann himg)
    cT npT hhT
  obtain ⟨s', hs'⟩ := inv.apiVersion
  apply ChangesFrom_same marshal T P s' (by rw [hcT, hcP]) (by rw [hpT, hpP])
  · intro p hp
    rw [hpP] at hp
    rw [hcP]
    rcases List.mem_append.1 hp with h | h
    · exact inv.walkedOk p h
    · exact inv.added p h
  · unfold valueAt
    rw [hcP, hs']
    rfl
  · unfold unmanagedAnnotations
    rw [haP]
    rfl

/-- Witness for C1: the deployment config `foo` with image `bar/foo:latest`
and an empty annotations mapping. -/
theorem changes_from_same_tree_noop_witness :
    (examples.templateItem
        (pkg.openshift.examples.deploymentConfig (Value.str "bar/foo:latest") [] [])).ChangesFrom
        examples.showNothing
        (examples.platformItem
          (pkg.openshift.examples.deploymentConfig (Value.str "bar/foo:latest") [] [])) []
      = .ok [ { Action := "Noop", Kind := "DeploymentConfig", Name := "foo", Patches := [],
                CurrentState := "", DesiredState := "" } ] :=
  changes_from_same_tree_noop examples.showNothing
    (pkg.openshift.examples.deploymentConfig (Value.str "bar/foo:latest") [] [])
    _ _ "v1" rfl rfl (Or.inr rfl) (by decide) rfl rfl

end openshift

namespace pkg.openshift

/-- What a successful `parseConfig` went through, step by step. -/
theorem parseConfig_inv (unmarshal : String → Option (List (String × String)))
    (source : String) (m : List (String × Value)) (item : ResourceItem)
    (h : parseConfig unmarshal source m = .ok item) :
    ∃ (ap : Bool) (annotations : List (String × Value)) (managed : List String) (m1 : Value)
      (annotations1 : List (String × Value)) (fields : List (String × String)) (m2 : Value)
      (annotations2 : List (String × Value)) (config : Value) (deleted : List Nat)
      (fields2 : List (String × String)),
      (match gojsonpointer.Get (openshift.pointerOf "/metadata/annotations") (Value.map m) with
        | none => some (false, [])
        | some a => a.asMap.map (fun a => (true, a))) = some (ap, annotations)
      ∧ managedAnnotations source annotations (Value.map m) = .ok (managed, m1, annotations1)
      ∧ (if source == "platform" then
          (appliedConfig unmarshal m1).bind fun (fields, m) =>
            .ok (fields, m, GoMap.del tailorAppliedConfigAnnotation annotations1)
         else .ok ([], m1, annotations1)) = .ok (fields, m2, annotations2)
      ∧ massagePaths source
          (openshift.walkMap
            ((openshift.deleteFields m2 platformManagedSimpleFields).asMap.getD []) "") 0
          (openshift.deleteFields m2 platformManagedSimpleFields) [] fields
          = .ok (config, deleted, fields2)
      ∧ item.Paths = removeIndices deleted 0
          (openshift.walkMap
            ((openshift.deleteFields m2 platformManagedSimpleFields).asMap.getD []) "")
      ∧ item.Config = config
      ∧ item.TailorManagedAnnotations = managed
      ∧ item.Annotations = annotations2
      ∧ item.Source = source
      ∧ item.TailorAppliedConfigFields = fields2 := by
  unfold parseConfig at h
  simp only at h
  split at h
  · cases h
  · split at h
    · cases h
    · split at h
      · cases h
      · split at h
        · cases h
        · split at h
          · cases h
          · split at h
            · cases h
            · rename_i ap annotations hann
              cases hm : managedAnnotations source annotations (Value.map m) with
              | error => rw [hm] at h; cases h
              | panic => rw [hm] at h; cases h
              | ok r =>
                obtain ⟨managed, m1, annotations1⟩ := r
                rw [hm] at h
                simp only [Outcome.bind] at h
                split at h
                · rename_i r2 happ
                  obtain ⟨fields, m2, annotations2⟩ := r2
                  simp only at h
                  split at h
                  · rename_i r3 hmp
                    obtain ⟨config, deleted, fields2⟩ := r3
                    cases h
                    refine ⟨ap, annotations, managed, m1, annotations1, fields, m2, annotations2,
                      config, deleted, fields2, hann, hm, ?_, hmp, rfl, rfl, rfl, rfl, rfl, rfl⟩
                    simp only [Outcome.bind]
                    exact happ
                  · cases h
                  · cases h
                · cases h
                · cases h

end pkg.openshift

namespace gojsonpointer

theorem uniqueKeys_getTokens (ts : List String) :
    ∀ (node v : Value), node.uniqueKeys = true → getTokens ts node = some v →
      v.uniqueKeys = true := by
  induction ts with
  | nil => intro node v hu h; simp only [getTokens] at h; cases h; exact hu
  | cons t ts ih =>
    intro node v hu h
    simp only [getTokens] at h
    split at h
    · rename_i c hc
      exact ih c v (uniqueKeys_child t c node hu hc) h
    · cases h

end gojsonpointer

theorem uniqueKeysEntries_nodup (kvs : List (String × Value))
    (hu : uniqueKeysEntries kvs = true) : (kvs.map Prod.fst).Nodup := by
  induction kvs with
  | nil => exact List.nodup_nil
  | cons x rest ih =>
    obtain ⟨k, v⟩ := x
    simp only [uniqueKeysEntries, Bool.and_eq_true, Bool.not_eq_true'] at hu
    rw [List.map_cons, List.nodup_cons]
    refine ⟨?_, ih hu.2⟩
    intro hmem
    obtain ⟨e, he, hk⟩ := List.mem_map.1 hmem
    have : GoMap.has k rest = true := by
      clear ih hu
      induction rest with
      | nil => cases he
      | cons y rest ih2 =>
        obtain ⟨k2, v2⟩ := y
        simp only [GoMap.has, GoMap.get]
        by_cases h2 : k2 = k
        · simp [h2]
        · rw [if_neg h2]
          rcases List.mem_cons.1 he with h3 | h3
          · subst h3; exact absurd hk h2
          · exact ih2 (List.mem_map.2 ⟨e, h3, hk⟩) h3
    rw [hu.1.1] at this
    cases this

namespace sort

theorem Strings_sorted (xs : List String) (hn : xs.Nodup) :
    List.Sorted (fun a b : String => a < b) (Strings xs) := by
  have hs : List.Sorted (fun a b : String => a.data ≤ b.data) (Strings xs) :=
    List.sorted_insertionSort _ _
  have hnd : (Strings xs).Nodup := (List.perm_insertionSort _ xs).nodup_iff.2 hn
  unfold List.Sorted at hs ⊢
  have := List.Pairwise.and hs hnd
  refine this.imp ?_
  intro a b hab
  obtain ⟨h1, h2⟩ := hab
  have h3 : a ≤ b := (pkg.openshift.string_le_iff_data_le a b).2 h1
  exact lt_of_le_of_ne h3 h2

end sort

namespace pkg.openshift

open gojsonpointer

/-- The platform image stream `foo` whose marker annotation lists `b,a,b`
yields an item whose managed annotations are `b`, `a`, `b`: neither ascending
nor free of duplicates (C19). -/
theorem platform_managed_annotations_unsorted :
    ((NewResourceItem examples.decodeJSON
        (examples.imageStream (Value.str "ImageStream")
          [("tailor.opendevstack.org/managed-annotations", Value.str "b,a,b"),
           ("a", Value.str "1"), ("b", Value.str "2")])
        "platform").getD examples.noItem).TailorManagedAnnotations = ["b", "a", "b"] := by
  rfl

/-- C19 (amended): for every tree with unique keys from which `NewResourceItem`
builds an item, the managed annotations of a template item are ascending and
free of duplicates, and the managed annotations of a platform item are the
value of the marker annotation split at its commas, in that order (none if the
marker annotation is absent). -/
theorem managed_annotations_order (unmarshal : String → Option (List (String × String)))
    (m : List (String × Value)) (source : String) (item : ResourceItem)
    (hu : uniqueKeysEntries m = true)
    (h : NewResourceItem unmarshal m source = .ok item) :
    (source ≠ "platform" →
      List.Sorted (fun a b : String => a < b) item.TailorManagedAnnotations)
    ∧ (source = "platform" →
      item.TailorManagedAnnotations =
        match Get (openshift.pointerOf tailorManagedAnnotationPath) (Value.map m) with
        | some (Value.str s) => strings.Split s ','
        | _ => []) := by
  obtain ⟨ap, annotations, managed, m1, annotations1, fields, m2, annotations2, config, deleted,
    fields2, hann, hm, -, -, -, -, hmanaged, -, -, -⟩ := parseConfig_inv unmarshal source m item h
  rw [hmanaged]
  constructor
  · intro hs
    have hs' : (source == "platform") = false := by simpa using hs
    simp only [managedAnnotations, hs', Bool.false_eq_true, if_false] at hm
    cases hm
    apply sort.Strings_sorted
    apply uniqueKeysEntries_nodup
    split at hann
    · cases hann; rfl
    · rename_i a ha
      cases a <;> simp [Value.asMap] at hann
      obtain ⟨-, rfl⟩ := hann
      have := uniqueKeys_getTokens _ _ _ (by simpa [Value.uniqueKeys] using hu) ha
      simpa [Value.uniqueKeys] using this
  · intro hs
    subst hs
    simp only [managedAnnotations, beq_self_eq_true, if_true] at hm
    have hp : NewJsonPointer tailorManagedAnnotationPath
        = some (openshift.pointerOf tailorManagedAnnotationPath) := by rfl
    rw [hp] at hm
    simp only at hm
    split at hm
    · rename_i hg
      cases hm
      rw [hg]
    · rename_i managedV hg
      rw [hg]
      split at hm
      · cases hm
      · rename_i s hs
        cases managedV <;> simp [Value.asString] at hs
        subst hs
        split at hm
        · cases hm
        · cases hm; rfl

/-- Witness for C19: the template image stream `foo` with the annotations `b`
and `a`. -/
theorem managed_annotations_order_witness :
    List.Sorted (fun a b : String => a < b)
      ((NewResourceItem examples.decodeJSON
        (examples.imageStream (Value.str "ImageStream")
          [("b", Value.str "2"), ("a", Value.str "1")])
        "template").getD examples.noItem).TailorManagedAnnotations :=
  (managed_annotations_order examples.decodeJSON
    (examples.imageStream (Value.str "ImageStream") [("b", Value.str "2"), ("a", Value.str "1")])
    "template" _ rfl rfl).1 (by decide)

end pkg.openshift

namespace pkg.openshift

theorem orderedInsert_filter (rank : Change → Nat) (p : Change → Bool)
    (hp : ∀ x y, p x = true → p y = true → rank x = rank y) (a : Change) (l : List Change) :
    (List.orderedInsert (fun x y => rank x ≤ rank y) a l).filter p
      = if p a then a :: l.filter p else l.filter p := by
  induction l with
  | nil => cases h : p a <;> simp [List.orderedInsert, List.filter, h]
  | cons b l ih =>
    rw [List.orderedInsert]
    by_cases hab : rank a ≤ rank b
    · rw [if_pos hab]
      simp only [List.filter_cons]
    · rw [if_neg hab, List.filter_cons, ih]
      by_cases hpa : p a = true
      · have hpb : ¬ p b = true := fun hpb => hab (le_of_eq (hp a b hpa hpb))
        simp only [hpa, if_true, List.filter_cons, hpb, if_false, Bool.false_eq_true]
      · simp only [hpa, if_false, List.filter_cons, Bool.false_eq_true]

theorem insertionSort_filter (rank : Change → Nat) (p : Change → Bool)
    (hp : ∀ x y, p x = true → p y = true → rank x = rank y) (l : List Change) :
    (List.insertionSort (fun x y => rank x ≤ rank y) l).filter p = l.filter p := by
  induction l with
  | nil => rfl
  | cons a l ih =>
    rw [List.insertionSort, orderedInsert_filter rank p hp, ih, List.filter_cons]

theorem sortBucket_filter (other : Nat) (first last : String) (p : Change → Bool)
    (hp : ∀ x, p x = true → x.Kind ≠ first ∧ x.Kind ≠ last) (l : List Change) :
    (sortBucket other first last l).filter p = l.filter p := by
  apply insertionSort_filter (fun c => kindOrder other first last c.Kind) p
  intro x y hx hy
  simp only [kindOrder, if_neg (hp x hx).1, if_neg (hp x hx).2, if_neg (hp y hy).1,
    if_neg (hp y hy).2]

theorem sortBucket_perm (other : Nat) (first last : String) (l : List Change) :
    (sortBucket other first last l).Perm l :=
  List.perm_insertionSort _ l

theorem sortBucket_pairwise (other : Nat) (first last : String) (hne : first ≠ last)
    (l : List Change) :
    (sortBucket other first last l).Pairwise
      (fun a b => ¬ (a.Kind = last ∧ b.Kind = first)) := by
  have hs : List.Sorted
      (fun a b : Change => kindOrder other first last a.Kind ≤ kindOrder other first last b.Kind)
      (sortBucket other first last l) := by
    have hT : IsTotal Change (fun a b : Change =>
        kindOrder other first last a.Kind ≤ kindOrder other first last b.Kind) :=
      ⟨fun a b => le_total _ _⟩
    have hR : IsTrans Change (fun a b : Change =>
        kindOrder other first last a.Kind ≤ kindOrder other first last b.Kind) :=
      ⟨fun _ _ _ h1 h2 => le_trans h1 h2⟩
    exact List.sorted_insertionSort _ _
  refine List.Pairwise.imp ?_ hs
  intro a b hab hk
  obtain ⟨ha, hb⟩ := hk
  have hne' : ¬ last = first := fun h => hne h.symm
  simp [kindOrder, ha, hb, hne'] at hab

theorem foldl_Add_create (other : Nat) (calls : List (List Change)) :
    ∀ c : Changeset,
      (∀ p : Change → Bool, (∀ x, p x = true → x.Kind ≠ "PersistentVolumeClaim"
          ∧ x.Kind ≠ "DeploymentConfig") →
        ((calls.foldl (Changeset.Add other) c).Create.filter p
            = (c.Create ++ (addedChanges calls).filter (fun x => x.Action == "Create")).filter p
          ∧ (calls.foldl (Changeset.Add other) c).Update.filter p
            = (c.Update ++ (addedChanges calls).filter (fun x => x.Action == "Update")).filter p
          ∧ (calls.foldl (Changeset.Add other) c).Delete.filter p
            = (c.Delete ++ (addedChanges calls).filter (fun x => x.Action == "Delete")).filter p))
      ∧ (calls.foldl (Changeset.Add other) c).Create.Perm
          (c.Create ++ (addedChanges calls).filter (fun x => x.Action == "Create"))
      ∧ (calls.foldl (Changeset.Add other) c).Update.Perm
          (c.Update ++ (addedChanges calls).filter (fun x => x.Action == "Update"))
      ∧ (calls.foldl (Changeset.Add other) c).Delete.Perm
          (c.Delete ++ (addedChanges calls).filter (fun x => x.Action == "Delete")) := by
  induction calls with
  | nil => intro c; simp [addedChanges]
  | cons x xs ih =>
    intro c
    obtain ⟨hf, hc, hu, hd⟩ := ih (Changeset.Add other c x)
    simp only [List.foldl_cons]
    have hadded : addedChanges (x :: xs) = x ++ addedChanges xs := rfl
    refine ⟨?_, ?_, ?_, ?_⟩
    · intro p hp
      obtain ⟨h1, h2, h3⟩ := hf p hp
      have hp' : ∀ x, p x = true → x.Kind ≠ "DeploymentConfig"
          ∧ x.Kind ≠ "PersistentVolumeClaim" := fun x hx => ⟨(hp x hx).2, (hp x hx).1⟩
      refine ⟨?_, ?_, ?_⟩
      · rw [h1, hadded, List.filter_append, List.filter_append]
        simp only [Changeset.Add]
        rw [sortBucket_filter other _ _ p hp, List.filter_append, List.filter_append,
          List.filter_append, List.append_assoc]
      · rw [h2, hadded, List.filter_append, List.filter_append]
        simp only [Changeset.Add]
        rw [sortBucket_filter other _ _ p hp, List.filter_append, List.filter_append,
          List.filter_append, List.append_assoc]
      · rw [h3, hadded, List.filter_append, List.filter_append]
        simp only [Changeset.Add]
        rw [sortBucket_filter other _ _ p hp', List.filter_append, List.filter_append,
          List.filter_append, List.append_assoc]
    · refine hc.trans ?_
      rw [hadded, List.filter_append, ← List.append_assoc]
      exact List.Perm.append_right _ (sortBucket_perm _ _ _ _)
    · refine hu.trans ?_
      rw [hadded, List.filter_append, ← List.append_assoc]
      exact List.Perm.append_right _ (sortBucket_perm _ _ _ _)
    · refine hd.trans ?_
      rw [hadded, List.filter_append, ← List.append_assoc]
      exact List.Perm.append_right _ (sortBucket_perm _ _ _ _)

theorem foldl_Add_pairwise (other : Nat) (calls : List (List Change)) :
    (Changeset.addAll other calls).Create.Pairwise
        (fun a b => ¬ (a.Kind = "DeploymentConfig" ∧ b.Kind = "PersistentVolumeClaim"))
      ∧ (Changeset.addAll other calls).Update.Pairwise
        (fun a b => ¬ (a.Kind = "DeploymentConfig" ∧ b.Kind = "PersistentVolumeClaim"))
      ∧ (Changeset.addAll other calls).Delete.Pairwise
        (fun a b => ¬ (a.Kind = "PersistentVolumeClaim" ∧ b.Kind = "DeploymentConfig")) := by
  rcases List.eq_nil_or_concat calls with h | ⟨init, last, h⟩
  · subst h
    exact ⟨List.Pairwise.nil, List.Pairwise.nil, List.Pairwise.nil⟩
  · subst h
    simp only [Changeset.addAll, List.concat_eq_append, List.foldl_append, List.foldl_cons,
      List.foldl_nil, Changeset.Add]
    exact ⟨sortBucket_pairwise _ _ _ (by decide) _, sortBucket_pairwise _ _ _ (by decide) _,
      sortBucket_pairwise _ _ _ (by decide) _⟩

/-- C15: after any sequence of calls of `Add` on an empty changeset, whatever
the position of the other kinds in the order, no deployment config precedes a
persistent volume claim in `Create` and in `Update`, no persistent volume
claim precedes a deployment config in `Delete`, each bucket holds exactly the
added changes of its action, and the changes of all other kinds stand in each
bucket in the order in which they were added. -/
theorem changeset_ordering (other : Nat) (calls : List (List Change)) :
    ((Changeset.addAll other calls).Create.Pairwise
        (fun a b => ¬ (a.Kind = "DeploymentConfig" ∧ b.Kind = "PersistentVolumeClaim"))
      ∧ (Changeset.addAll other calls).Update.Pairwise
        (fun a b => ¬ (a.Kind = "DeploymentConfig" ∧ b.Kind = "PersistentVolumeClaim"))
      ∧ (Changeset.addAll other calls).Delete.Pairwise
        (fun a b => ¬ (a.Kind = "PersistentVolumeClaim" ∧ b.Kind = "DeploymentConfig")))
    ∧ ((Changeset.addAll other calls).Create.Perm
        ((addedChanges calls).filter (fun x => x.Action == "Create"))
      ∧ (Changeset.addAll other calls).Update.Perm
        ((addedChanges calls).filter (fun x => x.Action == "Update"))
      ∧ (Changeset.addAll other calls).Delete.Perm
        ((addedChanges calls).filter (fun x => x.Action == "Delete")))
    ∧ ((Changeset.addAll other calls).Create.filter Change.otherKind
        = ((addedChanges calls).filter (fun x => x.Action == "Create")).filter Change.otherKind
      ∧ (Changeset.addAll other calls).Update.filter Change.otherKind
        = ((addedChanges calls).filter (fun x => x.Action == "Update")).filter Change.otherKind
      ∧ (Changeset.addAll other calls).Delete.filter Change.otherKind
        = ((addedChanges calls).filter (fun x => x.Action == "Delete")).filter
            Change.otherKind) := by
  obtain ⟨hf, hc, hu, hd⟩ := foldl_Add_create other calls
    { Create := [], Update := [], Delete := [] }
  refine ⟨foldl_Add_pairwise other calls, ⟨by simpa using hc, by simpa using hu,
    by simpa using hd⟩, ?_⟩
  have := hf Change.otherKind (by
    intro x hx
    simpa [Change.otherKind] using hx)
  simpa using this

end pkg.openshift

namespace gojsonpointer

/-- A successful `Delete` found the parent of the entry, removed the entry from
it, and the parent is still there afterwards. -/
theorem Delete_last (ps : List String) (t : String) :
    ∀ (node node' : Value), Delete (ps ++ [t]) node = some node' →
      ∃ an an', Get ps node = some an ∧ removeChild t an = some an'
        ∧ Get ps node' = some an' := by
  induction ps with
  | nil =>
    intro node node' h
    exact ⟨node, node', rfl, h, rfl⟩
  | cons p ps ih =>
    intro node node' h
    obtain ⟨x, xs, hx⟩ : ∃ x xs, ps ++ [t] = x :: xs := by
      cases ps with
      | nil => exact ⟨t, [], rfl⟩
      | cons y ys => exact ⟨y, ys ++ [t], rfl⟩
    have h' : deleteTokens p (x :: xs) node = some node' := by
      rw [← hx]; exact h
    simp only [deleteTokens] at h'
    split at h'
    · cases h'
    · rename_i c hc
      split at h'
      · cases h'
      · rename_i c' hc'
        have hd : Delete (ps ++ [t]) c = some c' := by rw [hx]; exact hc'
        obtain ⟨an, an', h1, h2, h3⟩ := ih c c' hd
        refine ⟨an, an', ?_, h2, ?_⟩
        · simp only [Get, getTokens, hc]; exact h1
        · simp only [Get, getTokens, child_putChild_same _ _ _ _ h']; exact h3

theorem removeChild_map (t : String) (an : Value) (kvs' : List (String × Value))
    (h : removeChild t an = some (Value.map kvs')) :
    ∃ kvs, an = Value.map kvs ∧ kvs' = GoMap.del (decodeReferenceToken t) kvs := by
  cases an with
  | map kvs =>
    simp only [removeChild] at h
    split at h
    · cases h; exact ⟨kvs, rfl, rfl⟩
    · cases h
  | seq xs =>
    simp only [removeChild] at h
    split at h
    · split at h <;> cases h
    · cases h
  | null => cases h
  | bool b => cases h
  | num n => cases h
  | str s => cases h

end gojsonpointer

namespace GoMap

theorem has_del {β : Type} (k k' : String) (m : List (String × β))
    (h : has k (del k' m) = true) : has k m = true ∧ k ≠ k' := by
  by_cases hk : k = k'
  · subst hk
    simp [has, get_del_same] at h
  · refine ⟨?_, hk⟩
    simpa [has, get_del_other k' k m hk] using h

theorem mem_keys_of_has {β : Type} (k : String) (m : List (String × β))
    (h : has k m = true) : k ∈ m.map Prod.fst := by
  induction m with
  | nil => simp [has, get] at h
  | cons e rest ih =>
    obtain ⟨k', v'⟩ := e
    simp only [has, get] at h
    by_cases hk : k' = k
    · simp [hk]
    · rw [if_neg hk] at h
      exact List.mem_cons_of_mem _ (ih h)

end GoMap

namespace pkg.openshift

open gojsonpointer

theorem pointerOf_annotationKey (a : String) :
    openshift.pointerOf ("/metadata/annotations/" ++ utils.JSONPointerPath a)
      = ["metadata", "annotations"] ++ [utils.JSONPointerPath a] := by
  have h := NewJsonPointer_append "/metadata/annotations" (utils.JSONPointerPath a)
    ["metadata", "annotations"] rfl (escape_no_slash a)
  have hs : "/metadata/annotations" ++ "/" ++ utils.JSONPointerPath a
      = "/metadata/annotations/" ++ utils.JSONPointerPath a := by
    apply String.ext
    simp [String.data_append]
  rw [hs] at h
  exact pointerOf_of_NewJsonPointer _ _ h

theorem annotation_path_injective (a b : String)
    (h : "/metadata/annotations/" ++ utils.JSONPointerPath a
      = "/metadata/annotations/" ++ utils.JSONPointerPath b) : a = b := by
  have h1 : utils.JSONPointerPath a = utils.JSONPointerPath b := by
    have := congrArg String.data h
    simp only [String.data_append, List.append_cancel_left_eq] at this
    exact String.ext this
  rw [← decode_escape a, ← decode_escape b, h1]

/-- What the loop of `prepareForComparisonWithTemplateItem` leaves behind. -/
theorem deleteUnmanaged_ok (as : List String) :
    ∀ (P P' : ResourceItem), deleteUnmanaged P as = .ok P' →
      P'.Annotations = P.Annotations
        ∧ P'.TailorManagedAnnotations = P.TailorManagedAnnotations
        ∧ (∀ x ∈ P'.Paths, x ∈ P.Paths
            ∧ ∀ a ∈ as, x ≠ "/metadata/annotations/" ++ utils.JSONPointerPath a)
        ∧ (∀ kvs', Get ["metadata", "annotations"] P'.Config = some (Value.map kvs') →
            ∃ kvs, Get ["metadata", "annotations"] P.Config = some (Value.map kvs)
              ∧ ∀ k, GoMap.has k kvs' = true → GoMap.has k kvs = true ∧ k ∉ as) := by
  induction as with
  | nil =>
    intro P P' h
    simp only [deleteUnmanaged, Outcome.ok.injEq] at h
    subst h
    refine ⟨rfl, rfl, fun x hx => ⟨hx, fun a ha => nomatch ha⟩, ?_⟩
    intro kvs' hk
    exact ⟨kvs', hk, fun k hk' => ⟨hk', fun ha => nomatch ha⟩⟩
  | cons a rest ih =>
    intro P P' h
    simp only [deleteUnmanaged] at h
    split at h
    · cases h
    · rename_i config hdel
      obtain ⟨h1, h2, h3, h4⟩ := ih _ P' h
      rw [pointerOf_annotationKey] at hdel
      obtain ⟨an, an', hg, hr, hg'⟩ := Delete_last _ _ _ _ hdel
      refine ⟨h1, h2, ?_, ?_⟩
      · intro x hx
        obtain ⟨hx1, hx2⟩ := h3 x hx
        simp only [utils.Remove, List.mem_filter, bne_iff_ne, ne_eq] at hx1
        refine ⟨hx1.1, ?_⟩
        intro b hb
        rcases List.mem_cons.1 hb with hb | hb
        · subst hb; exact hx1.2
        · exact hx2 b hb
      · intro kvs' hk
        obtain ⟨kvs1, hk1, hk2⟩ := h4 kvs' hk
        simp only at hk1
        rw [hg'] at hk1
        cases hk1
        obtain ⟨kvs, hkvs, hdelk⟩ := removeChild_map _ _ _ hr
        subst hkvs
        refine ⟨kvs, hg, ?_⟩
        intro k hk'
        obtain ⟨hk3, hk4⟩ := hk2 k hk'
        rw [hdelk, decode_escape] at hk3
        obtain ⟨hk5, hk6⟩ := GoMap.has_del _ _ _ hk3
        refine ⟨hk5, ?_⟩
        intro hmem
        rcases List.mem_cons.1 hmem with hm | hm
        · exact hk6 hm
        · exact hk4 hm

/-- The platform image stream `foo` whose applied-config annotation records a
value for the annotation `x` yields an item that has no annotation `x` in
`Annotations` but has it in `Config` and `Paths`; the preparation step
succeeds and leaves `x` there although neither item manages it (C11). -/
theorem unmanaged_annotation_survives :
    ∃ P T P', NewResourceItem
        (examples.decoderFor "\x7b\"/metadata/annotations/x\":\"y\"\x7d"
          [("/metadata/annotations/x", "y")])
        (examples.imageStream (Value.str "ImageStream")
          [("tailor.opendevstack.org/applied-config",
            Value.str "\x7b\"/metadata/annotations/x\":\"y\"\x7d")])
        "platform" = .ok P
      ∧ NewResourceItem examples.decodeJSON
          (examples.imageStream (Value.str "ImageStream") []) "template" = .ok T
      ∧ prepareForComparisonWithTemplateItem P T = .ok P'
      ∧ Get ["metadata", "annotations"] P'.Config = some (Value.map [("x", Value.str "y")])
      ∧ "/metadata/annotations/x" ∈ P'.Paths
      ∧ T.TailorManagedAnnotations = [] ∧ P.TailorManagedAnnotations = [] :=
  ⟨_, _, _, rfl, rfl, rfl, rfl, by decide, rfl, rfl⟩

/-- C11 (amended): for every platform item whose `Annotations` holds every key
of the mapping at `/metadata/annotations` of its `Config` and every key that
has an entry `/metadata/annotations/<key>` in its `Paths`, and every template
item: after `prepareForComparisonWithTemplateItem` succeeds, every key of the
mapping at `/metadata/annotations` of the platform item's `Config` and every
key with an entry `/metadata/annotations/<key>` in its `Paths` is managed by
one of the two items. -/
theorem annotation_scoping (P T P' : ResourceItem)
    (hcfg : ∀ kvs k, Get ["metadata", "annotations"] P.Config = some (Value.map kvs) →
      GoMap.has k kvs = true → GoMap.has k P.Annotations = true)
    (hpaths : ∀ k, "/metadata/annotations/" ++ utils.JSONPointerPath k ∈ P.Paths →
      GoMap.has k P.Annotations = true)
    (h : prepareForComparisonWithTemplateItem P T = .ok P') :
    (∀ kvs' k, Get ["metadata", "annotations"] P'.Config = some (Value.map kvs') →
        GoMap.has k kvs' = true →
        utils.Includes T.TailorManagedAnnotations k = true
          ∨ utils.Includes P.TailorManagedAnnotations k = true)
      ∧ (∀ k, "/metadata/annotations/" ++ utils.JSONPointerPath k ∈ P'.Paths →
        utils.Includes T.TailorManagedAnnotations k = true
          ∨ utils.Includes P.TailorManagedAnnotations k = true) := by
  obtain ⟨-, -, h3, h4⟩ := deleteUnmanaged_ok _ P P' h
  have key : ∀ k, GoMap.has k P.Annotations = true →
      k ∉ unmanagedAnnotations P T →
      utils.Includes T.TailorManagedAnnotations k = true
        ∨ utils.Includes P.TailorManagedAnnotations k = true := by
    intro k hk hnot
    have hmem := GoMap.mem_keys_of_has k _ hk
    by_cases h1 : utils.Includes T.TailorManagedAnnotations k = true
    · exact Or.inl h1
    · by_cases h2 : utils.Includes P.TailorManagedAnnotations k = true
      · exact Or.inr h2
      · exfalso
        apply hnot
        simp only [unmanagedAnnotations, List.mem_filter, Bool.and_eq_true, Bool.not_eq_true',
          Bool.not_eq_true] at h1 h2 ⊢
        exact ⟨hmem, by simpa using h1, by simpa using h2⟩
  constructor
  · intro kvs' k hg hk
    obtain ⟨kvs, hkvs, hall⟩ := h4 kvs' hg
    obtain ⟨hk1, hk2⟩ := hall k hk
    exact key k (hcfg kvs k hkvs hk1) hk2
  · intro k hk
    obtain ⟨hk1, hk2⟩ := h3 _ hk
    refine key k (hpaths k hk1) ?_
    intro hmem
    exact hk2 k hmem rfl

end pkg.openshift

namespace pkg.openshift

open gojsonpointer

/-- Witness for C11: the platform item with the annotations `a` and `u`, of
which it manages `a`, against a template item without annotations. -/
theorem annotation_scoping_witness :
    utils.Includes examples.noItem.TailorManagedAnnotations "a" = true
      ∨ utils.Includes examples.annotatedPlatformItem.TailorManagedAnnotations "a" = true :=
  (annotation_scoping examples.annotatedPlatformItem examples.noItem
    ((prepareForComparisonWithTemplateItem examples.annotatedPlatformItem
      examples.noItem).getD examples.noItem)
    (fun kvs k hg hk => by
      have hg' : some (Value.map [("a", Value.str "1"), ("u", Value.str "2")])
          = some (Value.map kvs) := hg
      cases hg'
      exact hk)
    (fun k hk => by
      have hk' : "/metadata/annotations/" ++ utils.JSONPointerPath k
          ∈ ["/metadata/annotations/a", "/metadata/annotations/u"] := hk
      simp only [List.mem_cons, List.mem_singleton, List.not_mem_nil, or_false] at hk'
      rcases hk' with h | h
      · have := annotation_path_injective k "a" h
        subst this; rfl
      · have := annotation_path_injective k "u" h
        subst this; rfl)
    rfl).1 [("a", Value.str "1")] "a" rfl rfl

end pkg.openshift

namespace pkg.openshift

open gojsonpointer

/-- The template config map `foo` with the data `a` and the platform config
map `foo` with the data `b` both build items whose `Paths` resolve. After
`prepareForComparisonWithPlatformItem` with the externally modified path
`/data`, the template item's `Config` holds the platform's data, yet its
`Paths` still lists `/data/a`, which no longer resolves. Likewise, after
`prepareForComparisonWithTemplateItem` has deleted the unmanaged annotation `u`
whose value is a mapping, the platform item's `Paths` still lists
`/metadata/annotations/u/x` (C17). -/
theorem stale_paths_after_preparation :
    ((examples.itemOf (examples.configMap (Value.map [("a", Value.str "1")]))
          "template").pathsResolve = true
      ∧ (examples.itemOf (examples.configMap (Value.map [("b", Value.str "2")]))
          "platform").pathsResolve = true
      ∧ (prepareForComparisonWithPlatformItem
          (examples.itemOf (examples.configMap (Value.map [("a", Value.str "1")])) "template")
          (examples.itemOf (examples.configMap (Value.map [("b", Value.str "2")])) "platform")
          ["/data"]).Paths
        = ["/apiVersion", "/kind", "/metadata", "/metadata/name", "/data", "/data/a",
            "/data", "/data/b"]
      ∧ Get (openshift.pointerOf "/data/a")
          (prepareForComparisonWithPlatformItem
            (examples.itemOf (examples.configMap (Value.map [("a", Value.str "1")])) "template")
            (examples.itemOf (examples.configMap (Value.map [("b", Value.str "2")])) "platform")
            ["/data"]).Config = none)
    ∧ ((examples.itemOf (examples.imageStream (Value.str "ImageStream")
          [("u", Value.map [("x", Value.str "1")])]) "platform").pathsResolve = true
      ∧ (examples.itemOf (examples.imageStream (Value.str "ImageStream") [])
          "template").pathsResolve = true
      ∧ ((prepareForComparisonWithTemplateItem
          (examples.itemOf (examples.imageStream (Value.str "ImageStream")
            [("u", Value.map [("x", Value.str "1")])]) "platform")
          (examples.itemOf (examples.imageStream (Value.str "ImageStream") []) "template")).getD
            examples.noItem).Paths
        = ["/apiVersion", "/kind", "/metadata", "/metadata/name", "/metadata/annotations",
            "/metadata/annotations/u/x"]
      ∧ Get (openshift.pointerOf "/metadata/annotations/u/x")
          ((prepareForComparisonWithTemplateItem
            (examples.itemOf (examples.imageStream (Value.str "ImageStream")
              [("u", Value.map [("x", Value.str "1")])]) "platform")
            (examples.itemOf (examples.imageStream (Value.str "ImageStream") [])
              "template")).getD examples.noItem).Config = none) :=
  ⟨⟨rfl, rfl, rfl, rfl⟩, rfl, rfl, rfl, rfl⟩

end pkg.openshift

namespace openshift

open pkg.openshift (jsonPatch Change addPatchTo)

/-- C13. Config map `foo`, externally modified path `/data`, desired data `a`,
current data `b`: `ChangesFrom` returns an `Update` with an `add` patch at
`/data/a` and a `remove` patch at `/data/b`, both below the externally
modified path. With the externally modified path `/data/b`, a scalar of the
current item that the desired item lacks, it returns an `Update` with a
`remove` patch at that very path. -/
theorem externally_modified_path_patched :
    (examples.templateItem (examples.configMap (Value.map [("a", Value.str "1")]))).ChangesFrom
        examples.showNothing
        (examples.platformItem (examples.configMap (Value.map [("b", Value.str "2")])))
        ["/data"]
      = .ok [ { Action := "Update", Kind := "ConfigMap", Name := "foo",
                Patches := [ ⟨"add", "/data/a", Value.null⟩,
                             ⟨"remove", "/data/b", Value.null⟩ ],
                CurrentState := "", DesiredState := "" } ]
    ∧ (examples.templateItem (examples.configMap (Value.map [("a", Value.str "1")]))).ChangesFrom
        examples.showNothing
        (examples.platformItem (examples.configMap
          (Value.map [("a", Value.str "1"), ("b", Value.str "2")])))
        ["/data/b"]
      = .ok [ { Action := "Update", Kind := "ConfigMap", Name := "foo",
                Patches := [ ⟨"remove", "/data/b", Value.null⟩ ],
                CurrentState := "", DesiredState := "" } ] :=
  ⟨rfl, rfl⟩

end openshift

/-! ## The canonicalization pipeline of `pkg/openshift`, step by step -/

namespace gojsonpointer

/-- After a successful `Delete` of a key of a mapping the pointer no longer
resolves. -/
theorem Get_Delete_same (ps : List String) (t : String) (doc doc' : Value)
    (hnum : strconv.Atoi t = none) (h : Delete (ps ++ [t]) doc = some doc') :
    Get (ps ++ [t]) doc' = none := by
  obtain ⟨an, an', -, hr, hg'⟩ := Delete_last ps t doc doc' h
  have hc : child t an' = none := by
    cases an with
    | map kvs =>
      simp only [removeChild] at hr
      split at hr
      · cases hr
        simp only [child, GoMap.get_del_same]
      · cases hr
    | seq xs =>
      simp only [removeChild, arrayIndex_none_of_atoi t _ hnum] at hr
      cases hr
    | null => cases hr
    | bool b => cases hr
    | num n => cases hr
    | str s => cases hr
  simp only [Get] at hg' ⊢
  rw [getTokens_append, hg']
  simp only [getTokens, hc]

end gojsonpointer

namespace pkg.openshift

open gojsonpointer

theorem managedAnnotations_wellFormed (source : String) (ann : List (String × Value))
    (m : Value) (managed : List String) (m1 : Value) (ann1 : List (String × Value))
    (hwf : openshift.WellFormedMap m)
    (h : managedAnnotations source ann m = .ok (managed, m1, ann1)) : openshift.WellFormedMap m1 := by
  unfold managedAnnotations at h
  split at h
  · split at h
    · cases h
    · split at h
      · cases h; exact hwf
      · split at h
        · cases h
        · split at h
          · cases h
          · rename_i m' hdel
            cases h
            exact openshift.WellFormedMap.of_Delete _ _ _ hwf hdel
  · cases h; exact hwf

theorem replayAppliedConfig_wellFormed (fields : List (String × String)) :
    ∀ (m m' : Value), openshift.WellFormedMap m → replayAppliedConfig fields m = .ok m' →
      openshift.WellFormedMap m' := by
  induction fields with
  | nil => intro m m' hwf h; cases h; exact hwf
  | cons e rest ih =>
    intro m m' hwf h
    obtain ⟨k, v⟩ := e
    simp only [replayAppliedConfig] at h
    split at h
    · cases h
    · split at h
      · cases h
      · rename_i p hp _ m1 hs
        exact ih m1 m' (openshift.WellFormedMap.of_Set p m m1 (Value.str v) hwf (by rfl) hs) h

/-- What a successful applied-configuration step went through. -/
theorem appliedConfig_inv (unmarshal : String → Option (List (String × String)))
    (m1 m2 : Value) (fields : List (String × String))
    (h : appliedConfig unmarshal m1 = .ok (fields, m2)) :
    (Get (openshift.pointerOf tailorAppliedConfigAnnotationPath) m1 = none ∧ fields = [] ∧ m2 = m1)
      ∨ ∃ m', replayAppliedConfig fields m1 = .ok m'
          ∧ Delete (openshift.pointerOf tailorAppliedConfigAnnotationPath) m' = some m2 := by
  have hp2 : NewJsonPointer tailorAppliedConfigAnnotationPath
      = some (openshift.pointerOf tailorAppliedConfigAnnotationPath) := rfl
  unfold appliedConfig at h
  simp only [hp2] at h
  split at h
  · rename_i hg
    cases h
    exact Or.inl ⟨hg, rfl, rfl⟩
  · split at h
    · cases h
    · split at h
      · cases h
      · rename_i fs hfs
        right
        cases hr : replayAppliedConfig fs m1 with
        | error => rw [hr] at h; cases h
        | panic => rw [hr] at h; cases h
        | ok m' =>
          rw [hr] at h
          simp only [Outcome.bind] at h
          split at h
          · cases h
          · rename_i m3 hdel
            cases h
            exact ⟨m', hr, hdel⟩

theorem appliedConfig_wellFormed (unmarshal : String → Option (List (String × String)))
    (m1 m2 : Value) (fields : List (String × String)) (hwf : openshift.WellFormedMap m1)
    (h : appliedConfig unmarshal m1 = .ok (fields, m2)) : openshift.WellFormedMap m2 := by
  rcases appliedConfig_inv unmarshal m1 m2 fields h with ⟨-, -, rfl⟩ | ⟨m', hr, hdel⟩
  · exact hwf
  · exact openshift.WellFormedMap.of_Delete _ _ _ (replayAppliedConfig_wellFormed _ _ _ hwf hr) hdel

/-- The second step of the pipeline, whatever the source. -/
theorem applied_step_inv (unmarshal : String → Option (List (String × String)))
    (source : String) (m1 m2 : Value) (ann1 ann2 : List (String × Value))
    (fields : List (String × String))
    (h : (if source == "platform" then
          (appliedConfig unmarshal m1).bind fun (fields, m) =>
            .ok (fields, m, GoMap.del tailorAppliedConfigAnnotation ann1)
         else .ok ([], m1, ann1)) = Outcome.ok (fields, m2, ann2)) :
    (source ≠ "platform" ∧ fields = [] ∧ m2 = m1 ∧ ann2 = ann1)
      ∨ (source = "platform" ∧ appliedConfig unmarshal m1 = .ok (fields, m2)
          ∧ ann2 = GoMap.del tailorAppliedConfigAnnotation ann1) := by
  by_cases hs : source = "platform"
  · right
    subst hs
    simp only [beq_self_eq_true, if_true] at h
    cases ha : appliedConfig unmarshal m1 with
    | error => rw [ha] at h; cases h
    | panic => rw [ha] at h; cases h
    | ok r =>
      obtain ⟨f, mm⟩ := r
      rw [ha] at h
      simp only [Outcome.bind, Outcome.ok.injEq, Prod.mk.injEq] at h
      obtain ⟨rfl, rfl, rfl⟩ := h
      exact ⟨rfl, rfl, rfl⟩
  · left
    have hs' : (source == "platform") = false := by simpa using hs
    simp only [hs', Bool.false_eq_true, if_false, Outcome.ok.injEq, Prod.mk.injEq] at h
    obtain ⟨rfl, rfl, rfl⟩ := h
    exact ⟨hs, rfl, rfl, rfl⟩

/-- The tree that is walked is a mapping with unique keys. -/
theorem walked_tree_wellFormed (unmarshal : String → Option (List (String × String)))
    (source : String) (m : List (String × Value)) (ann ann1 ann2 : List (String × Value))
    (managed : List String) (m1 m2 : Value) (fields : List (String × String))
    (hu : uniqueKeysEntries m = true)
    (hm : managedAnnotations source ann (Value.map m) = .ok (managed, m1, ann1))
    (happ : (if source == "platform" then
          (appliedConfig unmarshal m1).bind fun (fields, m) =>
            .ok (fields, m, GoMap.del tailorAppliedConfigAnnotation ann1)
         else .ok ([], m1, ann1)) = Outcome.ok (fields, m2, ann2)) :
    openshift.WellFormedMap (openshift.deleteFields m2 platformManagedSimpleFields) := by
  have h1 : openshift.WellFormedMap m1 :=
    managedAnnotations_wellFormed _ _ _ _ _ _ ⟨m, rfl, hu⟩ hm
  apply openshift.WellFormedMap.deleteFields
  rcases applied_step_inv unmarshal source m1 m2 ann1 ann2 fields happ with
    ⟨-, -, rfl, -⟩ | ⟨-, ha, -⟩
  · exact h1
  · exact appliedConfig_wellFormed _ _ _ _ h1 ha

theorem massagePaths_platform_fields (paths : List String) :
    ∀ (pathIndex : Nat) (config : Value) (deleted : List Nat) (fields : List (String × String))
      (r : Value × List Nat × List (String × String)),
      massagePaths "platform" paths pathIndex config deleted fields = .ok r →
        r.2.2 = fields := by
  induction paths with
  | nil => intro pathIndex config deleted fields r h; cases h; rfl
  | cons path rest ih =>
    intro pathIndex config deleted fields r h
    simp only [massagePaths] at h
    have hb : (("platform" == "template") && regexp.matchContainerImage path) = false := by
      have : ("platform" == "template") = false := by decide
      rw [this]; rfl
    rw [if_neg (by rw [hb]; exact Bool.false_ne_true)] at h
    exact ih _ _ _ _ _ h

theorem mem_eraseIdx {α : Type} (l : List α) (i : Nat) (x : α) (h : x ∈ l.eraseIdx i) :
    x ∈ l := (List.eraseIdx_sublist l i).subset h

theorem removeIndices_subset (deleted : List Nat) :
    ∀ (removed : Nat) (paths : List String), ∀ p ∈ removeIndices deleted removed paths,
      p ∈ paths := by
  induction deleted with
  | nil => intro removed paths p hp; exact hp
  | cons d rest ih =>
    intro removed paths p hp
    simp only [removeIndices] at hp
    exact mem_eraseIdx _ _ _ (ih _ _ p hp)

end pkg.openshift

namespace pkg.openshift

open gojsonpointer

theorem getTokens_singleton (t : String) (node : Value) :
    getTokens [t] node = child t node := by
  simp only [getTokens]
  cases child t node <;> rfl

/-- The annotations copy answers for the annotations of the tree. -/
theorem get_annotationKey (m : Value) (ap : Bool) (ann : List (String × Value))
    (hann : (match Get (openshift.pointerOf "/metadata/annotations") m with
        | none => some (false, [])
        | some a => a.asMap.map (fun a => (true, a))) = some (ap, ann))
    (t : String) :
    Get (["metadata", "annotations"] ++ [t]) m = GoMap.get (decodeReferenceToken t) ann := by
  have hq : openshift.pointerOf "/metadata/annotations" = ["metadata", "annotations"] := rfl
  rw [hq] at hann
  simp only [Get] at hann ⊢
  rw [getTokens_append]
  split at hann
  · rename_i hg
    cases hann
    rw [hg]
    rfl
  · rename_i a hg
    rw [hg]
    cases a <;> simp [Value.asMap] at hann
    obtain ⟨-, rfl⟩ := hann
    simp only [getTokens_singleton, child]

/-- The platform image stream `foo` whose applied-config annotation records a
value for the managed-annotations key: the item is built, and the key resolves
under `/metadata/annotations` in its `Config` and its pointer is in its
`Paths` (C20). -/
theorem managed_annotations_key_replayed :
    ∃ item, NewResourceItem
        (examples.decoderFor
          "\x7b\"/metadata/annotations/tailor.opendevstack.org~1managed-annotations\":\"x\"\x7d"
          [("/metadata/annotations/tailor.opendevstack.org~1managed-annotations", "x")])
        (examples.imageStream (Value.str "ImageStream")
          [("tailor.opendevstack.org/applied-config", Value.str
            "\x7b\"/metadata/annotations/tailor.opendevstack.org~1managed-annotations\":\"x\"\x7d")])
        "platform" = .ok item
      ∧ Get (openshift.pointerOf tailorManagedAnnotationPath) item.Config = some (Value.str "x")
      ∧ tailorManagedAnnotationPath ∈ item.Paths :=
  ⟨_, rfl, rfl, by decide⟩

/-- C20 (amended): for every platform tree with unique keys from which
`NewResourceItem` builds an item, provided every pointer recorded in the
applied-config annotation parts ways with the pointer of the
managed-annotations key: neither that key nor the applied-config key is a key
of `Annotations`, resolves under `/metadata/annotations` in `Config`, or has
its pointer in `Paths`. -/
theorem tailor_annotations_removed (unmarshal : String → Option (List (String × String)))
    (m : List (String × Value)) (item : ResourceItem)
    (hu : uniqueKeysEntries m = true)
    (h : NewResourceItem unmarshal m "platform" = .ok item)
    (hentries : ∀ e ∈ item.TailorAppliedConfigFields,
      apart tailorManagedAnnotationPath e.1 = true) :
    (GoMap.has tailorManagedAnnotation item.Annotations = false
        ∧ GoMap.has tailorAppliedConfigAnnotation item.Annotations = false)
      ∧ (Get (openshift.pointerOf tailorManagedAnnotationPath) item.Config = none
        ∧ Get (openshift.pointerOf tailorAppliedConfigAnnotationPath) item.Config = none)
      ∧ (tailorManagedAnnotationPath ∉ item.Paths
        ∧ tailorAppliedConfigAnnotationPath ∉ item.Paths) := by
  obtain ⟨ap, ann, managed, m1, ann1, fields, m2, ann2, config, deleted, fields2, hann, hm,
    happ, hmp, hpaths, hconfig, -, hannot, -, hfields⟩ := parseConfig_inv unmarshal _ m item h
  have hwf := walked_tree_wellFormed unmarshal _ m ann ann1 ann2 managed m1 m2 fields hu hm happ
  have hf2 : fields2 = fields := massagePaths_platform_fields _ _ _ _ _ _ hmp
  rw [hfields, hf2] at hentries
  have hpm : openshift.pointerOf tailorManagedAnnotationPath
      = ["metadata", "annotations"] ++ ["tailor.opendevstack.org~1managed-annotations"] := rfl
  have hpa : openshift.pointerOf tailorAppliedConfigAnnotationPath
      = ["metadata", "annotations"] ++ ["tailor.opendevstack.org~1applied-config"] := rfl
  have hNm : NewJsonPointer tailorManagedAnnotationPath
      = some (openshift.pointerOf tailorManagedAnnotationPath) := rfl
  have hNa : NewJsonPointer tailorAppliedConfigAnnotationPath
      = some (openshift.pointerOf tailorAppliedConfigAnnotationPath) := rfl
  -- the managed-annotations step
  have hstep1 : Get (openshift.pointerOf tailorManagedAnnotationPath) m1 = none
      ∧ GoMap.has tailorManagedAnnotation ann1 = false := by
    have hga := get_annotationKey (Value.map m) ap ann hann
      "tailor.opendevstack.org~1managed-annotations"
    have hdec : decodeReferenceToken "tailor.opendevstack.org~1managed-annotations"
        = tailorManagedAnnotation := by rfl
    rw [hdec, ← hpm] at hga
    unfold managedAnnotations at hm
    simp only [beq_self_eq_true, if_true, hNm] at hm
    split at hm
    · rename_i hg
      simp only [Outcome.ok.injEq, Prod.mk.injEq] at hm
      obtain ⟨-, rfl, rfl⟩ := hm
      refine ⟨hg, ?_⟩
      rw [hg] at hga
      simp only [GoMap.has, ← hga]
      rfl
    · split at hm
      · cases hm
      · split at hm
        · cases hm
        · rename_i m' hdel
          simp only [Outcome.ok.injEq, Prod.mk.injEq] at hm
          obtain ⟨-, rfl, rfl⟩ := hm
          refine ⟨?_, ?_⟩
          · rw [hpm] at hdel ⊢
            exact Get_Delete_same _ _ _ _ (by rfl) hdel
          · simp only [GoMap.has, GoMap.get_del_same]
            rfl
  -- the applied-configuration step
  rcases applied_step_inv unmarshal _ m1 m2 ann1 ann2 fields happ with
    ⟨hne, -, -, -⟩ | ⟨-, ha, hann2⟩
  · exact absurd rfl hne
  have hstep2 : Get (openshift.pointerOf tailorManagedAnnotationPath) m2 = none
      ∧ Get (openshift.pointerOf tailorAppliedConfigAnnotationPath) m2 = none := by
    rcases appliedConfig_inv unmarshal m1 m2 fields ha with ⟨hg, -, rfl⟩ | ⟨m', hr, hdel⟩
    · exact ⟨hstep1.1, hg⟩
    · refine ⟨?_, ?_⟩
      · have hap : apartTokens (openshift.pointerOf tailorManagedAnnotationPath)
            (openshift.pointerOf tailorAppliedConfigAnnotationPath) = true := by rfl
        rw [Get_Delete_apart _ _ _ _ hap hdel,
          replayAppliedConfig_apart tailorManagedAnnotationPath _ hNm fields m1 m' hentries hr]
        exact hstep1.1
      · rw [hpa] at hdel ⊢
        exact Get_Delete_same _ _ _ _ (by rfl) hdel
  -- the strip of the simple fields
  have hstep3 : Get (openshift.pointerOf tailorManagedAnnotationPath)
        (openshift.deleteFields m2 platformManagedSimpleFields) = none
      ∧ Get (openshift.pointerOf tailorAppliedConfigAnnotationPath)
        (openshift.deleteFields m2 platformManagedSimpleFields) = none := by
    rw [deleteFields_apart tailorManagedAnnotationPath _ hNm platformManagedSimpleFields m2
        (by decide),
      deleteFields_apart tailorAppliedConfigAnnotationPath _ hNa platformManagedSimpleFields m2
        (by decide)]
    exact hstep2
  refine ⟨⟨?_, ?_⟩, ⟨?_, ?_⟩, ⟨?_, ?_⟩⟩
  · rw [hannot, hann2]
    cases hh : GoMap.has tailorManagedAnnotation
        (GoMap.del tailorAppliedConfigAnnotation ann1) with
    | false => rfl
    | true =>
      have := (GoMap.has_del _ _ _ hh).1
      rw [hstep1.2] at this
      cases this
  · rw [hannot, hann2]
    simp only [GoMap.has, GoMap.get_del_same]
    rfl
  · rw [hconfig]
    have := massagePaths_platform_apart (openshift.pointerOf tailorManagedAnnotationPath)
      (by rfl) _ _ _ _ _ _ hmp
    rw [this]
    exact hstep3.1
  · rw [hconfig]
    have := massagePaths_platform_apart (openshift.pointerOf tailorAppliedConfigAnnotationPath)
      (by rfl) _ _ _ _ _ _ hmp
    rw [this]
    exact hstep3.2
  · intro hmem
    rw [hpaths] at hmem
    have hw := removeIndices_subset _ _ _ _ hmem
    obtain ⟨kvs, hkvs, hukvs⟩ := hwf
    rw [hkvs] at hw hstep3
    have := openshift.walkMap_root_resolves kvs hukvs _ hw
    rw [hstep3.1] at this
    cases this
  · intro hmem
    rw [hpaths] at hmem
    have hw := removeIndices_subset _ _ _ _ hmem
    obtain ⟨kvs, hkvs, hukvs⟩ := hwf
    rw [hkvs] at hw hstep3
    have := openshift.walkMap_root_resolves kvs hukvs _ hw
    rw [hstep3.2] at this
    cases this

end pkg.openshift

namespace pkg.openshift

open gojsonpointer

/-- Witness for C20: the platform deployment config `foo` with the marker
annotation `a` and an applied-config annotation that records the image. -/
theorem tailor_annotations_removed_witness :
    (GoMap.has tailorManagedAnnotation
          (examples.itemOf (examples.deploymentConfig (Value.str "bar/foo:abcdef")
            [("tailor.opendevstack.org/managed-annotations", Value.str "a"),
             ("a", Value.str "1"),
             ("tailor.opendevstack.org/applied-config", Value.str
               "\x7b\"/spec/template/spec/containers/0/image\":\"bar/foo:latest\"\x7d")] [])
            "platform").Annotations = false
        ∧ GoMap.has tailorAppliedConfigAnnotation
          (examples.itemOf (examples.deploymentConfig (Value.str "bar/foo:abcdef")
            [("tailor.opendevstack.org/managed-annotations", Value.str "a"),
             ("a", Value.str "1"),
             ("tailor.opendevstack.org/applied-config", Value.str
               "\x7b\"/spec/template/spec/containers/0/image\":\"bar/foo:latest\"\x7d")] [])
            "platform").Annotations = false)
      ∧ (Get (openshift.pointerOf tailorManagedAnnotationPath)
          (examples.itemOf (examples.deploymentConfig (Value.str "bar/foo:abcdef")
            [("tailor.opendevstack.org/managed-annotations", Value.str "a"),
             ("a", Value.str "1"),
             ("tailor.opendevstack.org/applied-config", Value.str
               "\x7b\"/spec/template/spec/containers/0/image\":\"bar/foo:latest\"\x7d")] [])
            "platform").Config = none
        ∧ Get (openshift.pointerOf tailorAppliedConfigAnnotationPath)
          (examples.itemOf (examples.deploymentConfig (Value.str "bar/foo:abcdef")
            [("tailor.opendevstack.org/managed-annotations", Value.str "a"),
             ("a", Value.str "1"),
             ("tailor.opendevstack.org/applied-config", Value.str
               "\x7b\"/spec/template/spec/containers/0/image\":\"bar/foo:latest\"\x7d")] [])
            "platform").Config = none)
      ∧ (tailorManagedAnnotationPath ∉
          (examples.itemOf (examples.deploymentConfig (Value.str "bar/foo:abcdef")
            [("tailor.opendevstack.org/managed-annotations", Value.str "a"),
             ("a", Value.str "1"),
             ("tailor.opendevstack.org/applied-config", Value.str
               "\x7b\"/spec/template/spec/containers/0/image\":\"bar/foo:latest\"\x7d")] [])
            "platform").Paths
        ∧ tailorAppliedConfigAnnotationPath ∉
          (examples.itemOf (examples.deploymentConfig (Value.str "bar/foo:abcdef")
            [("tailor.opendevstack.org/managed-annotations", Value.str "a"),
             ("a", Value.str "1"),
             ("tailor.opendevstack.org/applied-config", Value.str
               "\x7b\"/spec/template/spec/containers/0/image\":\"bar/foo:latest\"\x7d")] [])
            "platform").Paths) :=
  tailor_annotations_removed examples.decodeJSON
    (examples.deploymentConfig (Value.str "bar/foo:abcdef")
      [("tailor.opendevstack.org/managed-annotations", Value.str "a"),
       ("a", Value.str "1"),
       ("tailor.opendevstack.org/applied-config", Value.str
         "\x7b\"/spec/template/spec/containers/0/image\":\"bar/foo:latest\"\x7d")] [])
    _ rfl rfl (by decide)

end pkg.openshift

/-! ## The order of `Paths` -/

namespace regexp

/-- The pattern is not anchored at the end: what matches still matches when
text is appended. -/
theorem matchLastTriggeredImage_append (s x : String)
    (h : matchLastTriggeredImage s = true) : matchLastTriggeredImage (s ++ x) = true := by
  simp only [matchLastTriggeredImage, Bool.and_eq_true, List.isPrefixOf_iff_prefix,
    String.data_append] at h ⊢
  obtain ⟨h1, h2⟩ := h
  refine ⟨h1.trans (List.prefix_append _ _), ?_⟩
  have hlen : "/spec/triggers/".data.length ≤ s.data.length := h1.length_le
  rw [List.drop_append_of_le_length hlen, List.dropWhile_append]
  split
  · rename_i hempty
    obtain ⟨t, ht⟩ := h2
    have : List.dropWhile isDigit (List.drop "/spec/triggers/".data.length s.data) = [] := by
      simpa [List.isEmpty_iff] using hempty
    rw [this] at ht
    cases ht
  · exact h2.trans (List.prefix_append _ _)

end regexp

namespace strings

theorem append_slash_cancel (a b e f : List Char) (he : '/' ∉ e) (hf : '/' ∉ f)
    (h : a ++ '/' :: e = b ++ '/' :: f) : a = b ∧ e = f := by
  rcases List.append_eq_append_iff.1 h with ⟨a', h1, h2⟩ | ⟨c', h1, h2⟩
  · cases a' with
    | nil =>
      simp only [List.nil_append, List.cons.injEq, true_and] at h2
      exact ⟨by simpa using h1.symm, h2⟩
    | cons x a' =>
      simp only [List.cons_append, List.cons.injEq] at h2
      exact absurd (by rw [h2.2]; simp) he
  · cases c' with
    | nil =>
      simp only [List.nil_append, List.cons.injEq, true_and] at h2
      exact ⟨by simpa using h1, h2.symm⟩
    | cons x c' =>
      simp only [List.cons_append, List.cons.injEq] at h2
      exact absurd (by rw [h2.2]; simp) hf

end strings

namespace openshift

theorem pointer_parent (ptr parent e seg : String) (he : '/' ∉ e.data) (hseg : '/' ∉ seg.data)
    (h : ptr ++ "/" ++ e = parent ++ "/" ++ seg) : ptr = parent := by
  have h' := congrArg String.data h
  simp only [String.data_append] at h'
  have h2 : ptr.data ++ '/' :: e.data = parent.data ++ '/' :: seg.data := by
    simpa using h'
  exact String.ext (strings.append_slash_cancel _ _ _ _ he hseg h2).1

mutual
/-- In the walk of a mapping below `ptr`, the parent of every pointer is
`ptr` itself or stands earlier in the walk. -/
theorem walkMap_parent (kvs : List (String × Value)) (ptr : String)
    (l1 l2 : List String) (parent seg : String)
    (h : walkMap kvs ptr = l1 ++ (parent ++ "/" ++ seg) :: l2) (hseg : '/' ∉ seg.data) :
    parent = ptr ∨ parent ∈ l1 :=
  match kvs with
  | [] => by simp [walkMap] at h
  | (k, v) :: rest => by
    simp only [walkMap] at h
    rcases List.append_eq_append_iff.1 h with ⟨a', h1, h2⟩ | ⟨c', h1, h2⟩
    · rcases walkMap_parent rest ptr a' l2 parent seg h2 hseg with hp | hp
      · exact Or.inl hp
      · right
        rw [h1]
        exact List.mem_append_right _ hp
    · rcases List.cons_eq_append_iff.1 h2 with ⟨rfl, h3⟩ | ⟨a'', rfl, h3⟩
      · rcases walkMap_parent rest ptr [] l2 parent seg (by rw [List.nil_append]; exact h3) hseg with hp | hp
        · exact Or.inl hp
        · cases hp
      · exact handleKeyValue_parent k v ptr l1 a'' parent seg h1 hseg
theorem walkArray_parent (xs : List Value) (i : Nat) (ptr : String)
    (l1 l2 : List String) (parent seg : String)
    (h : walkArray xs i ptr = l1 ++ (parent ++ "/" ++ seg) :: l2) (hseg : '/' ∉ seg.data) :
    parent = ptr ∨ parent ∈ l1 :=
  match xs with
  | [] => by simp [walkArray] at h
  | v :: rest => by
    simp only [walkArray] at h
    rcases List.append_eq_append_iff.1 h with ⟨a', h1, h2⟩ | ⟨c', h1, h2⟩
    · rcases walkArray_parent rest (i + 1) ptr a' l2 parent seg h2 hseg with hp | hp
      · exact Or.inl hp
      · right
        rw [h1]
        exact List.mem_append_right _ hp
    · rcases List.cons_eq_append_iff.1 h2 with ⟨rfl, h3⟩ | ⟨a'', rfl, h3⟩
      · rcases walkArray_parent rest (i + 1) ptr [] l2 parent seg (by rw [List.nil_append]; exact h3) hseg with hp | hp
        · exact Or.inl hp
        · cases hp
      · exact handleKeyValue_parent (strconv.Itoa i) v ptr l1 a'' parent seg h1 hseg
theorem handleKeyValue_parent (strK : String) (v : Value) (ptr : String)
    (l1 l2 : List String) (parent seg : String)
    (h : handleKeyValue strK v ptr = l1 ++ (parent ++ "/" ++ seg) :: l2)
    (hseg : '/' ∉ seg.data) :
    parent = ptr ∨ parent ∈ l1 :=
  match v with
  | .seq vv => by
    simp only [handleKeyValue] at h
    rcases List.cons_eq_append_iff.1 h with ⟨rfl, h3⟩ | ⟨a', rfl, h3⟩
    · simp only [List.cons.injEq] at h3
      exact Or.inl (pointer_parent _ _ _ _ (gojsonpointer.escape_no_slash strK) hseg h3.1.symm).symm
    · rcases walkArray_parent vv 0 _ a' l2 parent seg h3 hseg with hp | hp
      · right; rw [hp]; exact List.mem_cons_self _ _
      · right; exact List.mem_cons_of_mem _ hp
  | .map vv => by
    simp only [handleKeyValue] at h
    rcases List.cons_eq_append_iff.1 h with ⟨rfl, h3⟩ | ⟨a', rfl, h3⟩
    · simp only [List.cons.injEq] at h3
      exact Or.inl (pointer_parent _ _ _ _ (gojsonpointer.escape_no_slash strK) hseg h3.1.symm).symm
    · rcases walkMap_parent vv _ a' l2 parent seg h3 hseg with hp | hp
      · right; rw [hp]; exact List.mem_cons_self _ _
      · right; exact List.mem_cons_of_mem _ hp
  | .null => by
    simp only [handleKeyValue] at h
    rcases List.cons_eq_append_iff.1 h with ⟨rfl, h3⟩ | ⟨a', rfl, h3⟩
    · simp only [List.cons.injEq] at h3
      exact Or.inl (pointer_parent _ _ _ _ (gojsonpointer.escape_no_slash strK) hseg h3.1.symm).symm
    · simp at h3
  | .bool _ => by
    simp only [handleKeyValue] at h
    rcases List.cons_eq_append_iff.1 h with ⟨rfl, h3⟩ | ⟨a', rfl, h3⟩
    · simp only [List.cons.injEq] at h3
      exact Or.inl (pointer_parent _ _ _ _ (gojsonpointer.escape_no_slash strK) hseg h3.1.symm).symm
    · simp at h3
  | .num _ => by
    simp only [handleKeyValue] at h
    rcases List.cons_eq_append_iff.1 h with ⟨rfl, h3⟩ | ⟨a', rfl, h3⟩
    · simp only [List.cons.injEq] at h3
      exact Or.inl (pointer_parent _ _ _ _ (gojsonpointer.escape_no_slash strK) hseg h3.1.symm).symm
    · simp at h3
  | .str _ => by
    simp only [handleKeyValue] at h
    rcases List.cons_eq_append_iff.1 h with ⟨rfl, h3⟩ | ⟨a', rfl, h3⟩
    · simp only [List.cons.injEq] at h3
      exact Or.inl (pointer_parent _ _ _ _ (gojsonpointer.escape_no_slash strK) hseg h3.1.symm).symm
    · simp at h3
end

end openshift

namespace pkg.openshift

/-- The loop of `parseConfig` records the indices of the matching paths. -/
theorem massagePaths_deleted (source : String) (paths : List String) :
    ∀ (pathIndex : Nat) (config : Value) (deleted : List Nat)
      (fields : List (String × String)) (r : Value × List Nat × List (String × String)),
      massagePaths source paths pathIndex config deleted fields = .ok r →
        r.2.1 = deleted ++ deletedPathIndices paths pathIndex := by
  induction paths with
  | nil =>
    intro pathIndex config deleted fields r h
    cases h
    simp [deletedPathIndices]
  | cons path rest ih =>
    intro pathIndex config deleted fields r h
    simp only [massagePaths] at h
    have key : ∀ (c : Value) (f : List (String × String)),
        massagePaths source rest (pathIndex + 1) c
          (if regexp.matchLastTriggeredImage path = true then
            ((gojsonpointer.Delete (openshift.pointerOf path) config).getD config,
              deleted ++ [pathIndex])
           else (config, deleted)).2 f = .ok r →
        r.2.1 = deleted ++ deletedPathIndices (path :: rest) pathIndex := by
      intro c f hh
      rw [ih _ _ _ _ _ hh]
      by_cases hm : regexp.matchLastTriggeredImage path = true
      · simp [deletedPathIndices, hm]
      · simp [deletedPathIndices, hm]
    split at h
    · split at h
      · cases h
      · split at h
        · cases h
        · split at h
          · cases h
          · exact key _ _ h
    · exact key _ _ h

/-- Removing the recorded indices removes exactly the matching paths. -/
theorem removeIndices_deleted (paths : List String) :
    ∀ (pathIndex removed : Nat) (pre : List String), pre.length + removed = pathIndex →
      removeIndices (deletedPathIndices paths pathIndex) removed (pre ++ paths)
        = pre ++ paths.filter (fun p => !regexp.matchLastTriggeredImage p) := by
  induction paths with
  | nil => intro pathIndex removed pre _; simp [deletedPathIndices, removeIndices]
  | cons path rest ih =>
    intro pathIndex removed pre hlen
    by_cases hm : regexp.matchLastTriggeredImage path = true
    · simp only [deletedPathIndices, hm, if_true, List.singleton_append, removeIndices,
        List.filter_cons, Bool.not_true, Bool.false_eq_true, if_false]
      have hidx : pathIndex - removed = pre.length := by omega
      rw [hidx]
      have herase : (pre ++ path :: rest).eraseIdx pre.length = pre ++ rest := by
        rw [List.eraseIdx_append_of_length_le (le_refl _)]
        simp
      rw [herase]
      exact ih (pathIndex + 1) (removed + 1) pre (by omega)
    · have hm' : regexp.matchLastTriggeredImage path = false := by
        cases h : regexp.matchLastTriggeredImage path
        · rfl
        · exact absurd h hm
      simp only [deletedPathIndices, hm', Bool.false_eq_true, if_false, List.nil_append,
        List.filter_cons, Bool.not_false, if_true]
      have := ih (pathIndex + 1) removed (pre ++ [path]) (by simp; omega)
      simpa using this

/-- The `Paths` of an item are the walked pointers without those that match
the platform-managed pattern, in the order of the walk. -/
theorem parseConfig_paths (unmarshal : String → Option (List (String × String)))
    (source : String) (m : List (String × Value)) (item : ResourceItem)
    (h : parseConfig unmarshal source m = .ok item) :
    ∃ kvs : List (String × Value),
      item.Paths = (openshift.walkMap kvs "").filter
        (fun p => !regexp.matchLastTriggeredImage p) := by
  obtain ⟨ap, ann, managed, m1, ann1, fields, m2, ann2, config, deleted, fields2, -, -,
    -, hmp, hpaths, -, -, -, -, -⟩ := parseConfig_inv unmarshal source m item h
  have hd := massagePaths_deleted _ _ _ _ _ _ _ hmp
  simp only [List.nil_append] at hd
  rw [hd] at hpaths
  have := removeIndices_deleted
    (openshift.walkMap
      ((openshift.deleteFields m2 platformManagedSimpleFields).asMap.getD []) "") 0 0 [] rfl
  simp only [List.nil_append] at this
  rw [this] at hpaths
  exact ⟨_, hpaths⟩

/-- C18: in the `Paths` of every item that `NewResourceItem` builds, the parent
of every pointer with more than one segment (the pointer without its last
segment) stands before the pointer. -/
theorem parents_precede_descendants (unmarshal : String → Option (List (String × String)))
    (m : List (String × Value)) (source : String) (item : ResourceItem)
    (l1 l2 : List String) (parent seg : String)
    (h : NewResourceItem unmarshal m source = .ok item)
    (hsplit : item.Paths = l1 ++ (parent ++ "/" ++ seg) :: l2)
    (hseg : '/' ∉ seg.data) (hparent : parent ≠ "") :
    parent ∈ l1 := by
  obtain ⟨kvs, hpaths⟩ := parseConfig_paths unmarshal source m item h
  rw [hpaths] at hsplit
  obtain ⟨w1, w2', hw, hf1, hf2⟩ := List.filter_eq_append_iff.1 hsplit
  obtain ⟨w0, w2, hw2, hw0, hq, -⟩ := List.filter_eq_cons_iff.1 hf2
  have hwalk : openshift.walkMap kvs "" = (w1 ++ w0) ++ (parent ++ "/" ++ seg) :: w2 := by
    rw [hw, hw2, List.append_assoc]
  rcases openshift.walkMap_parent kvs "" _ _ parent seg hwalk hseg with hp | hp
  · exact absurd hp hparent
  · have hnm : (!regexp.matchLastTriggeredImage parent) = true := by
      cases hpm : regexp.matchLastTriggeredImage parent with
      | false => rfl
      | true =>
        have := regexp.matchLastTriggeredImage_append parent ("/" ++ seg) hpm
        rw [← String.append_assoc] at this
        rw [this] at hq
        cases hq
    rcases List.mem_append.1 hp with hp1 | hp0
    · rw [← hf1]
      exact List.mem_filter.2 ⟨hp1, hnm⟩
    · exact absurd hnm (hw0 parent hp0)

/-- Witness for C18: in the `Paths` of the template config map `foo` with the
data `a`, the pointer `/data/a` comes after `/data`. -/
theorem parents_precede_descendants_witness :
    "/data" ∈ ["/apiVersion", "/kind", "/metadata", "/metadata/name", "/data"] :=
  parents_precede_descendants examples.decodeJSON
    (examples.configMap (Value.map [("a", Value.str "1")])) "template" _
    ["/apiVersion", "/kind", "/metadata", "/metadata/name", "/data"] [] "/data" "a"
    rfl rfl (by decide) (by decide)

end pkg.openshift

/-! ## The walk writes pointers that resolve -/

namespace gojsonpointer

theorem canonGet_map (t : String) (ts : List String) (kvs : List (String × Value))
    (k : String) (v : Value) (hk : GoMap.get k kvs = some v) (ht : t = utils.JSONPointerPath k)
    (h : canonGet ts v = true) : canonGet (t :: ts) (Value.map kvs) = true := by
  subst ht
  simp only [canonGet, decode_escape, hk, beq_self_eq_true, Bool.true_and]
  exact h

theorem canonGet_seq (ts : List String) (xs : List Value) (n : Nat) (v : Value)
    (hn : xs.get? n = some v) (h : canonGet ts v = true) :
    canonGet (utils.JSONPointerPath (strconv.Itoa n) :: ts) (Value.seq xs) = true := by
  have hlt : n < xs.length := by
    rcases Nat.lt_or_ge n xs.length with h | h
    · exact h
    · rw [List.get?_eq_none.2 h] at hn; cases hn
  simp only [canonGet, strconv.escape_Itoa, arrayIndex_Itoa n _ hlt, beq_self_eq_true,
    Bool.true_and, hn]
  exact h

theorem getTokens_of_canonGet (ts : List String) :
    ∀ node : Value, canonGet ts node = true → (getTokens ts node).isSome = true := by
  induction ts with
  | nil => intro node _; rfl
  | cons t ts ih =>
    intro node h
    cases node with
    | map kvs =>
      simp only [canonGet] at h
      split at h
      · rename_i c hc
        simp only [Bool.and_eq_true] at h
        simp only [getTokens, child, hc]
        exact ih c h.2
      · cases h
    | seq xs =>
      simp only [canonGet] at h
      split at h
      · rename_i n hn
        simp only [Bool.and_eq_true] at h
        split at h
        · rename_i c hc
          simp only [getTokens, child, hn, hc]
          exact ih c h.2
        · exact absurd h.2 (by simp)
      · cases h
    | null => cases h
    | bool b => cases h
    | num n => cases h
    | str s => cases h

end gojsonpointer

namespace openshift

open gojsonpointer

mutual
theorem walkMap_canon (kvs : List (String × Value)) (ptr : String) (ts : List String)
    (node : Value) (hptr : NewJsonPointer ptr = some ts)
    (hch : ∀ e ∈ kvs, ∀ rs, canonGet rs e.2 = true →
      canonGet (utils.JSONPointerPath e.1 :: rs) node = true)
    (hwf : ∀ e ∈ kvs, e.2.uniqueKeys = true) :
    ∀ p ∈ walkMap kvs ptr, ∃ rs, NewJsonPointer p = some (ts ++ rs) ∧ rs ≠ []
      ∧ canonGet rs node = true :=
  match kvs with
  | [] => fun p hp => by simp [walkMap] at hp
  | (k, v) :: rest => fun p hp => by
    simp only [walkMap, List.mem_append] at hp
    rcases hp with hp | hp
    · exact handleKeyValue_canon k v ptr ts node hptr
        (hch (k, v) (List.mem_cons_self _ _)) (hwf (k, v) (List.mem_cons_self _ _)) p hp
    · exact walkMap_canon rest ptr ts node hptr
        (fun e he => hch e (List.mem_cons_of_mem _ he))
        (fun e he => hwf e (List.mem_cons_of_mem _ he)) p hp
theorem walkArray_canon (xs : List Value) (i : Nat) (ptr : String) (ts : List String)
    (node : Value) (hptr : NewJsonPointer ptr = some ts)
    (hch : ∀ j v, xs.get? j = some v → ∀ rs, canonGet rs v = true →
      canonGet (utils.JSONPointerPath (strconv.Itoa (i + j)) :: rs) node = true)
    (hwf : ∀ v ∈ xs, v.uniqueKeys = true) :
    ∀ p ∈ walkArray xs i ptr, ∃ rs, NewJsonPointer p = some (ts ++ rs) ∧ rs ≠ []
      ∧ canonGet rs node = true :=
  match xs with
  | [] => fun p hp => by simp [walkArray] at hp
  | v :: rest => fun p hp => by
    simp only [walkArray, List.mem_append] at hp
    rcases hp with hp | hp
    · exact handleKeyValue_canon (strconv.Itoa i) v ptr ts node hptr
        (by simpa using hch 0 v rfl) (hwf v (List.mem_cons_self _ _)) p hp
    · exact walkArray_canon rest (i + 1) ptr ts node hptr
        (fun j w hj => by
          have := hch (j + 1) w (by simpa using hj)
          rw [show i + 1 + j = i + (j + 1) by omega]
          exact this)
        (fun e he => hwf e (List.mem_cons_of_mem _ he)) p hp
theorem handleKeyValue_canon (strK : String) (v : Value) (ptr : String) (ts : List String)
    (node : Value) (hptr : NewJsonPointer ptr = some ts)
    (hch : ∀ rs, canonGet rs v = true →
      canonGet (utils.JSONPointerPath strK :: rs) node = true)
    (hwf : v.uniqueKeys = true) :
    ∀ p ∈ handleKeyValue strK v ptr, ∃ rs, NewJsonPointer p = some (ts ++ rs) ∧ rs ≠ []
      ∧ canonGet rs node = true :=
  have habs : NewJsonPointer (ptr ++ "/" ++ utils.JSONPointerPath strK)
      = some (ts ++ [utils.JSONPointerPath strK]) :=
    NewJsonPointer_append ptr _ ts hptr (escape_no_slash strK)
  have hself : ∀ p, p = ptr ++ "/" ++ utils.JSONPointerPath strK →
      ∃ rs, NewJsonPointer p = some (ts ++ rs) ∧ rs ≠ [] ∧ canonGet rs node = true :=
    fun p hp => ⟨[utils.JSONPointerPath strK], by rw [hp]; exact habs, by simp, hch [] rfl⟩
  match v with
  | .seq vv => fun p hp => by
    simp only [handleKeyValue, List.mem_cons] at hp
    rcases hp with hp | hp
    · exact hself p hp
    · have hw : ∀ w ∈ vv, w.uniqueKeys = true :=
        uniqueKeysList_value vv (by simpa [Value.uniqueKeys] using hwf)
      obtain ⟨rs, h1, -, h3⟩ := walkArray_canon vv 0 _ _ (Value.seq vv) habs
        (fun j w hj rs hrs => by
          rw [Nat.zero_add]
          exact canonGet_seq rs vv j w hj hrs)
        hw p hp
      exact ⟨utils.JSONPointerPath strK :: rs, by rw [h1]; simp, by simp, hch rs h3⟩
  | .map vv => fun p hp => by
    simp only [handleKeyValue, List.mem_cons] at hp
    rcases hp with hp | hp
    · exact hself p hp
    · have hu : uniqueKeysEntries vv = true := by simpa [Value.uniqueKeys] using hwf
      obtain ⟨rs, h1, -, h3⟩ := walkMap_canon vv _ _ (Value.map vv) habs
        (fun e he rs hrs =>
          canonGet_map _ rs vv e.1 e.2 (GoMap.get_of_mem_unique vv e.1 e.2 hu he) rfl hrs)
        (uniqueKeysEntries_value vv hu) p hp
      exact ⟨utils.JSONPointerPath strK :: rs, by rw [h1]; simp, by simp, hch rs h3⟩
  | .null => fun p hp => by
    simp only [handleKeyValue, List.mem_cons, List.not_mem_nil, or_false] at hp
    exact hself p hp
  | .bool _ => fun p hp => by
    simp only [handleKeyValue, List.mem_cons, List.not_mem_nil, or_false] at hp
    exact hself p hp
  | .num _ => fun p hp => by
    simp only [handleKeyValue, List.mem_cons, List.not_mem_nil, or_false] at hp
    exact hself p hp
  | .str _ => fun p hp => by
    simp only [handleKeyValue, List.mem_cons, List.not_mem_nil, or_false] at hp
    exact hself p hp
end

/-- Every pointer of the walk of a tree with unique keys parses into tokens
that resolve in the tree and are written as the walk writes them. -/
theorem walkMap_root_canon (m : List (String × Value))
    (hu : uniqueKeysEntries m = true) :
    ∀ p ∈ walkMap m "", NewJsonPointer p = some (pointerOf p) ∧ pointerOf p ≠ []
      ∧ canonGet (pointerOf p) (Value.map m) = true := by
  intro p hp
  obtain ⟨rs, h1, h2, h3⟩ := walkMap_canon m "" [] (Value.map m) rfl
    (fun e he rs hrs =>
      canonGet_map _ rs m e.1 e.2 (GoMap.get_of_mem_unique m e.1 e.2 hu he) rfl hrs)
    (uniqueKeysEntries_value m hu) p hp
  have hpo := pointerOf_of_NewJsonPointer p _ h1
  simp only [List.nil_append] at h1 hpo
  rw [hpo]
  exact ⟨h1, h2, h3⟩

end openshift

/-! ## What a `Delete` keeps -/

namespace strconv

theorem Itoa_allDigits (n : Nat) : (Itoa n).data.all regexp.isDigit = true := by
  obtain ⟨ds, h1, -, h3, -⟩ := toDigitsCore_spec (n + 1) n [] (Nat.lt_succ_self n)
  have hd : (Itoa n).data = ds := by
    unfold Itoa Nat.toDigits
    rw [h1]; simp
  rw [hd, List.all_eq_true]
  intro c hc
  exact h3 c hc

end strconv

namespace gojsonpointer

/-- A token of a pointer the walk wrote: an escaped key that is not a number,
or digits only. -/
theorem alikeTokens_of_same_index (p t : String) (len i : Nat)
    (hp : p = strconv.Itoa i) (ht : arrayIndex t len = some i)
    (hT : strconv.Atoi t = none ∨ t.data.all regexp.isDigit = true) :
    alikeTokens p t = true := by
  have hsome := atoi_isSome_of_arrayIndex t len i ht
  rcases hT with hT | hT
  · rw [hT] at hsome; cases hsome
  · simp only [alikeTokens, Bool.or_eq_true, Bool.and_eq_true]
    right
    exact ⟨by rw [hp]; exact strconv.Itoa_allDigits i, hT⟩

/-- One level of a `Delete` or `Set` above the entry it changes: a pointer
that resolved still resolves, unless it goes the same way. -/
theorem canonGet_putChild (t : String) (c0 c0' node node' : Value) (X : List String → Prop)
    (hesc : t = utils.JSONPointerPath (decodeReferenceToken t))
    (hT : strconv.Atoi t = none ∨ t.data.all regexp.isDigit = true)
    (hc : child t node = some c0) (hput : putChild t c0' node = some node')
    (hrec : ∀ q', canonGet q' c0 = true → canonGet q' c0' = true ∨ X q')
    (q : List String) (hq : canonGet q node = true) :
    canonGet q node' = true ∨ ∃ p q', q = p :: q' ∧ alikeTokens p t = true ∧ X q' := by
  cases q with
  | nil => exact Or.inl rfl
  | cons p q' =>
    cases node with
    | map kvs =>
      simp only [putChild, Option.some.injEq] at hput
      subst hput
      simp only [child] at hc
      simp only [canonGet] at hq ⊢
      split at hq
      · rename_i c hpc
        simp only [Bool.and_eq_true] at hq
        by_cases hk : decodeReferenceToken p = decodeReferenceToken t
        · have hpt : p = t := by
            have h1 : p = utils.JSONPointerPath (decodeReferenceToken p) := by
              simpa using hq.1
            rw [h1, hk, ← hesc]
          rw [hk, hc] at hpc
          cases hpc
          rcases hrec q' hq.2 with h | h
          · left
            rw [hk, GoMap.get_set_same]
            simp only [Bool.and_eq_true]
            exact ⟨by rw [← hk]; exact hq.1, h⟩
          · right
            exact ⟨p, q', rfl, by simp [alikeTokens, hpt], h⟩
        · left
          rw [GoMap.get_set_other _ _ _ _ hk, hpc]
          simp only [Bool.and_eq_true]
          exact hq
      · cases hq
    | seq xs =>
      simp only [putChild] at hput
      split at hput
      · rename_i j hj
        simp only [Option.some.injEq] at hput
        subst hput
        simp only [child, hj] at hc
        simp only [canonGet, List.length_set] at hq ⊢
        split at hq
        · rename_i i hi
          simp only [Bool.and_eq_true] at hq
          split at hq
          · rename_i c hci
            by_cases hij : i = j
            · subst hij
              rw [hc] at hci
              cases hci
              have hlt := arrayIndex_lt _ _ _ hj
              rcases hrec q' hq.2 with h | h
              · left
                simp only [Bool.and_eq_true]
                refine ⟨hq.1, ?_⟩
                rw [List.get?_eq_getElem?, List.getElem?_set_self hlt]
                exact h
              · right
                exact ⟨p, q', rfl,
                  alikeTokens_of_same_index p t _ i (by simpa using hq.1) hj hT, h⟩
            · left
              simp only [Bool.and_eq_true]
              refine ⟨hq.1, ?_⟩
              rw [List.get?_eq_getElem?, List.getElem?_set_ne (Ne.symm hij),
                ← List.get?_eq_getElem?, hci]
              exact hq.2
          · exact absurd hq.2 (by simp)
        · cases hq
      · cases hput
    | null => cases hc
    | bool b => cases hc
    | num n => cases hc
    | str s => cases hc

/-- The level of a `Delete` at which a key of a mapping goes: a pointer that
resolved still resolves, unless it goes through that key. -/
theorem canonGet_removeChild (t : String) (node node' : Value)
    (hesc : t = utils.JSONPointerPath (decodeReferenceToken t))
    (hT : strconv.Atoi t = none)
    (hrem : removeChild t node = some node')
    (q : List String) (hq : canonGet q node = true) :
    canonGet q node' = true ∨ ∃ p q', q = p :: q' ∧ alikeTokens p t = true := by
  cases q with
  | nil => exact Or.inl rfl
  | cons p q' =>
    cases node with
    | map kvs =>
      simp only [removeChild] at hrem
      split at hrem
      · simp only [Option.some.injEq] at hrem
        subst hrem
        simp only [canonGet] at hq ⊢
        split at hq
        · rename_i c hpc
          simp only [Bool.and_eq_true] at hq
          by_cases hk : decodeReferenceToken p = decodeReferenceToken t
          · right
            have hpt : p = t := by
              have h1 : p = utils.JSONPointerPath (decodeReferenceToken p) := by
                simpa using hq.1
              rw [h1, hk, ← hesc]
            exact ⟨p, q', rfl, by simp [alikeTokens, hpt]⟩
          · left
            rw [GoMap.get_del_other _ _ _ hk, hpc]
            simp only [Bool.and_eq_true]
            exact hq
        · cases hq
      · cases hrem
    | seq xs =>
      simp only [removeChild, arrayIndex_none_of_atoi t _ hT] at hrem
      cases hrem
    | null => cases hrem
    | bool b => cases hrem
    | num n => cases hrem
    | str s => cases hrem

end gojsonpointer

namespace gojsonpointer

/-- A successful `Delete` below a pointer whose last token is a key of a
mapping keeps every pointer that resolved, unless it goes through that key. -/
theorem Delete_keeps_canon (pre : List String) :
    ∀ (suf : List String) (node node' : Value) (q : List String),
      pre ≠ [] →
      (∀ t ∈ pre, t = utils.JSONPointerPath (decodeReferenceToken t)
        ∧ (strconv.Atoi t = none ∨ t.data.all regexp.isDigit = true)) →
      (∀ t, pre.getLast? = some t → strconv.Atoi t = none) →
      Delete (pre ++ suf) node = some node' →
      canonGet q node = true →
      canonGet q node' = true ∨ alikePrefix pre q = true := by
  induction pre with
  | nil => intro suf node node' q hne; exact absurd rfl hne
  | cons t pre' ih =>
    intro suf node node' q _ hH hlast hdel hq
    have hHt := hH t (List.mem_cons_self _ _)
    cases pre' with
    | nil =>
      have hTt : strconv.Atoi t = none := hlast t rfl
      cases suf with
      | nil =>
        have hrem : removeChild t node = some node' := hdel
        rcases canonGet_removeChild t node node' hHt.1 hTt hrem q hq with h | ⟨p, q', rfl, h⟩
        · exact Or.inl h
        · right
          simp only [alikePrefix, h, Bool.and_self]
      | cons s suf' =>
        have hdel' : deleteTokens t (s :: suf') node = some node' := hdel
        simp only [deleteTokens] at hdel'
        split at hdel'
        · cases hdel'
        · rename_i c0 hc0
          split at hdel'
          · cases hdel'
          · rename_i c0' hc0'
            rcases canonGet_putChild t c0 c0' node node' (fun _ => True) hHt.1 hHt.2 hc0 hdel'
              (fun _ _ => Or.inr trivial) q hq with h | ⟨p, q', rfl, h, -⟩
            · exact Or.inl h
            · right
              simp only [alikePrefix, h, Bool.and_self]
    | cons t2 pre'' =>
      have hdel' : deleteTokens t (t2 :: (pre'' ++ suf)) node = some node' := hdel
      simp only [deleteTokens] at hdel'
      split at hdel'
      · cases hdel'
      · rename_i c0 hc0
        split at hdel'
        · cases hdel'
        · rename_i c0' hc0'
          have hrec : ∀ q', canonGet q' c0 = true →
              canonGet q' c0' = true ∨ alikePrefix (t2 :: pre'') q' = true :=
            fun q' hq' => ih suf c0 c0' q' (by simp)
              (fun u hu => hH u (List.mem_cons_of_mem _ hu))
              (fun u hu => hlast u (by simpa [List.getLast?_cons_cons] using hu))
              hc0' hq'
          rcases canonGet_putChild t c0 c0' node node'
              (fun q' => alikePrefix (t2 :: pre'') q' = true) hHt.1 hHt.2 hc0 hdel'
              hrec q hq with h | ⟨p, q', rfl, h, h'⟩
          · exact Or.inl h
          · right
            simp only [alikePrefix, Bool.and_eq_true] at h' ⊢
            exact ⟨h, h'⟩

theorem not_allDigits_of_prefix (l : String)
    (h : "lastTriggeredImage".data.isPrefixOf l.data = true) :
    l.data.all regexp.isDigit = false ∧ strconv.Atoi l = none := by
  obtain ⟨r, hr⟩ := List.isPrefixOf_iff_prefix.1 h
  have hd : l.data = 'l' :: ("astTriggeredImage".data ++ r) := by
    rw [← hr]; rfl
  constructor
  · rw [hd]; rfl
  · unfold strconv.Atoi
    rw [hd]
    rfl

/-- A pointer that goes the way of a matching pointer for its first five
tokens matches as well. -/
theorem tokensMatch_of_alikePrefix (t1 t2 n t4 l : String) (rest q : List String)
    (hm : tokensMatch (t1 :: t2 :: n :: t4 :: l :: rest) = true)
    (ha : alikePrefix [t1, t2, n, t4, l] q = true) : tokensMatch q = true := by
  simp only [tokensMatch, Bool.and_eq_true, beq_iff_eq] at hm
  obtain ⟨⟨⟨⟨h1, h2⟩, h3⟩, h4⟩, h5⟩ := hm
  subst h1 h2 h4
  obtain ⟨hl1, -⟩ := not_allDigits_of_prefix l h5
  match q, ha with
  | [], ha => simp [alikePrefix] at ha
  | [_], ha => simp [alikePrefix] at ha
  | [_, _], ha => simp [alikePrefix] at ha
  | [_, _, _], ha => simp [alikePrefix] at ha
  | [_, _, _, _], ha => simp [alikePrefix] at ha
  | q1 :: q2 :: q3 :: q4 :: q5 :: qr, ha =>
    simp only [alikePrefix, alikeTokens, Bool.and_eq_true, Bool.or_eq_true, beq_iff_eq,
      Bool.and_true] at ha
    obtain ⟨a1, a2, a3, a4, a5⟩ := ha
    have e1 : q1 = "spec" := by
      rcases a1 with h | h
      · exact h
      · exact absurd h.2 (by decide)
    have e2 : q2 = "triggers" := by
      rcases a2 with h | h
      · exact h
      · exact absurd h.2 (by decide)
    have e4 : q4 = "imageChangeParams" := by
      rcases a4 with h | h
      · exact h
      · exact absurd h.2 (by decide)
    have e5 : q5 = l := by
      rcases a5 with h | h
      · exact h
      · rw [hl1] at h; exact absurd h.2 (by decide)
    have e3 : q3.data.all regexp.isDigit = true := by
      rcases a3 with h | h
      · rw [h]; exact h3
      · exact h.1
    subst e1 e2 e4 e5
    simp only [tokensMatch, beq_self_eq_true, Bool.true_and, e3, h5, Bool.and_self]

end gojsonpointer

/-! ## The pattern of the platform-managed field, on tokens -/

namespace strings

theorem splitChars_prefix (c : Char) (w r : List Char) (hw : c ∉ w) :
    ∃ h t, splitChars c (w ++ r) = h :: t ∧ w <+: h := by
  induction w with
  | nil =>
    cases hs : splitChars c r with
    | nil => exact absurd hs (splitChars_ne_nil c r)
    | cons h t => exact ⟨h, t, hs, List.nil_prefix⟩
  | cons x w ih =>
    have hx : x ≠ c := fun h => hw (by simp [h])
    obtain ⟨h, t, h1, h2⟩ := ih (fun h => hw (List.mem_cons_of_mem _ h))
    refine ⟨x :: h, t, ?_, ?_⟩
    · rw [List.cons_append, splitChars, if_neg hx, h1]
    · obtain ⟨u, hu⟩ := h2
      exact ⟨u, by rw [← hu]; rfl⟩

theorem splitChars_head_prefix (c : Char) (r w : List Char) (ws : List (List Char))
    (h : splitChars c r = w :: ws) : w <+: r := by
  induction r generalizing w ws with
  | nil =>
    simp only [splitChars, List.cons.injEq] at h
    rw [← h.1]
  | cons x r ih =>
    simp only [splitChars] at h
    split at h
    · simp only [List.cons.injEq] at h
      rw [← h.1]
      exact List.nil_prefix
    · split at h
      · rename_i hs
        exact absurd hs (splitChars_ne_nil c r)
      · rename_i h0 t0 hs
        simp only [List.cons.injEq] at h
        rw [← h.1]
        obtain ⟨u, hu⟩ := ih h0 t0 hs
        exact ⟨u, by rw [← hu]; rfl⟩

theorem splitChars_cons_cons (c : Char) (r w w2 : List Char) (ws : List (List Char))
    (h : splitChars c r = w :: w2 :: ws) :
    ∃ r', r = w ++ c :: r' ∧ splitChars c r' = w2 :: ws := by
  induction r generalizing w with
  | nil => simp [splitChars] at h
  | cons x r ih =>
    simp only [splitChars] at h
    split at h
    · rename_i hx
      simp only [List.cons.injEq] at h
      exact ⟨r, by rw [← h.1, hx]; rfl, h.2⟩
    · split at h
      · rename_i hs
        exact absurd hs (splitChars_ne_nil c r)
      · rename_i h0 t0 hs
        simp only [List.cons.injEq] at h
        obtain ⟨hw, ht⟩ := h
        rw [ht] at hs
        obtain ⟨r', hr, hs'⟩ := ih h0 hs
        exact ⟨r', by rw [← hw, hr]; rfl, hs'⟩

end strings

namespace regexp

open gojsonpointer

theorem isDigit_ne_slash (c : Char) (h : isDigit c = true) : c ≠ '/' :=
  (strconv.digitVal_ne_sign c h).2.2.2

/-- A pointer that matches the pattern has tokens that match. -/
theorem tokensMatch_of_match (p : String) (ts : List String)
    (hp : NewJsonPointer p = some ts) (hm : matchLastTriggeredImage p = true) :
    tokensMatch ts = true := by
  simp only [matchLastTriggeredImage, Bool.and_eq_true, List.isPrefixOf_iff_prefix] at hm
  obtain ⟨⟨s', hs'⟩, ⟨s'', hs''⟩⟩ := hm
  have hdrop : List.drop "/spec/triggers/".data.length p.data = s' := by
    rw [← hs']
    exact List.drop_left _ _
  rw [hdrop] at hs''
  have hsplit : s' = s'.takeWhile isDigit
      ++ ("/imageChangeParams/lastTriggeredImage".data ++ s'') := by
    rw [hs'']
    exact (List.takeWhile_append_dropWhile _ _).symm
  have hn : ∀ c ∈ s'.takeWhile isDigit, isDigit c = true :=
    fun c hc => List.mem_takeWhile_imp hc
  have hnslash : '/' ∉ s'.takeWhile isDigit := fun hc => isDigit_ne_slash _ (hn _ hc) rfl
  generalize s'.takeWhile isDigit = n at hsplit hn hnslash
  have hdata : p.data = '/' :: ("spec".data ++ '/' :: ("triggers".data ++ '/' ::
      (n ++ '/' :: ("imageChangeParams".data ++ '/' ::
        ("lastTriggeredImage".data ++ s''))))) := by
    rw [← hs', hsplit]
    simp
  obtain ⟨h, t, hht, hpre⟩ := strings.splitChars_prefix '/' "lastTriggeredImage".data s''
    (by decide)
  unfold NewJsonPointer at hp
  rw [hdata] at hp
  simp only [Option.some.injEq] at hp
  rw [strings.splitChars_append_sep '/' _ _ (by decide),
    strings.splitChars_append_sep '/' _ _ (by decide),
    strings.splitChars_append_sep '/' _ _ hnslash,
    strings.splitChars_append_sep '/' _ _ (by decide), hht] at hp
  rw [← hp]
  simp only [List.map_cons, tokensMatch, Bool.and_eq_true, beq_iff_eq,
    List.isPrefixOf_iff_prefix, List.all_eq_true]
  exact ⟨⟨⟨⟨trivial, trivial⟩, hn⟩, trivial⟩, hpre⟩

/-- A pointer whose tokens match matches the pattern. -/
theorem match_of_tokensMatch (p : String) (ts : List String)
    (hp : NewJsonPointer p = some ts) (hm : tokensMatch ts = true) :
    matchLastTriggeredImage p = true := by
  match ts, hm with
  | t1 :: t2 :: n :: t4 :: l :: rest, hm =>
    simp only [tokensMatch, Bool.and_eq_true, beq_iff_eq, List.isPrefixOf_iff_prefix,
      List.all_eq_true] at hm
    obtain ⟨⟨⟨⟨h1, h2⟩, h3⟩, h4⟩, h5⟩ := hm
    subst h1 h2 h4
    unfold NewJsonPointer at hp
    split at hp
    · cases hp
    · rename_i r hr
      simp only [Option.some.injEq] at hp
      have hsp : strings.splitChars '/' r
          = "spec".data :: "triggers".data :: n.data :: "imageChangeParams".data
            :: l.data :: rest.map String.data := by
        have := congrArg (List.map String.data) hp
        simpa [List.map_map, Function.comp_def] using this
      obtain ⟨r1, hr1, hs1⟩ := strings.splitChars_cons_cons _ _ _ _ _ hsp
      obtain ⟨r2, hr2, hs2⟩ := strings.splitChars_cons_cons _ _ _ _ _ hs1
      obtain ⟨r3, hr3, hs3⟩ := strings.splitChars_cons_cons _ _ _ _ _ hs2
      obtain ⟨r4, hr4, hs4⟩ := strings.splitChars_cons_cons _ _ _ _ _ hs3
      obtain ⟨u, hu⟩ := strings.splitChars_head_prefix _ _ _ _ hs4
      obtain ⟨w, hw⟩ := h5
      have hdata : p.data = "/spec/triggers/".data ++ (n.data ++ '/' ::
          ("imageChangeParams".data ++ '/' :: ("lastTriggeredImage".data ++ (w ++ u)))) := by
        rw [hr, hr1, hr2, hr3, hr4, ← hu, ← hw]
        simp
      simp only [matchLastTriggeredImage, Bool.and_eq_true, List.isPrefixOf_iff_prefix]
      rw [hdata, List.drop_left, List.dropWhile_append_of_pos h3]
      refine ⟨List.prefix_append _ _, ?_⟩
      rw [List.dropWhile_cons_of_neg (by decide)]
      exact ⟨w ++ u, by simp⟩
    · cases hp

end regexp

namespace gojsonpointer

theorem escaped_of_canonGet (ts : List String) :
    ∀ node : Value, canonGet ts node = true →
      ∀ t ∈ ts, t = utils.JSONPointerPath (decodeReferenceToken t) := by
  induction ts with
  | nil => intro node _ t ht; cases ht
  | cons t0 ts ih =>
    intro node h t ht
    cases node with
    | map kvs =>
      simp only [canonGet] at h
      split at h
      · rename_i c hc
        simp only [Bool.and_eq_true, beq_iff_eq] at h
        rcases List.mem_cons.1 ht with e | e
        · rw [e]; exact h.1
        · exact ih c h.2 t e
      · cases h
    | seq xs =>
      simp only [canonGet] at h
      split at h
      · rename_i n hn
        simp only [Bool.and_eq_true, beq_iff_eq] at h
        split at h
        · rename_i c hc
          rcases List.mem_cons.1 ht with e | e
          · have hd := decode_escape (strconv.Itoa n)
            rw [strconv.escape_Itoa] at hd
            rw [e, h.1, hd, strconv.escape_Itoa]
          · exact ih c h.2 t e
        · exact absurd h.2 (by simp)
      · cases h
    | null => cases h
    | bool b => cases h
    | num n => cases h
    | str s => cases h

end gojsonpointer

namespace pkg.openshift

open gojsonpointer

/-- One `Delete` of the loop of `parseConfig` keeps every pointer that resolved
and does not match the pattern. -/
theorem delete_matching_keeps (path : String) (ts : List String) (config config' : Value)
    (hp : NewJsonPointer path = some ts)
    (hesc : ∀ t ∈ ts, t = utils.JSONPointerPath (decodeReferenceToken t))
    (hm : regexp.matchLastTriggeredImage path = true)
    (hdel : Delete (openshift.pointerOf path) config = some config')
    (q : List String) (hq : canonGet q config = true) (hnq : tokensMatch q = false) :
    canonGet q config' = true := by
  have htm := regexp.tokensMatch_of_match path ts hp hm
  rw [pointerOf_of_NewJsonPointer path ts hp] at hdel
  match ts, htm with
  | t1 :: t2 :: n :: t4 :: l :: rest, htm =>
    have htm' := htm
    simp only [tokensMatch, Bool.and_eq_true, beq_iff_eq] at htm'
    obtain ⟨⟨⟨⟨h1, h2⟩, h3⟩, h4⟩, h5⟩ := htm'
    obtain ⟨-, hl⟩ := not_allDigits_of_prefix l h5
    have hH : ∀ t ∈ [t1, t2, n, t4, l], t = utils.JSONPointerPath (decodeReferenceToken t)
        ∧ (strconv.Atoi t = none ∨ t.data.all regexp.isDigit = true) := by
      intro t ht
      refine ⟨hesc t (by
        simp only [List.mem_cons, List.mem_singleton, List.not_mem_nil, or_false] at ht ⊢
        rcases ht with e | e | e | e | e <;> simp [e]), ?_⟩
      simp only [List.mem_cons, List.mem_singleton, List.not_mem_nil, or_false] at ht
      rcases ht with e | e | e | e | e
      · left; rw [e, h1]; rfl
      · left; rw [e, h2]; rfl
      · right; rw [e]; exact h3
      · left; rw [e, h4]; rfl
      · left; rw [e]; exact hl
    have hdel' : Delete ([t1, t2, n, t4, l] ++ rest) config = some config' := hdel
    rcases Delete_keeps_canon [t1, t2, n, t4, l] rest config config' q (by simp) hH
        (fun t ht => by
          simp only [List.getLast?, List.getLast, Option.some.injEq] at ht
          rw [← ht]; exact hl)
        hdel' hq with h | h
    · exact h
    · rw [tokensMatch_of_alikePrefix t1 t2 n t4 l rest q htm h] at hnq
      cases hnq

/-- The loop of `parseConfig` keeps every pointer that resolved and does not
match the pattern. -/
theorem massagePaths_keeps (source : String) (paths : List String) :
    ∀ (pathIndex : Nat) (config : Value) (deleted : List Nat)
      (fields : List (String × String)) (r : Value × List Nat × List (String × String)),
      massagePaths source paths pathIndex config deleted fields = .ok r →
      (∀ d ∈ paths, ∃ ts, NewJsonPointer d = some ts
        ∧ ∀ t ∈ ts, t = utils.JSONPointerPath (decodeReferenceToken t)) →
      ∀ q, canonGet q config = true → tokensMatch q = false → canonGet q r.1 = true := by
  induction paths with
  | nil =>
    intro pathIndex config deleted fields r h _ q hq _
    cases h
    exact hq
  | cons path rest ih =>
    intro pathIndex config deleted fields r h hpaths q hq hnq
    simp only [massagePaths] at h
    obtain ⟨ts, hts, hesc⟩ := hpaths path (List.mem_cons_self _ _)
    have hstep : canonGet q
        (if regexp.matchLastTriggeredImage path = true then
          ((Delete (openshift.pointerOf path) config).getD config, deleted ++ [pathIndex])
         else (config, deleted)).1 = true := by
      by_cases hm : regexp.matchLastTriggeredImage path = true
      · rw [if_pos hm]
        cases hdel : Delete (openshift.pointerOf path) config with
        | none => exact hq
        | some config' => exact delete_matching_keeps path ts config config' hts hesc hm hdel q hq hnq
      · rw [if_neg hm]
        exact hq
    have hrest : ∀ d ∈ rest, ∃ ts, NewJsonPointer d = some ts
        ∧ ∀ t ∈ ts, t = utils.JSONPointerPath (decodeReferenceToken t) :=
      fun d hd => hpaths d (List.mem_cons_of_mem _ hd)
    split at h
    · split at h
      · cases h
      · split at h
        · cases h
        · split at h
          · cases h
          · exact ih _ _ _ _ _ h hrest q hstep hnq
    · exact ih _ _ _ _ _ h hrest q hstep hnq

/-- C16: for every tree with unique keys and every source for which
`NewResourceItem` builds an item, every pointer in the item's `Paths` resolves
in its `Config`. -/
theorem paths_resolve_after_construction
    (unmarshal : String → Option (List (String × String)))
    (m : List (String × Value)) (source : String) (item : ResourceItem)
    (hu : uniqueKeysEntries m = true)
    (h : NewResourceItem unmarshal m source = .ok item) :
    ∀ p ∈ item.Paths, (Get (openshift.pointerOf p) item.Config).isSome = true := by
  obtain ⟨ap, ann, managed, m1, ann1, fields, m2, ann2, config, deleted, fields2, -, hm,
    happ, hmp, hpaths, hconfig, -, -, -, -⟩ := parseConfig_inv unmarshal source m item h
  obtain ⟨kvs, hkvs, hukvs⟩ :=
    walked_tree_wellFormed unmarshal source m ann ann1 ann2 managed m1 m2 fields hu hm happ
  rw [hkvs] at hmp hpaths
  simp only [Value.asMap, Option.getD_some] at hmp hpaths
  have hd := massagePaths_deleted _ _ _ _ _ _ _ hmp
  simp only [List.nil_append] at hd
  rw [hd] at hpaths
  have hrem := removeIndices_deleted (openshift.walkMap kvs "") 0 0 [] rfl
  simp only [List.nil_append] at hrem
  rw [hrem] at hpaths
  intro p hp
  rw [hpaths, List.mem_filter] at hp
  obtain ⟨hpw, hpm⟩ := hp
  obtain ⟨hnp, -, hcan⟩ := openshift.walkMap_root_canon kvs hukvs p hpw
  have hnq : tokensMatch (openshift.pointerOf p) = false := by
    cases hq : tokensMatch (openshift.pointerOf p) with
    | false => rfl
    | true =>
      rw [regexp.match_of_tokensMatch p _ hnp hq] at hpm
      cases hpm
  have := massagePaths_keeps source _ _ _ _ _ _ hmp
    (fun d hd =>
      ⟨openshift.pointerOf d, (openshift.walkMap_root_canon kvs hukvs d hd).1,
        escaped_of_canonGet _ _ (openshift.walkMap_root_canon kvs hukvs d hd).2.2⟩)
    (openshift.pointerOf p) hcan hnq
  rw [hconfig]
  exact getTokens_of_canonGet _ _ this

end pkg.openshift

namespace pkg.openshift

open gojsonpointer

/-- Witness for C16: the platform deployment config `foo` with an image-change
trigger whose last triggered image is recorded. -/
theorem paths_resolve_after_construction_witness :
    (examples.itemOf examples.triggeredConfig "platform").pathsResolve = true :=
  List.all_eq_true.2
    (paths_resolve_after_construction examples.decodeJSON examples.triggeredConfig "platform" _
      rfl rfl)

end pkg.openshift

/-! ## The two loops of `ChangesFrom`, step by step -/

namespace GoMap

theorem has_set_cases {β : Type} (k k' : String) (v : β) (m : List (String × β))
    (h : has k (set k' v m) = true) : k = k' ∨ has k m = true := by
  by_cases hk : k = k'
  · exact Or.inl hk
  · right
    simpa [has, get_set_other k' k v m hk] using h

end GoMap

namespace openshift

open pkg.openshift (jsonPatch Change addPatchTo)
open gojsonpointer

/-- Induction along the first loop of `ChangesFrom`: a property of the paths
done so far and the state that every kind of step keeps holds at the end. -/
theorem compareTemplatePaths_induction (T P : ResourceItem)
    (I : List String → Comparison → Prop)
    (hskip : ∀ done path cmp added, I done (cmp, added) →
      utils.IncludesPrefix added path = true → I (done ++ [path]) (cmp, added))
    (hadd : ∀ done path cmp added, I done (cmp, added) →
      utils.IncludesPrefix added path = false →
      Get (pointerOf path) P.Config = none → T.isImmutableField path = false →
      I (done ++ [path])
        (GoMap.set path ⟨"add", "", valueAt path T.Config⟩ cmp, added ++ [path]))
    (hnoop : ∀ done path cmp added v, I done (cmp, added) →
      utils.IncludesPrefix added path = false →
      Get (pointerOf path) P.Config = some v →
      ((valueAt path T.Config).isComposite = true
        ∨ (valueAt path T.Config).scalarEq v = true) →
      I (done ++ [path]) (GoMap.set path ⟨"noop", "", Value.null⟩ cmp, added))
    (hreplace : ∀ done path cmp added v, I done (cmp, added) →
      utils.IncludesPrefix added path = false →
      Get (pointerOf path) P.Config = some v →
      (valueAt path T.Config).isComposite = false →
      (valueAt path T.Config).scalarEq v = false → T.isImmutableField path = false →
      I (done ++ [path])
        (GoMap.set path ⟨"replace", "", valueAt path T.Config⟩ cmp, added))
    (paths : List String) :
    ∀ (done : List String) (st st' : Comparison), I done st →
      compareTemplatePaths T P paths st = some st' → I (done ++ paths) st' := by
  induction paths with
  | nil =>
    intro done st st' hI h
    simp only [compareTemplatePaths, Option.some.injEq] at h
    rw [← h, List.append_nil]
    exact hI
  | cons path rest ih =>
    intro done st st' hI h
    obtain ⟨cmp, added⟩ := st
    have hassoc : done ++ path :: rest = (done ++ [path]) ++ rest := by simp
    rw [hassoc]
    simp only [compareTemplatePaths] at h
    split at h
    · rename_i hpre
      exact ih _ _ _ (hskip done path cmp added hI hpre) h
    · rename_i hpre
      have hpre' : utils.IncludesPrefix added path = false := by
        cases hb : utils.IncludesPrefix added path with
        | false => rfl
        | true => exact absurd hb hpre
      split at h
      · rename_i hg
        split at h
        · cases h
        · rename_i him
          have him' : T.isImmutableField path = false := by
            cases hb : T.isImmutableField path with
            | false => rfl
            | true => exact absurd hb him
          exact ih _ _ _ (hadd done path cmp added hI hpre' hg him') h
      · rename_i v hg
        split at h
        · rename_i hc
          exact ih _ _ _ (hnoop done path cmp added v hI hpre' hg (Or.inl hc)) h
        · rename_i hc
          have hc' : (valueAt path T.Config).isComposite = false := by
            cases hb : (valueAt path T.Config).isComposite with
            | false => rfl
            | true => exact absurd hb hc
          split at h
          · rename_i heq
            exact ih _ _ _ (hnoop done path cmp added v hI hpre' hg (Or.inr heq)) h
          · rename_i heq
            have heq' : (valueAt path T.Config).scalarEq v = false := by
              cases hb : (valueAt path T.Config).scalarEq v with
              | false => rfl
              | true => exact absurd hb heq
            split at h
            · cases h
            · rename_i him
              have him' : T.isImmutableField path = false := by
                cases hb : T.isImmutableField path with
                | false => rfl
                | true => exact absurd hb him
              exact ih _ _ _ (hreplace done path cmp added v hI hpre' hg hc' heq' him') h

/-- Induction along the second loop of `ChangesFrom`. -/
theorem removePlatformPaths_induction (I : Comparison → Prop) (paths : List String) :
    (∀ path ∈ paths, ∀ cmp deleted, I (cmp, deleted) → GoMap.has path cmp = false →
      I (GoMap.set path ⟨"remove", "", Value.null⟩ cmp, deleted ++ [path])) →
    ∀ st : Comparison, I st → I (removePlatformPaths paths st) := by
  induction paths with
  | nil => intro _ st hI; exact hI
  | cons path rest ih =>
    intro hrem st hI
    obtain ⟨cmp, deleted⟩ := st
    have hrest := ih (fun p hp => hrem p (List.mem_cons_of_mem _ hp))
    simp only [removePlatformPaths]
    split
    · exact hrest _ hI
    · rename_i hhas
      split
      · exact hrest _ hI
      · apply hrest
        apply hrem path (List.mem_cons_self _ _) cmp deleted hI
        cases hb : GoMap.has path cmp with
        | false => rfl
        | true => exact absurd hb hhas

/-- The patches of a comparison map are its entries that are not noops. -/
theorem mem_collectPatches (comparison : List (String × jsonPatch)) (patch : jsonPatch) :
    patch ∈ collectPatches comparison ↔
      ∃ e ∈ comparison, e.2.Op ≠ "noop" ∧ patch = { e.2 with Path := e.1 } := by
  unfold collectPatches
  suffices hs : ∀ (acc : List jsonPatch),
      patch ∈ comparison.foldl
        (fun patches entry =>
          if entry.2.Op != "noop" then AddPatch patches { entry.2 with Path := entry.1 }
          else patches) acc ↔
      patch ∈ acc ∨ ∃ e ∈ comparison, e.2.Op ≠ "noop" ∧ patch = { e.2 with Path := e.1 } by
    simpa using hs []
  induction comparison with
  | nil => intro acc; simp
  | cons e rest ih =>
    intro acc
    simp only [List.foldl_cons]
    rw [ih]
    by_cases he : e.2.Op = "noop"
    · have he' : (e.2.Op != "noop") = false := by simp [he]
      rw [he']
      simp only [Bool.false_eq_true, if_false, List.mem_cons, exists_eq_or_imp, ne_eq]
      constructor
      · rintro (h | h)
        · exact Or.inl h
        · exact Or.inr (Or.inr h)
      · rintro (h | h | h)
        · exact Or.inl h
        · exact absurd he h.1
        · exact Or.inr h
    · have he' : (e.2.Op != "noop") = true := by simp [he]
      rw [he']
      simp only [if_true, AddPatch, List.mem_cons, exists_eq_or_imp, ne_eq]
      rw [(pkg.openshift.addPatchTo_perm acc _).mem_iff, List.mem_append, List.mem_singleton]
      constructor
      · rintro ((h | h) | h)
        · exact Or.inl h
        · exact Or.inr (Or.inl ⟨he, h⟩)
        · exact Or.inr (Or.inr h)
      · rintro (h | h | h)
        · exact Or.inl (Or.inl h)
        · exact Or.inl (Or.inr h.2)
        · exact Or.inr h

end openshift

namespace utils

theorem includesPrefix_false_of (added : List String) (X : String)
    (h : ∀ a ∈ added, isPointerPrefix a X = false) : IncludesPrefix added X = false := by
  unfold IncludesPrefix
  rw [List.any_eq_false]
  intro a ha
  rw [h a ha]
  exact Bool.false_ne_true

theorem exists_of_includesPrefix (added : List String) (X : String)
    (h : IncludesPrefix added X = true) : ∃ a ∈ added, isPointerPrefix a X = true := by
  unfold IncludesPrefix at h
  rw [List.any_eq_true] at h
  exact h

/-- The pointers that are a prefix of `/metadata/annotations/`. -/
theorem prefixes_of_annotations (a : List Char)
    (h : a ++ ['/'] <+: "/metadata/annotations/".data) :
    a = "".data ∨ a = "/metadata".data ∨ a = "/metadata/annotations".data := by
  have hpre : a <+: "/metadata/annotations/".data := (List.prefix_append a ['/']).trans h
  have hmem : a ∈ "/metadata/annotations/".data.inits := (List.mem_inits _ _).2 hpre
  have hb : (a ++ ['/']).isPrefixOf "/metadata/annotations/".data = true :=
    List.isPrefixOf_iff_prefix.2 h
  have key : ∀ x ∈ "/metadata/annotations/".data.inits,
      (x ++ ['/']).isPrefixOf "/metadata/annotations/".data = true →
        x = "".data ∨ x = "/metadata".data ∨ x = "/metadata/annotations".data := by
    decide
  exact key a hmem hb

end utils

namespace utils

theorem isPointerPrefix_annotations (a : String)
    (h : isPointerPrefix a "/metadata/annotations" = true) : a = "" ∨ a = "/metadata" := by
  simp only [isPointerPrefix, List.isPrefixOf_iff_prefix] at h
  have key : a.data ++ ['/'] <+: "/metadata/annotations/".data :=
    h.trans ⟨['/'], rfl⟩
  rcases prefixes_of_annotations a.data key with h1 | h1 | h1
  · exact Or.inl (String.ext h1)
  · exact Or.inr (String.ext h1)
  · have := h.length_le
    rw [h1] at this
    exact absurd this (by decide)

theorem isPointerPrefix_metadata (a : String)
    (h : isPointerPrefix a "/metadata" = true) : a = "" := by
  simp only [isPointerPrefix, List.isPrefixOf_iff_prefix] at h
  have key : a.data ++ ['/'] <+: "/metadata/annotations/".data :=
    h.trans ⟨"/annotations/".data, rfl⟩
  rcases prefixes_of_annotations a.data key with h1 | h1 | h1
  · exact String.ext h1
  · have := h.length_le
    rw [h1] at this
    exact absurd this (by decide)
  · have := h.length_le
    rw [h1] at this
    exact absurd this (by decide)

end utils

namespace openshift

open pkg.openshift (jsonPatch Change addPatchTo)
open gojsonpointer

/-- A pointer that both items hold, the template item with a mapping or a
slice, and whose parents the platform item holds, gets a noop in the first
loop and nothing else. -/
theorem compareTemplatePaths_noop_at (T P : ResourceItem) (X : String) (paths : List String)
    (hX : (Get (pointerOf X) P.Config).isSome = true)
    (hcomp : (valueAt X T.Config).isComposite = true)
    (hpre : ∀ a, utils.isPointerPrefix a X = true → (Get (pointerOf a) P.Config).isSome = true)
    (hmem : X ∈ paths) (st' : Comparison)
    (h : compareTemplatePaths T P paths ([], []) = some st') :
    GoMap.has X st'.1 = true ∧ ∀ e ∈ st'.1, e.1 = X → e.2.Op = "noop" := by
  have hnotskip : ∀ added : List String,
      (∀ a ∈ added, Get (pointerOf a) P.Config = none) →
      utils.IncludesPrefix added X = true → False := by
    intro added hadded hinc
    obtain ⟨a, ha, hp⟩ := utils.exists_of_includesPrefix added X hinc
    have := hpre a hp
    rw [hadded a ha] at this
    cases this
  have key := compareTemplatePaths_induction T P
    (fun done st => (∀ a ∈ st.2, Get (pointerOf a) P.Config = none)
      ∧ (∀ e ∈ st.1, e.1 = X → e.2.Op = "noop")
      ∧ (X ∈ done → GoMap.has X st.1 = true))
    (by
      intro done path cmp added hI hinc
      refine ⟨hI.1, hI.2.1, ?_⟩
      intro hd
      rcases List.mem_append.1 hd with hd | hd
      · exact hI.2.2 hd
      · simp only [List.mem_singleton] at hd
        subst hd
        exact absurd hinc (fun hh => hnotskip added hI.1 hh))
    (by
      intro done path cmp added hI _ hg _
      have hne : path ≠ X := by
        intro e; subst e
        rw [hg] at hX; cases hX
      refine ⟨?_, ?_, ?_⟩
      · intro a ha
        rcases List.mem_append.1 ha with ha | ha
        · exact hI.1 a ha
        · simp only [List.mem_singleton] at ha
          subst ha; exact hg
      · intro e he heq
        rcases GoMap.mem_set _ _ _ _ he with he | he
        · exact hI.2.1 e he heq
        · rw [he] at heq; exact absurd heq hne
      · intro hd
        rcases List.mem_append.1 hd with hd | hd
        · exact GoMap.has_set_of_has _ _ _ _ (hI.2.2 hd)
        · simp only [List.mem_singleton] at hd
          exact absurd hd.symm hne)
    (by
      intro done path cmp added v hI _ _ _
      refine ⟨hI.1, ?_, ?_⟩
      · intro e he heq
        rcases GoMap.mem_set _ _ _ _ he with he | he
        · exact hI.2.1 e he heq
        · rw [he]
      · intro hd
        rcases List.mem_append.1 hd with hd | hd
        · exact GoMap.has_set_of_has _ _ _ _ (hI.2.2 hd)
        · simp only [List.mem_singleton] at hd
          subst hd
          exact GoMap.has_set_same _ _ _)
    (by
      intro done path cmp added v hI _ _ hc _ _
      have hne : path ≠ X := by
        intro e; subst e
        rw [hcomp] at hc; cases hc
      refine ⟨hI.1, ?_, ?_⟩
      · intro e he heq
        rcases GoMap.mem_set _ _ _ _ he with he | he
        · exact hI.2.1 e he heq
        · rw [he] at heq; exact absurd heq hne
      · intro hd
        rcases List.mem_append.1 hd with hd | hd
        · exact GoMap.has_set_of_has _ _ _ _ (hI.2.2 hd)
        · simp only [List.mem_singleton] at hd
          exact absurd hd.symm hne)
    paths [] ([], []) st'
    ⟨fun a ha => (nomatch ha), fun e he => (nomatch he), fun hd => (nomatch hd)⟩ h
  exact ⟨key.2.2 (by simpa using hmem), key.2.1⟩

/-- The keys of the comparison map after the first loop are template paths. -/
theorem compareTemplatePaths_keys (T P : ResourceItem) (paths : List String)
    (st' : Comparison) (h : compareTemplatePaths T P paths ([], []) = some st') :
    ∀ k, GoMap.has k st'.1 = true → k ∈ paths := by
  have key := compareTemplatePaths_induction T P
    (fun done st => ∀ k, GoMap.has k st.1 = true → k ∈ done)
    (fun done path cmp added hI _ k hk => List.mem_append_left _ (hI k hk))
    (fun done path cmp added hI _ _ _ k hk => by
      rcases GoMap.has_set_cases _ _ _ _ hk with e | e
      · rw [e]; simp
      · exact List.mem_append_left _ (hI k e))
    (fun done path cmp added v hI _ _ _ k hk => by
      rcases GoMap.has_set_cases _ _ _ _ hk with e | e
      · rw [e]; simp
      · exact List.mem_append_left _ (hI k e))
    (fun done path cmp added v hI _ _ _ _ _ k hk => by
      rcases GoMap.has_set_cases _ _ _ _ hk with e | e
      · rw [e]; simp
      · exact List.mem_append_left _ (hI k e))
    paths [] ([], []) st' (fun k hk => by simp [GoMap.has, GoMap.get] at hk) h
  simpa using key

/-- The second loop adds no key that is not a platform path. -/
theorem removePlatformPaths_keys (paths : List String) (st : Comparison) :
    ∀ k, GoMap.has k (removePlatformPaths paths st).1 = true →
      GoMap.has k st.1 = true ∨ k ∈ paths :=
  removePlatformPaths_induction
    (fun s => ∀ k, GoMap.has k s.1 = true → GoMap.has k st.1 = true ∨ k ∈ paths) paths
    (fun path hp cmp deleted hI _ k hk => by
      rcases GoMap.has_set_cases _ _ _ _ hk with e | e
      · rw [e]; exact Or.inr hp
      · exact hI k e)
    st (fun k hk => Or.inl hk)

/-- The second loop leaves the entries of a key of the comparison map alone. -/
theorem removePlatformPaths_keeps (paths : List String) (st : Comparison) (X : String)
    (hhas : GoMap.has X st.1 = true) :
    GoMap.get X (removePlatformPaths paths st).1 = GoMap.get X st.1
      ∧ ((∀ e ∈ st.1, e.1 = X → e.2.Op = "noop") →
          ∀ e ∈ (removePlatformPaths paths st).1, e.1 = X → e.2.Op = "noop") := by
  have key := removePlatformPaths_induction
    (fun s => GoMap.get X s.1 = GoMap.get X st.1
      ∧ ((∀ e ∈ st.1, e.1 = X → e.2.Op = "noop") →
          ∀ e ∈ s.1, e.1 = X → e.2.Op = "noop")) paths
    (fun path _ cmp deleted hI hno => by
      have hne : X ≠ path := by
        intro e; subst e
        have : GoMap.has X cmp = true := by
          simp only [GoMap.has, hI.1]
          exact hhas
        rw [hno] at this; cases this
      refine ⟨?_, ?_⟩
      · rw [GoMap.get_set_other _ _ _ _ hne]
        exact hI.1
      · intro hall e he heq
        rcases GoMap.mem_set _ _ _ _ he with he | he
        · exact hI.2 hall e he heq
        · rw [he] at heq; exact absurd heq.symm hne)
    st ⟨rfl, fun hall => hall⟩
  exact key

end openshift

/-! ## The preparation steps of `ChangesFrom`, step by step -/

namespace GoMap

theorem has_of_mem {β : Type} (k : String) (v : β) (m : List (String × β))
    (h : (k, v) ∈ m) : has k m = true := by
  induction m with
  | nil => cases h
  | cons e rest ih =>
    obtain ⟨k', v'⟩ := e
    simp only [has, get]
    by_cases hk : k' = k
    · simp [hk]
    · rw [if_neg hk]
      rcases List.mem_cons.1 h with h | h
      · simp only [Prod.mk.injEq] at h
        exact absurd h.1.symm hk
      · exact ih h

end GoMap

namespace openshift

open pkg.openshift (jsonPatch Change addPatchTo)
open gojsonpointer

theorem step_paths (platformItem templateItem t : ResourceItem) (path : String)
    (h : prepareForComparisonWithPlatformItem.step platformItem templateItem path = .ok t) :
    t.Paths = templateItem.Paths
      ∧ t.TailorManagedAnnotations = templateItem.TailorManagedAnnotations := by
  unfold prepareForComparisonWithPlatformItem.step at h
  simp only at h
  split at h
  · cases h; exact ⟨rfl, rfl⟩
  · split at h
    · cases h; exact ⟨rfl, rfl⟩
    · cases h

/-- The first preparation step of `ChangesFrom` leaves `Paths` and the managed
annotations of the template item as they are. -/
theorem prepare_paths (paths : List String) (templateItem platformItem t : ResourceItem)
    (h : prepareForComparisonWithPlatformItem templateItem platformItem paths = .ok t) :
    t.Paths = templateItem.Paths
      ∧ t.TailorManagedAnnotations = templateItem.TailorManagedAnnotations := by
  induction paths generalizing templateItem with
  | nil =>
    simp only [prepareForComparisonWithPlatformItem] at h
    cases h; exact ⟨rfl, rfl⟩
  | cons path rest ih =>
    simp only [prepareForComparisonWithPlatformItem] at h
    cases hs : prepareForComparisonWithPlatformItem.step platformItem templateItem path with
    | ok t1 =>
      rw [hs] at h
      simp only [Outcome.bind] at h
      have h1 := step_paths _ _ _ _ hs
      have h2 := ih t1 h
      exact ⟨h2.1.trans h1.1, h2.2.trans h1.2⟩
    | error => rw [hs] at h; cases h
    | panic => rw [hs] at h; cases h

/-- What the loop over the unmanaged annotations leaves behind. -/
theorem deleteUnmanaged_paths (as : List String) :
    ∀ (P P1 : ResourceItem), deleteUnmanaged P as = .ok P1 →
      (∀ x ∈ P1.Paths, x ∈ P.Paths
          ∧ ∀ a ∈ as, x ≠ "/metadata/annotations/" ++ utils.JSONPointerPath a)
        ∧ (as ≠ [] → (Get ["metadata", "annotations"] P1.Config).isSome = true)
        ∧ (as = [] → P1 = P) := by
  induction as with
  | nil =>
    intro P P1 h
    simp only [deleteUnmanaged, Outcome.ok.injEq] at h
    subst h
    exact ⟨fun x hx => ⟨hx, fun a ha => (nomatch ha)⟩, fun hne => absurd rfl hne, fun _ => rfl⟩
  | cons a rest ih =>
    intro P P1 h
    simp only [deleteUnmanaged] at h
    split at h
    · cases h
    · rename_i config hdel
      obtain ⟨h1, h2, h3⟩ := ih _ P1 h
      have hptr : pointerOf ("/metadata/annotations/" ++ utils.JSONPointerPath a)
          = ["metadata", "annotations"] ++ [utils.JSONPointerPath a] :=
        pkg.openshift.pointerOf_annotationKey a
      rw [hptr] at hdel
      obtain ⟨an, an', -, -, hg'⟩ := Delete_last _ _ _ _ hdel
      refine ⟨?_, ?_, fun hnil => (nomatch hnil)⟩
      · intro x hx
        obtain ⟨hx1, hx2⟩ := h1 x hx
        simp only [utils.Remove, List.mem_filter, bne_iff_ne, ne_eq] at hx1
        refine ⟨hx1.1, ?_⟩
        intro b hb
        rcases List.mem_cons.1 hb with hb | hb
        · subst hb; exact hx1.2
        · exact hx2 b hb
      · intro _
        by_cases hrest : rest = []
        · rw [h3 hrest]
          simp only
          rw [hg']
          rfl
        · exact h2 hrest

/-- The `apiVersion` step changes nothing but the value at `/apiVersion`. -/
theorem massageAPIVersion_ok (P T P' : ResourceItem) (h : massageAPIVersion P T = .ok P') :
    P'.Paths = P.Paths
      ∧ ∀ ps, apartTokens ps ["apiVersion"] = true → Get ps P'.Config = Get ps P.Config := by
  unfold massageAPIVersion at h
  split at h
  · cases h
  · split at h
    · cases h
    · split at h
      · split at h
        · rename_i config hset
          cases h
          refine ⟨rfl, ?_⟩
          intro ps hps
          exact Get_Set_apart ps _ _ _ _ hps hset
        · cases h; exact ⟨rfl, fun _ _ => rfl⟩
      · cases h; exact ⟨rfl, fun _ _ => rfl⟩

theorem getTokens_prefix_isSome (ps rs : List String) (node : Value)
    (h : (getTokens (ps ++ rs) node).isSome = true) : (getTokens ps node).isSome = true := by
  rw [getTokens_append] at h
  cases hg : getTokens ps node with
  | none => rw [hg] at h; cases h
  | some c => rfl

/-- Whoever holds `/metadata/annotations` holds every pointer that is a prefix
of it or of one of its entries. -/
theorem annotation_parents_resolve (config : Value)
    (hA : (Get ["metadata", "annotations"] config).isSome = true) (a : String)
    (ha : a = "" ∨ a = "/metadata" ∨ a = "/metadata/annotations") :
    (Get (pointerOf a) config).isSome = true := by
  rcases ha with rfl | rfl | rfl
  · rfl
  · exact getTokens_prefix_isSome ["metadata"] ["annotations"] config hA
  · exact hA

end openshift

/-! ## Annotations in the differ -/

namespace openshift

open pkg.openshift (jsonPatch Change addPatchTo)
open gojsonpointer

/-- C12 (counterexample). The platform config map `foo` holds the marker
annotation `managed-annotations.tailor.opendevstack.org` (value `a`) and the
annotation `a`; the template config map `foo` has no annotations. The marker
key is in neither item's managed annotations, yet `ChangesFrom` returns an
`Update` with a `remove` patch at its pointer. -/
theorem marker_annotation_removed :
    (examples.templateItem examples.plainConfigMap).ChangesFrom examples.showNothing
        (examples.platformItem (examples.annotatedConfigMap
          [("managed-annotations.tailor.opendevstack.org", Value.str "a"),
           ("a", Value.str "1")])) []
      = .ok [ { Action := "Update", Kind := "ConfigMap", Name := "foo",
                Patches :=
                  [ ⟨"remove", "/metadata/annotations/a", Value.null⟩,
                    ⟨"remove", "/metadata/annotations/managed-annotations.tailor.opendevstack.org",
                      Value.null⟩ ],
                CurrentState := "", DesiredState := "" } ]
    ∧ GoMap.has "managed-annotations.tailor.opendevstack.org"
        (examples.platformItem (examples.annotatedConfigMap
          [("managed-annotations.tailor.opendevstack.org", Value.str "a"),
           ("a", Value.str "1")])).Annotations = true
    ∧ (examples.templateItem examples.plainConfigMap).TailorManagedAnnotations = []
    ∧ (examples.platformItem (examples.annotatedConfigMap
          [("managed-annotations.tailor.opendevstack.org", Value.str "a"),
           ("a", Value.str "1")])).TailorManagedAnnotations = ["a"] :=
  ⟨rfl, rfl, rfl, rfl⟩

/-- The patches of the single change or the recreate pair that `ChangesFrom`
returns, traced back to the two loops. -/
theorem ChangesFrom_patches (marshal : Value → String) (T P T' : ResourceItem)
    (ext : List String) (changes : List Change)
    (hT' : prepareForComparisonWithPlatformItem T P ext = .ok T')
    (h : T.ChangesFrom marshal P ext = .ok changes) :
    ∃ P1 P', deleteUnmanaged P (unmanagedAnnotations P T') = .ok P1
      ∧ massageAPIVersion P1 T' = .ok P'
      ∧ ((compareTemplatePaths T' P' T'.Paths ([], []) = none
            ∧ ∀ c ∈ changes, c.Patches = [])
          ∨ ∃ cmp added, compareTemplatePaths T' P' T'.Paths ([], []) = some (cmp, added)
              ∧ changes = [{
                  Action :=
                    if (collectPatches (removePlatformPaths P'.Paths (cmp, [])).1).length > 0
                    then "Update" else "Noop",
                  Kind := T'.Kind,
                  Name := T'.Name,
                  Patches := collectPatches (removePlatformPaths P'.Paths (cmp, [])).1,
                  CurrentState := P'.YamlConfig marshal,
                  DesiredState := T'.YamlConfig marshal }]) := by
  unfold ResourceItem.ChangesFrom at h
  rw [hT'] at h
  simp only [Outcome.bind, prepareForComparisonWithTemplateItem] at h
  cases h1 : deleteUnmanaged P (unmanagedAnnotations P T') with
  | error => rw [h1] at h; cases h
  | panic => rw [h1] at h; cases h
  | ok P1 =>
    rw [h1] at h
    simp only at h
    cases h2 : massageAPIVersion P1 T' with
    | error => rw [h2] at h; cases h
    | panic => rw [h2] at h; cases h
    | ok P' =>
      rw [h2] at h
      simp only at h
      refine ⟨P1, P', rfl, h2, ?_⟩
      cases h3 : compareTemplatePaths T' P' T'.Paths ([], []) with
      | none =>
        rw [h3] at h
        simp only [Outcome.ok.injEq] at h
        left
        refine ⟨rfl, ?_⟩
        intro c hc
        rw [← h] at hc
        simp only [recreateChanges, List.mem_cons, List.mem_singleton, List.not_mem_nil,
          or_false] at hc
        rcases hc with rfl | rfl <;> rfl
      | some st =>
        obtain ⟨cmp, added⟩ := st
        rw [h3] at h
        simp only [Outcome.ok.injEq] at h
        right
        exact ⟨cmp, added, rfl, h.symm⟩

end openshift

namespace openshift

open pkg.openshift (jsonPatch Change addPatchTo)
open gojsonpointer

/-- Every patch sits at a path of one of the two prepared items. -/
theorem patch_path_mem (T' P' : ResourceItem) (cmp : List (String × jsonPatch))
    (added : List String)
    (hcmp : compareTemplatePaths T' P' T'.Paths ([], []) = some (cmp, added))
    (patch : jsonPatch)
    (hp : patch ∈ collectPatches (removePlatformPaths P'.Paths (cmp, [])).1) :
    patch.Path ∈ T'.Paths ∨ patch.Path ∈ P'.Paths := by
  obtain ⟨e, he, -, hpe⟩ := (mem_collectPatches _ _).1 hp
  have hpath : patch.Path = e.1 := by rw [hpe]
  have hhas := GoMap.has_of_mem e.1 e.2 _ he
  rw [hpath]
  rcases removePlatformPaths_keys _ _ _ hhas with h | h
  · exact Or.inl (compareTemplatePaths_keys T' P' _ _ hcmp _ h)
  · exact Or.inr h

/-- No patch sits at a pointer that got a noop in the first loop. -/
theorem no_patch_at_noop (T' P' : ResourceItem) (X : String)
    (cmp : List (String × jsonPatch)) (added : List String)
    (hX : (Get (pointerOf X) P'.Config).isSome = true)
    (hcomp : (valueAt X T'.Config).isComposite = true)
    (hpre : ∀ a, utils.isPointerPrefix a X = true →
      (Get (pointerOf a) P'.Config).isSome = true)
    (hmem : X ∈ T'.Paths)
    (hcmp : compareTemplatePaths T' P' T'.Paths ([], []) = some (cmp, added))
    (patch : jsonPatch)
    (hp : patch ∈ collectPatches (removePlatformPaths P'.Paths (cmp, [])).1) :
    patch.Path ≠ X := by
  obtain ⟨hhas, hnoop⟩ := compareTemplatePaths_noop_at T' P' X _ hX hcomp hpre hmem _ hcmp
  obtain ⟨e, he, hop, hpe⟩ := (mem_collectPatches _ _).1 hp
  intro heq
  have hpath : patch.Path = e.1 := by rw [hpe]
  exact hop ((removePlatformPaths_keeps P'.Paths (cmp, []) X hhas).2 hnoop e he
    (by rw [← hpath, heq]))

/-- C12 (amended): for every platform item holding an annotation key `k` that
is in neither item's managed annotations, is not one of Tailor's own
annotations (the marker `managed-annotations.tailor.opendevstack.org`, keys
starting with `original-values.tailor.io`) and has no pointer in the template
item's `Paths`, where the template item lists `/metadata` and
`/metadata/annotations` and still holds a mapping or slice at each after the
externally modified paths were copied into it: no change that `ChangesFrom`
returns has a patch at `/metadata/annotations/<escaped k>`, at
`/metadata/annotations` or at `/metadata`. -/
theorem unmanaged_annotation_untouched (marshal : Value → String)
    (T P T' : ResourceItem) (ext : List String) (k : String) (changes : List Change)
    (hk : GoMap.has k P.Annotations = true)
    (hkT : utils.Includes T.TailorManagedAnnotations k = false)
    (hkP : utils.Includes P.TailorManagedAnnotations k = false)
    (hown : k ≠ tailorManagedAnnotation)
    (horig : strings.HasPrefix k tailorOriginalValuesAnnotationPrefix = false)
    (hTk : "/metadata/annotations/" ++ utils.JSONPointerPath k ∉ T.Paths)
    (hT' : prepareForComparisonWithPlatformItem T P ext = .ok T')
    (hTA : "/metadata/annotations" ∈ T.Paths
      ∧ (valueAt "/metadata/annotations" T'.Config).isComposite = true)
    (hTM : "/metadata" ∈ T.Paths ∧ (valueAt "/metadata" T'.Config).isComposite = true)
    (h : T.ChangesFrom marshal P ext = .ok changes) :
    ∀ c ∈ changes, ∀ patch ∈ c.Patches,
      patch.Path ≠ "/metadata/annotations/" ++ utils.JSONPointerPath k
        ∧ patch.Path ≠ "/metadata/annotations" ∧ patch.Path ≠ "/metadata" := by
  obtain ⟨hpaths, hmanaged⟩ := prepare_paths ext T P T' hT'
  obtain ⟨P1, P', h1, h2, hcases⟩ := ChangesFrom_patches marshal T P T' ext changes hT' h
  rcases hcases with ⟨-, hnone⟩ | ⟨cmp, added, hcmp, hchanges⟩
  · intro c hc patch hp
    rw [hnone c hc] at hp
    cases hp
  · have hkmem : k ∈ unmanagedAnnotations P T' := by
      simp only [unmanagedAnnotations, List.mem_filter, Bool.and_eq_true, Bool.not_eq_true',
        beq_eq_false_iff_ne, ne_eq, hmanaged]
      exact ⟨GoMap.mem_keys_of_has k _ hk, ⟨⟨hown, horig⟩, hkT⟩, hkP⟩
    obtain ⟨hP1paths, hP1A, -⟩ := deleteUnmanaged_paths _ P P1 h1
    obtain ⟨hP'paths, hP'cfg⟩ := massageAPIVersion_ok P1 T' P' h2
    have hA : (Get ["metadata", "annotations"] P'.Config).isSome = true := by
      rw [hP'cfg _ (by rfl)]
      exact hP1A (List.ne_nil_of_mem hkmem)
    have hXP : "/metadata/annotations/" ++ utils.JSONPointerPath k ∉ P'.Paths := by
      intro hmem
      rw [hP'paths] at hmem
      exact (hP1paths _ hmem).2 k hkmem rfl
    intro c hc patch hp
    rw [hchanges] at hc
    simp only [List.mem_singleton] at hc
    subst hc
    simp only at hp
    refine ⟨?_, ?_, ?_⟩
    · intro heq
      rcases patch_path_mem T' P' cmp added hcmp patch hp with hm | hm
      · rw [heq, hpaths] at hm; exact hTk hm
      · rw [heq] at hm; exact hXP hm
    · exact no_patch_at_noop T' P' "/metadata/annotations" cmp added hA hTA.2
        (fun a ha => annotation_parents_resolve _ hA a
          ((utils.isPointerPrefix_annotations a ha).elim Or.inl (fun h => Or.inr (Or.inl h))))
        (by rw [hpaths]; exact hTA.1) hcmp patch hp
    · exact no_patch_at_noop T' P' "/metadata" cmp added
        (annotation_parents_resolve _ hA "/metadata" (Or.inr (Or.inl rfl))) hTM.2
        (fun a ha => annotation_parents_resolve _ hA a
          (Or.inl (utils.isPointerPrefix_metadata a ha)))
        (by rw [hpaths]; exact hTM.1) hcmp patch hp

end openshift

namespace openshift

open pkg.openshift (jsonPatch Change addPatchTo)
open gojsonpointer

/-- Witness for C12: the template config map `foo` with the annotation
`a: 1` against the platform config map `foo` with the marker annotation (value
`a`), the annotation `a: 0` and the unmanaged annotation `u`. -/
theorem unmanaged_annotation_untouched_witness :
    (examples.templateItem (examples.annotatedConfigMap [("a", Value.str "1")])).ChangesFrom
        examples.showNothing
        (examples.platformItem (examples.annotatedConfigMap
          [("managed-annotations.tailor.opendevstack.org", Value.str "a"),
           ("a", Value.str "0"), ("u", Value.str "2")])) []
      = .ok [examples.replaceA]
    ∧ examples.replaceA.Patches = [⟨"replace", "/metadata/annotations/a", Value.str "1"⟩]
    ∧ ("/metadata/annotations/a" ≠ "/metadata/annotations/" ++ utils.JSONPointerPath "u"
        ∧ "/metadata/annotations/a" ≠ "/metadata/annotations"
        ∧ "/metadata/annotations/a" ≠ "/metadata") :=
  ⟨rfl, rfl,
    unmanaged_annotation_untouched examples.showNothing
      (examples.templateItem (examples.annotatedConfigMap [("a", Value.str "1")]))
      (examples.platformItem (examples.annotatedConfigMap
        [("managed-annotations.tailor.opendevstack.org", Value.str "a"),
         ("a", Value.str "0"), ("u", Value.str "2")]))
      (examples.templateItem (examples.annotatedConfigMap [("a", Value.str "1")]))
      [] "u" [examples.replaceA] rfl rfl rfl (by decide) rfl (by decide) rfl
      ⟨by decide, rfl⟩ ⟨by decide, rfl⟩ rfl
      examples.replaceA (List.mem_singleton.2 rfl)
      ⟨"replace", "/metadata/annotations/a", Value.str "1"⟩ (List.mem_singleton.2 rfl)⟩

end openshift

namespace openshift

open pkg.openshift (jsonPatch Change addPatchTo)
open gojsonpointer

end openshift

/-! ## Kind and name of an item -/

namespace pkg.openshift

/-- C21, counterexample. The template image stream whose `kind` is the empty
string is accepted, and the item's `Kind` is empty. -/
theorem empty_kind_accepted :
    ∃ item, NewResourceItem examples.decodeJSON (examples.imageStream (Value.str "") [])
        "template" = .ok item ∧ item.Kind = "" :=
  ⟨_, rfl, rfl⟩

/-- C21, amended. For every tree and source for which `NewResourceItem`
succeeds, `/kind` and `/metadata/name` of the tree hold strings and the item's
`Kind` and `Name` are these strings; so `Kind` and `Name` are non-empty
exactly when the tree's strings are (no check for emptiness is made). -/
theorem kind_and_name_of_tree (unmarshal : String → Option (List (String × String)))
    (m : List (String × Value)) (source : String) (item : ResourceItem)
    (h : NewResourceItem unmarshal m source = .ok item) :
    gojsonpointer.Get (openshift.pointerOf "/kind") (Value.map m) = some (Value.str item.Kind)
      ∧ gojsonpointer.Get (openshift.pointerOf "/metadata/name") (Value.map m)
          = some (Value.str item.Name)
      ∧ (item.Kind ≠ "" ↔
          gojsonpointer.Get (openshift.pointerOf "/kind") (Value.map m) ≠ some (Value.str ""))
      ∧ (item.Name ≠ "" ↔
          gojsonpointer.Get (openshift.pointerOf "/metadata/name") (Value.map m)
            ≠ some (Value.str "")) := by
  obtain ⟨hk, hn⟩ := parseConfig_ok_identity unmarshal source m item h
  refine ⟨hk, hn, ?_, ?_⟩
  · rw [hk]
    constructor
    · intro hne heq
      injection heq with heq
      injection heq with heq
      exact hne heq
    · intro hne heq
      exact hne (by rw [heq])
  · rw [hn]
    constructor
    · intro hne heq
      injection heq with heq
      injection heq with heq
      exact hne heq
    · intro hne heq
      exact hne (by rw [heq])

/-- Witness for C21: the template deployment config `foo`. -/
theorem kind_and_name_of_tree_witness :
    gojsonpointer.Get (openshift.pointerOf "/kind")
        (Value.map (examples.deploymentConfig (Value.str "bar/foo:latest") [] []))
      = some (Value.str (examples.itemOf
          (examples.deploymentConfig (Value.str "bar/foo:latest") [] []) "template").Kind) :=
  (kind_and_name_of_tree examples.decodeJSON
    (examples.deploymentConfig (Value.str "bar/foo:latest") [] []) "template"
    (examples.itemOf (examples.deploymentConfig (Value.str "bar/foo:latest") [] []) "template")
    rfl).1

/-! ## The immutable fields -/

/-- C25. For every item and pointer, `isImmutableField` is true exactly when
the item's kind and the pointer are one of the five pairs of the table; so it
is false for every other pointer (descendants of the listed ones included) and
for every other kind. -/
theorem immutable_field_table (i : ResourceItem) (field : String) :
    i.isImmutableField field = true ↔
      (i.Kind = "Route" ∧ field = "/spec/host")
        ∨ (i.Kind = "PersistentVolumeClaim" ∧ field = "/spec/accessModes")
        ∨ (i.Kind = "PersistentVolumeClaim" ∧ field = "/spec/storageClassName")
        ∨ (i.Kind = "PersistentVolumeClaim" ∧ field = "/spec/resources/requests/storage")
        ∨ (i.Kind = "Secret" ∧ field = "/type") := by
  unfold ResourceItem.isImmutableField immutableFields
  by_cases h1 : i.Kind = "PersistentVolumeClaim"
  · rw [h1]
    simp [GoMap.get]
    constructor
    · rintro (h | h | h)
      · exact Or.inl h.symm
      · exact Or.inr (Or.inl h.symm)
      · exact Or.inr (Or.inr h.symm)
    · rintro (h | h | h)
      · exact Or.inl h.symm
      · exact Or.inr (Or.inl h.symm)
      · exact Or.inr (Or.inr h.symm)
  · by_cases h2 : i.Kind = "Route"
    · rw [h2]
      simp [GoMap.get]
      exact eq_comm
    · by_cases h3 : i.Kind = "Secret"
      · rw [h3]
        simp [GoMap.get]
        exact eq_comm
      · have e1 : ¬ "PersistentVolumeClaim" = i.Kind := fun h => h1 h.symm
        have e2 : ¬ "Route" = i.Kind := fun h => h2 h.symm
        have e3 : ¬ "Secret" = i.Kind := fun h => h3 h.symm
        simp [GoMap.get, e1, e2, e3, h1, h2, h3]

end pkg.openshift

/-! ## Emission of the patches -/

namespace pkg.openshift

theorem foldl_step_perm (comparison : List (String × jsonPatch)) (c : Change) :
    (comparison.foldl NewChange.step c).Patches.Perm
      (c.Patches ++ (comparison.filter (fun e => e.2.Op != "noop")).map
        (fun e => { e.2 with Path := e.1 })) := by
  induction comparison generalizing c with
  | nil => simp
  | cons e rest ih =>
    rw [List.foldl_cons]
    refine (ih _).trans ?_
    unfold NewChange.step
    by_cases hop : (e.2.Op != "noop") = true
    · rw [if_pos hop, List.filter_cons, if_pos hop, List.map_cons]
      show (addPatchTo c.Patches _ ++ _).Perm _
      refine ((addPatchTo_perm c.Patches _).append_right _).trans ?_
      rw [List.append_assoc]
      rfl
    · rw [if_neg hop, List.filter_cons, if_neg hop]

/-- C26. For every comparison map the patches of the change built by
`NewChange` are, up to their order, the entries whose operation is not `noop`,
each with its path set to its key; so no patch has the operation `noop`. The
action is `Update` exactly when there is a patch, and `Noop` otherwise. -/
theorem emission (marshal : Value → String) (templateItem platformItem : ResourceItem)
    (comparison : List (String × jsonPatch)) :
    (NewChange marshal templateItem platformItem comparison).Patches.Perm
        ((comparison.filter (fun e => e.2.Op != "noop")).map
          (fun e => { e.2 with Path := e.1 }))
      ∧ (∀ q ∈ (NewChange marshal templateItem platformItem comparison).Patches,
          q.Op ≠ "noop")
      ∧ ((NewChange marshal templateItem platformItem comparison).Action = "Update" ↔
          (NewChange marshal templateItem platformItem comparison).Patches ≠ [])
      ∧ ((NewChange marshal templateItem platformItem comparison).Action = "Noop" ↔
          (NewChange marshal templateItem platformItem comparison).Patches = []) := by
  have hperm := foldl_step_perm comparison
    { Action := "", Kind := templateItem.Kind, Name := templateItem.Name, Patches := [],
      CurrentState := platformItem.YamlConfig marshal,
      DesiredState := templateItem.YamlConfig marshal }
  rw [List.nil_append] at hperm
  have hp : (NewChange marshal templateItem platformItem comparison).Patches
      = (comparison.foldl NewChange.step
          { Action := "", Kind := templateItem.Kind, Name := templateItem.Name, Patches := [],
            CurrentState := platformItem.YamlConfig marshal,
            DesiredState := templateItem.YamlConfig marshal }).Patches := by
    unfold NewChange
    simp only
    split <;> rfl
  refine ⟨?_, ?_, ?_, ?_⟩
  · rw [hp]; exact hperm
  · intro q hq
    rw [hp] at hq
    have hq2 := hperm.subset hq
    obtain ⟨e, he, rfl⟩ := List.mem_map.1 hq2
    have hop := (List.mem_filter.1 he).2
    simpa using hop
  · rw [hp]
    unfold NewChange
    simp only
    split
    · rename_i hlen
      constructor
      · intro _ hnil
        rw [hnil] at hlen
        simp at hlen
      · intro _; rfl
    · rename_i hlen
      constructor
      · intro h; exact absurd h (show ("Noop" : String) ≠ "Update" by decide)
      · intro hne
        exfalso
        apply hlen
        exact List.length_pos.2 hne
  · rw [hp]
    unfold NewChange
    simp only
    split
    · rename_i hlen
      constructor
      · intro h; exact absurd h (show ("Update" : String) ≠ "Noop" by decide)
      · intro hnil
        rw [hnil] at hlen
        simp at hlen
    · rename_i hlen
      constructor
      · intro _
        by_contra hne
        exact hlen (List.length_pos.2 hne)
      · intro _; rfl

end pkg.openshift

/-! ## Preparation of the desired side -/

namespace gojsonpointer

end gojsonpointer

namespace pkg.openshift

open gojsonpointer

end pkg.openshift

/-! ## The platform-managed simple fields -/

namespace gojsonpointer

theorem putChild_isSome_of_child (t : String) (c c' node : Value)
    (h : child t node = some c) : ∃ node', putChild t c' node = some node' := by
  cases node with
  | map kvs => exact ⟨_, rfl⟩
  | seq xs =>
    simp only [child] at h
    simp only [putChild]
    cases hi : arrayIndex t xs.length with
    | none => rw [hi] at h; cases h
    | some n => exact ⟨_, rfl⟩
  | null => cases h
  | bool b => cases h
  | num n => cases h
  | str s => cases h

theorem removeChild_isSome (t : String) (node : Value) :
    (removeChild t node).isSome = (child t node).isSome := by
  cases node with
  | map kvs =>
    simp only [removeChild, child, GoMap.has]
    by_cases hb : (GoMap.get (decodeReferenceToken t) kvs).isSome = true
    · rw [if_pos hb, hb]; rfl
    · rw [if_neg hb]
      simp only [Bool.not_eq_true] at hb
      rw [hb]; rfl
  | seq xs =>
    simp only [removeChild, child]
    cases hi : arrayIndex t xs.length with
    | none => rfl
    | some n =>
      have hlt := arrayIndex_lt t xs.length n hi
      simp only
      cases hl : xs.getLast? with
      | none =>
        rw [List.getLast?_eq_none_iff] at hl
        subst hl
        simp at hlt
      | some l =>
        rw [List.get?_eq_get hlt]
        rfl
  | null => rfl
  | bool b => rfl
  | num n => rfl
  | str s => rfl

theorem deleteTokens_isSome (ts : List String) :
    ∀ (t : String) (node : Value),
      (deleteTokens t ts node).isSome = (getTokens (t :: ts) node).isSome := by
  induction ts with
  | nil =>
    intro t node
    simp only [deleteTokens, getTokens]
    rw [removeChild_isSome]
    cases child t node <;> rfl
  | cons t' ts ih =>
    intro t node
    simp only [deleteTokens]
    rw [getTokens]
    cases hc : child t node with
    | none => rfl
    | some c =>
      simp only
      have h := ih t' c
      cases hd : deleteTokens t' ts c with
      | none =>
        rw [hd] at h
        rw [← h]
      | some c' =>
        rw [hd] at h
        rw [← h]
        obtain ⟨node', hn⟩ := putChild_isSome_of_child t c c' node hc
        simp only [hn]
        rfl

/-- A pointer other than the root can be deleted exactly when it resolves. -/
theorem Delete_isSome (ts : List String) (doc : Value) (hne : ts ≠ []) :
    (Delete ts doc).isSome = (Get ts doc).isSome := by
  cases ts with
  | nil => exact absurd rfl hne
  | cons t ts => exact deleteTokens_isSome ts t doc

/-- After a `Delete` whose error is dropped, a pointer whose last token is not
a number does not resolve. -/
theorem Get_Delete_getD_same (ps : List String) (t : String) (doc : Value)
    (hnum : strconv.Atoi t = none) :
    Get (ps ++ [t]) ((Delete (ps ++ [t]) doc).getD doc) = none := by
  cases hd : Delete (ps ++ [t]) doc with
  | some doc' => exact Get_Delete_same ps t doc doc' hnum hd
  | none =>
    have h := Delete_isSome (ps ++ [t]) doc (by simp)
    rw [hd] at h
    simp only [Option.getD_none]
    cases hg : Get (ps ++ [t]) doc with
    | none => rfl
    | some v => rw [hg] at h; cases h

end gojsonpointer

namespace pkg.openshift

open gojsonpointer

theorem deleteFields_append (a b : List String) (m : Value) :
    openshift.deleteFields m (a ++ b) = openshift.deleteFields (openshift.deleteFields m a) b := by
  induction a generalizing m with
  | nil => rfl
  | cons q a ih =>
    simp only [List.cons_append, openshift.deleteFields]
    exact ih _

theorem deleteFields_gone (m : Value) (pre post : List String) (q : String)
    (parent : List String) (t : String)
    (hq : NewJsonPointer q = some (parent ++ [t])) (hnum : strconv.Atoi t = none)
    (hpost : ∀ d ∈ post, apart q d = true) :
    Get (openshift.pointerOf q) (openshift.deleteFields m (pre ++ q :: post)) = none := by
  rw [deleteFields_append]
  simp only [openshift.deleteFields]
  rw [pointerOf_of_NewJsonPointer q _ hq, deleteFields_apart q _ hq post _ hpost]
  exact Get_Delete_getD_same parent t _ hnum

theorem deleteFields_absent (fields : List String) (m : Value)
    (h : ∀ q ∈ fields, Get (openshift.pointerOf q) m = none) :
    openshift.deleteFields m fields = m := by
  induction fields with
  | nil => rfl
  | cons q rest ih =>
    have hq := h q (List.mem_cons_self _ _)
    have hne : openshift.pointerOf q ≠ [] := by
      intro he
      rw [he] at hq
      cases hq
    have hd : Delete (openshift.pointerOf q) m = none := by
      have := Delete_isSome (openshift.pointerOf q) m hne
      rw [hq] at this
      cases hd : Delete (openshift.pointerOf q) m with
      | none => rfl
      | some v => rw [hd] at this; cases this
    simp only [openshift.deleteFields, hd, Option.getD_none]
    exact ih (fun q' hq' => h q' (List.mem_cons_of_mem _ hq'))

/-- None of the platform-managed simple fields resolves after the strip. -/
theorem simple_fields_gone (m : Value) :
    ∀ q ∈ platformManagedSimpleFields,
      Get (openshift.pointerOf q) (openshift.deleteFields m platformManagedSimpleFields)
        = none := by
  intro q hq
  simp only [platformManagedSimpleFields, List.mem_cons, List.mem_singleton, List.not_mem_nil,
    or_false] at hq
  rcases hq with rfl | rfl | rfl | rfl | rfl | rfl
  · exact deleteFields_gone m [] _ "/metadata/generation" ["metadata"] "generation" rfl rfl
      (by decide)
  · exact deleteFields_gone m ["/metadata/generation"] _ "/metadata/creationTimestamp"
      ["metadata"] "creationTimestamp" rfl rfl (by decide)
  · exact deleteFields_gone m ["/metadata/generation", "/metadata/creationTimestamp"] _
      "/spec/tags" ["spec"] "tags" rfl rfl (by decide)
  · exact deleteFields_gone m ["/metadata/generation", "/metadata/creationTimestamp",
      "/spec/tags"] _ "/status" [] "status" rfl rfl (by decide)
  · exact deleteFields_gone m ["/metadata/generation", "/metadata/creationTimestamp",
      "/spec/tags", "/status"] _ "/spec/volumeName" ["spec"] "volumeName" rfl rfl (by decide)
  · exact deleteFields_gone m ["/metadata/generation", "/metadata/creationTimestamp",
      "/spec/tags", "/status", "/spec/volumeName"] []
      "/spec/template/metadata/creationTimestamp" ["spec", "template", "metadata"]
      "creationTimestamp" rfl rfl (by decide)

/-- The loop of `parseConfig` leaves every pointer untouched that parts ways
with `/spec/triggers`. -/
theorem massagePaths_apart (source : String) (ps : List String)
    (hps : apartTokens ps ["spec", "triggers"] = true)
    (paths : List String) :
    ∀ (pathIndex : Nat) (config : Value) (deleted : List Nat)
      (fields : List (String × String)) (r : Value × List Nat × List (String × String)),
      massagePaths source paths pathIndex config deleted fields = .ok r →
      Get ps r.1 = Get ps config := by
  induction paths with
  | nil =>
    intro pathIndex config deleted fields r h
    simp only [massagePaths, Outcome.ok.injEq] at h
    rw [← h]
  | cons path rest ih =>
    intro pathIndex config deleted fields r h
    simp only [massagePaths] at h
    have hstep : Get ps
        (if regexp.matchLastTriggeredImage path = true then
          ((Delete (openshift.pointerOf path) config).getD config, deleted ++ [pathIndex])
         else (config, deleted)).1 = Get ps config := by
      by_cases hm : regexp.matchLastTriggeredImage path = true
      · rw [if_pos hm]
        obtain ⟨tail, htail⟩ := pointerOf_lastTriggeredImage path hm
        rw [htail]
        exact Get_Delete_getD_apart _ _ _
          (apartTokens_append_right ps ["spec", "triggers"] tail hps)
      · rw [if_neg hm]
    split at h
    · split at h
      · cases h
      · split at h
        · cases h
        · split at h
          · cases h
          · rw [ih _ _ _ _ _ h]; exact hstep
    · rw [ih _ _ _ _ _ h]; exact hstep

/-- C22. For every tree (with unique keys) and source for which
`NewResourceItem` succeeds, none of the six platform-managed simple pointers
resolves in `Config`, and `Paths` holds no pointer whose tokens begin with the
tokens of one of them (the pointer itself or a descendant). The strip itself
never fails: a tree in which none of the six resolves is left as it is by the
strip, and a tree is accepted whenever the other steps of `parseConfig` accept
it, whether or not it holds any of the six. -/
theorem simple_fields_stripped (unmarshal : String → Option (List (String × String)))
    (m : List (String × Value)) (source : String) (item : ResourceItem)
    (hu : uniqueKeysEntries m = true)
    (h : NewResourceItem unmarshal m source = .ok item) :
    (∀ q ∈ platformManagedSimpleFields, Get (openshift.pointerOf q) item.Config = none)
      ∧ (∀ q ∈ platformManagedSimpleFields, ∀ (d : String) (rest : List String),
          NewJsonPointer d = some (openshift.pointerOf q ++ rest) → d ∉ item.Paths)
      ∧ (∀ m0 : List (String × Value),
          (∀ q ∈ platformManagedSimpleFields,
            Get (openshift.pointerOf q) (Value.map m0) = none) →
          strippedTree m0 = Value.map m0)
      ∧ (∀ (m0 : List (String × Value)) (source0 k n : String),
          Get (openshift.pointerOf "/kind") (Value.map m0) = some (Value.str k) →
          Get (openshift.pointerOf "/metadata/name") (Value.map m0) = some (Value.str n) →
          absentOrMapping "/metadata/labels" m0 →
          absentOrMapping "/metadata/annotations" m0 →
          (source0 = "platform" →
            Get (openshift.pointerOf tailorManagedAnnotationPath) (Value.map m0) = none
              ∧ Get (openshift.pointerOf tailorAppliedConfigAnnotationPath) (Value.map m0)
                  = none) →
          (source0 = "template" → ∀ path ∈ walkedPaths m0,
            regexp.matchLastTriggeredImage path = false
              ∧ (regexp.matchContainerImage path = true →
                  (stringAt path (strippedTree m0)).isSome = true)) →
          ∃ item0, NewResourceItem unmarshal m0 source0 = .ok item0) := by
  obtain ⟨ap, ann, managed, m1, ann1, fields, m2, ann2, config, deleted, fields2, -, hm,
    happ, hmp, hpaths, hconfig, -, -, -, -⟩ := parseConfig_inv unmarshal source m item h
  have hgone := simple_fields_gone m2
  refine ⟨?_, ?_, ?_, ?_⟩
  · intro q hq
    have hap : apartTokens (openshift.pointerOf q) ["spec", "triggers"] = true := by
      revert q
      decide
    rw [hconfig]
    have := massagePaths_apart source _ hap _ _ _ _ _ _ hmp
    simp only at this
    rw [this]
    exact hgone q hq
  · intro q hq d rest hd hmem
    obtain ⟨kvs, hkvs, hukvs⟩ :=
      walked_tree_wellFormed unmarshal source m ann ann1 ann2 managed m1 m2 fields hu hm happ
    rw [hpaths] at hmem
    have hw := removeIndices_subset _ _ _ d hmem
    rw [hkvs] at hw
    simp only [Value.asMap, Option.getD_some] at hw
    have hres := openshift.walkMap_root_resolves kvs hukvs d hw
    rw [pointerOf_of_NewJsonPointer d _ hd, ← hkvs] at hres
    have hpre := openshift.getTokens_prefix_isSome _ _ _ hres
    have hnone := hgone q hq
    unfold Get at hnone
    rw [hnone] at hpre
    cases hpre
  · intro m0 h0
    exact deleteFields_absent _ _ h0
  · intro m0 source0 k n hk hn hl ha hplat htmpl
    obtain ⟨item0, h0, -, -⟩ :=
      parseConfig_ok_of_wellformed unmarshal source0 m0 k n hk hn hl ha hplat htmpl
    exact ⟨item0, h0⟩

end pkg.openshift

namespace pkg.openshift

open gojsonpointer

/-- Witness for C22: the platform deployment config `foo` with a `status`
mapping. -/
theorem simple_fields_stripped_witness :
    Get (openshift.pointerOf "/status")
        (examples.itemOf
          (examples.deploymentConfig (Value.str "bar/foo:latest") []
            [("status", Value.map [("replicas", Value.str "1")])]) "platform").Config = none
      ∧ "/status/replicas" ∉ (examples.itemOf
          (examples.deploymentConfig (Value.str "bar/foo:latest") []
            [("status", Value.map [("replicas", Value.str "1")])]) "platform").Paths :=
  ⟨(simple_fields_stripped examples.decodeJSON
      (examples.deploymentConfig (Value.str "bar/foo:latest") []
        [("status", Value.map [("replicas", Value.str "1")])]) "platform" _ rfl rfl).1
      "/status" (by decide),
    (simple_fields_stripped examples.decodeJSON
      (examples.deploymentConfig (Value.str "bar/foo:latest") []
        [("status", Value.map [("replicas", Value.str "1")])]) "platform" _ rfl rfl).2.1
      "/status" (by decide) "/status/replicas" ["replicas"] rfl⟩

end pkg.openshift

/-! ## Pruned trees -/

namespace pkg.openshift

open gojsonpointer

theorem get_pruneEntries (drop : List String → Bool) (above : List String) (k : String)
    (kvs : List (String × Value)) :
    GoMap.get k (pruneEntries drop above kvs)
      = if drop (above ++ [utils.JSONPointerPath k]) then none
        else (GoMap.get k kvs).map (pruneValue drop (above ++ [utils.JSONPointerPath k])) := by
  induction kvs with
  | nil => simp [pruneEntries, GoMap.get]
  | cons e rest ih =>
    obtain ⟨k', v⟩ := e
    by_cases hk : k' = k
    · subst hk
      by_cases hd : drop (above ++ [utils.JSONPointerPath k']) = true
      · simp only [pruneEntries, hd, if_true]
        rw [ih, if_pos hd]
      · simp only [pruneEntries, hd, GoMap.get, if_true, Bool.false_eq_true, if_false,
          Option.map_some']
    · by_cases hd : drop (above ++ [utils.JSONPointerPath k']) = true
      · simp only [pruneEntries, hd, if_true, GoMap.get, hk, if_false]
        exact ih
      · simp only [pruneEntries, hd, GoMap.get, hk, if_false, Bool.false_eq_true]
        exact ih

theorem length_pruneList (drop : List String → Bool) (above : List String)
    (xs : List Value) : ∀ i, (pruneList drop above i xs).length = xs.length := by
  induction xs with
  | nil => intro i; rfl
  | cons x xs ih => intro i; simp only [pruneList, List.length_cons, ih]

theorem get?_pruneList (drop : List String → Bool) (above : List String)
    (xs : List Value) : ∀ i j, (pruneList drop above i xs).get? j
      = (xs.get? j).map (pruneValue drop (above ++ [strconv.Itoa (i + j)])) := by
  induction xs with
  | nil => intro i j; rfl
  | cons x xs ih =>
    intro i j
    cases j with
    | zero => simp only [pruneList, List.get?_cons_zero, Option.map_some', Nat.add_zero]
    | succ j =>
      simp only [pruneList, List.get?_cons_succ]
      rw [ih (i + 1) j, show i + 1 + j = i + (j + 1) by omega]

end pkg.openshift

namespace pkg.openshift

open gojsonpointer

mutual
/-- Two drop predicates that agree on the pointers of the entries give the same
pruned entries. -/
theorem pruneEntries_congr (drop drop' : List String → Bool)
    (kvs : List (String × Value)) (above : List String)
    (hwf : ∀ e ∈ kvs, e.2.uniqueKeys = true)
    (h : ∀ e ∈ kvs, ∀ rs, canonGet rs e.2 = true →
      drop (above ++ utils.JSONPointerPath e.1 :: rs)
        = drop' (above ++ utils.JSONPointerPath e.1 :: rs)) :
    pruneEntries drop above kvs = pruneEntries drop' above kvs :=
  match kvs with
  | [] => rfl
  | (k, v) :: rest => by
    have hrest := pruneEntries_congr drop drop' rest above
      (fun e he => hwf e (List.mem_cons_of_mem _ he))
      (fun e he => h e (List.mem_cons_of_mem _ he))
    have hself := h (k, v) (List.mem_cons_self _ _) [] rfl
    have hv := pruneValue_congr drop drop' v (above ++ [utils.JSONPointerPath k])
      (hwf (k, v) (List.mem_cons_self _ _))
      (fun rs _ hrs => by
        have := h (k, v) (List.mem_cons_self _ _) rs hrs
        simpa using this)
    simp only [pruneEntries]
    rw [← hself, hrest, hv]
theorem pruneList_congr (drop drop' : List String → Bool)
    (xs : List Value) (i : Nat) (above : List String)
    (hwf : ∀ v ∈ xs, v.uniqueKeys = true)
    (h : ∀ j v, xs.get? j = some v → ∀ rs, rs ≠ [] → canonGet rs v = true →
      drop (above ++ strconv.Itoa (i + j) :: rs) = drop' (above ++ strconv.Itoa (i + j) :: rs)) :
    pruneList drop above i xs = pruneList drop' above i xs :=
  match xs with
  | [] => rfl
  | v :: rest => by
    have hrest := pruneList_congr drop drop' rest (i + 1) above
      (fun e he => hwf e (List.mem_cons_of_mem _ he))
      (fun j w hj rs hne hrs => by
        have := h (j + 1) w (by simpa using hj) rs hne hrs
        rw [show i + 1 + j = i + (j + 1) by omega]
        exact this)
    have hv := pruneValue_congr drop drop' v (above ++ [strconv.Itoa i])
      (hwf v (List.mem_cons_self _ _))
      (fun rs hne hrs => by
        have := h 0 v rfl rs hne hrs
        simpa using this)
    simp only [pruneList]
    rw [hrest, hv]
theorem pruneValue_congr (drop drop' : List String → Bool)
    (v : Value) (above : List String) (hwf : v.uniqueKeys = true)
    (h : ∀ rs, rs ≠ [] → canonGet rs v = true → drop (above ++ rs) = drop' (above ++ rs)) :
    pruneValue drop above v = pruneValue drop' above v :=
  match v with
  | .map kvs => by
    have hu : uniqueKeysEntries kvs = true := by simpa [Value.uniqueKeys] using hwf
    simp only [pruneValue]
    rw [pruneEntries_congr drop drop' kvs above (uniqueKeysEntries_value kvs hu)
      (fun e he rs hrs => h _ (by simp)
        (canonGet_map _ rs kvs e.1 e.2 (GoMap.get_of_mem_unique kvs e.1 e.2 hu he) rfl hrs))]
  | .seq xs => by
    have hu : ∀ w ∈ xs, w.uniqueKeys = true :=
      uniqueKeysList_value xs (by simpa [Value.uniqueKeys] using hwf)
    simp only [pruneValue]
    rw [pruneList_congr drop drop' xs 0 above hu
      (fun j w hj rs _ hrs => by
        have := canonGet_seq rs xs j w hj hrs
        rw [strconv.escape_Itoa] at this
        rw [Nat.zero_add]
        exact h _ (by simp) this)]
  | .null => rfl
  | .bool _ => rfl
  | .num _ => rfl
  | .str _ => rfl
end

end pkg.openshift

namespace pkg.openshift

open gojsonpointer

theorem escape_injective (a b : String)
    (h : utils.JSONPointerPath a = utils.JSONPointerPath b) : a = b := by
  have := congrArg decodeReferenceToken h
  rwa [decode_escape, decode_escape] at this

theorem Itoa_injective (a b : Nat) (h : strconv.Itoa a = strconv.Itoa b) : a = b := by
  have := congrArg strconv.Atoi h
  rw [strconv.Atoi_Itoa, strconv.Atoi_Itoa] at this
  injection this with this
  exact Int.ofNat.inj this

/-- Dropping one more pointer changes nothing below a different entry. -/
theorem pruneValue_other (drop : List String → Bool) (above : List String) (a b : String)
    (rs : List String) (hab : a ≠ b) (v : Value) (hwf : v.uniqueKeys = true) :
    pruneValue (fun ts => drop ts || decide (ts = above ++ b :: rs)) (above ++ [a]) v
      = pruneValue drop (above ++ [a]) v := by
  apply pruneValue_congr _ _ v _ hwf
  intro qs _ _
  have hne : ¬ (above ++ [a] ++ qs = above ++ b :: rs) := by
    intro he
    rw [List.append_assoc] at he
    have := List.append_cancel_left he
    simp only [List.singleton_append, List.cons.injEq] at this
    exact hab this.1
  simp only [hne, decide_False, Bool.or_false]

theorem del_pruneEntries (drop : List String → Bool) (above : List String) (k : String)
    (kvs : List (String × Value)) (hwf : ∀ e ∈ kvs, e.2.uniqueKeys = true) :
    GoMap.del k (pruneEntries drop above kvs)
      = pruneEntries (fun ts => drop ts || decide (ts = above ++ [utils.JSONPointerPath k]))
          above kvs := by
  induction kvs with
  | nil => rfl
  | cons e rest ih =>
    obtain ⟨k', v'⟩ := e
    have ih' := ih (fun e he => hwf e (List.mem_cons_of_mem _ he))
    by_cases hk : k' = k
    · subst hk
      simp only [pruneEntries, decide_True, Bool.or_true, if_true]
      by_cases hd : drop (above ++ [utils.JSONPointerPath k']) = true
      · simp only [hd, if_true]
        exact ih'
      · simp only [hd, Bool.false_eq_true, if_false, GoMap.del, if_true]
        exact ih'
    · have hne : ¬ (above ++ [utils.JSONPointerPath k'] = above ++ [utils.JSONPointerPath k]) := by
        intro he
        have := List.append_cancel_left he
        simp only [List.cons.injEq, and_true] at this
        exact hk (escape_injective _ _ this)
      simp only [pruneEntries, hne, decide_False, Bool.or_false]
      by_cases hd : drop (above ++ [utils.JSONPointerPath k']) = true
      · simp only [hd, if_true]
        exact ih'
      · simp only [hd, Bool.false_eq_true, if_false, GoMap.del, hk]
        rw [ih']
        have hv := pruneValue_other drop above (utils.JSONPointerPath k')
          (utils.JSONPointerPath k) [] (fun he => hk (escape_injective _ _ he)) v'
          (hwf (k', v') (List.mem_cons_self _ _))
        rw [hv]

theorem pruneEntries_absent (drop : List String → Bool) (above : List String) (k : String)
    (rs : List String) (kvs : List (String × Value))
    (hwf : ∀ e ∈ kvs, e.2.uniqueKeys = true) (hk : GoMap.has k kvs = false) :
    pruneEntries (fun ts => drop ts || decide (ts = above ++ utils.JSONPointerPath k :: rs))
        above kvs
      = pruneEntries drop above kvs := by
  apply pruneEntries_congr _ _ kvs above hwf
  intro e he qs _
  have hne : ¬ (above ++ utils.JSONPointerPath e.1 :: qs
      = above ++ utils.JSONPointerPath k :: rs) := by
    intro heq
    have := List.append_cancel_left heq
    simp only [List.cons.injEq] at this
    have hek := escape_injective _ _ this.1
    have := GoMap.has_of_mem e.1 e.2 kvs he
    rw [hek, hk] at this
    cases this
  simp only [hne, decide_False, Bool.or_false]

theorem set_pruneEntries (drop : List String → Bool) (above : List String) (k : String)
    (c : Value) (rs : List String) (hrs : rs ≠ []) (kvs : List (String × Value))
    (hu : uniqueKeysEntries kvs = true) (hget : GoMap.get k kvs = some c)
    (hnd : drop (above ++ [utils.JSONPointerPath k]) = false) :
    GoMap.set k
        (pruneValue (fun ts => drop ts || decide (ts = above ++ utils.JSONPointerPath k :: rs))
          (above ++ [utils.JSONPointerPath k]) c)
        (pruneEntries drop above kvs)
      = pruneEntries (fun ts => drop ts || decide (ts = above ++ utils.JSONPointerPath k :: rs))
          above kvs := by
  induction kvs with
  | nil => cases hget
  | cons e rest ih =>
    obtain ⟨k', v'⟩ := e
    simp only [uniqueKeysEntries, Bool.and_eq_true, Bool.not_eq_true'] at hu
    obtain ⟨⟨hnot, hv'⟩, hurest⟩ := hu
    have hlen : ∀ x : String, ¬ (above ++ [x] = above ++ utils.JSONPointerPath k :: rs) := by
      intro x he
      have := List.append_cancel_left he
      simp only [List.cons.injEq] at this
      exact hrs this.2.symm
    by_cases hk : k' = k
    · subst hk
      simp only [GoMap.get, if_true, Option.some.injEq] at hget
      subst hget
      simp only [pruneEntries, hnd, hlen, decide_False, Bool.or_false, Bool.false_eq_true,
        if_false, GoMap.set, if_true]
      rw [pruneEntries_absent drop above k' rs rest (uniqueKeysEntries_value rest hurest) hnot]
    · simp only [GoMap.get, hk, if_false] at hget
      have ih' := ih hurest hget
      simp only [pruneEntries, hlen, decide_False, Bool.or_false]
      by_cases hd : drop (above ++ [utils.JSONPointerPath k']) = true
      · simp only [hd, if_true]
        exact ih'
      · simp only [hd, Bool.false_eq_true, if_false, GoMap.set, hk]
        rw [ih']
        have hv := pruneValue_other drop above (utils.JSONPointerPath k')
          (utils.JSONPointerPath k) rs (fun he => hk (escape_injective _ _ he)) v' hv'
        rw [hv]

theorem set_pruneList (drop : List String → Bool) (above : List String) (n : Nat)
    (c : Value) (rs : List String) (xs : List Value)
    (hu : ∀ w ∈ xs, w.uniqueKeys = true) (hget : xs.get? n = some c) :
    (pruneList drop above 0 xs).set n
        (pruneValue (fun ts => drop ts || decide (ts = above ++ strconv.Itoa n :: rs))
          (above ++ [strconv.Itoa n]) c)
      = pruneList (fun ts => drop ts || decide (ts = above ++ strconv.Itoa n :: rs))
          above 0 xs := by
  apply List.ext_get?
  intro j
  by_cases hj : j = n
  · subst hj
    have hlt : j < (pruneList drop above 0 xs).length := by
      rw [length_pruneList]
      rcases Nat.lt_or_ge j xs.length with h | h
      · exact h
      · rw [List.get?_eq_none.2 h] at hget; cases hget
    rw [get?_pruneList, hget, Nat.zero_add]
    simp only [List.get?_eq_getElem?, List.getElem?_set_self hlt, Option.map_some']
  · rw [get?_pruneList, Nat.zero_add]
    simp only [List.get?_eq_getElem?]
    rw [List.getElem?_set_ne (fun h => hj h.symm)]
    have := get?_pruneList drop above xs 0 j
    simp only [List.get?_eq_getElem?, Nat.zero_add] at this
    rw [this]
    cases hw : xs[j]? with
    | none => rfl
    | some w =>
      simp only [Option.map_some', Option.some.injEq]
      have hmem : w ∈ xs := List.mem_iff_getElem?.2 ⟨j, hw⟩
      exact (pruneValue_other drop above (strconv.Itoa j) (strconv.Itoa n) rs
        (fun he => hj (Itoa_injective _ _ he)) w (hu w hmem)).symm

end pkg.openshift

namespace pkg.openshift

open gojsonpointer

/-- Resolving a pointer of the tree in the pruned tree: nothing when one of the
pointers along the way is dropped, the pruned value otherwise. -/
theorem getTokens_prune (drop : List String → Bool)
    (hd : ∀ ts t, drop (ts ++ [t]) = true → strconv.Atoi t = none) (ts : List String) :
    ∀ (above : List String) (v : Value), canonGet ts v = true →
      getTokens ts (pruneValue drop above v)
        = if droppedAlong drop above ts then none
          else (getTokens ts v).map (pruneValue drop (above ++ ts)) := by
  induction ts with
  | nil =>
    intro above v _
    simp [getTokens, droppedAlong]
  | cons t ts ih =>
    intro above v h
    cases v with
    | map kvs =>
      simp only [canonGet] at h
      split at h
      · rename_i c hc
        simp only [Bool.and_eq_true, beq_iff_eq] at h
        obtain ⟨ht, hcs⟩ := h
        simp only [pruneValue, getTokens, child, droppedAlong, hc]
        rw [get_pruneEntries, ← ht, hc]
        by_cases hdr : drop (above ++ [t]) = true
        · simp only [hdr, if_true, Bool.true_or]
        · simp only [hdr, Bool.false_eq_true, if_false, Option.map_some', Bool.false_or]
          rw [ih _ c hcs]
          simp
      · cases h
    | seq xs =>
      simp only [canonGet] at h
      split at h
      · rename_i n hn
        simp only [Bool.and_eq_true, beq_iff_eq] at h
        obtain ⟨ht, hcs⟩ := h
        split at hcs
        · rename_i c hc
          have hdr : drop (above ++ [t]) = false := by
            cases hb : drop (above ++ [t]) with
            | false => rfl
            | true =>
              have := hd above t hb
              rw [ht, strconv.Atoi_Itoa] at this
              cases this
          simp only [pruneValue, getTokens, child, droppedAlong, hdr, Bool.false_or,
            length_pruneList, hn]
          rw [get?_pruneList, hc, Nat.zero_add, ← ht]
          simp only [Option.map_some']
          rw [ih _ c hcs]
          simp
        · cases hcs
      · cases h
    | null => cases h
    | bool b => cases h
    | num n => cases h
    | str s => cases h

/-- A pointer written the way the walk writes it that resolves in the pruned
tree resolves in the tree, and no pointer along the way is dropped. -/
theorem canonGet_of_prune (drop : List String → Bool)
    (hd : ∀ ts t, drop (ts ++ [t]) = true → strconv.Atoi t = none) (ts : List String) :
    ∀ (above : List String) (v : Value), canonGet ts (pruneValue drop above v) = true →
      canonGet ts v = true ∧ droppedAlong drop above ts = false := by
  induction ts with
  | nil =>
    intro above v _
    exact ⟨rfl, rfl⟩
  | cons t ts ih =>
    intro above v h
    cases v with
    | map kvs =>
      simp only [pruneValue, canonGet] at h
      split at h
      · rename_i c' hc'
        simp only [Bool.and_eq_true, beq_iff_eq] at h
        obtain ⟨ht, hcs⟩ := h
        rw [get_pruneEntries, ← ht] at hc'
        by_cases hdr : drop (above ++ [t]) = true
        · rw [if_pos hdr] at hc'; cases hc'
        · rw [if_neg hdr] at hc'
          cases hc : GoMap.get (decodeReferenceToken t) kvs with
          | none => rw [hc] at hc'; cases hc'
          | some c =>
            rw [hc] at hc'
            simp only [Option.map_some', Option.some.injEq] at hc'
            subst hc'
            obtain ⟨h1, h2⟩ := ih _ c hcs
            simp only [Bool.not_eq_true] at hdr
            simp only [canonGet, hc, droppedAlong, hdr, h1, h2, Bool.and_true, Bool.or_false,
              beq_iff_eq, and_true]
            exact ht
      · cases h
    | seq xs =>
      simp only [pruneValue, canonGet, length_pruneList] at h
      split at h
      · rename_i n hn
        simp only [Bool.and_eq_true, beq_iff_eq] at h
        obtain ⟨ht, hcs⟩ := h
        rw [get?_pruneList, Nat.zero_add] at hcs
        cases hc : xs.get? n with
        | none => rw [hc] at hcs; cases hcs
        | some c =>
          rw [hc] at hcs
          simp only [Option.map_some'] at hcs
          rw [← ht] at hcs
          obtain ⟨h1, h2⟩ := ih _ c hcs
          have hdr : drop (above ++ [t]) = false := by
            cases hb : drop (above ++ [t]) with
            | false => rfl
            | true =>
              have := hd above t hb
              rw [ht, strconv.Atoi_Itoa] at this
              cases this
          simp only [canonGet, hn, hc, droppedAlong, hdr, h1, h2, Bool.and_true, Bool.or_false,
            beq_iff_eq, and_true]
          exact ht
      · cases h
    | null => cases h
    | bool b => cases h
    | num n => cases h
    | str s => cases h

end pkg.openshift

namespace pkg.openshift

open gojsonpointer

/-- Deleting a pointer of the tree from the pruned tree drops one more pointer:
the core of every `Delete` of `parseConfig`. The last token is not a number, so
the entry is removed from a mapping. -/
theorem deleteTokens_prune (drop : List String → Bool) (ds : List String) :
    ∀ (d : String) (above : List String) (v : Value), v.uniqueKeys = true →
      canonGet (d :: ds) v = true → droppedAlong drop above (d :: ds) = false →
      (∀ t, (d :: ds).getLast? = some t → strconv.Atoi t = none) →
      deleteTokens d ds (pruneValue drop above v)
        = some (pruneValue (fun ts => drop ts || decide (ts = above ++ d :: ds)) above v) := by
  induction ds with
  | nil =>
    intro d above v hwf h hnd hlast
    have hnum : strconv.Atoi d = none := hlast d rfl
    simp only [droppedAlong, Bool.or_false] at hnd
    cases v with
    | map kvs =>
      have hu : uniqueKeysEntries kvs = true := by simpa [Value.uniqueKeys] using hwf
      simp only [canonGet] at h
      split at h
      · rename_i c hc
        simp only [Bool.and_eq_true, beq_iff_eq, and_true] at h
        have hhas : GoMap.has (decodeReferenceToken d) (pruneEntries drop above kvs) = true := by
          unfold GoMap.has
          rw [get_pruneEntries, ← h, hnd, hc]
          rfl
        simp only [deleteTokens, pruneValue, removeChild, hhas, if_true]
        rw [del_pruneEntries drop above _ kvs (uniqueKeysEntries_value kvs hu), ← h]
      · cases h
    | seq xs =>
      simp only [canonGet] at h
      split at h
      · rename_i n hn
        rw [arrayIndex_none_of_atoi d _ hnum] at hn
        cases hn
      · cases h
    | null => cases h
    | bool b => cases h
    | num n => cases h
    | str s => cases h
  | cons d' ds ih =>
    intro d above v hwf h hnd hlast
    have hlast' : ∀ t, (d' :: ds).getLast? = some t → strconv.Atoi t = none := by
      intro t ht
      apply hlast t
      rw [List.getLast?_cons_cons]
      exact ht
    simp only [droppedAlong, Bool.or_eq_false_iff] at hnd
    obtain ⟨hnd1, hnd2⟩ := hnd
    have hnd' : droppedAlong drop (above ++ [d]) (d' :: ds) = false := by
      simp only [droppedAlong, Bool.or_eq_false_iff]
      exact hnd2
    have happ : above ++ [d] ++ d' :: ds = above ++ d :: d' :: ds := by simp
    cases v with
    | map kvs =>
      have hu : uniqueKeysEntries kvs = true := by simpa [Value.uniqueKeys] using hwf
      simp only [canonGet] at h
      split at h
      · rename_i c hc
        simp only [Bool.and_eq_true, beq_iff_eq] at h
        obtain ⟨ht, hcs⟩ := h
        have hcu : c.uniqueKeys = true :=
          uniqueKeysEntries_value kvs hu _ (GoMap.mem_of_get _ _ _ hc)
        have hchild : child d (pruneValue drop above (Value.map kvs))
            = some (pruneValue drop (above ++ [d]) c) := by
          simp only [pruneValue, child]
          rw [get_pruneEntries, ← ht, hnd1, hc]
          rfl
        have hrec := ih d' (above ++ [d]) c hcu hcs hnd' hlast'
        rw [happ] at hrec
        simp only [deleteTokens, hchild, hrec]
        simp only [pruneValue, putChild]
        have hset := set_pruneEntries drop above (decodeReferenceToken d) c (d' :: ds)
          (by simp) kvs hu hc (by rw [← ht]; exact hnd1)
        rw [← ht] at hset
        rw [hset]
      · cases h
    | seq xs =>
      have hu : ∀ w ∈ xs, w.uniqueKeys = true :=
        uniqueKeysList_value xs (by simpa [Value.uniqueKeys] using hwf)
      simp only [canonGet] at h
      split at h
      · rename_i n hn
        simp only [Bool.and_eq_true, beq_iff_eq] at h
        obtain ⟨ht, hcs⟩ := h
        split at hcs
        · rename_i c hc
          have hcu : c.uniqueKeys = true := hu c (List.get?_mem hc)
          have hchild : child d (pruneValue drop above (Value.seq xs))
              = some (pruneValue drop (above ++ [d]) c) := by
            simp only [pruneValue, child, length_pruneList, hn]
            rw [get?_pruneList, hc, Nat.zero_add, ← ht]
            rfl
          have hrec := ih d' (above ++ [d]) c hcu hcs hnd' hlast'
          rw [happ] at hrec
          simp only [deleteTokens, hchild, hrec]
          simp only [pruneValue, putChild, length_pruneList, hn]
          have hset := set_pruneList drop above n c (d' :: ds) xs hu hc
          rw [← ht] at hset
          rw [hset]
        · cases hcs
      · cases h
    | null => cases h
    | bool b => cases h
    | num n => cases h
    | str s => cases h

/-- A `Delete` of `parseConfig` on a pruned tree, at a pointer of the tree
whose way is free: one more pointer is dropped. -/
theorem Delete_prune (drop : List String → Bool)
    (v : Value) (hwf : v.uniqueKeys = true) (d : List String) (hne : d ≠ [])
    (hcan : canonGet d v = true) (hnd : droppedAlong drop [] d = false)
    (hlast : ∀ t, d.getLast? = some t → strconv.Atoi t = none) :
    Delete d (pruneValue drop [] v)
      = some (pruneValue (fun ts => drop ts || decide (ts = d)) [] v) := by
  cases d with
  | nil => exact absurd rfl hne
  | cons t ts =>
    have := deleteTokens_prune drop ts t [] v hwf hcan hnd hlast
    simpa using this

/-- A `Delete` below a dropped pointer fails. -/
theorem Delete_prune_dropped (drop : List String → Bool)
    (hd : ∀ ts t, drop (ts ++ [t]) = true → strconv.Atoi t = none)
    (v : Value) (d : List String) (hne : d ≠ [])
    (hcan : canonGet d v = true) (hnd : droppedAlong drop [] d = true) :
    Delete d (pruneValue drop [] v) = none
      ∧ Get d (pruneValue drop [] v) = none := by
  have hg : Get d (pruneValue drop [] v) = none := by
    unfold Get
    rw [getTokens_prune drop hd d [] v hcan, if_pos hnd]
  refine ⟨?_, hg⟩
  have := Delete_isSome d (pruneValue drop [] v) hne
  rw [hg] at this
  cases hdel : Delete d (pruneValue drop [] v) with
  | none => rfl
  | some x => rw [hdel] at this; cases this

end pkg.openshift

/-! ## Pointer strings and the completeness of the walk -/

namespace gojsonpointer

theorem pointerString_append (ts : List String) (t : String) :
    pointerString (ts ++ [t]) = pointerString ts ++ "/" ++ t := by
  induction ts with
  | nil =>
    apply String.ext
    simp [pointerString]
  | cons a ts ih =>
    show "/" ++ a ++ pointerString (ts ++ [t]) = "/" ++ a ++ pointerString ts ++ "/" ++ t
    rw [ih]
    apply String.ext
    simp [String.data_append]

theorem NewJsonPointer_pointerString (ts : List String)
    (h : ∀ t ∈ ts, '/' ∉ t.data) : NewJsonPointer (pointerString ts) = some ts := by
  induction ts using List.reverseRecOn with
  | nil => rfl
  | append_singleton ts t ih =>
    rw [pointerString_append]
    exact NewJsonPointer_append _ t ts
      (ih (fun x hx => h x (List.mem_append_left _ hx)))
      (h t (List.mem_append_right _ (List.mem_singleton_self t)))

theorem pointerString_data (ts : List String) :
    (pointerString ts).data = ts.flatMap (fun t => '/' :: t.data) := by
  induction ts with
  | nil => rfl
  | cons a ts ih =>
    simp only [pointerString, String.data_append, ih, List.flatMap_cons]
    rfl

theorem flatMap_splitChars (c : Char) (r : List Char) :
    (strings.splitChars c r).flatMap (fun h => c :: h) = c :: r := by
  induction r with
  | nil => rfl
  | cons x xs ih =>
    by_cases hx : x = c
    · subst hx
      simp only [strings.splitChars, if_true, List.flatMap_cons, ih]
      rfl
    · simp only [strings.splitChars, hx, if_false]
      cases hs : strings.splitChars c xs with
      | nil => rw [hs] at ih; cases ih
      | cons h t =>
        rw [hs] at ih
        simp only [List.flatMap_cons, List.cons_append, List.cons.injEq, true_and] at ih ⊢
        rw [ih]

/-- A pointer string is the string of its tokens. -/
theorem pointerString_of_NewJsonPointer (p : String) (ts : List String)
    (h : NewJsonPointer p = some ts) : pointerString ts = p := by
  unfold NewJsonPointer at h
  apply String.ext
  rw [pointerString_data]
  split at h
  · rename_i hp
    cases h
    rw [hp]; rfl
  · rename_i rest hp
    cases h
    rw [hp, List.flatMap_map]
    exact flatMap_splitChars '/' rest
  · cases h

theorem slash_free_of_canonGet (ts : List String) (node : Value)
    (h : canonGet ts node = true) : ∀ t ∈ ts, '/' ∉ t.data := by
  intro t ht
  rw [escaped_of_canonGet ts node h t ht]
  exact escape_no_slash _

end gojsonpointer

namespace openshift

open gojsonpointer

theorem handleKeyValue_sub_walkMap (kvs : List (String × Value)) (ptr k : String) (v : Value)
    (h : (k, v) ∈ kvs) : ∀ x ∈ handleKeyValue k v ptr, x ∈ walkMap kvs ptr := by
  induction kvs with
  | nil => cases h
  | cons e rest ih =>
    intro x hx
    obtain ⟨k', v'⟩ := e
    simp only [walkMap, List.mem_append]
    rcases List.mem_cons.1 h with he | he
    · cases he
      exact Or.inl hx
    · exact Or.inr (ih he x hx)

theorem handleKeyValue_sub_walkArray (xs : List Value) (ptr : String) :
    ∀ (i j : Nat) (v : Value), xs.get? j = some v →
      ∀ x ∈ handleKeyValue (strconv.Itoa (i + j)) v ptr, x ∈ walkArray xs i ptr := by
  induction xs with
  | nil => intro i j v h; cases h
  | cons w rest ih =>
    intro i j v h x hx
    simp only [walkArray, List.mem_append]
    cases j with
    | zero =>
      simp only [List.get?_cons_zero, Option.some.injEq] at h
      subst h
      exact Or.inl hx
    | succ j =>
      simp only [List.get?_cons_succ] at h
      right
      apply ih (i + 1) j v h
      rw [show i + 1 + j = i + (j + 1) by omega]
      exact hx

theorem mem_handleKeyValue_self (k : String) (v : Value) (ptr : String) :
    ptr ++ "/" ++ utils.JSONPointerPath k ∈ handleKeyValue k v ptr := by
  cases v <;> simp [handleKeyValue]

theorem pointerString_cons (ptr t : String) (ts : List String) :
    ptr ++ pointerString (t :: ts) = ptr ++ "/" ++ t ++ pointerString ts := by
  apply String.ext
  simp [pointerString, String.data_append]

/-- The walk is complete: every pointer that resolves and is written with
escaped keys and decimal indices is among the walked pointers. -/
theorem walk_complete (ts : List String) :
    ∀ t, (∀ (kvs : List (String × Value)) (ptr : String),
        canonGet (t :: ts) (Value.map kvs) = true →
        ptr ++ pointerString (t :: ts) ∈ walkMap kvs ptr)
      ∧ (∀ (xs : List Value) (ptr : String),
        canonGet (t :: ts) (Value.seq xs) = true →
        ptr ++ pointerString (t :: ts) ∈ walkArray xs 0 ptr) := by
  induction ts with
  | nil =>
    intro t
    constructor
    · intro kvs ptr h
      simp only [canonGet] at h
      split at h
      · rename_i c hc
        simp only [Bool.and_eq_true, beq_iff_eq, and_true] at h
        apply handleKeyValue_sub_walkMap kvs ptr _ c (GoMap.mem_of_get _ _ _ hc)
        have := mem_handleKeyValue_self (decodeReferenceToken t) c ptr
        rw [← h] at this
        rw [pointerString_cons]
        simpa [pointerString] using this
      · cases h
    · intro xs ptr h
      simp only [canonGet] at h
      split at h
      · rename_i n hn
        simp only [Bool.and_eq_true, beq_iff_eq] at h
        obtain ⟨ht, hcs⟩ := h
        split at hcs
        · rename_i c hc
          apply handleKeyValue_sub_walkArray xs ptr 0 n c hc
          have := mem_handleKeyValue_self (strconv.Itoa (0 + n)) c ptr
          rw [strconv.escape_Itoa, Nat.zero_add, ← ht] at this
          rw [Nat.zero_add, ← ht, pointerString_cons]
          simpa [pointerString] using this
        · cases hcs
      · cases h
  | cons t' ts ih =>
    intro t
    have hbelow : ∀ (k : String) (c : Value) (ptr : String),
        t = utils.JSONPointerPath k → canonGet (t' :: ts) c = true →
        ptr ++ pointerString (t :: t' :: ts) ∈ handleKeyValue k c ptr := by
      intro k c ptr ht hcs
      rw [pointerString_cons, ht]
      cases c with
      | map kvs' =>
        simp only [handleKeyValue, List.mem_cons]
        exact Or.inr ((ih t').1 kvs' _ hcs)
      | seq xs' =>
        simp only [handleKeyValue, List.mem_cons]
        exact Or.inr ((ih t').2 xs' _ hcs)
      | null => cases hcs
      | bool b => cases hcs
      | num n => cases hcs
      | str s => cases hcs
    constructor
    · intro kvs ptr h
      simp only [canonGet] at h
      split at h
      · rename_i c hc
        simp only [Bool.and_eq_true, beq_iff_eq] at h
        obtain ⟨ht, hcs⟩ := h
        apply handleKeyValue_sub_walkMap kvs ptr _ c (GoMap.mem_of_get _ _ _ hc)
        exact hbelow _ c ptr ht hcs
      · cases h
    · intro xs ptr h
      simp only [canonGet] at h
      split at h
      · rename_i n hn
        simp only [Bool.and_eq_true, beq_iff_eq] at h
        obtain ⟨ht, hcs⟩ := h
        split at hcs
        · rename_i c hc
          apply handleKeyValue_sub_walkArray xs ptr 0 n c hc
          rw [Nat.zero_add]
          exact hbelow _ c ptr (by rw [strconv.escape_Itoa]; exact ht) hcs
        · cases hcs
      · cases h

/-- Every pointer that resolves in a mapping, written with escaped keys and
decimal indices, is in the walk of the mapping from the root. -/
theorem walkMap_root_complete (kvs : List (String × Value)) (ts : List String)
    (hne : ts ≠ []) (h : canonGet ts (Value.map kvs) = true) :
    pointerString ts ∈ walkMap kvs "" := by
  cases ts with
  | nil => exact absurd rfl hne
  | cons t ts =>
    have := (walk_complete ts t).1 kvs "" h
    simpa using this

end openshift

/-! ## Ancestors stand earlier in the walk -/

namespace openshift

open gojsonpointer

theorem pointerString_eq_empty (ts : List String) (h : pointerString ts = "") : ts = [] := by
  cases ts with
  | nil => rfl
  | cons t ts =>
    have := congrArg String.data h
    simp [pointerString, String.data_append] at this

theorem ancestors_earlier (kvs : List (String × Value)) (hu : uniqueKeysEntries kvs = true) :
    ∀ (n : Nat) (l1 : List String) (p : String) (l2 : List String),
      walkMap kvs "" = l1 ++ p :: l2 → (pointerOf p).length = n →
      ∀ k, 0 < k → k < n → ∃ a ∈ l1, pointerOf a = (pointerOf p).take k := by
  intro n
  induction n using Nat.strong_induction_on with
  | _ n ih =>
    intro l1 p l2 hsplit hlen k hk0 hkn
    have hmem : p ∈ walkMap kvs "" := by rw [hsplit]; simp
    obtain ⟨hnp, hne, hcan⟩ := walkMap_root_canon kvs hu p hmem
    have hslash := slash_free_of_canonGet _ _ hcan
    have hts : (pointerOf p).dropLast ++ [(pointerOf p).getLast hne] = pointerOf p :=
      List.dropLast_append_getLast hne
    have hp : p = pointerString (pointerOf p).dropLast ++ "/" ++ (pointerOf p).getLast hne := by
      rw [← pointerString_append, hts]
      exact (pointerString_of_NewJsonPointer p _ hnp).symm
    have hinit : ∀ t ∈ (pointerOf p).dropLast, '/' ∉ t.data :=
      fun t ht => hslash t (List.mem_of_mem_dropLast ht)
    have hparentTokens : pointerOf (pointerString (pointerOf p).dropLast)
        = (pointerOf p).dropLast :=
      pointerOf_of_NewJsonPointer _ _ (NewJsonPointer_pointerString _ hinit)
    have hdl : ((pointerOf p).dropLast).length = n - 1 := by
      rw [List.length_dropLast, hlen]
    have hsplit' : walkMap kvs "" = l1 ++ (pointerString (pointerOf p).dropLast ++ "/"
        ++ (pointerOf p).getLast hne) :: l2 := by
      rw [← hp]; exact hsplit
    rcases walkMap_parent kvs "" l1 l2 _ _ hsplit'
      (hslash _ (List.getLast_mem hne)) with hpar | hpar
    · have := pointerString_eq_empty _ hpar
      rw [this] at hdl
      simp only [List.length_nil] at hdl
      omega
    · by_cases hk : k = n - 1
      · refine ⟨_, hpar, ?_⟩
        rw [hparentTokens, List.dropLast_eq_take, hlen, hk]
      · obtain ⟨l1a, l1b, hl1⟩ := List.append_of_mem hpar
        have hsplit2 : walkMap kvs "" = l1a ++ pointerString (pointerOf p).dropLast
            :: (l1b ++ p :: l2) := by
          rw [hsplit, hl1]; simp
        obtain ⟨a, ha, hat⟩ := ih (n - 1) (by omega) l1a _ _ hsplit2
          (by rw [hparentTokens]; exact hdl) k hk0 (by omega)
        refine ⟨a, by rw [hl1]; exact List.mem_append_left _ ha, ?_⟩
        rw [hat, hparentTokens, List.dropLast_eq_take, List.take_take, hlen]
        congr 1
        omega

end openshift

/-! ## The loop of `parseConfig` prunes the tree -/

namespace gojsonpointer

theorem droppedAlong_iff (drop : List String → Bool) (ts : List String) :
    ∀ above, droppedAlong drop above ts = true ↔
      ∃ k, 0 < k ∧ k ≤ ts.length ∧ drop (above ++ ts.take k) = true := by
  induction ts with
  | nil =>
    intro above
    simp only [droppedAlong, Bool.false_eq_true, List.length_nil, false_iff]
    rintro ⟨k, hk0, hk, -⟩
    omega
  | cons t ts ih =>
    intro above
    simp only [droppedAlong, Bool.or_eq_true, ih, List.length_cons]
    constructor
    · rintro (h | ⟨k, hk0, hk, h⟩)
      · exact ⟨1, by omega, by omega, by simpa using h⟩
      · exact ⟨k + 1, by omega, by omega, by simpa using h⟩
    · rintro ⟨k, hk0, hk, h⟩
      cases k with
      | zero => omega
      | succ k =>
        cases k with
        | zero => left; simpa using h
        | succ k => right; exact ⟨k + 1, by omega, by omega, by simpa using h⟩

theorem tokensMatch_length (ts : List String) (h : tokensMatch ts = true) : 5 ≤ ts.length := by
  match ts, h with
  | _ :: _ :: _ :: _ :: _ :: _, _ => simp

theorem tokensMatch_take (ts : List String) (h : tokensMatch ts = true) :
    tokensMatch (ts.take 5) = true := by
  match ts, h with
  | t1 :: t2 :: n :: t4 :: l :: rest, h =>
    simpa [tokensMatch] using h

theorem tokensMatch_last (ts : List String) (h : tokensMatch ts = true)
    (hlen : ts.length = 5) : ∀ t, ts.getLast? = some t → strconv.Atoi t = none := by
  match ts, h, hlen with
  | [t1, t2, n, t4, l], h, _ =>
    intro t ht
    simp only [List.getLast?, List.getLast, Option.some.injEq] at ht
    subst ht
    simp only [tokensMatch, Bool.and_eq_true] at h
    exact And.right ( not_allDigits_of_prefix _ h.2)

end gojsonpointer

namespace pkg.openshift

open gojsonpointer

theorem lastTriggeredImageTokens_iff (ts : List String) :
    lastTriggeredImageTokens ts = true ↔ ts.length = 5 ∧ tokensMatch ts = true := by
  simp [lastTriggeredImageTokens]

theorem lastTriggeredImageTokens_last (ts : List String) (t : String)
    (h : lastTriggeredImageTokens (ts ++ [t]) = true) : strconv.Atoi t = none := by
  obtain ⟨hlen, hm⟩ := (lastTriggeredImageTokens_iff _).1 h
  exact tokensMatch_last _ hm hlen t (by simp)

theorem droppedSoFar_last (done : List String) (ts : List String) (t : String)
    (h : droppedSoFar done (ts ++ [t]) = true) : strconv.Atoi t = none := by
  simp only [droppedSoFar, Bool.and_eq_true] at h
  exact lastTriggeredImageTokens_last ts t h.1

theorem droppedSoFar_append (done : List String) (p : String) (ts : List String) :
    droppedSoFar (done ++ [p]) ts
      = (droppedSoFar done ts
          || (lastTriggeredImageTokens ts && decide (openshift.pointerOf p = ts))) := by
  simp only [droppedSoFar, List.any_append, List.any_cons, List.any_nil, Bool.or_false,
    Bool.and_or_distrib_left]

/-- One round of the loop leaves the tree pruned by the fields gone through so
far. -/
theorem massage_step_config (kvs : List (String × Value)) (hu : uniqueKeysEntries kvs = true)
    (done : List String) (p : String) (rest : List String)
    (hall : openshift.walkMap kvs "" = done ++ p :: rest) :
    (if regexp.matchLastTriggeredImage p = true then
        (Delete (openshift.pointerOf p)
          (pruneValue (droppedSoFar done) [] (Value.map kvs))).getD
          (pruneValue (droppedSoFar done) [] (Value.map kvs))
      else pruneValue (droppedSoFar done) [] (Value.map kvs))
      = pruneValue (droppedSoFar (done ++ [p])) [] (Value.map kvs) := by
  have hmem : p ∈ openshift.walkMap kvs "" := by rw [hall]; simp
  obtain ⟨hnp, hne, hcan⟩ := openshift.walkMap_root_canon kvs hu p hmem
  have hwf : (Value.map kvs).uniqueKeys = true := by simpa [Value.uniqueKeys] using hu
  by_cases hm : regexp.matchLastTriggeredImage p = true
  · rw [if_pos hm]
    have htm := regexp.tokensMatch_of_match p _ hnp hm
    have hge := tokensMatch_length _ htm
    by_cases hlen : (openshift.pointerOf p).length = 5
    · have hlti : lastTriggeredImageTokens (openshift.pointerOf p) = true :=
        (lastTriggeredImageTokens_iff _).2 ⟨hlen, htm⟩
      cases hdone : droppedSoFar done (openshift.pointerOf p) with
      | true =>
        have hda : droppedAlong (droppedSoFar done) [] (openshift.pointerOf p) = true :=
          (droppedAlong_iff _ _ _).2 ⟨5, by omega, by omega, by
            rw [← hlen, List.take_length]; simpa using hdone⟩
        rw [(Delete_prune_dropped _ (droppedSoFar_last done) _ _ hne hcan hda).1]
        simp only [Option.getD_none]
        congr 1
        funext ts
        rw [droppedSoFar_append]
        by_cases hts : openshift.pointerOf p = ts
        · subst hts
          rw [hdone]; rfl
        · simp [hts]
      | false =>
        have hda : droppedAlong (droppedSoFar done) [] (openshift.pointerOf p) = false := by
          cases hb : droppedAlong (droppedSoFar done) [] (openshift.pointerOf p) with
          | false => rfl
          | true =>
            obtain ⟨k, hk0, hk, hdk⟩ := (droppedAlong_iff _ _ _).1 hb
            simp only [List.nil_append] at hdk
            by_cases hk5 : k = 5
            · rw [hk5, ← hlen, List.take_length, hdone] at hdk
              cases hdk
            · simp only [droppedSoFar, Bool.and_eq_true] at hdk
              have := ((lastTriggeredImageTokens_iff _).1 hdk.1).1
              rw [List.length_take] at this
              omega
        rw [Delete_prune _ _ hwf _ hne hcan hda (tokensMatch_last _ htm hlen)]
        simp only [Option.getD_some]
        congr 1
        funext ts
        rw [droppedSoFar_append]
        by_cases hts : openshift.pointerOf p = ts
        · subst hts
          simp [hlti]
        · have hts' : ¬ ts = openshift.pointerOf p := fun h => hts h.symm
          simp [hts, hts']
    · have hgt : 5 < (openshift.pointerOf p).length := by omega
      obtain ⟨a, ha, hat⟩ := openshift.ancestors_earlier kvs hu _ done p rest hall rfl 5
        (by omega) hgt
      have hda : droppedAlong (droppedSoFar done) [] (openshift.pointerOf p) = true := by
        refine (droppedAlong_iff _ _ _).2 ⟨5, by omega, by omega, ?_⟩
        simp only [List.nil_append, droppedSoFar, Bool.and_eq_true, List.any_eq_true,
          decide_eq_true_eq]
        refine ⟨(lastTriggeredImageTokens_iff _).2 ⟨?_, tokensMatch_take _ htm⟩, a, ha, hat⟩
        rw [List.length_take]
        omega
      rw [(Delete_prune_dropped _ (droppedSoFar_last done) _ _ hne hcan hda).1]
      simp only [Option.getD_none]
      congr 1
      funext ts
      rw [droppedSoFar_append]
      by_cases hts : openshift.pointerOf p = ts
      · subst hts
        have : lastTriggeredImageTokens (openshift.pointerOf p) = false := by
          cases hb : lastTriggeredImageTokens (openshift.pointerOf p) with
          | false => rfl
          | true => exact absurd ((lastTriggeredImageTokens_iff _).1 hb).1 hlen
        simp [this]
      · simp [hts]
  · rw [if_neg hm]
    congr 1
    funext ts
    rw [droppedSoFar_append]
    by_cases hts : openshift.pointerOf p = ts
    · subst hts
      have : lastTriggeredImageTokens (openshift.pointerOf p) = false := by
        cases hb : lastTriggeredImageTokens (openshift.pointerOf p) with
        | false => rfl
        | true =>
          exact absurd (regexp.match_of_tokensMatch p _ hnp
            ((lastTriggeredImageTokens_iff _).1 hb).2) hm
      simp [this]
    · simp [hts]

end pkg.openshift

namespace pkg.openshift

open gojsonpointer

/-- After the round of a path that matches the pattern, the path does not
resolve any more: one of the pointers along its way is dropped. -/
theorem dropped_of_match (kvs : List (String × Value)) (hu : uniqueKeysEntries kvs = true)
    (done : List String) (p : String) (rest : List String)
    (hall : openshift.walkMap kvs "" = done ++ p :: rest)
    (hm : regexp.matchLastTriggeredImage p = true) :
    droppedAlong (droppedSoFar (done ++ [p])) [] (openshift.pointerOf p) = true := by
  have hmem : p ∈ openshift.walkMap kvs "" := by rw [hall]; simp
  obtain ⟨hnp, hne, hcan⟩ := openshift.walkMap_root_canon kvs hu p hmem
  have htm := regexp.tokensMatch_of_match p _ hnp hm
  have hge := tokensMatch_length _ htm
  refine (droppedAlong_iff _ _ _).2 ⟨5, by omega, hge, ?_⟩
  simp only [List.nil_append, droppedSoFar, Bool.and_eq_true, List.any_eq_true,
    decide_eq_true_eq]
  refine ⟨(lastTriggeredImageTokens_iff _).2 ⟨?_, tokensMatch_take _ htm⟩, ?_⟩
  · rw [List.length_take]; omega
  · by_cases hlen : (openshift.pointerOf p).length = 5
    · refine ⟨p, by simp, ?_⟩
      rw [← hlen, List.take_length]
    · obtain ⟨a, ha, hat⟩ := openshift.ancestors_earlier kvs hu _ done p rest hall rfl 5
        (by omega) (by omega)
      exact ⟨a, List.mem_append_left _ ha, hat⟩

theorem pruneValue_eq_str (drop : List String → Bool) (above : List String) (w : Value)
    (s : String) (h : (pruneValue drop above w).asString = some s) : w = Value.str s := by
  cases w with
  | str s' =>
    simp only [pruneValue, Value.asString, Option.some.injEq] at h
    rw [h]
  | map kvs => simp [pruneValue, Value.asString] at h
  | seq xs => simp [pruneValue, Value.asString] at h
  | null => simp [pruneValue, Value.asString] at h
  | bool b => simp [pruneValue, Value.asString] at h
  | num n => simp [pruneValue, Value.asString] at h

/-- The loop of `parseConfig` over the walk of the mapping `kvs`: the tree ends
up pruned by the `lastTriggeredImage` fields among the walked paths; on the
template side no container image matches the pattern of these fields, and the
recorded fields are the container images with their strings in the tree. -/
theorem massage_prune (source : String) (kvs : List (String × Value))
    (hu : uniqueKeysEntries kvs = true) (L : List String) :
    ∀ (done : List String), openshift.walkMap kvs "" = done ++ L →
      ∀ (pathIndex : Nat) (config : Value) (deleted : List Nat)
        (fields : List (String × String)) (r : Value × List Nat × List (String × String)),
      config = pruneValue (droppedSoFar done) [] (Value.map kvs) →
      massagePaths source L pathIndex config deleted fields = .ok r →
      r.1 = pruneValue (droppedSoFar (done ++ L)) [] (Value.map kvs)
        ∧ (source = "template" →
            (∀ p ∈ L, regexp.matchContainerImage p = true →
              regexp.matchLastTriggeredImage p = false)
            ∧ (∀ p s, GoMap.get p r.2.2 = some s →
                GoMap.get p fields = some s
                  ∨ (p ∈ L ∧ regexp.matchContainerImage p = true
                    ∧ Get (openshift.pointerOf p) (Value.map kvs) = some (Value.str s)))
            ∧ (∀ p ∈ L, regexp.matchContainerImage p = true →
                (GoMap.get p r.2.2).isSome = true)
            ∧ (∀ p, (GoMap.get p fields).isSome = true →
                (GoMap.get p r.2.2).isSome = true)) := by
  induction L with
  | nil =>
    intro done _ pathIndex config deleted fields r hconfig h
    simp only [massagePaths, Outcome.ok.injEq] at h
    subst h
    refine ⟨by simpa using hconfig, fun _ => ⟨?_, ?_, ?_, ?_⟩⟩
    · intro p hp; cases hp
    · intro p s hps; exact Or.inl hps
    · intro p hp; cases hp
    · intro p hp; exact hp
  | cons p rest ih =>
    intro done hall pathIndex config deleted fields r hconfig h
    have hmem : p ∈ openshift.walkMap kvs "" := by rw [hall]; simp
    obtain ⟨hnp, hne, hcan⟩ := openshift.walkMap_root_canon kvs hu p hmem
    have hall' : openshift.walkMap kvs "" = (done ++ [p]) ++ rest := by
      rw [hall]; simp
    have hstep : (if regexp.matchLastTriggeredImage p = true then
          ((Delete (openshift.pointerOf p) config).getD config, deleted ++ [pathIndex])
         else (config, deleted)).1
        = pruneValue (droppedSoFar (done ++ [p])) [] (Value.map kvs) := by
      rw [← massage_step_config kvs hu done p rest hall, hconfig]
      by_cases hm : regexp.matchLastTriggeredImage p = true
      · rw [if_pos hm, if_pos hm]
      · rw [if_neg hm, if_neg hm]
    have happ : done ++ [p] ++ rest = done ++ p :: rest := by simp
    simp only [massagePaths] at h
    split at h
    · rename_i hcond
      simp only [Bool.and_eq_true, beq_iff_eq] at hcond
      obtain ⟨hsrc, hci⟩ := hcond
      rw [hnp] at h
      simp only at h
      split at h
      · cases h
      · rename_i specValue hget
        split at h
        · cases h
        · rename_i s hs
          rw [hstep] at hget
          have hget' := hget
          unfold Get at hget'
          rw [getTokens_prune _ (droppedSoFar_last (done ++ [p])) _ [] _ hcan] at hget'
          have hnda : droppedAlong (droppedSoFar (done ++ [p])) [] (openshift.pointerOf p)
              = false := by
            cases hb : droppedAlong (droppedSoFar (done ++ [p])) [] (openshift.pointerOf p) with
            | false => rfl
            | true => rw [if_pos hb] at hget'; cases hget'
          rw [hnda] at hget'
          simp only [Bool.false_eq_true, if_false, List.nil_append] at hget'
          have hval : Get (openshift.pointerOf p) (Value.map kvs) = some (Value.str s) := by
            unfold Get
            cases hw : getTokens (openshift.pointerOf p) (Value.map kvs) with
            | none => rw [hw] at hget'; cases hget'
            | some w =>
              rw [hw] at hget'
              simp only [Option.map_some', Option.some.injEq] at hget'
              rw [← hget'] at hs
              rw [pruneValue_eq_str _ _ w s hs]
          have hnm : regexp.matchLastTriggeredImage p = false := by
            cases hb : regexp.matchLastTriggeredImage p with
            | false => rfl
            | true =>
              rw [dropped_of_match kvs hu done p rest hall hb] at hnda
              cases hnda
          obtain ⟨h1, h2⟩ := ih (done ++ [p]) hall' _ _ _ _ r hstep h
          rw [happ] at h1
          refine ⟨h1, fun hsrc' => ?_⟩
          obtain ⟨f1, f2, f3, f4⟩ := h2 hsrc'
          refine ⟨?_, ?_, ?_, ?_⟩
          · intro q hq hqci
            rcases List.mem_cons.1 hq with rfl | hq
            · exact hnm
            · exact f1 q hq hqci
          · intro q s' hqs
            rcases f2 q s' hqs with hf | ⟨hq, hqci, hqv⟩
            · by_cases hqp : q = p
              · subst hqp
                rw [GoMap.get_set_same] at hf
                cases hf
                exact Or.inr ⟨List.mem_cons_self _ _, hci, hval⟩
              · rw [GoMap.get_set_other _ _ _ _ hqp] at hf
                exact Or.inl hf
            · exact Or.inr ⟨List.mem_cons_of_mem _ hq, hqci, hqv⟩
          · intro q hq hqci
            rcases List.mem_cons.1 hq with rfl | hq
            · exact f4 q (by rw [GoMap.get_set_same]; rfl)
            · exact f3 q hq hqci
          · intro q hq
            apply f4
            by_cases hqp : q = p
            · subst hqp
              rw [GoMap.get_set_same]; rfl
            · rw [GoMap.get_set_other _ _ _ _ hqp]
              exact hq
    · rename_i hcond
      obtain ⟨h1, h2⟩ := ih (done ++ [p]) hall' _ _ _ _ r hstep h
      rw [happ] at h1
      refine ⟨h1, fun hsrc' => ?_⟩
      obtain ⟨f1, f2, f3, f4⟩ := h2 hsrc'
      have hnci : regexp.matchContainerImage p = false := by
        cases hb : regexp.matchContainerImage p with
        | false => rfl
        | true =>
          exfalso
          apply hcond
          rw [hsrc', hb]
          rfl
      refine ⟨?_, ?_, ?_, f4⟩
      · intro q hq hqci
        rcases List.mem_cons.1 hq with rfl | hq
        · rw [hnci] at hqci; cases hqci
        · exact f1 q hq hqci
      · intro q s' hqs
        rcases f2 q s' hqs with hf | ⟨hq, hqci, hqv⟩
        · exact Or.inl hf
        · exact Or.inr ⟨List.mem_cons_of_mem _ hq, hqci, hqv⟩
      · intro q hq hqci
        rcases List.mem_cons.1 hq with rfl | hq
        · rw [hnci] at hqci; cases hqci
        · exact f3 q hq hqci

end pkg.openshift

namespace pkg.openshift

open gojsonpointer

theorem tokensMatch_of_take (ts : List String) (k : Nat)
    (h : tokensMatch (ts.take k) = true) : tokensMatch ts = true := by
  have hlen := tokensMatch_length _ h
  rw [List.length_take] at hlen
  obtain ⟨k', rfl⟩ : ∃ k', k = k' + 5 := ⟨k - 5, by omega⟩
  rcases ts with _ | ⟨t1, _ | ⟨t2, _ | ⟨n, _ | ⟨t4, _ | ⟨l, rest⟩⟩⟩⟩⟩
  · simp at hlen
  · simp at hlen
  · simp at hlen
  · simp at hlen
  · simp at hlen
  · simpa [tokensMatch] using h

mutual
theorem pruneEntries_none (kvs : List (String × Value)) (above : List String) :
    pruneEntries (fun _ => false) above kvs = kvs :=
  match kvs with
  | [] => rfl
  | (k, v) :: rest => by
    simp only [pruneEntries, Bool.false_eq_true, if_false]
    rw [pruneValue_none v, pruneEntries_none rest]
theorem pruneList_none (xs : List Value) (i : Nat) (above : List String) :
    pruneList (fun _ => false) above i xs = xs :=
  match xs with
  | [] => rfl
  | v :: rest => by
    simp only [pruneList]
    rw [pruneValue_none v, pruneList_none rest]
/-- Pruning by nothing leaves the tree as it is. -/
theorem pruneValue_none (v : Value) (above : List String) :
    pruneValue (fun _ => false) above v = v :=
  match v with
  | .map kvs => by simp only [pruneValue]; rw [pruneEntries_none kvs]
  | .seq xs => by simp only [pruneValue]; rw [pruneList_none xs]
  | .null => rfl
  | .bool _ => rfl
  | .num _ => rfl
  | .str _ => rfl
end

/-- Pruning by the `lastTriggeredImage` fields among the walked paths is
pruning by all `lastTriggeredImage` fields: the walk is complete. -/
theorem prune_walked (kvs : List (String × Value)) (hu : uniqueKeysEntries kvs = true) :
    pruneValue (droppedSoFar (openshift.walkMap kvs "")) [] (Value.map kvs)
      = pruneValue lastTriggeredImageTokens [] (Value.map kvs) := by
  apply pruneValue_congr _ _ _ _ (by simpa [Value.uniqueKeys] using hu)
  intro rs hne hcan
  simp only [List.nil_append, droppedSoFar]
  cases hl : lastTriggeredImageTokens rs with
  | false => rfl
  | true =>
    simp only [Bool.true_and, List.any_eq_true, decide_eq_true_eq]
    exact ⟨pointerString rs, openshift.walkMap_root_complete kvs rs hne hcan,
      pointerOf_of_NewJsonPointer _ _
        (NewJsonPointer_pointerString rs (slash_free_of_canonGet rs _ hcan))⟩

theorem not_dropped_of_not_match (ts : List String) (h : tokensMatch ts = false) :
    droppedAlong lastTriggeredImageTokens [] ts = false := by
  cases hb : droppedAlong lastTriggeredImageTokens [] ts with
  | false => rfl
  | true =>
    obtain ⟨k, -, -, hk⟩ := (droppedAlong_iff _ _ _).1 hb
    simp only [List.nil_append] at hk
    rw [tokensMatch_of_take ts k ((lastTriggeredImageTokens_iff _).1 hk).2] at h
    cases h

theorem dropped_of_tokensMatch (ts : List String) (h : tokensMatch ts = true) :
    droppedAlong lastTriggeredImageTokens [] ts = true := by
  have hge := tokensMatch_length _ h
  refine (droppedAlong_iff _ _ _).2 ⟨5, by omega, hge, ?_⟩
  simp only [List.nil_append]
  refine (lastTriggeredImageTokens_iff _).2 ⟨?_, tokensMatch_take _ h⟩
  rw [List.length_take]; omega

/-- Without the two Tailor annotations the annotation steps of `parseConfig`
leave the tree as it is and record no field; so they do on the template
side. -/
theorem annotation_steps_identity (unmarshal : String → Option (List (String × String)))
    (source : String) (m : Value) (ann ann1 ann2 : List (String × Value))
    (managed : List String) (m1 m2 : Value) (fields : List (String × String))
    (hm : managedAnnotations source ann m = .ok (managed, m1, ann1))
    (happ : (if source == "platform" then
          (appliedConfig unmarshal m1).bind fun (fields, m) =>
            .ok (fields, m, GoMap.del tailorAppliedConfigAnnotation ann1)
         else .ok ([], m1, ann1)) = Outcome.ok (fields, m2, ann2))
    (h : source = "template"
      ∨ (Get (openshift.pointerOf tailorManagedAnnotationPath) m = none
        ∧ Get (openshift.pointerOf tailorAppliedConfigAnnotationPath) m = none)) :
    m2 = m ∧ fields = [] := by
  have hp1 : NewJsonPointer tailorManagedAnnotationPath
      = some (openshift.pointerOf tailorManagedAnnotationPath) := rfl
  have hp2 : NewJsonPointer tailorAppliedConfigAnnotationPath
      = some (openshift.pointerOf tailorAppliedConfigAnnotationPath) := rfl
  by_cases hsrc : (source == "platform") = true
  · rcases h with h | ⟨hg1, hg2⟩
    · subst h
      exact absurd hsrc (by decide)
    · simp only [managedAnnotations, hsrc, if_true, hp1, hg1, Outcome.ok.injEq,
        Prod.mk.injEq] at hm
      obtain ⟨-, hm1, -⟩ := hm
      subst hm1
      simp only [hsrc, if_true, appliedConfig, hp2, hg2, Outcome.bind, Outcome.ok.injEq,
        Prod.mk.injEq] at happ
      exact ⟨happ.2.1.symm, happ.1.symm⟩
  · simp only [managedAnnotations, hsrc, Bool.false_eq_true, if_false, Outcome.ok.injEq,
      Prod.mk.injEq] at hm happ
    obtain ⟨-, hm1, -⟩ := hm
    subst hm1
    exact ⟨happ.2.1.symm, happ.1.symm⟩

/-- What `parseConfig` leaves behind, in terms of the tree it walks (the input
after the annotation steps and the strip of the simple fields): `Paths` is the
walk without the paths that match the pattern, `Config` is the tree pruned by
the `lastTriggeredImage` fields, and on the template side the applied-config
fields are the container images of `Paths` with their strings. -/
theorem parseConfig_pruned (unmarshal : String → Option (List (String × String)))
    (source : String) (m : List (String × Value)) (item : ResourceItem)
    (hu : uniqueKeysEntries m = true)
    (h : parseConfig unmarshal source m = .ok item) :
    ∃ kvs : List (String × Value), uniqueKeysEntries kvs = true
      ∧ (source = "template"
          ∨ (Get (openshift.pointerOf tailorManagedAnnotationPath) (Value.map m) = none
            ∧ Get (openshift.pointerOf tailorAppliedConfigAnnotationPath) (Value.map m) = none) →
          Value.map kvs = strippedTree m
            ∧ (source = "platform" → item.TailorAppliedConfigFields = []))
      ∧ item.Paths = (openshift.walkMap kvs "").filter
          (fun p => !regexp.matchLastTriggeredImage p)
      ∧ item.Config = pruneValue lastTriggeredImageTokens [] (Value.map kvs)
      ∧ (source = "template" →
          (∀ p, (GoMap.get p item.TailorAppliedConfigFields).isSome = true ↔
            (p ∈ item.Paths ∧ regexp.matchContainerImage p = true))
          ∧ (∀ p s, GoMap.get p item.TailorAppliedConfigFields = some s →
              Get (openshift.pointerOf p) item.Config = some (Value.str s))) := by
  obtain ⟨ap, ann, managed, m1, ann1, fields, m2, ann2, config, deleted, fields2, -, hm,
    happ, hmp, hpaths, hconfig, -, -, -, hfields⟩ := parseConfig_inv unmarshal source m item h
  obtain ⟨kvs, hkvs, hukvs⟩ :=
    walked_tree_wellFormed unmarshal source m ann ann1 ann2 managed m1 m2 fields hu hm happ
  rw [hkvs] at hmp hpaths
  simp only [Value.asMap, Option.getD_some] at hmp hpaths
  have hd := massagePaths_deleted _ _ _ _ _ _ _ hmp
  simp only [List.nil_append] at hd
  rw [hd] at hpaths
  have hrem := removeIndices_deleted (openshift.walkMap kvs "") 0 0 [] rfl
  simp only [List.nil_append] at hrem
  rw [hrem] at hpaths
  obtain ⟨hcfg, htmpl⟩ := massage_prune source kvs hukvs (openshift.walkMap kvs "") [] rfl
    0 (Value.map kvs) [] fields _ (by
      have : droppedSoFar [] = fun _ => false := by
        funext ts
        simp [droppedSoFar]
      rw [this, pruneValue_none]) hmp
  simp only [List.nil_append] at hcfg
  rw [prune_walked kvs hukvs] at hcfg
  have hconfig' : item.Config = pruneValue lastTriggeredImageTokens [] (Value.map kvs) := by
    rw [hconfig]; exact hcfg
  refine ⟨kvs, hukvs, ?_, hpaths, hconfig', ?_⟩
  · intro hsrc
    obtain ⟨hm2, hf⟩ := annotation_steps_identity unmarshal source _ ann ann1 ann2 managed m1 m2
      fields hm happ hsrc
    refine ⟨?_, ?_⟩
    · rw [← hkvs, hm2]
      rfl
    · intro hplat
      subst hplat
      rw [hfields]
      have := massagePaths_platform_fields _ _ _ _ _ _ hmp
      simp only at this
      rw [this, hf]
  · intro hsrc
    obtain ⟨f1, f2, f3, -⟩ := htmpl hsrc
    have hfields0 : fields = [] := by
      subst hsrc
      simp only [show (("template" : String) == "platform") = false by decide,
        Bool.false_eq_true, if_false, Outcome.ok.injEq, Prod.mk.injEq] at happ
      exact happ.1.symm
    subst hfields0
    rw [hfields]
    refine ⟨?_, ?_⟩
    · intro p
      rw [hpaths, List.mem_filter]
      constructor
      · intro hp
        cases hg : GoMap.get p fields2 with
        | none => rw [hg] at hp; cases hp
        | some s =>
          rcases f2 p s hg with hf | ⟨hpW, hci, -⟩
          · cases hf
          · refine ⟨⟨hpW, ?_⟩, hci⟩
            rw [f1 p hpW hci]
            rfl
      · rintro ⟨⟨hpW, -⟩, hci⟩
        exact f3 p hpW hci
    · intro p s hg
      rcases f2 p s hg with hf | ⟨hpW, hci, hval⟩
      · cases hf
      · obtain ⟨hnp, hne, hcan⟩ := openshift.walkMap_root_canon kvs hukvs p hpW
        have hnm : tokensMatch (openshift.pointerOf p) = false := by
          cases hb : tokensMatch (openshift.pointerOf p) with
          | false => rfl
          | true =>
            have := regexp.match_of_tokensMatch p _ hnp hb
            rw [f1 p hpW hci] at this
            cases this
        rw [hconfig']
        unfold Get at hval ⊢
        rw [getTokens_prune _ lastTriggeredImageTokens_last _ [] _ hcan,
          not_dropped_of_not_match _ hnm, hval]
        rfl

end pkg.openshift

/-! ## No pointer that matches the pattern resolves in the pruned tree -/

namespace gojsonpointer

theorem unescapeSlash_plain (w r : List Char) (h : ∀ c ∈ w, c ≠ '~') :
    unescapeSlash (w ++ r) = w ++ unescapeSlash r := by
  induction w with
  | nil => rfl
  | cons c w ih =>
    rw [List.cons_append, unescapeSlash_cons_ne _ _ (h c (List.mem_cons_self _ _)),
      ih (fun c hc => h c (List.mem_cons_of_mem _ hc))]
    rfl

theorem unescapeTilde_plain (w r : List Char) (h : ∀ c ∈ w, c ≠ '~') :
    unescapeTilde (w ++ r) = w ++ unescapeTilde r := by
  induction w with
  | nil => rfl
  | cons c w ih =>
    rw [List.cons_append, unescapeTilde_cons_ne _ _ (h c (List.mem_cons_self _ _)),
      ih (fun c hc => h c (List.mem_cons_of_mem _ hc))]
    rfl

theorem escape_plain (w r : List Char) (h : ∀ c ∈ w, c ≠ '~' ∧ c ≠ '/') :
    (w ++ r).flatMap utils.escapeChar = w ++ r.flatMap utils.escapeChar := by
  induction w with
  | nil => rfl
  | cons c w ih =>
    have hc := h c (List.mem_cons_self _ _)
    have : utils.escapeChar c = [c] := by simp [utils.escapeChar, hc.1, hc.2]
    rw [List.cons_append, List.flatMap_cons, this,
      ih (fun c hc => h c (List.mem_cons_of_mem _ hc))]
    rfl

/-- Decoding and escaping again keeps a leading run of plain characters. -/
theorem escape_decode_plain (w r : List Char) (h : ∀ c ∈ w, c ≠ '~' ∧ c ≠ '/') :
    (utils.JSONPointerPath (decodeReferenceToken (String.mk (w ++ r)))).data
      = w ++ (utils.JSONPointerPath (decodeReferenceToken (String.mk r))).data := by
  unfold utils.JSONPointerPath decodeReferenceToken
  simp only
  rw [unescapeSlash_plain w r (fun c hc => (h c hc).1),
    unescapeTilde_plain w _ (fun c hc => (h c hc).1), escape_plain w _ h]

theorem isDigit_plain (c : Char) (h : regexp.isDigit c = true) : c ≠ '~' ∧ c ≠ '/' := by
  constructor
  · rintro rfl
    revert h
    decide
  · rintro rfl
    revert h
    decide

theorem escape_decode_digits (t : String) (h : t.data.all regexp.isDigit = true) :
    utils.JSONPointerPath (decodeReferenceToken t) = t := by
  apply String.ext
  have := escape_decode_plain t.data [] (fun c hc => isDigit_plain c (List.all_eq_true.1 h c hc))
  simp only [List.append_nil] at this
  have e : (utils.JSONPointerPath (decodeReferenceToken { data := [] })).data = [] := rfl
  rw [this, e, List.append_nil]

theorem escape_decode_starts (w : List Char) (t : String)
    (hw : ∀ c ∈ w, c ≠ '~' ∧ c ≠ '/') (h : w.isPrefixOf t.data = true) :
    w.isPrefixOf (utils.JSONPointerPath (decodeReferenceToken t)).data = true := by
  rw [List.isPrefixOf_iff_prefix] at h ⊢
  obtain ⟨r, hr⟩ := h
  have : t = String.mk (w ++ r) := String.ext hr.symm
  rw [this, escape_decode_plain w r hw]
  exact List.prefix_append _ _

theorem atoi_of_arrayIndex (t : String) (len n : Nat) (h : arrayIndex t len = some n) :
    strconv.Atoi t = some (Int.ofNat n) := by
  unfold arrayIndex at h
  split at h
  · rename_i k hk
    split at h
    · cases h; exact hk
    · cases h
  · cases h

/-- Tokens that match the pattern still match it when every one of them is
replaced by the way the walk writes it. -/
theorem tokensMatch_canon (t1 t2 n t4 l c1 c2 c3 c4 c5 : String) (rest : List String)
    (h : tokensMatch (t1 :: t2 :: n :: t4 :: l :: rest) = true)
    (h1 : c1 = utils.JSONPointerPath (decodeReferenceToken t1)
      ∨ ∃ k, strconv.Atoi t1 = some (Int.ofNat k) ∧ c1 = strconv.Itoa k)
    (h2 : c2 = utils.JSONPointerPath (decodeReferenceToken t2)
      ∨ ∃ k, strconv.Atoi t2 = some (Int.ofNat k) ∧ c2 = strconv.Itoa k)
    (h3 : c3 = utils.JSONPointerPath (decodeReferenceToken n)
      ∨ ∃ k, strconv.Atoi n = some (Int.ofNat k) ∧ c3 = strconv.Itoa k)
    (h4 : c4 = utils.JSONPointerPath (decodeReferenceToken t4)
      ∨ ∃ k, strconv.Atoi t4 = some (Int.ofNat k) ∧ c4 = strconv.Itoa k)
    (h5 : c5 = utils.JSONPointerPath (decodeReferenceToken l)) :
    tokensMatch [c1, c2, c3, c4, c5] = true := by
  simp only [tokensMatch, Bool.and_eq_true, beq_iff_eq] at h
  obtain ⟨⟨⟨⟨e1, e2⟩, e3⟩, e4⟩, e5⟩ := h
  subst e1 e2 e4
  have hc1 : c1 = "spec" := by
    rcases h1 with h1 | ⟨k, hk, -⟩
    · rw [h1]; rfl
    · have hnone : strconv.Atoi "spec" = none := by decide
      rw [hnone] at hk; cases hk
  have hc2 : c2 = "triggers" := by
    rcases h2 with h2 | ⟨k, hk, -⟩
    · rw [h2]; rfl
    · have hnone : strconv.Atoi "triggers" = none := by decide
      rw [hnone] at hk; cases hk
  have hc4 : c4 = "imageChangeParams" := by
    rcases h4 with h4 | ⟨k, hk, -⟩
    · rw [h4]; rfl
    · have hnone : strconv.Atoi "imageChangeParams" = none := by decide
      rw [hnone] at hk; cases hk
  have hc3 : c3.data.all regexp.isDigit = true := by
    rcases h3 with h3 | ⟨k, -, hk⟩
    · rw [h3, escape_decode_digits n e3]; exact e3
    · rw [hk]; exact strconv.Itoa_allDigits k
  have hc5 : "lastTriggeredImage".data.isPrefixOf c5.data = true := by
    rw [h5]
    exact escape_decode_starts _ l (by decide) e5
  simp only [tokensMatch, hc1, hc2, hc3, hc4, hc5, beq_self_eq_true, Bool.and_self]

theorem getTokens_cons_some (t : String) (ts : List String) (node x : Value)
    (h : getTokens (t :: ts) node = some x) :
    ∃ y, child t node = some y ∧ getTokens ts y = some x := by
  simp only [getTokens] at h
  cases hc : child t node with
  | none => rw [hc] at h; cases h
  | some y => rw [hc] at h; exact ⟨y, rfl, h⟩

end gojsonpointer

namespace pkg.openshift

open gojsonpointer

/-- One step down in the pruned tree is one step down in the tree, at a
pointer that is not dropped. -/
theorem child_pruneValue (drop : List String → Bool) (above : List String) (t : String)
    (v x : Value) (h : child t (pruneValue drop above v) = some x) :
    ∃ c w, x = pruneValue drop (above ++ [c]) w
      ∧ ((c = utils.JSONPointerPath (decodeReferenceToken t) ∧ drop (above ++ [c]) = false)
        ∨ (∃ n, strconv.Atoi t = some (Int.ofNat n) ∧ c = strconv.Itoa n
            ∧ ∃ xs, v = Value.seq xs)) := by
  cases v with
  | map kvs =>
    simp only [pruneValue, child] at h
    rw [get_pruneEntries] at h
    by_cases hdr : drop (above ++ [utils.JSONPointerPath (decodeReferenceToken t)]) = true
    · rw [if_pos hdr] at h; cases h
    · rw [if_neg hdr] at h
      cases hc : GoMap.get (decodeReferenceToken t) kvs with
      | none => rw [hc] at h; cases h
      | some w =>
        rw [hc] at h
        simp only [Option.map_some', Option.some.injEq] at h
        simp only [Bool.not_eq_true] at hdr
        exact ⟨_, w, h.symm, Or.inl ⟨rfl, hdr⟩⟩
  | seq xs =>
    simp only [pruneValue, child, length_pruneList] at h
    cases hi : arrayIndex t xs.length with
    | none => rw [hi] at h; cases h
    | some n =>
      rw [hi] at h
      simp only at h
      rw [get?_pruneList, Nat.zero_add] at h
      cases hc : xs.get? n with
      | none => rw [hc] at h; cases h
      | some w =>
        rw [hc] at h
        simp only [Option.map_some', Option.some.injEq] at h
        exact ⟨_, w, h.symm, Or.inr ⟨n, atoi_of_arrayIndex t _ n hi, rfl, xs, rfl⟩⟩
  | null => cases h
  | bool b => cases h
  | num n => cases h
  | str s => cases h

/-- No pointer whose tokens match the pattern resolves in a tree pruned by the
`lastTriggeredImage` fields, however the pointer spells its tokens. -/
theorem getTokens_prune_match (ts : List String) (v : Value) (h : tokensMatch ts = true) :
    getTokens ts (pruneValue lastTriggeredImageTokens [] v) = none := by
  match ts, h with
  | t1 :: t2 :: n :: t4 :: l :: rest, h =>
    cases hg : getTokens (t1 :: t2 :: n :: t4 :: l :: rest)
        (pruneValue lastTriggeredImageTokens [] v) with
    | none => rfl
    | some x =>
      exfalso
      obtain ⟨y1, hy1, hg1⟩ := getTokens_cons_some _ _ _ _ hg
      obtain ⟨c1, w1, rfl, hc1⟩ := child_pruneValue _ _ _ _ _ hy1
      obtain ⟨y2, hy2, hg2⟩ := getTokens_cons_some _ _ _ _ hg1
      obtain ⟨c2, w2, rfl, hc2⟩ := child_pruneValue _ _ _ _ _ hy2
      obtain ⟨y3, hy3, hg3⟩ := getTokens_cons_some _ _ _ _ hg2
      obtain ⟨c3, w3, rfl, hc3⟩ := child_pruneValue _ _ _ _ _ hy3
      obtain ⟨y4, hy4, hg4⟩ := getTokens_cons_some _ _ _ _ hg3
      obtain ⟨c4, w4, rfl, hc4⟩ := child_pruneValue _ _ _ _ _ hy4
      obtain ⟨y5, hy5, -⟩ := getTokens_cons_some _ _ _ _ hg4
      obtain ⟨c5, w5, -, hc5⟩ := child_pruneValue _ _ _ _ _ hy5
      have hl : strconv.Atoi l = none := by
        simp only [tokensMatch, Bool.and_eq_true] at h
        exact And.right ( not_allDigits_of_prefix _ h.2)
      rcases hc5 with ⟨e5, hdrop⟩ | ⟨k, hk, -⟩
      · have hm := tokensMatch_canon t1 t2 n t4 l c1 c2 c3 c4 c5 rest h
          (hc1.imp (fun a => a.1) (fun ⟨k, a, b, _⟩ => ⟨k, a, b⟩))
          (hc2.imp (fun a => a.1) (fun ⟨k, a, b, _⟩ => ⟨k, a, b⟩))
          (hc3.imp (fun a => a.1) (fun ⟨k, a, b, _⟩ => ⟨k, a, b⟩))
          (hc4.imp (fun a => a.1) (fun ⟨k, a, b, _⟩ => ⟨k, a, b⟩)) e5
        have hl5 : lastTriggeredImageTokens [c1, c2, c3, c4, c5] = true :=
          (lastTriggeredImageTokens_iff _).2 ⟨rfl, hm⟩
        simp only [List.nil_append, List.cons_append, List.singleton_append] at hdrop
        rw [hl5] at hdrop
        cases hdrop
      · rw [hl] at hk
        cases hk

end pkg.openshift

/-! ## The walk visits every pointer once -/

namespace openshift

open gojsonpointer

theorem handleKeyValue_head (k : String) (v : Value) (ptr : String) (ts : List String)
    (hptr : NewJsonPointer ptr = some ts) (hwf : v.uniqueKeys = true) :
    ∀ p ∈ handleKeyValue k v ptr,
      ∃ rs, NewJsonPointer p = some (ts ++ utils.JSONPointerPath k :: rs) := by
  intro p hp
  obtain ⟨rs, h1, h2, h3⟩ := handleKeyValue_canon k v ptr ts (Value.map [(k, v)]) hptr
    (fun rs hrs => canonGet_map _ rs [(k, v)] k v (by simp [GoMap.get]) rfl hrs) hwf p hp
  cases rs with
  | nil => exact absurd rfl h2
  | cons r rs =>
    simp only [canonGet, GoMap.get] at h3
    by_cases hk : k = decodeReferenceToken r
    · simp only [hk, if_true, Bool.and_eq_true, beq_iff_eq] at h3
      refine ⟨rs, ?_⟩
      rw [h1, hk, ← h3.1]
    · simp only [hk, if_false] at h3
      cases h3

theorem walkMap_head (kvs : List (String × Value)) (ptr : String) (ts : List String)
    (hptr : NewJsonPointer ptr = some ts) (hwf : ∀ e ∈ kvs, e.2.uniqueKeys = true) :
    ∀ p ∈ walkMap kvs ptr, ∃ k rs, GoMap.has k kvs = true
      ∧ NewJsonPointer p = some (ts ++ utils.JSONPointerPath k :: rs) := by
  induction kvs with
  | nil => intro p hp; simp [walkMap] at hp
  | cons e rest ih =>
    obtain ⟨k, v⟩ := e
    intro p hp
    simp only [walkMap, List.mem_append] at hp
    rcases hp with hp | hp
    · obtain ⟨rs, hrs⟩ := handleKeyValue_head k v ptr ts hptr
        (hwf (k, v) (List.mem_cons_self _ _)) p hp
      exact ⟨k, rs, by simp [GoMap.has, GoMap.get], hrs⟩
    · obtain ⟨k', rs, hk', hrs⟩ := ih (fun e he => hwf e (List.mem_cons_of_mem _ he)) p hp
      refine ⟨k', rs, ?_, hrs⟩
      simp only [GoMap.has, GoMap.get] at hk' ⊢
      split
      · rfl
      · exact hk'

theorem walkArray_head (xs : List Value) (ptr : String) (ts : List String)
    (hptr : NewJsonPointer ptr = some ts) (hwf : ∀ v ∈ xs, v.uniqueKeys = true) :
    ∀ (i : Nat), ∀ p ∈ walkArray xs i ptr, ∃ j rs, i ≤ j
      ∧ NewJsonPointer p = some (ts ++ strconv.Itoa j :: rs) := by
  induction xs with
  | nil => intro i p hp; simp [walkArray] at hp
  | cons v rest ih =>
    intro i p hp
    simp only [walkArray, List.mem_append] at hp
    rcases hp with hp | hp
    · obtain ⟨rs, hrs⟩ := handleKeyValue_head (strconv.Itoa i) v ptr ts hptr
        (hwf v (List.mem_cons_self _ _)) p hp
      rw [strconv.escape_Itoa] at hrs
      exact ⟨i, rs, Nat.le_refl _, hrs⟩
    · obtain ⟨j, rs, hj, hrs⟩ := ih (fun e he => hwf e (List.mem_cons_of_mem _ he)) (i + 1) p hp
      exact ⟨j, rs, by omega, hrs⟩

theorem head_cancel (ts : List String) (a b : String) (rs rs' : List String)
    (h : some (ts ++ a :: rs) = some (ts ++ b :: rs')) : a = b := by
  injection h with h
  have := List.append_cancel_left h
  injection this

mutual
theorem walkMap_nodup (kvs : List (String × Value)) (ptr : String) (ts : List String)
    (hptr : NewJsonPointer ptr = some ts) (hu : uniqueKeysEntries kvs = true) :
    (walkMap kvs ptr).Nodup :=
  match kvs with
  | [] => by simp [walkMap]
  | (k, v) :: rest => by
    simp only [uniqueKeysEntries, Bool.and_eq_true, Bool.not_eq_true'] at hu
    obtain ⟨⟨hnot, hv⟩, hurest⟩ := hu
    simp only [walkMap]
    refine List.Nodup.append (handleKeyValue_nodup k v ptr ts hptr hv)
      (walkMap_nodup rest ptr ts hptr hurest) ?_
    intro p hp1 hp2
    obtain ⟨rs, hrs⟩ := handleKeyValue_head k v ptr ts hptr hv p hp1
    obtain ⟨k', rs', hk', hrs'⟩ := walkMap_head rest ptr ts hptr
      (uniqueKeysEntries_value rest hurest) p hp2
    rw [hrs] at hrs'
    have := pkg.openshift.escape_injective _ _ (head_cancel _ _ _ _ _ hrs')
    rw [← this, hnot] at hk'
    cases hk'
theorem walkArray_nodup (xs : List Value) (i : Nat) (ptr : String) (ts : List String)
    (hptr : NewJsonPointer ptr = some ts) (hu : uniqueKeysList xs = true) :
    (walkArray xs i ptr).Nodup :=
  match xs with
  | [] => by simp [walkArray]
  | v :: rest => by
    simp only [uniqueKeysList, Bool.and_eq_true] at hu
    obtain ⟨hv, hurest⟩ := hu
    simp only [walkArray]
    refine List.Nodup.append (handleKeyValue_nodup (strconv.Itoa i) v ptr ts hptr hv)
      (walkArray_nodup rest (i + 1) ptr ts hptr hurest) ?_
    intro p hp1 hp2
    obtain ⟨rs, hrs⟩ := handleKeyValue_head (strconv.Itoa i) v ptr ts hptr hv p hp1
    rw [strconv.escape_Itoa] at hrs
    obtain ⟨j, rs', hj, hrs'⟩ := walkArray_head rest ptr ts hptr
      (uniqueKeysList_value rest hurest) (i + 1) p hp2
    rw [hrs] at hrs'
    have := pkg.openshift.Itoa_injective _ _ (head_cancel _ _ _ _ _ hrs')
    omega
theorem handleKeyValue_nodup (strK : String) (v : Value) (ptr : String) (ts : List String)
    (hptr : NewJsonPointer ptr = some ts) (hu : v.uniqueKeys = true) :
    (handleKeyValue strK v ptr).Nodup :=
  have habs : NewJsonPointer (ptr ++ "/" ++ utils.JSONPointerPath strK)
      = some (ts ++ [utils.JSONPointerPath strK]) :=
    NewJsonPointer_append ptr _ ts hptr (escape_no_slash strK)
  match v with
  | .seq vv => by
    have hl : uniqueKeysList vv = true := by simpa [Value.uniqueKeys] using hu
    simp only [handleKeyValue, List.nodup_cons]
    refine ⟨?_, walkArray_nodup vv 0 _ _ habs hl⟩
    intro hmem
    obtain ⟨j, rs, -, hrs⟩ := walkArray_head vv _ _ habs (uniqueKeysList_value vv hl) 0 _ hmem
    rw [habs] at hrs
    injection hrs with hrs
    have := congrArg List.length hrs
    simp at this
  | .map vv => by
    have hl : uniqueKeysEntries vv = true := by simpa [Value.uniqueKeys] using hu
    simp only [handleKeyValue, List.nodup_cons]
    refine ⟨?_, walkMap_nodup vv _ _ habs hl⟩
    intro hmem
    obtain ⟨k, rs, -, hrs⟩ := walkMap_head vv _ _ habs (uniqueKeysEntries_value vv hl) _ hmem
    rw [habs] at hrs
    injection hrs with hrs
    have := congrArg List.length hrs
    simp at this
  | .null => by simp [handleKeyValue]
  | .bool _ => by simp [handleKeyValue]
  | .num _ => by simp [handleKeyValue]
  | .str _ => by simp [handleKeyValue]
end

end openshift

/-! ## The strip of the simple fields prunes the tree -/

namespace pkg.openshift

open gojsonpointer

mutual
theorem pruneEntries_pruneEntries (d1 d2 : List String → Bool)
    (kvs : List (String × Value)) (above : List String) :
    pruneEntries d2 above (pruneEntries d1 above kvs)
      = pruneEntries (fun ts => d1 ts || d2 ts) above kvs :=
  match kvs with
  | [] => rfl
  | (k, v) :: rest => by
    have hrest := pruneEntries_pruneEntries d1 d2 rest above
    have hv := pruneValue_pruneValue d1 d2 v (above ++ [utils.JSONPointerPath k])
    by_cases h1 : d1 (above ++ [utils.JSONPointerPath k]) = true
    · simp only [pruneEntries, h1, if_true, Bool.true_or]
      exact hrest
    · simp only [Bool.not_eq_true] at h1
      by_cases h2 : d2 (above ++ [utils.JSONPointerPath k]) = true
      · simp only [pruneEntries, h1, h2, Bool.false_eq_true, if_false, if_true, Bool.or_true]
        exact hrest
      · simp only [Bool.not_eq_true] at h2
        simp only [pruneEntries, h1, h2, Bool.false_eq_true, if_false, Bool.or_false]
        rw [hrest, hv]
theorem pruneList_pruneList (d1 d2 : List String → Bool)
    (xs : List Value) (i : Nat) (above : List String) :
    pruneList d2 above i (pruneList d1 above i xs)
      = pruneList (fun ts => d1 ts || d2 ts) above i xs :=
  match xs with
  | [] => rfl
  | v :: rest => by
    simp only [pruneList]
    rw [pruneList_pruneList d1 d2 rest (i + 1) above,
      pruneValue_pruneValue d1 d2 v (above ++ [strconv.Itoa i])]
/-- Pruning twice is pruning by both drop predicates. -/
theorem pruneValue_pruneValue (d1 d2 : List String → Bool) (v : Value) (above : List String) :
    pruneValue d2 above (pruneValue d1 above v)
      = pruneValue (fun ts => d1 ts || d2 ts) above v :=
  match v with
  | .map kvs => by
    simp only [pruneValue]
    rw [pruneEntries_pruneEntries d1 d2 kvs above]
  | .seq xs => by
    simp only [pruneValue]
    rw [pruneList_pruneList d1 d2 xs 0 above]
  | .null => rfl
  | .bool _ => rfl
  | .num _ => rfl
  | .str _ => rfl
end

/-- A pointer of keys that does not resolve in the tree does not resolve in
the pruned tree. -/
theorem getTokens_prune_absent (drop : List String → Bool) (d : List String)
    (hd : ∀ t ∈ d, strconv.Atoi t = none ∧ t = utils.JSONPointerPath (decodeReferenceToken t)) :
    ∀ (above : List String) (v : Value), canonGet d v = false →
      getTokens d (pruneValue drop above v) = none := by
  induction d with
  | nil => intro above v h; cases h
  | cons t d ih =>
    intro above v h
    obtain ⟨hnum, hesc⟩ := hd t (List.mem_cons_self _ _)
    have ih' := ih (fun x hx => hd x (List.mem_cons_of_mem _ hx))
    cases v with
    | map kvs =>
      simp only [pruneValue, getTokens, child]
      rw [get_pruneEntries]
      by_cases hdr : drop (above ++ [utils.JSONPointerPath (decodeReferenceToken t)]) = true
      · rw [if_pos hdr]
      · rw [if_neg hdr]
        simp only [canonGet] at h
        cases hc : GoMap.get (decodeReferenceToken t) kvs with
        | none => rfl
        | some c =>
          rw [hc] at h
          simp only at h
          simp only [Option.map_some']
          have hcs : canonGet d c = false := by
            cases hb : canonGet d c with
            | false => rfl
            | true =>
              rw [hb] at h
              simp only [Bool.and_true, beq_eq_false_iff_ne, ne_eq] at h
              exact absurd hesc h
          exact ih' _ c hcs
    | seq xs =>
      simp only [pruneValue, getTokens, child, arrayIndex_none_of_atoi t _ hnum]
    | null => rfl
    | bool b => rfl
    | num n => rfl
    | str s => rfl

theorem fieldTokens_append (done : List String) (q : String) :
    fieldTokens (done ++ [q])
      = fun ts => fieldTokens done ts || decide (ts = openshift.pointerOf q) := by
  funext ts
  simp only [fieldTokens, List.any_append, List.any_cons, List.any_nil, Bool.or_false]
  congr 1
  by_cases h : openshift.pointerOf q = ts
  · simp [h]
  · have h' : ¬ ts = openshift.pointerOf q := fun e => h e.symm
    simp [h, h']

/-- One round of the strip of the simple fields: the tree pruned by the fields
gone through so far is pruned by one more. -/
theorem deleteField_prune (v : Value) (hwf : v.uniqueKeys = true) (done : List String)
    (q : String) (hne : openshift.pointerOf q ≠ [])
    (hq : ∀ t ∈ openshift.pointerOf q,
      strconv.Atoi t = none ∧ t = utils.JSONPointerPath (decodeReferenceToken t))
    (hfree : droppedAlong (fieldTokens done) [] (openshift.pointerOf q) = false) :
    (Delete (openshift.pointerOf q) (pruneValue (fieldTokens done) [] v)).getD
        (pruneValue (fieldTokens done) [] v)
      = pruneValue (fieldTokens (done ++ [q])) [] v := by
  rw [fieldTokens_append]
  cases hcan : canonGet (openshift.pointerOf q) v with
  | true =>
    rw [Delete_prune _ v hwf _ hne hcan hfree
      (fun t ht => (hq t (List.mem_of_mem_getLast? ht)).1)]
    rfl
  | false =>
    have hg : Get (openshift.pointerOf q) (pruneValue (fieldTokens done) [] v) = none :=
      getTokens_prune_absent _ _ hq [] v hcan
    have hdel : Delete (openshift.pointerOf q) (pruneValue (fieldTokens done) [] v) = none := by
      have := Delete_isSome (openshift.pointerOf q) (pruneValue (fieldTokens done) [] v) hne
      rw [hg] at this
      cases hd : Delete (openshift.pointerOf q) (pruneValue (fieldTokens done) [] v) with
      | none => rfl
      | some x => rw [hd] at this; cases this
    rw [hdel]
    simp only [Option.getD_none]
    apply pruneValue_congr _ _ v [] hwf
    intro rs _ hrs
    have hne' : ¬ rs = openshift.pointerOf q := by
      intro e
      rw [e, hcan] at hrs
      cases hrs
    simp [hne']

/-- The strip of the simple fields leaves the tree pruned by them. -/
theorem deleteFields_simple (v : Value) (hwf : v.uniqueKeys = true) :
    openshift.deleteFields v platformManagedSimpleFields = pruneValue simpleFieldTokens [] v := by
  have h0 : v = pruneValue (fieldTokens []) [] v := by
    have : fieldTokens [] = fun _ => false := by
      funext ts
      simp [fieldTokens]
    rw [this, pruneValue_none]
  have hgood : ∀ q ∈ platformManagedSimpleFields, ∀ t ∈ openshift.pointerOf q,
      strconv.Atoi t = none ∧ t = utils.JSONPointerPath (decodeReferenceToken t) := by
    decide
  unfold simpleFieldTokens platformManagedSimpleFields
  simp only [openshift.deleteFields]
  conv => lhs; rw [h0]
  rw [deleteField_prune v hwf [] "/metadata/generation" (by decide)
      (hgood _ (by decide)) (by decide),
    deleteField_prune v hwf _ "/metadata/creationTimestamp" (by decide)
      (hgood _ (by decide)) (by decide),
    deleteField_prune v hwf _ "/spec/tags" (by decide)
      (hgood _ (by decide)) (by decide),
    deleteField_prune v hwf _ "/status" (by decide)
      (hgood _ (by decide)) (by decide),
    deleteField_prune v hwf _ "/spec/volumeName" (by decide)
      (hgood _ (by decide)) (by decide),
    deleteField_prune v hwf _ "/spec/template/metadata/creationTimestamp" (by decide)
      (hgood _ (by decide)) (by decide)]
  rfl

end pkg.openshift

/-! ## The platform-managed regex fields and the applied configuration -/

namespace pkg.openshift

open gojsonpointer

/-- C23, counterexample. In the platform deployment config whose triggers are
a mapping with the empty key, the pointer
`/spec/triggers//imageChangeParams/lastTriggeredImage` is walked and does not
match the pattern with `[0-9]+`; yet `NewResourceItem` succeeds, `Paths` does
not hold the pointer, and the field is deleted from `Config`. -/
theorem empty_index_pointer_removed :
    "/spec/triggers//imageChangeParams/lastTriggeredImage"
        ∈ walkedPaths examples.emptyKeyTrigger
      ∧ regexp.matchLastTriggeredImagePlus
          "/spec/triggers//imageChangeParams/lastTriggeredImage" = false
      ∧ Get (openshift.pointerOf "/spec/triggers//imageChangeParams/lastTriggeredImage")
          (Value.map examples.emptyKeyTrigger) = some (Value.str "bar/foo@sha256:abc")
      ∧ ∃ item, NewResourceItem examples.decodeJSON examples.emptyKeyTrigger "platform"
          = .ok item
        ∧ "/spec/triggers//imageChangeParams/lastTriggeredImage" ∉ item.Paths
        ∧ Get (openshift.pointerOf "/spec/triggers//imageChangeParams/lastTriggeredImage")
            item.Config = none :=
  ⟨by decide, by decide, rfl, _, rfl, by decide, rfl⟩

/-- C23, amended. For every tree (with unique keys) and source for which
`NewResourceItem` succeeds there is the tree that was walked (on the template
side, and when the tree carries neither Tailor annotation, the input without
the simple fields) such that `Paths` is the walk's path list without the
pointers that match `^/spec/triggers/[0-9]*/imageChangeParams/lastTriggeredImage`,
every other pointer kept in its order, and `Config` is the walked tree without
the `lastTriggeredImage` fields; and no pointer that matches the pattern
resolves in `Config`. -/
theorem regex_fields_stripped (unmarshal : String → Option (List (String × String)))
    (m : List (String × Value)) (source : String) (item : ResourceItem)
    (hu : uniqueKeysEntries m = true)
    (h : NewResourceItem unmarshal m source = .ok item) :
    (∃ kvs : List (String × Value),
        (source = "template"
          ∨ (Get (openshift.pointerOf tailorManagedAnnotationPath) (Value.map m) = none
            ∧ Get (openshift.pointerOf tailorAppliedConfigAnnotationPath) (Value.map m)
                = none) →
          Value.map kvs = strippedTree m)
        ∧ item.Paths = (openshift.walkMap kvs "").filter
            (fun p => !regexp.matchLastTriggeredImage p)
        ∧ item.Config = pruneValue lastTriggeredImageTokens [] (Value.map kvs))
      ∧ (∀ p, regexp.matchLastTriggeredImage p = true →
          Get (openshift.pointerOf p) item.Config = none) := by
  obtain ⟨kvs, hukvs, hpin, hpaths, hconfig, -⟩ :=
    parseConfig_pruned unmarshal source m item hu h
  refine ⟨⟨kvs, fun hs => (hpin hs).1, hpaths, hconfig⟩, ?_⟩
  intro p hp
  obtain ⟨tail, htail⟩ := pointerOf_lastTriggeredImage p hp
  have hnp : NewJsonPointer p = some (openshift.pointerOf p) := by
    unfold openshift.pointerOf at htail ⊢
    cases hn : NewJsonPointer p with
    | none => rw [hn] at htail; cases htail
    | some ts => rfl
  rw [hconfig]
  exact getTokens_prune_match _ _ (regexp.tokensMatch_of_match p _ hnp hp)

/-- Witness for C23: the platform deployment config `foo` with an image-change
trigger whose last triggered image is recorded. -/
theorem regex_fields_stripped_witness :
    Get (openshift.pointerOf "/spec/triggers/0/imageChangeParams/lastTriggeredImage")
      (examples.itemOf examples.triggeredConfig "platform").Config = none :=
  (regex_fields_stripped examples.decodeJSON examples.triggeredConfig "platform" _ rfl rfl).2
    "/spec/triggers/0/imageChangeParams/lastTriggeredImage" (by decide)

/-- C24. For every template tree (with unique keys) for which `NewResourceItem`
succeeds, the keys of `TailorAppliedConfigFields` are exactly the pointers of
`Paths` that match `/spec/template/spec/containers/[0-9]+/image$`, and each key
maps to the string held at that pointer in `Config`. For a platform tree
without the applied-config annotation `TailorAppliedConfigFields` is empty. -/
theorem applied_config_capture (unmarshal : String → Option (List (String × String)))
    (m : List (String × Value)) (source : String) (item : ResourceItem)
    (hu : uniqueKeysEntries m = true)
    (h : NewResourceItem unmarshal m source = .ok item) :
    (source = "template" →
        (∀ p, (GoMap.get p item.TailorAppliedConfigFields).isSome = true ↔
          (p ∈ item.Paths ∧ regexp.matchContainerImage p = true))
        ∧ (∀ p s, GoMap.get p item.TailorAppliedConfigFields = some s →
            Get (openshift.pointerOf p) item.Config = some (Value.str s)))
      ∧ (source = "platform" →
          Get (openshift.pointerOf tailorAppliedConfigAnnotationPath) (Value.map m) = none →
          item.TailorAppliedConfigFields = []) := by
  refine ⟨?_, ?_⟩
  · intro hsrc
    obtain ⟨kvs, -, -, -, -, htmpl⟩ := parseConfig_pruned unmarshal source m item hu h
    exact htmpl hsrc
  · intro hsrc hnone
    subst hsrc
    obtain ⟨ap, ann, managed, m1, ann1, fields, m2, ann2, config, deleted, fields2, -, hm,
      happ, hmp, -, -, -, -, -, hfields⟩ := parseConfig_inv unmarshal "platform" m item h
    have hp2 : NewJsonPointer tailorAppliedConfigAnnotationPath
        = some (openshift.pointerOf tailorAppliedConfigAnnotationPath) := rfl
    have hg1 : Get (openshift.pointerOf tailorAppliedConfigAnnotationPath) m1 = none := by
      rw [managedAnnotations_platform_apart _ (by decide) ann _ managed m1 ann1 hm]
      exact hnone
    simp only [beq_self_eq_true, if_true, appliedConfig, hp2, hg1, Outcome.bind,
      Outcome.ok.injEq, Prod.mk.injEq] at happ
    have := massagePaths_platform_fields _ _ _ _ _ _ hmp
    simp only at this
    rw [hfields, this, ← happ.1]

/-- Witness for C24: the template deployment config `foo` with the image
`bar/foo:latest`. -/
theorem applied_config_capture_witness :
    Get (openshift.pointerOf "/spec/template/spec/containers/0/image")
      (examples.itemOf (examples.deploymentConfig (Value.str "bar/foo:latest") [] [])
        "template").Config = some (Value.str "bar/foo:latest") :=
  ((applied_config_capture examples.decodeJSON
    (examples.deploymentConfig (Value.str "bar/foo:latest") [] []) "template" _ rfl rfl).1
    rfl).2 "/spec/template/spec/containers/0/image" "bar/foo:latest" rfl

end pkg.openshift

/-! ## The canonical form of a template item -/

namespace pkg.openshift

open gojsonpointer

/-- C28. For every template tree (with unique keys) for which `NewResourceItem`
succeeds, `Config` is the input tree without the entries at the six
platform-managed simple pointers and at the `lastTriggeredImage` pointers:
nothing else is removed, nothing is added or changed. The pointer of the
managed-annotations annotation resolves in `Config` to what it resolves to in
the input (to nothing when the input has no such annotation), and
`Annotations` is the input's `/metadata/annotations` mapping (empty when there
is none). -/
theorem template_canonicalization_only_removes
    (unmarshal : String → Option (List (String × String)))
    (m : List (String × Value)) (item : ResourceItem)
    (hu : uniqueKeysEntries m = true)
    (h : NewResourceItem unmarshal m "template" = .ok item) :
    item.Config = pruneValue platformManagedTokens [] (Value.map m)
      ∧ Get (openshift.pointerOf tailorManagedAnnotationPath) item.Config
          = Get (openshift.pointerOf tailorManagedAnnotationPath) (Value.map m)
      ∧ (Get (openshift.pointerOf "/metadata/annotations") (Value.map m) = none →
          item.Annotations = [])
      ∧ (∀ a, Get (openshift.pointerOf "/metadata/annotations") (Value.map m)
            = some (Value.map a) → item.Annotations = a) := by
  obtain ⟨kvs, hukvs, hpin, hpaths, hconfig, -⟩ :=
    parseConfig_pruned unmarshal "template" m item hu h
  have hwf : (Value.map m).uniqueKeys = true := by simpa [Value.uniqueKeys] using hu
  have hkvs := (hpin (Or.inl rfl)).1
  have hcfg : item.Config = pruneValue platformManagedTokens [] (Value.map m) := by
    rw [hconfig, hkvs]
    unfold strippedTree
    rw [deleteFields_simple _ hwf, pruneValue_pruneValue]
    rfl
  obtain ⟨ap, ann, managed, m1, ann1, fields, m2, ann2, config, deleted, fields2, hann, hm,
    happ, hmp, -, hconfig2, -, hanns, -, -⟩ := parseConfig_inv unmarshal "template" m item h
  simp only [managedAnnotations, show (("template" : String) == "platform") = false by decide,
    Bool.false_eq_true, if_false, Outcome.ok.injEq, Prod.mk.injEq] at hm happ
  obtain ⟨-, hm1, hann1⟩ := hm
  obtain ⟨-, hm2, hann2⟩ := happ
  refine ⟨hcfg, ?_, ?_, ?_⟩
  · rw [hconfig2]
    have := massagePaths_apart "template" (openshift.pointerOf tailorManagedAnnotationPath)
      (by decide) _ _ _ _ _ _ hmp
    simp only at this
    rw [this, ← hm2, ← hm1]
    exact deleteFields_apart tailorManagedAnnotationPath _ rfl platformManagedSimpleFields _
      (by decide)
  · intro hnone
    rw [hnone] at hann
    simp only [Option.some.injEq, Prod.mk.injEq] at hann
    rw [hanns, ← hann2, ← hann1, ← hann.2]
  · intro a ha
    rw [ha] at hann
    simp only [Value.asMap, Option.map_some', Option.some.injEq, Prod.mk.injEq] at hann
    rw [hanns, ← hann2, ← hann1, ← hann.2]

/-- Witness for C28: the template deployment config `foo` with a `status`
mapping. -/
theorem template_canonicalization_only_removes_witness :
    (examples.itemOf
        (examples.deploymentConfig (Value.str "bar/foo:latest") []
          [("status", Value.map [("replicas", Value.str "1")])]) "template").Config
      = pruneValue platformManagedTokens []
          (Value.map (examples.deploymentConfig (Value.str "bar/foo:latest") []
            [("status", Value.map [("replicas", Value.str "1")])])) :=
  (template_canonicalization_only_removes examples.decodeJSON
    (examples.deploymentConfig (Value.str "bar/foo:latest") []
      [("status", Value.map [("replicas", Value.str "1")])]) _ rfl rfl).1

end pkg.openshift

/-! ## The paths of an item: complete and without duplicates -/

namespace gojsonpointer

/-- Every pointer that resolves has a spelling the walk would write, token by
token: the escaped key in a mapping, the decimal index in a slice. -/
theorem canon_of_getTokens (ts : List String) :
    ∀ (v x : Value), getTokens ts v = some x →
      ∃ cs, List.Forall₂ (fun t c => c = utils.JSONPointerPath (decodeReferenceToken t)
          ∨ ∃ n, strconv.Atoi t = some (Int.ofNat n) ∧ c = strconv.Itoa n) ts cs
        ∧ canonGet cs v = true ∧ getTokens cs v = some x := by
  induction ts with
  | nil =>
    intro v x h
    exact ⟨[], List.Forall₂.nil, rfl, h⟩
  | cons t ts ih =>
    intro v x h
    obtain ⟨y, hy, hg⟩ := getTokens_cons_some t ts v x h
    obtain ⟨cs, hcs, hcan, hgc⟩ := ih y x hg
    cases v with
    | map kvs =>
      simp only [child] at hy
      refine ⟨utils.JSONPointerPath (decodeReferenceToken t) :: cs,
        List.Forall₂.cons (Or.inl rfl) hcs, ?_, ?_⟩
      · exact canonGet_map _ cs kvs _ y hy rfl hcan
      · simp only [getTokens, child, decode_escape, hy]
        exact hgc
    | seq xs =>
      simp only [child] at hy
      cases hi : arrayIndex t xs.length with
      | none => rw [hi] at hy; cases hy
      | some n =>
        rw [hi] at hy
        simp only at hy
        refine ⟨strconv.Itoa n :: cs,
          List.Forall₂.cons (Or.inr ⟨n, atoi_of_arrayIndex t _ n hi, rfl⟩) hcs, ?_, ?_⟩
        · have := canonGet_seq cs xs n y hy hcan
          rwa [strconv.escape_Itoa] at this
        · simp only [getTokens, child, arrayIndex_Itoa n _ (arrayIndex_lt t _ n hi), hy]
          exact hgc
    | null => cases hy
    | bool b => cases hy
    | num n => cases hy
    | str s => cases hy

end gojsonpointer

namespace pkg.openshift

open gojsonpointer

theorem canonical_pointer_in_paths (item : ResourceItem) (kvs : List (String × Value))
    (hpaths : item.Paths = (openshift.walkMap kvs "").filter
      (fun p => !regexp.matchLastTriggeredImage p))
    (hconfig : item.Config = pruneValue lastTriggeredImageTokens [] (Value.map kvs))
    (ts : List String) (hne : ts ≠ []) (hcan : canonGet ts item.Config = true) :
    pointerString ts ∈ item.Paths := by
  rw [hconfig] at hcan
  obtain ⟨hcan', hnd⟩ := canonGet_of_prune _ lastTriggeredImageTokens_last ts [] _ hcan
  rw [hpaths, List.mem_filter]
  refine ⟨openshift.walkMap_root_complete kvs ts hne hcan', ?_⟩
  cases hm : regexp.matchLastTriggeredImage (pointerString ts) with
  | false => rfl
  | true =>
    have hnp := NewJsonPointer_pointerString ts (slash_free_of_canonGet ts _ hcan')
    rw [dropped_of_tokensMatch ts (regexp.tokensMatch_of_match _ ts hnp hm)] at hnd
    cases hnd

/-- C29. For every tree (with unique keys) and source for which
`NewResourceItem` succeeds, every pointer other than the root that resolves in
`Config` and is written with escaped keys and decimal indices is an element of
`Paths`; and every pointer other than the root that resolves in `Config`,
however it spells its tokens, has such a spelling, which resolves to the same
value and is an element of `Paths`. -/
theorem paths_complete_after_construction
    (unmarshal : String → Option (List (String × String)))
    (m : List (String × Value)) (source : String) (item : ResourceItem)
    (hu : uniqueKeysEntries m = true)
    (h : NewResourceItem unmarshal m source = .ok item) :
    (∀ (p : String) (ts : List String), NewJsonPointer p = some ts → ts ≠ [] →
        canonGet ts item.Config = true → p ∈ item.Paths)
      ∧ (∀ (ts : List String) (x : Value), ts ≠ [] → Get ts item.Config = some x →
          ∃ cs, List.Forall₂ (fun t c => c = utils.JSONPointerPath (decodeReferenceToken t)
              ∨ ∃ n, strconv.Atoi t = some (Int.ofNat n) ∧ c = strconv.Itoa n) ts cs
            ∧ Get cs item.Config = some x ∧ pointerString cs ∈ item.Paths) := by
  obtain ⟨kvs, hukvs, -, hpaths, hconfig, -⟩ := parseConfig_pruned unmarshal source m item hu h
  refine ⟨?_, ?_⟩
  · intro p ts hp hne hcan
    rw [← pointerString_of_NewJsonPointer p ts hp]
    exact canonical_pointer_in_paths item kvs hpaths hconfig ts hne hcan
  · intro ts x hne hg
    obtain ⟨cs, hcs, hcan, hgc⟩ := canon_of_getTokens ts _ x hg
    refine ⟨cs, hcs, hgc, canonical_pointer_in_paths item kvs hpaths hconfig cs ?_ hcan⟩
    intro hnil
    subst hnil
    cases hcs
    exact hne rfl

/-- Witness for C29: the pointer of the container image in the item of the
template deployment config `foo`. -/
theorem paths_complete_after_construction_witness :
    "/spec/template/spec/containers/0/image"
      ∈ (examples.itemOf (examples.deploymentConfig (Value.str "bar/foo:latest") [] [])
          "template").Paths :=
  (paths_complete_after_construction examples.decodeJSON
    (examples.deploymentConfig (Value.str "bar/foo:latest") [] []) "template" _ rfl rfl).1
    "/spec/template/spec/containers/0/image"
    ["spec", "template", "spec", "containers", "0", "image"] rfl (by simp) rfl

/-- C30. For every tree (with unique keys) and source for which
`NewResourceItem` succeeds, `Paths` has no duplicates. -/
theorem paths_have_no_duplicates (unmarshal : String → Option (List (String × String)))
    (m : List (String × Value)) (source : String) (item : ResourceItem)
    (hu : uniqueKeysEntries m = true)
    (h : NewResourceItem unmarshal m source = .ok item) :
    item.Paths.Nodup := by
  obtain ⟨kvs, hukvs, -, hpaths, -, -⟩ := parseConfig_pruned unmarshal source m item hu h
  rw [hpaths]
  exact (openshift.walkMap_nodup kvs "" [] rfl hukvs).filter _

/-- Witness for C30: the platform deployment config `foo` with an image-change
trigger whose last triggered image is recorded. -/
theorem paths_have_no_duplicates_witness :
    (examples.itemOf examples.triggeredConfig "platform").Paths.Nodup :=
  paths_have_no_duplicates examples.decodeJSON examples.triggeredConfig "platform" _ rfl rfl

end pkg.openshift

namespace pkg.openshift

/-- On a label string without `=` the method `HasLabel` returns false when
`Labels` lacks the string as a key and aborts when it holds it. -/
theorem HasLabel_without_separator (i : ResourceItem) (label : String)
    (h : '=' ∉ label.data) :
    i.HasLabel label = (match GoMap.get label i.Labels with
      | none => .ok false
      | some _ => .panic) := by
  unfold ResourceItem.HasLabel strings.Split
  rw [strings.splitChars_no_sep '=' label.data h]
  simp only [List.map_cons, List.map_nil, List.get?_cons_zero]
  cases GoMap.get label i.Labels with
  | none => rfl
  | some w =>
    simp only
    cases w.asString <;> rfl

/-- On a label string `k=v` with one `=` the method `HasLabel` returns false
when `Labels` lacks `k`, aborts when the value at `k` is not a string, and
otherwise tells whether the value is `v`. -/
theorem HasLabel_pair (i : ResourceItem) (k v : String)
    (hk : '=' ∉ k.data) (hv : '=' ∉ v.data) :
    i.HasLabel (k ++ "=" ++ v) = (match GoMap.get k i.Labels with
      | none => .ok false
      | some w =>
        match w.asString with
        | none => .panic
        | some s => .ok (s == v)) := by
  unfold ResourceItem.HasLabel strings.Split
  have hd : (k ++ "=" ++ v).data = k.data ++ '=' :: v.data := by
    simp [String.data_append]
  rw [hd, strings.splitChars_append_sep '=' k.data v.data hk,
    strings.splitChars_no_sep '=' v.data hv]
  simp only [List.map_cons, List.map_nil, List.get?_cons_zero, List.get?_cons_succ]
  cases GoMap.get k i.Labels with
  | none => rfl
  | some w =>
    simp only
    cases w.asString with
    | none => rfl
    | some s =>
      simp only
      by_cases hsv : s = v
      · subst hsv; simp
      · simp [hsv]

end pkg.openshift

/-! ## Aborting calls -/

namespace openshift

/-- C31. The items below are built by `NewResourceItem`, yet `ChangesFrom`
aborts on a failing type assertion: when neither tree has an `apiVersion`;
when only the platform tree lacks it; when the externally modified path
`/spec/x` is absent from the platform item and cannot be set in the template
item; and when the platform value at the externally modified path `/spec/x`
is a mapping and cannot be set in the template item. -/
theorem changes_from_aborts :
    (NewResourceItem (examples.unversionedConfigMap (Value.map [])) "template"
        = .ok (examples.templateItem (examples.unversionedConfigMap (Value.map [])))
      ∧ NewResourceItem (examples.unversionedConfigMap (Value.map [])) "platform"
        = .ok (examples.platformItem (examples.unversionedConfigMap (Value.map [])))
      ∧ ResourceItem.ChangesFrom examples.showNothing
          (examples.templateItem (examples.unversionedConfigMap (Value.map [])))
          (examples.platformItem (examples.unversionedConfigMap (Value.map []))) []
        = .panic)
    ∧ (NewResourceItem (examples.configMap (Value.map [])) "template"
        = .ok (examples.templateItem (examples.configMap (Value.map [])))
      ∧ ResourceItem.ChangesFrom examples.showNothing
          (examples.templateItem (examples.configMap (Value.map [])))
          (examples.platformItem (examples.unversionedConfigMap (Value.map []))) []
        = .panic)
    ∧ (NewResourceItem (examples.configMap (Value.map [])) "platform"
        = .ok (examples.platformItem (examples.configMap (Value.map [])))
      ∧ gojsonpointer.Get (pointerOf "/spec/x")
          (examples.platformItem (examples.configMap (Value.map []))).Config = none
      ∧ ResourceItem.ChangesFrom examples.showNothing
          (examples.templateItem (examples.configMap (Value.map [])))
          (examples.platformItem (examples.configMap (Value.map []))) ["/spec/x"]
        = .panic)
    ∧ (NewResourceItem
          (examples.configMap (Value.map []) ++ [("spec", Value.map [("x", Value.map [])])])
          "platform"
        = .ok (examples.platformItem
          (examples.configMap (Value.map []) ++ [("spec", Value.map [("x", Value.map [])])]))
      ∧ gojsonpointer.Get (pointerOf "/spec/x")
          (examples.platformItem (examples.configMap (Value.map [])
            ++ [("spec", Value.map [("x", Value.map [])])])).Config = some (Value.map [])
      ∧ ResourceItem.ChangesFrom examples.showNothing
          (examples.templateItem (examples.configMap (Value.map [])))
          (examples.platformItem
            (examples.configMap (Value.map []) ++ [("spec", Value.map [("x", Value.map [])])]))
          ["/spec/x"]
        = .panic) :=
  ⟨⟨rfl, rfl, rfl⟩, ⟨rfl, rfl⟩, ⟨rfl, rfl, rfl⟩, ⟨rfl, rfl, rfl⟩⟩

end openshift

namespace pkg.openshift

/-- C32. The item of the config map `foo` with the label `app: foo` is built by
`NewResourceItem`, and `HasLabel` aborts on the label string `app`, which
contains no `=`: the index of the second part is out of range. The item with
the label `app: 1`, a number, is built as well, and `HasLabel` aborts on
`app=1`: the type assertion fails. -/
theorem has_label_aborts :
    (NewResourceItem examples.decodeJSON (examples.labelled [("app", Value.str "foo")])
          "template"
        = .ok (examples.itemOf (examples.labelled [("app", Value.str "foo")]) "template")
      ∧ (examples.itemOf (examples.labelled [("app", Value.str "foo")]) "template").HasLabel
          "app" = .panic)
    ∧ (NewResourceItem examples.decodeJSON (examples.labelled [("app", Value.num 1)])
          "template"
        = .ok (examples.itemOf (examples.labelled [("app", Value.num 1)]) "template")
      ∧ (examples.itemOf (examples.labelled [("app", Value.num 1)]) "template").HasLabel
          "app=1" = .panic) :=
  ⟨⟨rfl, rfl⟩, ⟨rfl, rfl⟩⟩

end pkg.openshift
